import Mathlib

/-!
# OSProcessScheduling: the tick loop of `simulation.cpp`

A shallow embedding of the scheduler simulation in `src/simulation.cpp`
(with the process control block of `src/pcb.cpp`), followed by theorems
about it.

Modelling conventions

* C++ `int` values are `Int`; the counters of the simulation stay far below
  the 32-bit range for the burst sizes the program works with, so no
  wrap-around is modelled.
* `queue<int>` is a `List Int`: `front` is the head, `pop` the tail and
  `push x` appends `[x]`.
* `vector<PCB *> proc_blocks` is a `List PCB`, indexed by `pid - PIDMIN`
  as in the source.  An index outside the vector (undefined in C++) reads
  `PCB.blank` and writes nothing.
* `int cores[CORECOUNT]` is a `List Int` of length `CORECOUNT`.
* The locals `final_cpu_time` and `final_io_time` are declared without an
  initial value in every pass of the loop; they are `Option Int`, with
  `none` for "not assigned in this pass".
-/

namespace OSSched

/-! ## Constants (`#define`s of simulation.cpp) -/

/-- CORECOUNT: the number of cores. -/
def CORECOUNT : Nat := 16

/-- HIGHRES: `CORECOUNT / 2`, reserved cores of the high tier. -/
def HIGHRES : Nat := CORECOUNT / 2

/-- MEDRES: `CORECOUNT / 3`, reserved cores of the medium tier. -/
def MEDRES : Nat := CORECOUNT / 3

/-- LOWRES: `HIGHRES - MEDRES`, reserved cores of the low tier. -/
def LOWRES : Nat := HIGHRES - MEDRES

/-- PIDMIN: the smallest process id. -/
def PIDMIN : Int := 30

/-- RRTIME: the round robin quantum. -/
def RRTIME : Int := 40

/-! ## Process control block (pcb.cpp) -/

/-- The class `PCB`; STATE is 1 ready, 2 waiting, 3 running, 4 finished. -/
structure PCB where
  PID : Int
  PRIORITY : Int
  STATE : Int
  IO_TIME : List Int
  CPU_TIME : List Int
  TURNAROUND : Int
  WAIT : Int
  RESPONSE : Int
deriving DecidableEq, Repr

/-- The empty constructor `PCB()`: every field is -1 and both burst vectors
are `{-1}` (the three analysis counters, left unset there, are 0 here). -/
def PCB.blank : PCB :=
  { PID := -1, PRIORITY := -1, STATE := -1, IO_TIME := [-1], CPU_TIME := [-1],
    TURNAROUND := 0, WAIT := 0, RESPONSE := 0 }

/-- Read of `proc_blocks[pid - PIDMIN]`. -/
def getPCB (pbs : List PCB) (pid : Int) : PCB :=
  if pid < PIDMIN then PCB.blank else pbs.getD (pid - PIDMIN).toNat PCB.blank

/-- Update of the record `proc_blocks[pid - PIDMIN]` through a setter. -/
def updPCB (pbs : List PCB) (pid : Int) (f : PCB → PCB) : List PCB :=
  if pid < PIDMIN then pbs else pbs.modify f (pid - PIDMIN).toNat

/-! ## State of one simulation run (the locals of `main`) -/

/-- The variables of one simulation run that the `while (run)` loop uses. -/
structure Sim where
  proc_blocks : List PCB
  high_queue : List Int
  med_queue : List Int
  low_queue : List Int
  wait_queue : List Int
  cores : List Int
  sim_simruntime : Option Int
  sim_core_idle : Int
  sim_cpu_idle : Int
  cpu_bursts : Int
  final_cpu_time : Option Int
  final_io_time : Option Int
  run : Bool
deriving DecidableEq, Repr

/-- Update of one record of the run. -/
def Sim.upd (s : Sim) (pid : Int) (f : PCB → PCB) : Sim :=
  { s with proc_blocks := updPCB s.proc_blocks pid f }

/-! ## Initialisation (simulation.cpp lines 67-98) -/

/-- One pass of the initialisation loop (lines 75-89): the process goes to the
queue of its priority, an invalid priority goes to no queue, and the three
analysis counters are set to 0. -/
def initStep (s : Sim) (p : PCB) : Sim :=
  let p0 : PCB := { p with TURNAROUND := 0, WAIT := 0, RESPONSE := 0 }
  if p.PRIORITY = 1 then
    { s with high_queue := s.high_queue ++ [p.PID], proc_blocks := s.proc_blocks ++ [p0] }
  else if p.PRIORITY = 2 then
    { s with med_queue := s.med_queue ++ [p.PID], proc_blocks := s.proc_blocks ++ [p0] }
  else if p.PRIORITY = 3 then
    { s with low_queue := s.low_queue ++ [p.PID], proc_blocks := s.proc_blocks ++ [p0] }
  else
    { s with proc_blocks := s.proc_blocks ++ [p0] }

/-- The state before the first record is initialised: empty queues, all cores
-1, all run totals 0. -/
def emptySim : Sim :=
  { proc_blocks := [], high_queue := [], med_queue := [], low_queue := [],
    wait_queue := [], cores := List.replicate CORECOUNT (-1),
    sim_simruntime := some 0, sim_core_idle := 0, sim_cpu_idle := 0,
    cpu_bursts := 0, final_cpu_time := none, final_io_time := none, run := true }

/-- The state `main` builds from the loaded records before the loop starts. -/
def initSim (pbs : List PCB) : Sim :=
  pbs.foldl initStep emptySim

/-! ## Phase A: turnaround accrual (lines 105-114) -/

/-- Lines 105-114: every record whose state is not 4 gets RRTIME of
turnaround, the run time grows by RRTIME, `final_cpu_time` is declared. -/
def phaseA (s : Sim) : Sim :=
  { s with
    proc_blocks := s.proc_blocks.map (fun p =>
      if p.STATE ≠ 4 then { p with TURNAROUND := p.TURNAROUND + RRTIME } else p),
    sim_simruntime := s.sim_simruntime.map (fun t => t + RRTIME),
    final_cpu_time := none }

/-! ## Phase B: the processes on the cores (lines 118-174) -/

/-- Lines 129-147: the burst `b` at the head of the cpu bursts `b :: tl` of
the process `c` is over. -/
def completeBurst (s : Sim) (c : Int) (b : Int) (tl : List Int) : Sim :=
  let s1 := s.upd c (fun p => { p with TURNAROUND := p.TURNAROUND + b })
  let s2 :=
    if (getPCB s1.proc_blocks c).IO_TIME ≠ [] then
      ({ s1 with wait_queue := s1.wait_queue ++ [c] } : Sim).upd c
        (fun p => { p with STATE := 2 })
    else
      s1.upd c (fun p => { p with STATE := 4 })
  let s3 := s2.upd c (fun p => { p with CPU_TIME := tl })
  { s3 with final_cpu_time := some ((b - RRTIME) + RRTIME), cpu_bursts := s3.cpu_bursts + 1 }

/-- Lines 148-163: the burst is not over; it keeps `b - RRTIME` and the
process goes back to the queue of its priority. -/
def preemptBurst (s : Sim) (c : Int) (b : Int) (tl : List Int) : Sim :=
  let s1 := s.upd c (fun p => { p with CPU_TIME := (b - RRTIME) :: tl })
  let pr := (getPCB s1.proc_blocks c).PRIORITY
  if pr = 1 then { s1 with high_queue := s1.high_queue ++ [c] }
  else if pr = 2 then { s1 with med_queue := s1.med_queue ++ [c] }
  else if pr = 3 then { s1 with low_queue := s1.low_queue ++ [c] }
  else s1

/-- The body of the loop over the cores for core `i` (lines 121-173); the
flag is the local `idle`.  The result is `none` when the loop is left by
`break` (line 126). -/
def coreStep (i : Nat) (s : Sim) (idle : Bool) : Option (Sim × Bool) :=
  let c := s.cores.getD i (-1)
  if c > 0 then
    match (getPCB s.proc_blocks c).CPU_TIME with
    | [] => none
    | b :: tl =>
      let s1 := if b - RRTIME ≤ 0 then completeBurst s c b tl else preemptBurst s c b tl
      some ({ s1 with cores := s1.cores.set i (-1) }, idle)
  else
    let s1 : Sim :=
      if !idle then { s with sim_cpu_idle := s.sim_cpu_idle + RRTIME } else s
    let s2 : Sim := { s1 with sim_core_idle := s1.sim_core_idle + RRTIME }
    some ({ s2 with cores := s2.cores.set i (-1) }, true)

/-- The loop `for (int i = 0; i < CORECOUNT; i++)` of lines 120-174 over the
indices still to visit. -/
def coreLoop : List Nat → Sim → Bool → Sim
  | [], s, _ => s
  | i :: rest, s, idle =>
    match coreStep i s idle with
    | none => s
    | some (s1, idle1) => coreLoop rest s1 idle1

/-- Phase B (lines 118-174). -/
def phaseB (s : Sim) : Sim :=
  coreLoop (List.range CORECOUNT) s false

/-! ## Phase C: response accrual (lines 179-182) -/

/-- Lines 179-182: every record in state 1 gets RRTIME of response. -/
def phaseC (s : Sim) : Sim :=
  { s with
    proc_blocks := s.proc_blocks.map (fun p =>
      if p.STATE = 1 then { p with RESPONSE := p.RESPONSE + RRTIME } else p) }

/-! ## Phase D: loading processes onto the cores (lines 189-234) -/

/-- Lines 190-194: core `i` takes the front of the high queue, if any. -/
def takeHigh (i : Nat) (s : Sim) : Sim :=
  match s.high_queue with
  | [] => s
  | p :: q =>
    ({ s with cores := s.cores.set i p, high_queue := q } : Sim).upd p
      (fun r => { r with STATE := 3 })

/-- Lines 199-203: core `i` takes the front of the medium queue, if any. -/
def takeMed (i : Nat) (s : Sim) : Sim :=
  match s.med_queue with
  | [] => s
  | p :: q =>
    ({ s with cores := s.cores.set i p, med_queue := q } : Sim).upd p
      (fun r => { r with STATE := 3 })

/-- Lines 208-212: core `i` takes the front of the low queue, if any. -/
def takeLow (i : Nat) (s : Sim) : Sim :=
  match s.low_queue with
  | [] => s
  | p :: q =>
    ({ s with cores := s.cores.set i p, low_queue := q } : Sim).upd p
      (fun r => { r with STATE := 3 })

/-- Lines 218-233: a core that is still -1 takes from the first queue that is
not empty, high before medium before low. -/
def spillStep (i : Nat) (s : Sim) : Sim :=
  if s.cores.getD i (-1) = -1 then
    if s.high_queue ≠ [] then takeHigh i s
    else if s.med_queue ≠ [] then takeMed i s
    else if s.low_queue ≠ [] then takeLow i s
    else s
  else s

/-- The three reserved loops of lines 189-213. -/
def reservedFill (s : Sim) : Sim :=
  let s1 := (List.range' 0 HIGHRES).foldl (fun t i => takeHigh i t) s
  let s2 := (List.range' HIGHRES MEDRES).foldl (fun t i => takeMed i t) s1
  (List.range' (HIGHRES + MEDRES) (CORECOUNT - (HIGHRES + MEDRES))).foldl
    (fun t i => takeLow i t) s2

/-- The loop of lines 217-234 over all cores. -/
def spillFill (s : Sim) : Sim :=
  (List.range CORECOUNT).foldl (fun t i => spillStep i t) s

/-- Phase D (lines 189-234). -/
def phaseD (s : Sim) : Sim :=
  spillFill (reservedFill s)

/-! ## Phase E: the io bursts (lines 246-304) -/

/-- The values of the type `int` (32 bits). -/
def InInt (x : Int) : Prop :=
  -2147483648 ≤ x ∧ x ≤ 2147483647

/-- The `int` that an `int` sum comes out as: the sum itself when it is in
the range of `int`, and else the value it wraps to (two's complement). -/
def int32 (x : Int) : Int :=
  (x + 2147483648) % 4294967296 - 2147483648

/-- Lines 263-266 and 275-278: every record in state 2 gets `io_burst` of
wait time.  `WAIT` is an `int` (pcb.cpp line 14) and the burst is any number
of the workload, so the sum `getWAIT() + io_burst` is taken as an `int` sum. -/
def creditWait (s : Sim) (io_burst : Int) : Sim :=
  { s with
    proc_blocks := s.proc_blocks.map (fun p =>
      if p.STATE = 2 then { p with WAIT := int32 (p.WAIT + io_burst) } else p) }

/-- Lines 258-271: the io burst of the front process does not fit into what
is left of RRTIME. -/
def ioOverflow (s : Sim) (p : Int) (io_burst iorrdiff : Int) : Sim :=
  let s1 := s.upd p (fun r => { r with IO_TIME := r.IO_TIME.set 0 (io_burst + iorrdiff) })
  let s2 := creditWait s1 io_burst
  { s2 with final_io_time := some io_burst }

/-- Lines 272-300: the io burst of the front process `p` fits; `rest` is the
wait queue behind `p`. -/
def ioConsume (s : Sim) (p : Int) (rest : List Int) (io_burst : Int) : Sim :=
  let s1 := creditWait s io_burst
  let s2 := s1.upd p (fun r => { r with IO_TIME := r.IO_TIME.tail })
  let s3 :=
    if (getPCB s2.proc_blocks p).CPU_TIME ≠ [] then
      if (getPCB s2.proc_blocks p).PRIORITY = 1 then
        ({ s2 with high_queue := s2.high_queue ++ [p] } : Sim).upd p
          (fun r => { r with STATE := 1 })
      else if (getPCB s2.proc_blocks p).PRIORITY = 2 then
        ({ s2 with med_queue := s2.med_queue ++ [p] } : Sim).upd p
          (fun r => { r with STATE := 1 })
      else
        ({ s2 with low_queue := s2.low_queue ++ [p] } : Sim).upd p
          (fun r => { r with STATE := 1 })
    else
      s2.upd p (fun r => { r with STATE := 4 })
  { s3 with wait_queue := rest }

/-- The loop `while (io_processing)` of lines 249-304.  The first argument is
the current content of the wait queue (the loop only pops it, so the loop
is a recursion on it), the second is `totio`.  The read `iotimes[0]` of an
empty vector (undefined in C++) reads 0. -/
def ioLoop : List Int → Int → Sim → Sim
  | [], _, s => s
  | p :: rest, totio, s =>
    let io_burst := (getPCB s.proc_blocks p).IO_TIME.headD 0
    let totio1 := totio + io_burst
    let iorrdiff := RRTIME - totio1
    if iorrdiff < 0 then
      ioOverflow s p io_burst iorrdiff
    else if iorrdiff = 0 then
      ioConsume s p rest io_burst
    else
      ioLoop rest totio1 (ioConsume s p rest io_burst)

/-- Phase E (lines 246-304). -/
def phaseE (s : Sim) : Sim :=
  ioLoop s.wait_queue 0 { s with final_io_time := none }

/-! ## One pass of `while (run)` and the loop -/

/-- Lines 309-317: when the four queues are empty the loop ends and the run
time gets `final_cpu_time += final_io_time`; the sum is `none` when one of
the two was not assigned in this pass. -/
def checkDone (s : Sim) : Sim :=
  if s.high_queue = [] ∧ s.med_queue = [] ∧ s.low_queue = [] ∧ s.wait_queue = [] then
    { s with
      run := false,
      sim_simruntime :=
        match s.sim_simruntime, s.final_cpu_time, s.final_io_time with
        | some t, some c, some d => some (t + (c + d))
        | _, _, _ => none }
  else s

/-- One pass of the body of `while (run)` (lines 104-317). -/
def tick (s : Sim) : Sim :=
  checkDone (phaseE (phaseD (phaseC (phaseB (phaseA s)))))

/-- The state after at most `k` passes of `while (run)`: a pass is made only
while `run` is true. -/
def tickN : Nat → Sim → Sim
  | 0, s => s
  | k + 1, s => if s.run then tickN k (tick s) else s

/-! ## Observations used in the statements -/

/-- Number of places that hold the process id: occurrences in the three ready
queues, in the wait queue and in the cores, plus one when its record is in
state 4 (finished). -/
def occ (s : Sim) (pid : Int) : Nat :=
  s.high_queue.count pid + s.med_queue.count pid + s.low_queue.count pid
    + s.wait_queue.count pid + s.cores.count pid
    + (if (getPCB s.proc_blocks pid).STATE = 4 then 1 else 0)

/-- Number of cores that hold a process (the test `cores[i] > 0` of line 121). -/
def occupied (s : Sim) : Nat :=
  s.cores.countP (fun c => decide (c > 0))

/-- Total io burst time still stored in the records. -/
def ioTotal (s : Sim) : Int :=
  (s.proc_blocks.map (fun p => p.IO_TIME.sum)).sum

/-- The part of one pass that comes before the io bursts are handled
(lines 104-234). -/
def beforeE (s : Sim) : Sim :=
  phaseD (phaseC (phaseB (phaseA s)))

/-- Cores `a`, `a + 1`, ... set to the items of the list, in order. -/
def setRange : List Int → Nat → List Int → List Int
  | cs, _, [] => cs
  | cs, a, x :: xs => setRange (cs.set a x) (a + 1) xs

/-- Invariant of Phase D relative to the three ready queues `H`, `M`, `L` it
started from: each queue is what is left of its initial content after some
number of pops, the processes on the cores are the popped ones, and every
core is -1 or holds a positive id. -/
def PhaseDInv (H M L : List Int) (s : Sim) : Prop :=
  ∃ kh km kl : Nat, kh ≤ H.length ∧ km ≤ M.length ∧ kl ≤ L.length ∧
    s.high_queue = H.drop kh ∧ s.med_queue = M.drop km ∧ s.low_queue = L.drop kl ∧
    (∀ x : Int, (s.cores.filter (fun c => decide (c > 0))).count x
      = (H.take kh).count x + (M.take km).count x + (L.take kl).count x) ∧
    (∀ c ∈ s.cores, c = -1 ∨ c > 0)

/-- The process ids of a run with `n` records: `PIDMIN`, ..., `PIDMIN + n - 1`. -/
def ValidPid (n : Nat) (pid : Int) : Prop :=
  PIDMIN ≤ pid ∧ pid < PIDMIN + n

/-- Invariant of the loop for a run with `n` records: the record vector and
the core array keep their sizes, priorities are 1, 2 or 3, queues and cores
hold process ids of the run (or -1 for a free core), every process id is in
exactly one place, and every process in a ready queue or on a core has a cpu
burst left. -/
structure WF (n : Nat) (s : Sim) : Prop where
  lenP : s.proc_blocks.length = n
  lenC : s.cores.length = CORECOUNT
  prio : ∀ pid, ValidPid n pid →
    (getPCB s.proc_blocks pid).PRIORITY = 1 ∨ (getPCB s.proc_blocks pid).PRIORITY = 2 ∨
      (getPCB s.proc_blocks pid).PRIORITY = 3
  qv : ∀ pid, pid ∈ s.high_queue ∨ pid ∈ s.med_queue ∨ pid ∈ s.low_queue ∨
    pid ∈ s.wait_queue → ValidPid n pid
  cv : ∀ pid, pid ∈ s.cores → pid = -1 ∨ ValidPid n pid
  one : ∀ pid, ValidPid n pid → occ s pid = 1
  cpu : ∀ pid, pid ∈ s.high_queue ∨ pid ∈ s.med_queue ∨ pid ∈ s.low_queue ∨
    pid ∈ s.cores → ValidPid n pid → (getPCB s.proc_blocks pid).CPU_TIME ≠ []

/-! ## Loading the workload file (simulation.cpp lines 455-510) -/

/-- The test `isspace` of the C library, on character codes. -/
def isSpaceChar (c : Char) : Bool :=
  c.toNat = 32 || (9 ≤ c.toNat && c.toNat ≤ 13)

/-- Value of the longest run of decimal digits at the front of the list, on
top of the value `acc` read so far. -/
def digitsValue : List Char → Nat → Nat
  | [], acc => acc
  | c :: cs, acc => if c.isDigit then digitsValue cs (10 * acc + (c.toNat - 48)) else acc

/-- The library function `stoi` on the characters of its argument: white space
is skipped, a sign is read, then the longest run of digits; `none` is the
exception thrown when no digit follows (values outside the range of `int`
are not modelled). -/
def stoi (arg : List Char) : Option Int :=
  match arg.dropWhile isSpaceChar with
  | [] => none
  | c :: cs =>
    if c = '-' then
      (if (cs.head?.map Char.isDigit) = some true then some (-(digitsValue cs 0 : Int)) else none)
    else if c = '+' then
      (if (cs.head?.map Char.isDigit) = some true then some (digitsValue cs 0 : Int) else none)
    else if c.isDigit then some (digitsValue (c :: cs) 0 : Int)
    else none

/-- Lines 479-480 and 486-487: the vector of bursts read so far, without its
first entry when that entry is -1. -/
def dropSentinel (v : List Int) : List Int :=
  match v with
  | [] => []
  | x :: xs => if x = -1 then xs else x :: xs

/-- Lines 465-491: what the argument number `argcount` does to the record. -/
def storeArg (argcount : Nat) (arg : List Char) (temp : PCB) : Option PCB :=
  if argcount = 1 then (stoi arg).map (fun v => { temp with PID := v })
  else if argcount = 2 then some temp
  else if argcount = 3 then (stoi arg).map (fun v => { temp with PRIORITY := v })
  else if argcount % 2 ≠ 0 then
    (stoi arg).map (fun v => { temp with IO_TIME := dropSentinel temp.IO_TIME ++ [v] })
  else if argcount ≠ 0 then
    (stoi arg).map (fun v => { temp with CPU_TIME := dropSentinel temp.CPU_TIME ++ [v] })
  else some temp

/-- The loop `while (curline.length() > 1)` of lines 460-493: the characters
before the next comma are the argument, the comma is erased, the blank after
it stays at the front of the rest.  The first argument bounds the number of
passes (every pass erases at least the comma, so the length of the line is
enough).  The result is `none` when `stoi` throws or when the rest of the
line holds no comma (the inner loop then runs off the end of the string). -/
def parseFields : Nat → List Char → Nat → PCB → Option PCB
  | 0, _, _, temp => some temp
  | fuel + 1, curline, argcount, temp =>
    if curline.length > 1 then
      if curline.contains ',' then
        let arg := curline.takeWhile (fun c => c != ',')
        let rest := curline.dropWhile (fun c => c != ',')
        match storeArg (argcount + 1) arg temp with
        | none => none
        | some temp1 => parseFields fuel (rest.drop 1) (argcount + 1) temp1
      else none
    else some temp

/-- Lines 456-495 for one line of the file: a record made by `PCB()`, filled
from the line and set to state 1. -/
def loadLine (curline : List Char) : Option PCB :=
  (parseFields curline.length curline 0 PCB.blank).map (fun temp => { temp with STATE := 1 })

/-- Number of cores that hold no process (the `else` branch of line 164). -/
def emptySlots (s : Sim) : Nat :=
  s.cores.countP (fun c => decide (¬ c > 0))

/-- Number of bursts a record still has: cpu bursts plus io bursts. -/
def PCB.bursts (r : PCB) : Nat :=
  r.CPU_TIME.length + r.IO_TIME.length

/-- Sum over all records of the number of bursts that remain. -/
def burstTotal (s : Sim) : Nat :=
  (s.proc_blocks.map PCB.bursts).sum

/-- The longest burst, cpu or io, that remains in any record (0 when none). -/
def longestBurst (s : Sim) : Int :=
  (s.proc_blocks.map (fun r => (r.CPU_TIME ++ r.IO_TIME).foldl max 0)).foldl max 0

/-- Length of the window of the progress property: the longest remaining burst
divided by RRTIME, rounded up. -/
def progressWindow (s : Sim) : Nat :=
  ((longestBurst s + RRTIME - 1) / RRTIME).toNat

/-- The record of the process id has the same state and the same bursts in
both states. -/
def SameRec (s t : Sim) (x : Int) : Prop :=
  (getPCB t.proc_blocks x).STATE = (getPCB s.proc_blocks x).STATE ∧
  (getPCB t.proc_blocks x).CPU_TIME = (getPCB s.proc_blocks x).CPU_TIME ∧
  (getPCB t.proc_blocks x).IO_TIME = (getPCB s.proc_blocks x).IO_TIME

/-- The process id is in one of the three ready queues. -/
def rdy (s : Sim) (pid : Int) : Prop :=
  pid ∈ s.high_queue ∨ pid ∈ s.med_queue ∨ pid ∈ s.low_queue

/-- From `s` to `t` only the process `c` may have moved or changed: every
other process has the same state and bursts and is in the same kind of place
(a ready queue, the wait queue, a core). -/
structure Moves (s t : Sim) (c : Int) : Prop where
  recs : ∀ pid, pid ≠ c → SameRec s t pid
  rd : ∀ pid, pid ≠ c → (rdy t pid ↔ rdy s pid)
  wt : ∀ pid, pid ≠ c → (pid ∈ t.wait_queue ↔ pid ∈ s.wait_queue)
  co : ∀ pid, pid ≠ c → pid ≠ -1 → (pid ∈ t.cores ↔ pid ∈ s.cores)

/-- How the state of a record goes with the place of its process: in a ready
queue the state is 1 or 3, on a core it is 3, in the wait queue it is 2 and
an io burst is left. -/
def LocR (rd wt co : Prop) (r : PCB) : Prop :=
  (rd → r.STATE = 1 ∨ r.STATE = 3) ∧ (co → r.STATE = 3) ∧
  (wt → r.STATE = 2 ∧ r.IO_TIME ≠ [])

/-- How the numbers of bursts of a record go with the place of its process:
in a ready queue or on a core there are as many cpu bursts as io bursts or
one more, in the wait queue as many io bursts as cpu bursts or one more, and
a record in state 4 has no burst left. -/
def AltR (rd wt co : Prop) (r : PCB) : Prop :=
  ((rd ∨ co) → r.IO_TIME.length ≤ r.CPU_TIME.length ∧
    r.CPU_TIME.length ≤ r.IO_TIME.length + 1) ∧
  (wt → r.CPU_TIME.length ≤ r.IO_TIME.length ∧
    r.IO_TIME.length ≤ r.CPU_TIME.length + 1) ∧
  (r.STATE = 4 → r.CPU_TIME = [] ∧ r.IO_TIME = [])

/-- The relation `R` between place and record holds for every process id of
the run. -/
def Holds (R : Prop → Prop → Prop → PCB → Prop) (n : Nat) (s : Sim) : Prop :=
  ∀ pid, ValidPid n pid →
    R (rdy s pid) (pid ∈ s.wait_queue) (pid ∈ s.cores) (getPCB s.proc_blocks pid)

/-- The relation between place and record looks at the state and the bursts of
the record only. -/
def RespectsRec (R : Prop → Prop → Prop → PCB → Prop) : Prop :=
  ∀ (rd wt co : Prop) (r r1 : PCB), r1.STATE = r.STATE → r1.CPU_TIME = r.CPU_TIME →
    r1.IO_TIME = r.IO_TIME → R rd wt co r → R rd wt co r1

/-- The property `I` of states is kept by every step of one pass of the loop,
taken from a state that satisfies the loop invariant: by the steps that leave
queues, cores, states and bursts alone, by both ends of a cpu burst on a
core, by the loading of a queue front onto a free core, and by both ways an
io burst at the front of the wait queue is handled. -/
structure StepClosed (n : Nat) (I : Sim → Prop) : Prop where
  frame : ∀ s t : Sim, I s → t.high_queue = s.high_queue → t.med_queue = s.med_queue →
    t.low_queue = s.low_queue → t.wait_queue = s.wait_queue → t.cores = s.cores →
    (∀ pid, SameRec s t pid) → I t
  complete : ∀ (s : Sim) (i : Nat) (c b : Int) (tl : List Int), WF n s → I s →
    s.cores[i]? = some c → ValidPid n c → (getPCB s.proc_blocks c).CPU_TIME = b :: tl →
    b - RRTIME ≤ 0 →
    I { completeBurst s c b tl with cores := (completeBurst s c b tl).cores.set i (-1) }
  preempt : ∀ (s : Sim) (i : Nat) (c b : Int) (tl : List Int), WF n s → I s →
    s.cores[i]? = some c → ValidPid n c → (getPCB s.proc_blocks c).CPU_TIME = b :: tl →
    ¬ b - RRTIME ≤ 0 →
    I { preemptBurst s c b tl with cores := (preemptBurst s c b tl).cores.set i (-1) }
  takeH : ∀ (s : Sim) (i : Nat) (p : Int) (q : List Int), WF n s → I s →
    s.cores[i]? = some (-1) → s.high_queue = p :: q → I (takeHigh i s)
  takeM : ∀ (s : Sim) (i : Nat) (p : Int) (q : List Int), WF n s → I s →
    s.cores[i]? = some (-1) → s.med_queue = p :: q → I (takeMed i s)
  takeL : ∀ (s : Sim) (i : Nat) (p : Int) (q : List Int), WF n s → I s →
    s.cores[i]? = some (-1) → s.low_queue = p :: q → I (takeLow i s)
  overflow : ∀ (s : Sim) (p : Int) (rest : List Int) (b d : Int), WF n s → I s →
    s.wait_queue = p :: rest → b = (getPCB s.proc_blocks p).IO_TIME.headD 0 → d < 0 →
    I (ioOverflow s p b d)
  consume : ∀ (s : Sim) (p : Int) (rest : List Int) (b : Int), WF n s → I s →
    s.wait_queue = p :: rest → b = (getPCB s.proc_blocks p).IO_TIME.headD 0 →
    I (ioConsume s p rest b)

/-- The states at the start of every pass of the loop over the cores
(lines 120-174), followed by the state the loop ends in. -/
def coreLoopTrace : List Nat → Sim → Bool → List Sim
  | [], s, _ => [s]
  | i :: rest, s, idle =>
    match coreStep i s idle with
    | none => [s]
    | some (s1, idle1) => s :: coreLoopTrace rest s1 idle1

/-- The states at the start of every pass of a loop over core indices whose
body is `f`, followed by the state the loop ends in. -/
def foldTrace (f : Nat → Sim → Sim) : List Nat → Sim → List Sim
  | [], s => [s]
  | i :: rest, s => s :: foldTrace f rest (f i s)

/-- The states at the start of every pass of `while (io_processing)`
(lines 249-304), followed by the state the loop ends in. -/
def ioLoopTrace : List Int → Int → Sim → List Sim
  | [], _, s => [s]
  | p :: rest, totio, s =>
    let io_burst := (getPCB s.proc_blocks p).IO_TIME.headD 0
    let totio1 := totio + io_burst
    let iorrdiff := RRTIME - totio1
    if iorrdiff < 0 then
      [s, ioOverflow s p io_burst iorrdiff]
    else if iorrdiff = 0 then
      [s, ioConsume s p rest io_burst]
    else
      s :: ioLoopTrace rest totio1 (ioConsume s p rest io_burst)

/-- The states one pass of `while (run)` goes through, at the start and end of
each phase and between the passes of each inner loop. -/
def tickTrace (s : Sim) : List Sim :=
  let a := phaseA s
  let c := phaseC (phaseB a)
  let d1 := (List.range' 0 HIGHRES).foldl (fun t i => takeHigh i t) c
  let d2 := (List.range' HIGHRES MEDRES).foldl (fun t i => takeMed i t) d1
  let e := phaseD c
  s :: (coreLoopTrace (List.range CORECOUNT) a false
    ++ foldTrace takeHigh (List.range' 0 HIGHRES) c
    ++ foldTrace takeMed (List.range' HIGHRES MEDRES) d1
    ++ foldTrace takeLow
        (List.range' (HIGHRES + MEDRES) (CORECOUNT - (HIGHRES + MEDRES))) d2
    ++ foldTrace spillStep (List.range CORECOUNT) (reservedFill c)
    ++ ioLoopTrace e.wait_queue 0 { e with final_io_time := none }
    ++ [tick s])

/-- The io burst at the head of the io bursts of a process, as `iotimes[0]` of
line 254 reads it. -/
def ioHead (s : Sim) (p : Int) : Int :=
  (getPCB s.proc_blocks p).IO_TIME.headD 0

/-- The process has priority `pr` and a cpu burst left: the test of lines
280-296 that sends a process from the wait queue to the ready queue of `pr`. -/
def requeues (s : Sim) (pr : Int) (p : Int) : Bool :=
  decide ((getPCB s.proc_blocks p).PRIORITY = pr ∧ (getPCB s.proc_blocks p).CPU_TIME ≠ [])

/-- From `s` to `t` the first `k` processes of the wait queue `wq` of `s` had
their head io burst removed and went, in the order of the wait queue, to the
ready queue of their priority in state 1 (to state 4 without a cpu burst left);
the other processes of the wait queue stay there in their order, with their
state, cpu bursts and the io bursts behind the head; the cores and every other
record are as before. -/
def Serviced (s t : Sim) (wq : List Int) (k : Nat) : Prop :=
  t.wait_queue = wq.drop k ∧
  t.high_queue = s.high_queue ++ (wq.take k).filter (requeues s 1) ∧
  t.med_queue = s.med_queue ++ (wq.take k).filter (requeues s 2) ∧
  t.low_queue = s.low_queue ++ (wq.take k).filter (requeues s 3) ∧
  t.cores = s.cores ∧
  (∀ p ∈ wq.take k,
    (getPCB t.proc_blocks p).IO_TIME = (getPCB s.proc_blocks p).IO_TIME.tail ∧
    (getPCB t.proc_blocks p).CPU_TIME = (getPCB s.proc_blocks p).CPU_TIME ∧
    (getPCB t.proc_blocks p).STATE
      = (if (getPCB s.proc_blocks p).CPU_TIME = [] then 4 else 1)) ∧
  (∀ p ∈ wq.drop k,
    (getPCB t.proc_blocks p).STATE = (getPCB s.proc_blocks p).STATE ∧
    (getPCB t.proc_blocks p).CPU_TIME = (getPCB s.proc_blocks p).CPU_TIME ∧
    (getPCB t.proc_blocks p).IO_TIME.tail = (getPCB s.proc_blocks p).IO_TIME.tail ∧
    (getPCB t.proc_blocks p).IO_TIME.length = (getPCB s.proc_blocks p).IO_TIME.length) ∧
  (∀ pid, pid ∉ wq → SameRec s t pid)

/-- The test of lines 121-148 that sends the process `c` of a core back to the
ready queue of priority `pr`: the core holds a process, whose head cpu burst is
more than RRTIME and whose priority is `pr`. -/
def preempted (s : Sim) (pr : Int) (c : Int) : Bool :=
  decide (c > 0) && decide ((getPCB s.proc_blocks c).PRIORITY = pr) &&
    (match (getPCB s.proc_blocks c).CPU_TIME with
     | [] => false
     | b :: _ => decide (¬ b - RRTIME ≤ 0))

/-- The test of lines 121-129 for a cpu burst that is over: the core holds a
process whose head cpu burst is at most RRTIME. -/
def completed (s : Sim) (c : Int) : Bool :=
  decide (c > 0) &&
    (match (getPCB s.proc_blocks c).CPU_TIME with
     | [] => false
     | b :: _ => decide (b - RRTIME ≤ 0))

/-- The test of lines 129-136 that sends the process of a core to the wait
queue: its cpu burst is over and it has an io burst. -/
def toWait (s : Sim) (c : Int) : Bool :=
  completed s c && decide ((getPCB s.proc_blocks c).IO_TIME ≠ [])

/-! ## A measure of the work left -/

/-- Work a record still holds: every remaining burst, cpu or io, counts its
length (0 when it is not positive) plus one. -/
def work (r : PCB) : Nat :=
  (r.CPU_TIME.map (fun b => b.toNat + 1)).sum + (r.IO_TIME.map (fun b => b.toNat + 1)).sum

/-- Work left in the records of a run with `n` processes. -/
def workLeft (n : Nat) (s : Sim) : Nat :=
  ((List.range n).map (fun (i : Nat) => work (getPCB s.proc_blocks (PIDMIN + (i : Int))))).sum

/-- Twice the work left, plus one when no core holds a process. -/
def potential (n : Nat) (s : Sim) : Nat :=
  2 * workLeft n s + (if occupied s = 0 then 1 else 0)

/-! ## Workloads used as concrete inputs -/

/-- A record as the loader leaves it: state 1 (ready). -/
def mkProc (pid pr : Int) (cpu io : List Int) : PCB :=
  { PID := pid, PRIORITY := pr, STATE := 1, IO_TIME := io, CPU_TIME := cpu,
    TURNAROUND := 0, WAIT := 0, RESPONSE := 0 }

/-- The workload of `k` high priority processes with pids 30, 31, ..., each
with the given cpu and io bursts. -/
def highLoad (k : Nat) (cpu io : List Int) : List PCB :=
  (List.range k).map (fun i => mkProc (PIDMIN + i) 1 cpu io)

/-- Ten high, two medium and five low priority processes, pids 30 to 46, each
with bursts cpu 50, io 7, cpu 35. -/
def mixedLoad : List PCB :=
  (List.range 17).map (fun i =>
    mkProc (PIDMIN + i) (if i < 10 then 1 else if i < 12 then 2 else 3) [50, 35] [7])

/-- Seventeen high priority processes with one cpu burst of 30: after the
first pass sixteen of them are on the cores. -/
def loadC2 : List PCB := highLoad 17 [30] []

/-- One process with the single cpu burst `b` and no io burst. -/
def loadC3 (b : Int) : List PCB := [mkProc 30 1 [b] []]

/-- Two processes: cpu 30, io 5, cpu 20 at high priority and cpu 45 at medium
priority. -/
def loadC4 : List PCB := [mkProc 30 1 [30, 20] [5], mkProc 31 2 [45] []]

/-- Twenty high priority processes in the high queue, nothing else, before
the first assignment of cores. -/
def stateC7 : Sim := initSim (highLoad 20 [30] [])

/-- Seventeen high priority processes with bursts cpu 30, io 50, cpu 20. -/
def loadC9 : List PCB := highLoad 17 [30, 20] [50]

/-- The second pass over `loadC9` at the point where the io bursts are
handled: the wait queue is 30, 31, ..., 45, each with an io burst of 50. -/
def stateC9 : Sim := beforeE (tickN 1 (initSim loadC9))

/-- Process 30 with io burst 50, process 31 with io burst 5, and fifteen
processes with one long cpu burst. -/
def loadC10 : List PCB :=
  [mkProc 30 1 [30, 20] [50], mkProc 31 1 [30, 20] [5]]
    ++ (List.range 15).map (fun i => mkProc (32 + i) 1 [90] [])

/-- The second pass over `loadC10` at the point where the io bursts are
handled: the wait queue is 30 (io burst 50), 31 (io burst 5). -/
def stateC10 : Sim := beforeE (tickN 1 (initSim loadC10))

/-- Seventeen high priority processes with one cpu burst of 90: every process
on a core is preempted and goes back to the high queue. -/
def loadC12 : List PCB := highLoad 17 [90] []

/-- Twenty-five high priority processes; process 30 has no cpu burst at all,
the others have one cpu burst of 90. -/
def loadC17 : List PCB :=
  mkProc 30 1 [] [] :: (List.range 24).map (fun i => mkProc (31 + i) 1 [90] [])

/-- A line of the workload file with one burst: pid 30, arrival 0, priority 1,
cpu burst 30. -/
def lineOneBurst : List Char := ("30, 0, 1, 30, ").toList

/-- A line of the workload file with three bursts: pid 31, arrival 1,
priority 2, cpu 45, io 7, cpu 33. -/
def lineThreeBursts : List Char := ("31, 1, 2, 45, 7, 33, ").toList

/-- Seventeen high priority records as the loader makes them from lines with
the single burst 30: the io bursts are `{-1}`. -/
def loadC19 : List PCB := highLoad 17 [30] [-1]

/-- Thirty-three high priority processes with one cpu burst of 60. -/
def loadC15 : List PCB := highLoad 33 [60] []

/-- Seventeen high priority processes with bursts cpu 30, io 15, cpu 20. -/
def loadC11 : List PCB := highLoad 17 [30, 20] [15]

/-- The second pass over `loadC11` at the point where the io bursts are
handled: the wait queue is 30, 31, ..., 45, each with an io burst of 15. -/
def stateC11 : Sim := beforeE (tickN 1 (initSim loadC11))

/-- Twenty high priority processes (pids 30 to 49), two medium ones (50, 51)
and one low one (52), each with one cpu burst of 30. -/
def loadC21 : List PCB :=
  (List.range 23).map (fun i =>
    mkProc (PIDMIN + i) (if i < 20 then 1 else if i < 22 then 2 else 3) [30] [])

/-- The first pass over `loadC21` at the start of Phase D: all cores are free,
the ready queues hold 20, 2 and 1 processes. -/
def stateC21 : Sim := phaseC (phaseB (phaseA (initSim loadC21)))

/-- Seventeen processes of priority 1 with cpu bursts 30, 20 and one io burst
of 2147483647, the largest `int`. -/
def loadWrap : List PCB := highLoad 17 [30, 20] [2147483647]

/-! ## The loop stops for good -/

theorem tickN_stopped (k : Nat) (s : Sim) (h : s.run = false) : tickN k s = s := by
  cases k with
  | zero => rfl
  | succ k => simp [tickN, h]

/-! ## Claims settled by evaluation -/

set_option maxRecDepth 100000 in
/-- C2 (the code departs from the claim): process 30 is on core 0 at the start
of the second pass over `loadC2` with head cpu burst 30, and over Phase A and
Phase B of that pass its turnaround grows by RRTIME + 30 = 70, not by 30. -/
theorem C2_turnaround_grows_by_quantum_plus_burst :
    (tickN 1 (initSim loadC2)).run = true ∧
    (tickN 1 (initSim loadC2)).cores.getD 0 (-1) = 30 ∧
    (getPCB (tickN 1 (initSim loadC2)).proc_blocks 30).CPU_TIME = [30] ∧
    (getPCB (tickN 1 (initSim loadC2)).proc_blocks 30).TURNAROUND = 40 ∧
    (getPCB (phaseB (phaseA (tickN 1 (initSim loadC2)))).proc_blocks 30).TURNAROUND
      = 40 + (RRTIME + 30) ∧
    (getPCB (phaseB (phaseA (tickN 1 (initSim loadC2)))).proc_blocks 30).STATE = 4 := by
  decide

/-- C3 (the code departs from the claim): for the single process with cpu
burst 30, and likewise 50, the loop ends after the first pass, at every later
point the state is the one after that pass, and in it the process is on core 0
in state 3 (running, not finished) with its burst untouched, turnaround 40,
response 40, wait 0 and no completed cpu burst. -/
theorem C3_single_process_left_running :
    (∀ k, tickN (k + 1) (initSim (loadC3 30)) = tickN 1 (initSim (loadC3 30))) ∧
    (tickN 1 (initSim (loadC3 30))).run = false ∧
    (tickN 1 (initSim (loadC3 30))).cores.getD 0 (-1) = 30 ∧
    (tickN 1 (initSim (loadC3 30))).proc_blocks
      = [{ PID := 30, PRIORITY := 1, STATE := 3, IO_TIME := [], CPU_TIME := [30],
           TURNAROUND := 40, WAIT := 0, RESPONSE := 40 }] ∧
    (tickN 1 (initSim (loadC3 30))).cpu_bursts = 0 ∧
    (∀ k, tickN (k + 1) (initSim (loadC3 50)) = tickN 1 (initSim (loadC3 50))) ∧
    (tickN 1 (initSim (loadC3 50))).run = false ∧
    (tickN 1 (initSim (loadC3 50))).proc_blocks
      = [{ PID := 30, PRIORITY := 1, STATE := 3, IO_TIME := [], CPU_TIME := [50],
           TURNAROUND := 40, WAIT := 0, RESPONSE := 40 }] ∧
    (tickN 1 (initSim (loadC3 50))).cpu_bursts = 0 := by
  have h30 : (tickN 1 (initSim (loadC3 30))).run = false := by decide
  have h50 : (tickN 1 (initSim (loadC3 50))).run = false := by decide
  have step : ∀ (s : Sim) (k : Nat), s.run = true → (tick s).run = false →
      tickN (k + 1) s = tickN 1 s := by
    intro s k h1 h2
    simp [tickN, h1, tickN_stopped k (tick s) h2]
  refine ⟨fun k => step _ k (by decide) (by decide), h30, by decide, by decide, by decide,
    fun k => step _ k (by decide) (by decide), h50, by decide, by decide⟩

set_option maxRecDepth 1000000 in
/-- C4 (the code departs from the claim): on `mixedLoad` the loop ends after
the seventh pass, when the four queues are empty, while process 46 is on
core 13 in state 3 with its cpu burst of 35 still to do; on `loadC4` the loop
ends after the first pass with both processes in state 3 on cores 0 and 8
and all their bursts still to do. -/
theorem C4_loop_ends_with_processes_on_cores :
    (tickN 6 (initSim mixedLoad)).run = true ∧
    (tickN 7 (initSim mixedLoad)).run = false ∧
    (tickN 7 (initSim mixedLoad)).high_queue = [] ∧
    (tickN 7 (initSim mixedLoad)).med_queue = [] ∧
    (tickN 7 (initSim mixedLoad)).low_queue = [] ∧
    (tickN 7 (initSim mixedLoad)).wait_queue = [] ∧
    (tickN 7 (initSim mixedLoad)).cores.getD 13 (-1) = 46 ∧
    (getPCB (tickN 7 (initSim mixedLoad)).proc_blocks 46).STATE = 3 ∧
    (getPCB (tickN 7 (initSim mixedLoad)).proc_blocks 46).CPU_TIME = [35] ∧
    (tickN 1 (initSim loadC4)).run = false ∧
    (tickN 1 (initSim loadC4)).high_queue = [] ∧
    (tickN 1 (initSim loadC4)).med_queue = [] ∧
    (tickN 1 (initSim loadC4)).low_queue = [] ∧
    (tickN 1 (initSim loadC4)).wait_queue = [] ∧
    (tickN 1 (initSim loadC4)).cores
      = [30, -1, -1, -1, -1, -1, -1, -1, 31, -1, -1, -1, -1, -1, -1, -1] ∧
    (tickN 1 (initSim loadC4)).proc_blocks.map (fun p => (p.STATE, p.CPU_TIME, p.IO_TIME))
      = [(3, [30, 20], [5]), (3, [45], [])] := by
  decide

set_option maxRecDepth 100000 in
/-- C7 (counterexample): with twenty processes in the high queue and nothing
else, Phase D does not leave 8 on the cores and 12 queued. -/
theorem C7_not_eight_on_cores :
    ¬ (occupied (phaseD stateC7) = 8 ∧ (phaseD stateC7).high_queue.length = 12) := by
  decide

set_option maxRecDepth 100000 in
/-- C9 (the code departs from the claim): in `stateC9` the front of the wait
queue is process 30 with io burst 50 and the running total is 0; Phase E
leaves it at the front in state 2 with io burst 40 (= RRTIME - 0, the part
that was worked through), not with the overflow 10, so the io time taken
from the records in this pass is 10 and not RRTIME. -/
theorem C9_overflow_keeps_serviced_part :
    stateC9.wait_queue.head? = some 30 ∧
    (getPCB stateC9.proc_blocks 30).IO_TIME = [50] ∧
    (phaseE stateC9).wait_queue.head? = some 30 ∧
    (getPCB (phaseE stateC9).proc_blocks 30).STATE = 2 ∧
    (getPCB (phaseE stateC9).proc_blocks 30).IO_TIME = [40] ∧
    (getPCB (phaseE stateC9).proc_blocks 30).IO_TIME ≠ [0 + 50 - RRTIME] ∧
    ioTotal stateC9 - ioTotal (phaseE stateC9) = 10 ∧
    ioTotal stateC9 - ioTotal (phaseE stateC9) ≠ RRTIME := by
  decide

set_option maxRecDepth 100000 in
/-- C10 (counterexample): in `stateC10` the wait queue is process 30 with io
burst 50 and process 31 with io burst 5; Phase E does not add 40 to the wait
time of process 30, nor to that of process 31. -/
theorem C10_wait_not_credited_by_consumed_part :
    stateC10.wait_queue = [30, 31] ∧
    (getPCB stateC10.proc_blocks 30).IO_TIME = [50] ∧
    (getPCB stateC10.proc_blocks 31).IO_TIME = [5] ∧
    (getPCB (phaseE stateC10).proc_blocks 30).WAIT
      ≠ (getPCB stateC10.proc_blocks 30).WAIT + 40 ∧
    (getPCB (phaseE stateC10).proc_blocks 31).WAIT
      ≠ (getPCB stateC10.proc_blocks 31).WAIT + 40 := by
  decide

/-! ## Reading and updating records -/

theorem length_updPCB (pbs : List PCB) (p : Int) (f : PCB → PCB) :
    (updPCB pbs p f).length = pbs.length := by
  unfold updPCB
  split <;> simp

theorem getPCB_updPCB_ne (pbs : List PCB) (p q : Int) (f : PCB → PCB) (h : q ≠ p) :
    getPCB (updPCB pbs p f) q = getPCB pbs q := by
  unfold getPCB updPCB
  by_cases hq : q < PIDMIN
  · simp [hq]
  · by_cases hp : p < PIDMIN
    · simp [hp]
    · have hne : (p - PIDMIN).toNat ≠ (q - PIDMIN).toNat := by omega
      simp [hq, hp, List.getElem?_modify_ne f pbs hne]

theorem getPCB_updPCB_eq (pbs : List PCB) (p : Int) (f : PCB → PCB)
    (h1 : PIDMIN ≤ p) (h2 : p < PIDMIN + pbs.length) :
    getPCB (updPCB pbs p f) p = f (getPCB pbs p) := by
  unfold getPCB updPCB
  have hp : ¬ p < PIDMIN := by omega
  have hlt : (p - PIDMIN).toNat < pbs.length := by omega
  simp [hp, List.getElem?_eq_getElem hlt]

/-- A projection that the setter leaves alone reads the same after the
update, at every process id. -/
theorem proj_getPCB_updPCB {α : Type} (g : PCB → α) (pbs : List PCB) (p q : Int)
    (f : PCB → PCB) (hg : ∀ r, g (f r) = g r) :
    g (getPCB (updPCB pbs p f) q) = g (getPCB pbs q) := by
  by_cases h : q = p
  · subst h
    unfold getPCB updPCB
    by_cases hq : q < PIDMIN
    · simp [hq]
    · simp only [hq, if_false, List.getD_eq_getElem?_getD, List.getElem?_modify_eq]
      cases pbs[(q - PIDMIN).toNat]? <;> simp [hg]
  · rw [getPCB_updPCB_ne pbs p q f h]

theorem getPCB_map (pbs : List PCB) (q : Int) (f : PCB → PCB)
    (h1 : PIDMIN ≤ q) (h2 : q < PIDMIN + pbs.length) :
    getPCB (pbs.map f) q = f (getPCB pbs q) := by
  unfold getPCB
  have hp : ¬ q < PIDMIN := by omega
  have hlt : (q - PIDMIN).toNat < pbs.length := by omega
  simp [hp, List.getElem?_eq_getElem hlt]

/-- A projection that the mapped function leaves alone reads the same after
the map, at every process id. -/
theorem proj_getPCB_map {α : Type} (g : PCB → α) (pbs : List PCB) (q : Int)
    (f : PCB → PCB) (hg : ∀ r, g (f r) = g r) :
    g (getPCB (pbs.map f) q) = g (getPCB pbs q) := by
  unfold getPCB
  by_cases hq : q < PIDMIN
  · simp [hq]
  · simp only [hq, if_false, List.getD_eq_getElem?_getD, List.getElem?_map]
    cases pbs[(q - PIDMIN).toNat]? <;> simp [hg]

/-! ## Phase E: the wait credit of one step -/

theorem int32_of_range (x : Int) (h : InInt x) : int32 x = x := by
  unfold InInt at h
  unfold int32
  omega

theorem int32_range (x : Int) : InInt (int32 x) := by
  unfold InInt int32
  omega

theorem wait_creditWait (s : Sim) (b : Int) (q : Int) :
    (getPCB (creditWait s b).proc_blocks q).WAIT
      = (if (getPCB s.proc_blocks q).STATE = 2 then int32 ((getPCB s.proc_blocks q).WAIT + b)
          else (getPCB s.proc_blocks q).WAIT) := by
  unfold creditWait getPCB
  by_cases hq : q < PIDMIN
  · simp [hq, PCB.blank]
  · simp only [hq, if_false, List.getD_eq_getElem?_getD, List.getElem?_map]
    cases pbs : s.proc_blocks[(q - PIDMIN).toNat]? with
    | none => simp [PCB.blank]
    | some r =>
      by_cases h2 : r.STATE = 2 <;> simp [h2]

theorem state_creditWait (s : Sim) (b : Int) (q : Int) :
    (getPCB (creditWait s b).proc_blocks q).STATE = (getPCB s.proc_blocks q).STATE := by
  unfold creditWait
  apply proj_getPCB_map
  intro r
  split <;> rfl

theorem WAIT_updPCB (pbs : List PCB) (p q : Int) (f : PCB → PCB)
    (hf : ∀ r, (f r).WAIT = r.WAIT) :
    (getPCB (updPCB pbs p f) q).WAIT = (getPCB pbs q).WAIT :=
  proj_getPCB_updPCB PCB.WAIT pbs p q f hf

theorem STATE_updPCB (pbs : List PCB) (p q : Int) (f : PCB → PCB)
    (hf : ∀ r, (f r).STATE = r.STATE) :
    (getPCB (updPCB pbs p f) q).STATE = (getPCB pbs q).STATE :=
  proj_getPCB_updPCB PCB.STATE pbs p q f hf

theorem PRIORITY_updPCB (pbs : List PCB) (p q : Int) (f : PCB → PCB)
    (hf : ∀ r, (f r).PRIORITY = r.PRIORITY) :
    (getPCB (updPCB pbs p f) q).PRIORITY = (getPCB pbs q).PRIORITY :=
  proj_getPCB_updPCB PCB.PRIORITY pbs p q f hf

theorem CPU_TIME_updPCB (pbs : List PCB) (p q : Int) (f : PCB → PCB)
    (hf : ∀ r, (f r).CPU_TIME = r.CPU_TIME) :
    (getPCB (updPCB pbs p f) q).CPU_TIME = (getPCB pbs q).CPU_TIME :=
  proj_getPCB_updPCB PCB.CPU_TIME pbs p q f hf

theorem IO_TIME_updPCB (pbs : List PCB) (p q : Int) (f : PCB → PCB)
    (hf : ∀ r, (f r).IO_TIME = r.IO_TIME) :
    (getPCB (updPCB pbs p f) q).IO_TIME = (getPCB pbs q).IO_TIME :=
  proj_getPCB_updPCB PCB.IO_TIME pbs p q f hf

theorem wait_ioOverflow (s : Sim) (p b d : Int) (q : Int) :
    (getPCB (ioOverflow s p b d).proc_blocks q).WAIT
      = (if (getPCB s.proc_blocks q).STATE = 2 then int32 ((getPCB s.proc_blocks q).WAIT + b)
          else (getPCB s.proc_blocks q).WAIT) := by
  unfold ioOverflow
  simp [wait_creditWait, Sim.upd, WAIT_updPCB, STATE_updPCB]

theorem wait_ioConsume (s : Sim) (p : Int) (rest : List Int) (b : Int) (q : Int) :
    (getPCB (ioConsume s p rest b).proc_blocks q).WAIT
      = (if (getPCB s.proc_blocks q).STATE = 2 then int32 ((getPCB s.proc_blocks q).WAIT + b)
          else (getPCB s.proc_blocks q).WAIT) := by
  rw [← wait_creditWait]
  unfold ioConsume
  simp only [Sim.upd]
  split_ifs <;> simp [WAIT_updPCB]

/-- The wait credit when the sum is in the range of `int`: the burst is added
to the wait time of a record in state 2. -/
theorem credit_in_range (w b x : Int) (st : Int)
    (hx : x = (if st = 2 then int32 (w + b) else w)) (hr : InInt (w + b)) :
    x = w + (if st = 2 then b else 0) := by
  rw [hx]
  by_cases h : st = 2
  · rw [if_pos h, if_pos h, int32_of_range _ hr]
  · rw [if_neg h, if_neg h]; omega

set_option maxRecDepth 100000 in
/-- C10 (as amended): one step of the Phase E loop with front process `p`,
head io burst `b` and running total `t` is the overflow branch when
`t + b > RRTIME` and the consuming branch otherwise (after which the loop
goes on only when `t + b < RRTIME`); in both branches every record that is in
state 2 gets the whole burst `b` added to its wait time, as an `int` sum: the
new wait time is the old one plus `b` whenever that sum is in the range of
`int` (and the wrapped sum otherwise), and no other record changes its wait
time.  On `stateC10` (wait queue 30 with io burst 50, 31 with io burst 5) both
processes get 50 and process 31 keeps its burst and place. -/
theorem C10_wait_credit_is_whole_burst :
    (∀ (s : Sim) (p : Int) (rest : List Int) (t : Int),
      ioLoop (p :: rest) t s
        = if RRTIME - (t + (getPCB s.proc_blocks p).IO_TIME.headD 0) < 0 then
            ioOverflow s p ((getPCB s.proc_blocks p).IO_TIME.headD 0)
              (RRTIME - (t + (getPCB s.proc_blocks p).IO_TIME.headD 0))
          else if RRTIME - (t + (getPCB s.proc_blocks p).IO_TIME.headD 0) = 0 then
            ioConsume s p rest ((getPCB s.proc_blocks p).IO_TIME.headD 0)
          else
            ioLoop rest (t + (getPCB s.proc_blocks p).IO_TIME.headD 0)
              (ioConsume s p rest ((getPCB s.proc_blocks p).IO_TIME.headD 0))) ∧
    (∀ (s : Sim) (p b d q : Int),
      (getPCB (ioOverflow s p b d).proc_blocks q).WAIT
        = (if (getPCB s.proc_blocks q).STATE = 2
            then int32 ((getPCB s.proc_blocks q).WAIT + b)
            else (getPCB s.proc_blocks q).WAIT) ∧
      (InInt ((getPCB s.proc_blocks q).WAIT + b) →
        (getPCB (ioOverflow s p b d).proc_blocks q).WAIT
          = (getPCB s.proc_blocks q).WAIT
            + (if (getPCB s.proc_blocks q).STATE = 2 then b else 0))) ∧
    (∀ (s : Sim) (p : Int) (rest : List Int) (b q : Int),
      (getPCB (ioConsume s p rest b).proc_blocks q).WAIT
        = (if (getPCB s.proc_blocks q).STATE = 2
            then int32 ((getPCB s.proc_blocks q).WAIT + b)
            else (getPCB s.proc_blocks q).WAIT) ∧
      (InInt ((getPCB s.proc_blocks q).WAIT + b) →
        (getPCB (ioConsume s p rest b).proc_blocks q).WAIT
          = (getPCB s.proc_blocks q).WAIT
            + (if (getPCB s.proc_blocks q).STATE = 2 then b else 0))) ∧
    (InInt ((getPCB stateC10.proc_blocks 30).WAIT + 50) ∧
      InInt ((getPCB stateC10.proc_blocks 31).WAIT + 50)) ∧
    (getPCB (phaseE stateC10).proc_blocks 30).WAIT
      = (getPCB stateC10.proc_blocks 30).WAIT + 50 ∧
    (getPCB (phaseE stateC10).proc_blocks 31).WAIT
      = (getPCB stateC10.proc_blocks 31).WAIT + 50 ∧
    (getPCB (phaseE stateC10).proc_blocks 31).IO_TIME = [5] ∧
    (phaseE stateC10).wait_queue = [30, 31] := by
  refine ⟨fun s p rest t => ?_,
    fun s p b d q => ⟨wait_ioOverflow s p b d q,
      fun hr => credit_in_range _ b _ _ (wait_ioOverflow s p b d q) hr⟩,
    fun s p rest b q => ⟨wait_ioConsume s p rest b q,
      fun hr => credit_in_range _ b _ _ (wait_ioConsume s p rest b q) hr⟩,
    by unfold InInt; decide, by decide, by decide, by decide, by decide⟩
  simp only [ioLoop]

/-! ## Phase D: what one assignment does -/

theorem takeHigh_nil (i : Nat) (s : Sim) (h : s.high_queue = []) : takeHigh i s = s := by
  simp [takeHigh, h]

theorem takeMed_nil (i : Nat) (s : Sim) (h : s.med_queue = []) : takeMed i s = s := by
  simp [takeMed, h]

theorem takeLow_nil (i : Nat) (s : Sim) (h : s.low_queue = []) : takeLow i s = s := by
  simp [takeLow, h]

theorem takeHigh_cons (i : Nat) (s : Sim) (p : Int) (q : List Int) (h : s.high_queue = p :: q) :
    (takeHigh i s).high_queue = q ∧ (takeHigh i s).med_queue = s.med_queue ∧
    (takeHigh i s).low_queue = s.low_queue ∧ (takeHigh i s).wait_queue = s.wait_queue ∧
    (takeHigh i s).cores = s.cores.set i p := by
  simp [takeHigh, h, Sim.upd]

theorem takeMed_cons (i : Nat) (s : Sim) (p : Int) (q : List Int) (h : s.med_queue = p :: q) :
    (takeMed i s).high_queue = s.high_queue ∧ (takeMed i s).med_queue = q ∧
    (takeMed i s).low_queue = s.low_queue ∧ (takeMed i s).wait_queue = s.wait_queue ∧
    (takeMed i s).cores = s.cores.set i p := by
  simp [takeMed, h, Sim.upd]

theorem takeLow_cons (i : Nat) (s : Sim) (p : Int) (q : List Int) (h : s.low_queue = p :: q) :
    (takeLow i s).high_queue = s.high_queue ∧ (takeLow i s).med_queue = s.med_queue ∧
    (takeLow i s).low_queue = q ∧ (takeLow i s).wait_queue = s.wait_queue ∧
    (takeLow i s).cores = s.cores.set i p := by
  simp [takeLow, h, Sim.upd]

/-! ## Lists: filtering after one slot is overwritten -/

theorem count_filter_set (P : Int → Bool) (cs : List Int) (i : Nat) (a b : Int)
    (hi : cs[i]? = some a) (ha : P a = false) (hb : P b = true) (x : Int) :
    ((cs.set i b).filter P).count x = (cs.filter P).count x + (if b = x then 1 else 0) := by
  induction cs generalizing i with
  | nil => simp at hi
  | cons c cs ih =>
    cases i with
    | zero =>
      simp at hi
      subst hi
      simp [List.filter_cons, ha, hb, List.count_cons]
    | succ i =>
      simp at hi
      have := ih i hi
      by_cases hc : P c = true
      · simp [List.filter_cons, hc, List.count_cons, this]; omega
      · simp [List.filter_cons, hc, this]

theorem drop_eq_cons_facts (H : List Int) (k : Nat) (p : Int) (q : List Int)
    (h : H.drop k = p :: q) :
    k < H.length ∧ H.drop (k + 1) = q ∧ H.take (k + 1) = H.take k ++ [p] ∧ p ∈ H := by
  have hlt : k < H.length := by
    by_contra hge
    simp [List.drop_eq_nil_of_le (Nat.le_of_not_lt hge)] at h
  have hd := List.drop_eq_getElem_cons hlt
  rw [hd] at h
  injection h with h1 h2
  refine ⟨hlt, h2, ?_, ?_⟩
  · rw [List.take_succ, List.getElem?_eq_getElem hlt, h1]; rfl
  · rw [← h1]; exact List.getElem_mem hlt

/-! ## Phase D: the invariant is kept by every assignment -/

theorem mem_set_cases (cs : List Int) (i : Nat) (b c : Int) (h : c ∈ cs.set i b) :
    c ∈ cs ∨ c = b := by
  rcases List.mem_or_eq_of_mem_set h with h1 | h1
  · exact Or.inl h1
  · exact Or.inr h1

theorem phaseDInv_takeHigh (H M L : List Int) (s : Sim) (i : Nat)
    (hinv : PhaseDInv H M L s) (hi : s.cores[i]? = some (-1)) (hH : ∀ p ∈ H, p > 0) :
    PhaseDInv H M L (takeHigh i s) := by
  obtain ⟨kh, km, kl, h1, h2, h3, h4, h5, h6, h7, h8⟩ := hinv
  cases hq : s.high_queue with
  | nil => rw [takeHigh_nil i s hq]; exact ⟨kh, km, kl, h1, h2, h3, h4, h5, h6, h7, h8⟩
  | cons p q =>
    obtain ⟨e1, e2, e3, _, e5⟩ := takeHigh_cons i s p q hq
    rw [h4] at hq
    obtain ⟨f1, f2, f3, f4⟩ := drop_eq_cons_facts H kh p q hq
    have hp : p > 0 := hH p f4
    refine ⟨kh + 1, km, kl, f1, h2, h3, by rw [e1, f2], by rw [e2, h5], by rw [e3, h6], ?_, ?_⟩
    · intro x
      rw [e5, count_filter_set _ s.cores i (-1) p hi (by decide) (by simpa using hp) x, h7 x, f3]
      simp [List.count_append, List.count_cons]
      omega
    · intro c hc
      rw [e5] at hc
      rcases mem_set_cases _ _ _ _ hc with h | h
      · exact h8 c h
      · right; rw [h]; exact hp

theorem phaseDInv_takeMed (H M L : List Int) (s : Sim) (i : Nat)
    (hinv : PhaseDInv H M L s) (hi : s.cores[i]? = some (-1)) (hM : ∀ p ∈ M, p > 0) :
    PhaseDInv H M L (takeMed i s) := by
  obtain ⟨kh, km, kl, h1, h2, h3, h4, h5, h6, h7, h8⟩ := hinv
  cases hq : s.med_queue with
  | nil => rw [takeMed_nil i s hq]; exact ⟨kh, km, kl, h1, h2, h3, h4, h5, h6, h7, h8⟩
  | cons p q =>
    obtain ⟨e1, e2, e3, _, e5⟩ := takeMed_cons i s p q hq
    rw [h5] at hq
    obtain ⟨f1, f2, f3, f4⟩ := drop_eq_cons_facts M km p q hq
    have hp : p > 0 := hM p f4
    refine ⟨kh, km + 1, kl, h1, f1, h3, by rw [e1, h4], by rw [e2, f2], by rw [e3, h6], ?_, ?_⟩
    · intro x
      rw [e5, count_filter_set _ s.cores i (-1) p hi (by decide) (by simpa using hp) x, h7 x, f3]
      simp [List.count_append, List.count_cons]
      omega
    · intro c hc
      rw [e5] at hc
      rcases mem_set_cases _ _ _ _ hc with h | h
      · exact h8 c h
      · right; rw [h]; exact hp

theorem phaseDInv_takeLow (H M L : List Int) (s : Sim) (i : Nat)
    (hinv : PhaseDInv H M L s) (hi : s.cores[i]? = some (-1)) (hL : ∀ p ∈ L, p > 0) :
    PhaseDInv H M L (takeLow i s) := by
  obtain ⟨kh, km, kl, h1, h2, h3, h4, h5, h6, h7, h8⟩ := hinv
  cases hq : s.low_queue with
  | nil => rw [takeLow_nil i s hq]; exact ⟨kh, km, kl, h1, h2, h3, h4, h5, h6, h7, h8⟩
  | cons p q =>
    obtain ⟨e1, e2, e3, _, e5⟩ := takeLow_cons i s p q hq
    rw [h6] at hq
    obtain ⟨f1, f2, f3, f4⟩ := drop_eq_cons_facts L kl p q hq
    have hp : p > 0 := hL p f4
    refine ⟨kh, km, kl + 1, h1, h2, f1, by rw [e1, h4], by rw [e2, h5], by rw [e3, f2], ?_, ?_⟩
    · intro x
      rw [e5, count_filter_set _ s.cores i (-1) p hi (by decide) (by simpa using hp) x, h7 x, f3]
      simp [List.count_append, List.count_cons]
      omega
    · intro c hc
      rw [e5] at hc
      rcases mem_set_cases _ _ _ _ hc with h | h
      · exact h8 c h
      · right; rw [h]; exact hp

/-! ## Phase D: slots other than the one assigned -/

theorem takeHigh_cores_length (i : Nat) (s : Sim) :
    (takeHigh i s).cores.length = s.cores.length := by
  cases hq : s.high_queue with
  | nil => rw [takeHigh_nil i s hq]
  | cons p q => rw [(takeHigh_cons i s p q hq).2.2.2.2]; simp

theorem takeMed_cores_length (i : Nat) (s : Sim) :
    (takeMed i s).cores.length = s.cores.length := by
  cases hq : s.med_queue with
  | nil => rw [takeMed_nil i s hq]
  | cons p q => rw [(takeMed_cons i s p q hq).2.2.2.2]; simp

theorem takeLow_cores_length (i : Nat) (s : Sim) :
    (takeLow i s).cores.length = s.cores.length := by
  cases hq : s.low_queue with
  | nil => rw [takeLow_nil i s hq]
  | cons p q => rw [(takeLow_cons i s p q hq).2.2.2.2]; simp

theorem takeHigh_cores_ne (i j : Nat) (s : Sim) (h : i ≠ j) :
    (takeHigh i s).cores[j]? = s.cores[j]? := by
  cases hq : s.high_queue with
  | nil => rw [takeHigh_nil i s hq]
  | cons p q => rw [(takeHigh_cons i s p q hq).2.2.2.2]; simp [List.getElem?_set_ne h]

theorem takeMed_cores_ne (i j : Nat) (s : Sim) (h : i ≠ j) :
    (takeMed i s).cores[j]? = s.cores[j]? := by
  cases hq : s.med_queue with
  | nil => rw [takeMed_nil i s hq]
  | cons p q => rw [(takeMed_cons i s p q hq).2.2.2.2]; simp [List.getElem?_set_ne h]

theorem takeLow_cores_ne (i j : Nat) (s : Sim) (h : i ≠ j) :
    (takeLow i s).cores[j]? = s.cores[j]? := by
  cases hq : s.low_queue with
  | nil => rw [takeLow_nil i s hq]
  | cons p q => rw [(takeLow_cons i s p q hq).2.2.2.2]; simp [List.getElem?_set_ne h]

/-- A loop over distinct slots that are all -1, whose body keeps an invariant
when its slot is -1 and touches no other slot, keeps the invariant and
leaves the slots outside the loop as they were. -/
theorem fold_slots (Inv : Sim → Prop) (f : Nat → Sim → Sim)
    (hstep : ∀ i s, Inv s → s.cores[i]? = some (-1) → Inv (f i s))
    (hframe : ∀ i j s, i ≠ j → (f i s).cores[j]? = s.cores[j]?) :
    ∀ (is : List Nat) (s : Sim), is.Nodup → Inv s → (∀ i ∈ is, s.cores[i]? = some (-1)) →
      Inv (is.foldl (fun t i => f i t) s) ∧
      ∀ j, j ∉ is → (is.foldl (fun t i => f i t) s).cores[j]? = s.cores[j]? := by
  intro is
  induction is with
  | nil => intro s _ h _; exact ⟨h, fun _ _ => rfl⟩
  | cons i is ih =>
    intro s hnd hinv hall
    rw [List.nodup_cons] at hnd
    have h1 : Inv (f i s) := hstep i s hinv (hall i (List.mem_cons_self i is))
    have h2 : ∀ j ∈ is, (f i s).cores[j]? = some (-1) := by
      intro j hj
      have hne : i ≠ j := fun e => hnd.1 (e ▸ hj)
      rw [hframe i j s hne]
      exact hall j (List.mem_cons_of_mem i hj)
    obtain ⟨r1, r2⟩ := ih (f i s) hnd.2 h1 h2
    refine ⟨r1, fun j hj => ?_⟩
    simp only [List.mem_cons, not_or] at hj
    rw [List.foldl_cons, r2 j hj.2, hframe i j s (fun e => hj.1 e.symm)]

/-! ## Phase D: closed form of a reserved loop -/

theorem setRange_getElem? (xs : List Int) : ∀ (cs : List Int) (a j : Nat),
    (setRange cs a xs)[j]?
      = if a ≤ j ∧ j < a + xs.length ∧ j < cs.length then xs[j - a]? else cs[j]? := by
  induction xs with
  | nil =>
    intro cs a j
    have h0 : ¬ (a ≤ j ∧ j < a + ([] : List Int).length ∧ j < cs.length) := by
      simp only [List.length_nil]; omega
    rw [setRange, if_neg h0]
  | cons x xs ih =>
    intro cs a j
    rw [setRange, ih]
    by_cases hja : j = a
    · subst hja
      have h1 : ¬ (j + 1 ≤ j ∧ j < j + 1 + xs.length ∧ j < (cs.set j x).length) := by omega
      rw [if_neg h1]
      by_cases hlt : j < cs.length
      · have h2 : j ≤ j ∧ j < j + (x :: xs).length ∧ j < cs.length := by
          simp [hlt]
        rw [if_pos h2]
        simp [hlt]
      · have h2 : ¬ (j ≤ j ∧ j < j + (x :: xs).length ∧ j < cs.length) := by
          intro h; exact hlt h.2.2
        rw [if_neg h2]
        have hle : cs.length ≤ j := Nat.le_of_not_lt hlt
        rw [List.getElem?_eq_none hle, List.getElem?_eq_none (by simpa using hle)]
    · simp only [List.length_set, List.length_cons]
      by_cases hc : a + 1 ≤ j ∧ j < a + 1 + xs.length ∧ j < cs.length
      · have h2 : a ≤ j ∧ j < a + (xs.length + 1) ∧ j < cs.length := by omega
        rw [if_pos hc, if_pos h2]
        have : j - a = (j - (a + 1)) + 1 := by omega
        rw [this, List.getElem?_cons_succ]
      · have h2 : ¬ (a ≤ j ∧ j < a + (xs.length + 1) ∧ j < cs.length) := by omega
        rw [if_neg hc, if_neg h2, List.getElem?_set_ne (fun e => hja e.symm)]

theorem fold_takeHigh_cores : ∀ (k a : Nat) (s : Sim),
    ((List.range' a k).foldl (fun t i => takeHigh i t) s).cores
      = setRange s.cores a (s.high_queue.take k) := by
  intro k
  induction k with
  | zero => intro a s; simp [setRange]
  | succ k ih =>
    intro a s
    rw [List.range'_succ, List.foldl_cons, ih]
    cases hq : s.high_queue with
    | nil => rw [takeHigh_nil a s hq, hq]; simp [setRange]
    | cons p q =>
      obtain ⟨e1, _, _, _, e5⟩ := takeHigh_cons a s p q hq
      rw [e1, e5]
      simp [setRange]

theorem fold_takeMed_cores : ∀ (k a : Nat) (s : Sim),
    ((List.range' a k).foldl (fun t i => takeMed i t) s).cores
      = setRange s.cores a (s.med_queue.take k) := by
  intro k
  induction k with
  | zero => intro a s; simp [setRange]
  | succ k ih =>
    intro a s
    rw [List.range'_succ, List.foldl_cons, ih]
    cases hq : s.med_queue with
    | nil => rw [takeMed_nil a s hq, hq]; simp [setRange]
    | cons p q =>
      obtain ⟨_, e2, _, _, e5⟩ := takeMed_cons a s p q hq
      rw [e2, e5]
      simp [setRange]

theorem fold_takeLow_cores : ∀ (k a : Nat) (s : Sim),
    ((List.range' a k).foldl (fun t i => takeLow i t) s).cores
      = setRange s.cores a (s.low_queue.take k) := by
  intro k
  induction k with
  | zero => intro a s; simp [setRange]
  | succ k ih =>
    intro a s
    rw [List.range'_succ, List.foldl_cons, ih]
    cases hq : s.low_queue with
    | nil => rw [takeLow_nil a s hq, hq]; simp [setRange]
    | cons p q =>
      obtain ⟨_, _, e3, _, e5⟩ := takeLow_cons a s p q hq
      rw [e3, e5]
      simp [setRange]

/-- A loop whose body touches only its own slot leaves the other slots as they
were. -/
theorem fold_frame (f : Nat → Sim → Sim)
    (hframe : ∀ i j s, i ≠ j → (f i s).cores[j]? = s.cores[j]?) :
    ∀ (is : List Nat) (s : Sim) (j : Nat), j ∉ is →
      (is.foldl (fun t i => f i t) s).cores[j]? = s.cores[j]? := by
  intro is
  induction is with
  | nil => intro s j _; rfl
  | cons i is ih =>
    intro s j hj
    simp only [List.mem_cons, not_or] at hj
    rw [List.foldl_cons, ih (f i s) j hj.2, hframe i j s (fun e => hj.1 e.symm)]

/-- A loop whose body leaves a queue alone leaves it alone. -/
theorem fold_keeps {α : Type} (g : Sim → α) (f : Nat → Sim → Sim)
    (hkeep : ∀ i s, g (f i s) = g s) :
    ∀ (is : List Nat) (s : Sim), g (is.foldl (fun t i => f i t) s) = g s := by
  intro is
  induction is with
  | nil => intro s; rfl
  | cons i is ih => intro s; rw [List.foldl_cons, ih, hkeep]

theorem takeHigh_med_queue (i : Nat) (s : Sim) : (takeHigh i s).med_queue = s.med_queue := by
  cases hq : s.high_queue with
  | nil => rw [takeHigh_nil i s hq]
  | cons p q => exact (takeHigh_cons i s p q hq).2.1

theorem takeHigh_low_queue (i : Nat) (s : Sim) : (takeHigh i s).low_queue = s.low_queue := by
  cases hq : s.high_queue with
  | nil => rw [takeHigh_nil i s hq]
  | cons p q => exact (takeHigh_cons i s p q hq).2.2.1

theorem takeMed_low_queue (i : Nat) (s : Sim) : (takeMed i s).low_queue = s.low_queue := by
  cases hq : s.med_queue with
  | nil => rw [takeMed_nil i s hq]
  | cons p q => exact (takeMed_cons i s p q hq).2.2.1

/-! ## Phase D: the reserved loops keep the invariant -/

theorem phaseDInv_start (s : Sim) (hc : s.cores = List.replicate CORECOUNT (-1)) :
    PhaseDInv s.high_queue s.med_queue s.low_queue s := by
  refine ⟨0, 0, 0, Nat.zero_le _, Nat.zero_le _, Nat.zero_le _, rfl, rfl, rfl, ?_, ?_⟩
  · intro x
    rw [hc]
    simp [List.filter_replicate]
  · intro c h
    rw [hc] at h
    exact Or.inl (List.eq_of_mem_replicate h)

theorem reservedFill_inv (s : Sim) (hc : s.cores = List.replicate CORECOUNT (-1))
    (hH : ∀ p ∈ s.high_queue, p > 0) (hM : ∀ p ∈ s.med_queue, p > 0)
    (hL : ∀ p ∈ s.low_queue, p > 0) :
    PhaseDInv s.high_queue s.med_queue s.low_queue (reservedFill s) ∧
    (reservedFill s).cores.length = CORECOUNT := by
  have e1 : HIGHRES = 8 := rfl
  have e2 : MEDRES = 5 := rfl
  have e3 : CORECOUNT = 16 := rfl
  have hslot : ∀ j, j < 16 → s.cores[j]? = some (-1) := by
    intro j hj
    rw [hc, e3, List.getElem?_replicate]
    simp [hj]
  have h0 : PhaseDInv s.high_queue s.med_queue s.low_queue s ∧ s.cores.length = CORECOUNT :=
    ⟨phaseDInv_start s hc, by rw [hc]; simp⟩
  obtain ⟨a1, a2⟩ := fold_slots
    (fun t => PhaseDInv s.high_queue s.med_queue s.low_queue t ∧ t.cores.length = CORECOUNT)
    takeHigh
    (fun i t ht hi => ⟨phaseDInv_takeHigh _ _ _ t i ht.1 hi hH,
      by rw [takeHigh_cores_length]; exact ht.2⟩)
    takeHigh_cores_ne (List.range' 0 8) s (List.nodup_range' 0 8) h0
    (fun i hi => hslot i (by simp [List.mem_range'_1] at hi; omega))
  obtain ⟨b1, b2⟩ := fold_slots
    (fun t => PhaseDInv s.high_queue s.med_queue s.low_queue t ∧ t.cores.length = CORECOUNT)
    takeMed
    (fun i t ht hi => ⟨phaseDInv_takeMed _ _ _ t i ht.1 hi hM,
      by rw [takeMed_cores_length]; exact ht.2⟩)
    takeMed_cores_ne (List.range' 8 5) _ (List.nodup_range' 8 5) a1
    (fun i hi => by
      simp [List.mem_range'_1] at hi
      rw [a2 i (by simp [List.mem_range'_1]; omega)]
      exact hslot i (by omega))
  obtain ⟨c1, _⟩ := fold_slots
    (fun t => PhaseDInv s.high_queue s.med_queue s.low_queue t ∧ t.cores.length = CORECOUNT)
    takeLow
    (fun i t ht hi => ⟨phaseDInv_takeLow _ _ _ t i ht.1 hi hL,
      by rw [takeLow_cores_length]; exact ht.2⟩)
    takeLow_cores_ne (List.range' 13 3) _ (List.nodup_range' 13 3) b1
    (fun i hi => by
      simp [List.mem_range'_1] at hi
      rw [b2 i (by simp [List.mem_range'_1]; omega), a2 i (by simp [List.mem_range'_1]; omega)]
      exact hslot i (by omega))
  simpa [reservedFill, e1, e2, e3] using c1

/-! ## Phase D: the loop over all cores -/

theorem spillStep_inv (H M L : List Int) (s : Sim) (i : Nat) (hi : i < CORECOUNT)
    (hinv : PhaseDInv H M L s ∧ s.cores.length = CORECOUNT)
    (hH : ∀ p ∈ H, p > 0) (hM : ∀ p ∈ M, p > 0) (hL : ∀ p ∈ L, p > 0) :
    PhaseDInv H M L (spillStep i s) ∧ (spillStep i s).cores.length = CORECOUNT := by
  unfold spillStep
  have hlt : i < s.cores.length := by rw [hinv.2]; exact hi
  by_cases hc : s.cores.getD i (-1) = -1
  · have hs : s.cores[i]? = some (-1) := by
      rw [List.getD_eq_getElem?_getD, List.getElem?_eq_getElem hlt] at hc
      rw [List.getElem?_eq_getElem hlt]
      simpa using hc
    rw [if_pos hc]
    split_ifs
    · exact ⟨phaseDInv_takeHigh H M L s i hinv.1 hs hH, by rw [takeHigh_cores_length]; exact hinv.2⟩
    · exact ⟨phaseDInv_takeMed H M L s i hinv.1 hs hM, by rw [takeMed_cores_length]; exact hinv.2⟩
    · exact ⟨phaseDInv_takeLow H M L s i hinv.1 hs hL, by rw [takeLow_cores_length]; exact hinv.2⟩
    · exact hinv
  · rw [if_neg hc]; exact hinv

theorem spillStep_empty (i : Nat) (s : Sim)
    (h : s.high_queue = [] ∧ s.med_queue = [] ∧ s.low_queue = []) : spillStep i s = s := by
  simp [spillStep, h.1, h.2.1, h.2.2]

theorem spillStep_keep (i j : Nat) (s : Sim) (c : Int) (hj : s.cores[j]? = some c)
    (hc : c ≠ -1) : (spillStep i s).cores[j]? = some c := by
  unfold spillStep
  by_cases hij : i = j
  · subst hij
    have : ¬ s.cores.getD i (-1) = -1 := by
      rw [List.getD_eq_getElem?_getD, hj]; simpa using hc
    rw [if_neg this]; exact hj
  · split_ifs
    · rw [takeHigh_cores_ne i j s hij]; exact hj
    · rw [takeMed_cores_ne i j s hij]; exact hj
    · rw [takeLow_cores_ne i j s hij]; exact hj
    · exact hj
    · exact hj

theorem spillStep_fills (H M L : List Int) (s : Sim) (i : Nat) (hi : i < CORECOUNT)
    (hinv : PhaseDInv H M L s ∧ s.cores.length = CORECOUNT)
    (hH : ∀ p ∈ H, p > 0) (hM : ∀ p ∈ M, p > 0) (hL : ∀ p ∈ L, p > 0) :
    (∃ c, (spillStep i s).cores[i]? = some c ∧ c ≠ -1) ∨
    ((spillStep i s).high_queue = [] ∧ (spillStep i s).med_queue = [] ∧
      (spillStep i s).low_queue = []) := by
  have hlt : i < s.cores.length := by rw [hinv.2]; exact hi
  obtain ⟨kh, km, kl, _, _, _, h4, h5, h6, _, _⟩ := hinv.1
  unfold spillStep
  by_cases hc : s.cores.getD i (-1) = -1
  · rw [if_pos hc]
    cases hq : s.high_queue with
    | cons p q =>
      left
      have hp : p > 0 := hH p (drop_eq_cons_facts H kh p q (h4 ▸ hq)).2.2.2
      refine ⟨p, ?_, by omega⟩
      simp [(takeHigh_cons i s p q hq).2.2.2.2, hlt]
    | nil =>
      cases hq2 : s.med_queue with
      | cons p q =>
        left
        have hp : p > 0 := hM p (drop_eq_cons_facts M km p q (h5 ▸ hq2)).2.2.2
        refine ⟨p, ?_, by omega⟩
        simp [(takeMed_cons i s p q hq2).2.2.2.2, hlt]
      | nil =>
        cases hq3 : s.low_queue with
        | cons p q =>
          left
          have hp : p > 0 := hL p (drop_eq_cons_facts L kl p q (h6 ▸ hq3)).2.2.2
          refine ⟨p, ?_, by omega⟩
          simp [(takeLow_cons i s p q hq3).2.2.2.2, hlt]
        | nil =>
          right
          simp [hq, hq2, hq3]
  · rw [if_neg hc]
    left
    refine ⟨s.cores[i], List.getElem?_eq_getElem hlt, ?_⟩
    rw [List.getD_eq_getElem?_getD, List.getElem?_eq_getElem hlt] at hc
    simpa using hc

theorem spill_fold (H M L : List Int)
    (hH : ∀ p ∈ H, p > 0) (hM : ∀ p ∈ M, p > 0) (hL : ∀ p ∈ L, p > 0) :
    ∀ (is : List Nat) (s : Sim), (∀ i ∈ is, i < CORECOUNT) →
      (PhaseDInv H M L s ∧ s.cores.length = CORECOUNT) →
      (PhaseDInv H M L (is.foldl (fun t i => spillStep i t) s) ∧
        (is.foldl (fun t i => spillStep i t) s).cores.length = CORECOUNT) ∧
      (∀ (j : Nat) (c : Int), s.cores[j]? = some c → c ≠ -1 →
        (is.foldl (fun t i => spillStep i t) s).cores[j]? = some c) ∧
      ((∀ j ∈ is, ∃ c, (is.foldl (fun t i => spillStep i t) s).cores[j]? = some c ∧ c ≠ -1) ∨
        ((is.foldl (fun t i => spillStep i t) s).high_queue = [] ∧
         (is.foldl (fun t i => spillStep i t) s).med_queue = [] ∧
         (is.foldl (fun t i => spillStep i t) s).low_queue = [])) := by
  intro is
  induction is with
  | nil =>
    intro s _ hinv
    refine ⟨hinv, ?_, Or.inl ?_⟩
    · intro j c h _; exact h
    · intro j hj; simp at hj
  | cons i is ih =>
    intro s hall hinv
    have hi : i < CORECOUNT := hall i (List.mem_cons_self i is)
    have h1 := spillStep_inv H M L s i hi hinv hH hM hL
    obtain ⟨r1, r2, r3⟩ := ih (spillStep i s) (fun j hj => hall j (List.mem_cons_of_mem i hj)) h1
    rw [List.foldl_cons]
    refine ⟨r1, ?_, ?_⟩
    · intro j c hj hc
      exact r2 j c (spillStep_keep i j s c hj hc) hc
    rcases r3 with r3 | r3
    · rcases spillStep_fills H M L s i hi hinv hH hM hL with ⟨c, hc1, hc2⟩ | hq
      · left
        intro j hj
        rcases List.mem_cons.1 hj with e | e
        · subst e; exact ⟨c, r2 j c hc1 hc2, hc2⟩
        · exact r3 j e
      · right
        have hfix : ∀ (l : List Nat) (t : Sim),
            (t.high_queue = [] ∧ t.med_queue = [] ∧ t.low_queue = []) →
            l.foldl (fun t i => spillStep i t) t = t := by
          intro l
          induction l with
          | nil => intro t _; rfl
          | cons a l ihl => intro t ht; rw [List.foldl_cons, spillStep_empty a t ht, ihl t ht]
        rw [hfix is _ hq]; exact hq
    · exact Or.inr r3

/-! ## Phase D: summary of the whole phase -/

theorem occupied_eq_length_filter (s : Sim) :
    occupied s = (s.cores.filter (fun c => decide (c > 0))).length := by
  unfold occupied
  rw [List.countP_eq_length_filter]

theorem phaseD_facts (s : Sim) (hc : s.cores = List.replicate CORECOUNT (-1))
    (hv : ∀ p ∈ s.high_queue ++ s.med_queue ++ s.low_queue, PIDMIN ≤ p) :
    (PhaseDInv s.high_queue s.med_queue s.low_queue (phaseD s) ∧
      (phaseD s).cores.length = CORECOUNT) ∧
    (∀ (j : Nat) (c : Int), (reservedFill s).cores[j]? = some c → c ≠ -1 →
      (phaseD s).cores[j]? = some c) ∧
    ((∀ j ∈ List.range CORECOUNT, ∃ c, (phaseD s).cores[j]? = some c ∧ c ≠ -1) ∨
      ((phaseD s).high_queue = [] ∧ (phaseD s).med_queue = [] ∧ (phaseD s).low_queue = [])) := by
  have hH : ∀ p ∈ s.high_queue, p > 0 := fun p hp => by
    have := hv p (by simp [hp]); unfold PIDMIN at this; omega
  have hM : ∀ p ∈ s.med_queue, p > 0 := fun p hp => by
    have := hv p (by simp [hp]); unfold PIDMIN at this; omega
  have hL : ∀ p ∈ s.low_queue, p > 0 := fun p hp => by
    have := hv p (by simp [hp]); unfold PIDMIN at this; omega
  exact spill_fold s.high_queue s.med_queue s.low_queue hH hM hL (List.range CORECOUNT)
    (reservedFill s) (fun i hi => List.mem_range.1 hi) (reservedFill_inv s hc hH hM hL)

theorem length_of_count_eq (l1 l2 : List Int) (h : ∀ x, l1.count x = l2.count x) :
    l1.length = l2.length :=
  (List.perm_iff_count.2 h).length_eq

theorem occupied_of_inv (H M L : List Int) (s : Sim) (kh km kl : Nat)
    (h1 : kh ≤ H.length) (h2 : km ≤ M.length) (h3 : kl ≤ L.length)
    (h7 : ∀ x : Int, (s.cores.filter (fun c => decide (c > 0))).count x
      = (H.take kh).count x + (M.take km).count x + (L.take kl).count x) :
    occupied s = kh + km + kl := by
  rw [occupied_eq_length_filter,
    length_of_count_eq _ (H.take kh ++ M.take km ++ L.take kl) (by
      intro x; rw [h7 x]; simp [List.count_append]; omega)]
  simp [List.length_take, Nat.min_eq_left h1, Nat.min_eq_left h2, Nat.min_eq_left h3]
  omega

theorem all_filled_occupied (cs : List Int) (n : Nat) (hlen : cs.length = n)
    (hpos : ∀ c ∈ cs, c = -1 ∨ c > 0)
    (hall : ∀ j ∈ List.range n, ∃ c, cs[j]? = some c ∧ c ≠ -1) :
    cs.countP (fun c => decide (c > 0)) = n := by
  rw [← hlen, List.countP_eq_length]
  intro c hc
  obtain ⟨j, hj, e⟩ := List.getElem_of_mem hc
  obtain ⟨c1, e1, e2⟩ := hall j (List.mem_range.2 (hlen ▸ hj))
  rw [List.getElem?_eq_getElem hj, e] at e1
  injection e1 with e1
  rcases hpos c hc with h | h
  · exact absurd (e1 ▸ h) e2
  · simpa using h

/-- What Phase D does, from a state with all cores -1: the queues lose
prefixes of lengths `kh`, `km`, `kl`, the cores hold what was popped, and in
the end every core is taken or the three queues are empty. -/
theorem phaseD_summary (s : Sim) (hc : s.cores = List.replicate CORECOUNT (-1))
    (hv : ∀ p ∈ s.high_queue ++ s.med_queue ++ s.low_queue, PIDMIN ≤ p) :
    ∃ kh km kl : Nat, kh ≤ s.high_queue.length ∧ km ≤ s.med_queue.length ∧
      kl ≤ s.low_queue.length ∧
      (phaseD s).high_queue = s.high_queue.drop kh ∧
      (phaseD s).med_queue = s.med_queue.drop km ∧
      (phaseD s).low_queue = s.low_queue.drop kl ∧
      List.Perm ((phaseD s).cores.filter (fun c => decide (c > 0)))
        (s.high_queue.take kh ++ s.med_queue.take km ++ s.low_queue.take kl) ∧
      occupied (phaseD s) = kh + km + kl ∧
      kh + km + kl ≤ CORECOUNT ∧
      (kh + km + kl = CORECOUNT ∨
        (kh = s.high_queue.length ∧ km = s.med_queue.length ∧ kl = s.low_queue.length)) := by
  obtain ⟨⟨⟨kh, km, kl, h1, h2, h3, h4, h5, h6, h7, h8⟩, hlen⟩, _, hfin⟩ := phaseD_facts s hc hv
  have hocc := occupied_of_inv _ _ _ (phaseD s) kh km kl h1 h2 h3 h7
  have hle : occupied (phaseD s) ≤ CORECOUNT := by
    unfold occupied; rw [← hlen]; exact List.countP_le_length _
  refine ⟨kh, km, kl, h1, h2, h3, h4, h5, h6, ?_, hocc, hocc ▸ hle, ?_⟩
  · apply List.perm_iff_count.2
    intro x; rw [h7 x]; simp [List.count_append]; omega
  · rcases hfin with hall | hq
    · left
      rw [← hocc]
      exact all_filled_occupied _ _ hlen h8 hall
    · right
      rw [h4, h5, h6] at hq
      simp only [List.drop_eq_nil_iff] at hq
      omega

/-! ## Phase D: the claims -/

theorem reservedFill_slots (s : Sim) (hc : s.cores = List.replicate CORECOUNT (-1)) :
    (∀ j, j < min s.high_queue.length HIGHRES →
      (reservedFill s).cores[j]? = s.high_queue[j]?) ∧
    (∀ j, j < min s.med_queue.length MEDRES →
      (reservedFill s).cores[HIGHRES + j]? = s.med_queue[j]?) ∧
    (∀ j, j < min s.low_queue.length LOWRES →
      (reservedFill s).cores[HIGHRES + MEDRES + j]? = s.low_queue[j]?) := by
  have e1 : HIGHRES = 8 := rfl
  have e2 : MEDRES = 5 := rfl
  have e3 : CORECOUNT = 16 := rfl
  have e4 : LOWRES = 3 := rfl
  have hlen : s.cores.length = 16 := by rw [hc]; simp [e3]
  simp only [reservedFill, e1, e2, e3, e4]
  have l1 : ((List.range' 0 8).foldl (fun t i => takeHigh i t) s).cores.length = 16 := by
    rw [fold_keeps (fun t => t.cores.length) takeHigh takeHigh_cores_length]; exact hlen
  have l2 : ((List.range' 8 5).foldl (fun t i => takeMed i t)
      ((List.range' 0 8).foldl (fun t i => takeHigh i t) s)).cores.length = 16 := by
    rw [fold_keeps (fun t => t.cores.length) takeMed takeMed_cores_length]; exact l1
  have m1 : ((List.range' 0 8).foldl (fun t i => takeHigh i t) s).med_queue = s.med_queue :=
    fold_keeps (fun t => t.med_queue) takeHigh takeHigh_med_queue _ s
  have w1 : ((List.range' 0 8).foldl (fun t i => takeHigh i t) s).low_queue = s.low_queue :=
    fold_keeps (fun t => t.low_queue) takeHigh takeHigh_low_queue _ s
  have w2 : ((List.range' 8 5).foldl (fun t i => takeMed i t)
      ((List.range' 0 8).foldl (fun t i => takeHigh i t) s)).low_queue = s.low_queue := by
    rw [fold_keeps (fun t => t.low_queue) takeMed takeMed_low_queue]; exact w1
  refine ⟨fun j hj => ?_, fun j hj => ?_, fun j hj => ?_⟩
  · rw [fold_frame takeLow takeLow_cores_ne _ _ j (by simp [List.mem_range'_1]; omega),
      fold_frame takeMed takeMed_cores_ne _ _ j (by simp [List.mem_range'_1]; omega),
      fold_takeHigh_cores, setRange_getElem?]
    have hcond : 0 ≤ j ∧ j < 0 + (List.take 8 s.high_queue).length ∧ j < s.cores.length := by
      simp only [List.length_take]; omega
    rw [if_pos hcond, Nat.sub_zero, List.getElem?_take_of_lt (by omega)]
  · rw [fold_frame takeLow takeLow_cores_ne _ _ (8 + j) (by simp [List.mem_range'_1]; omega),
      fold_takeMed_cores, setRange_getElem?, m1]
    have hcond : 8 ≤ 8 + j ∧ 8 + j < 8 + (List.take 5 s.med_queue).length ∧
        8 + j < ((List.range' 0 8).foldl (fun t i => takeHigh i t) s).cores.length := by
      simp only [List.length_take]; omega
    rw [if_pos hcond, Nat.add_sub_cancel_left, List.getElem?_take_of_lt (by omega)]
  · rw [fold_takeLow_cores, setRange_getElem?, w2]
    have hcond : 8 + 5 ≤ 8 + 5 + j ∧ 8 + 5 + j < 8 + 5 + (List.take (16 - (8 + 5)) s.low_queue).length ∧
        8 + 5 + j < ((List.range' 8 5).foldl (fun t i => takeMed i t)
          ((List.range' 0 8).foldl (fun t i => takeHigh i t) s)).cores.length := by
      simp only [List.length_take]; omega
    rw [if_pos hcond, Nat.add_sub_cancel_left, List.getElem?_take_of_lt (by omega)]

theorem phaseD_reserved_slots (s : Sim)
    (hc : s.cores = List.replicate CORECOUNT (-1))
    (hv : ∀ p ∈ s.high_queue ++ s.med_queue ++ s.low_queue, PIDMIN ≤ p) :
    (∀ j, j < min s.high_queue.length HIGHRES →
      (phaseD s).cores[j]? = s.high_queue[j]?) ∧
    (∀ j, j < min s.med_queue.length MEDRES →
      (phaseD s).cores[HIGHRES + j]? = s.med_queue[j]?) ∧
    (∀ j, j < min s.low_queue.length LOWRES →
      (phaseD s).cores[HIGHRES + MEDRES + j]? = s.low_queue[j]?) := by
  obtain ⟨_, hkeep, _⟩ := phaseD_facts s hc hv
  obtain ⟨r1, r2, r3⟩ := reservedFill_slots s hc
  have hne : ∀ (q : List Int) (j : Nat), (∀ p ∈ q, PIDMIN ≤ p) → j < q.length →
      ∃ c, q[j]? = some c ∧ c ≠ -1 := by
    intro q j hq hj
    refine ⟨q[j], List.getElem?_eq_getElem hj, ?_⟩
    have := hq q[j] (List.getElem_mem hj)
    unfold PIDMIN at this; omega
  refine ⟨fun j hj => ?_, fun j hj => ?_, fun j hj => ?_⟩
  · obtain ⟨c, e1, e2⟩ := hne s.high_queue j (fun p hp => hv p (by simp [hp])) (by omega)
    rw [e1]; exact hkeep j c (by rw [r1 j hj, e1]) e2
  · obtain ⟨c, e1, e2⟩ := hne s.med_queue j (fun p hp => hv p (by simp [hp])) (by omega)
    rw [e1]; exact hkeep _ c (by rw [r2 j hj, e1]) e2
  · obtain ⟨c, e1, e2⟩ := hne s.low_queue j (fun p hp => hv p (by simp [hp])) (by omega)
    rw [e1]; exact hkeep _ c (by rw [r3 j hj, e1]) e2

/-- C5: from a state with all sixteen cores empty and process ids in the
ready queues, after Phase D slot `j` holds the `j`-th process of the high
queue for `j < min h 8`, slot `8 + j` the `j`-th of the medium queue for
`j < min m 5` and slot `13 + j` the `j`-th of the low queue for `j < min l 3`;
the three reserved ranges have sizes 8, 5 and 3, which add up to the 16 cores,
and the low loop runs over the last `LOWRES` slots. -/
theorem C5_reserved_slots_hold_queue_fronts (s : Sim)
    (hc : s.cores = List.replicate CORECOUNT (-1))
    (hv : ∀ p ∈ s.high_queue ++ s.med_queue ++ s.low_queue, PIDMIN ≤ p) :
    (∀ j, j < min s.high_queue.length HIGHRES →
      (phaseD s).cores[j]? = s.high_queue[j]?) ∧
    (∀ j, j < min s.med_queue.length MEDRES →
      (phaseD s).cores[HIGHRES + j]? = s.med_queue[j]?) ∧
    (∀ j, j < min s.low_queue.length LOWRES →
      (phaseD s).cores[HIGHRES + MEDRES + j]? = s.low_queue[j]?) ∧
    HIGHRES = 8 ∧ MEDRES = 5 ∧ LOWRES = 3 ∧ HIGHRES + MEDRES + LOWRES = CORECOUNT ∧
    CORECOUNT - (HIGHRES + MEDRES) = LOWRES := by
  obtain ⟨r1, r2, r3⟩ := phaseD_reserved_slots s hc hv
  exact ⟨r1, r2, r3, rfl, rfl, rfl, rfl, rfl⟩

set_option maxRecDepth 100000 in
/-- Witness of C5 on the first pass over `mixedLoad` (ten high, two medium,
five low). -/
theorem C5_reserved_slots_witness :
    (initSim mixedLoad).cores = List.replicate CORECOUNT (-1) ∧
    (initSim mixedLoad).high_queue.length = 10 ∧
    (∀ j, j < min (initSim mixedLoad).low_queue.length LOWRES →
      (phaseD (initSim mixedLoad)).cores[HIGHRES + MEDRES + j]?
        = (initSim mixedLoad).low_queue[j]?) :=
  ⟨by decide, by decide,
    (C5_reserved_slots_hold_queue_fronts (initSim mixedLoad) (by decide) (by decide)).2.2.1⟩

/-- C6: from a state with all sixteen cores empty and process ids in the
ready queues, the number of occupied cores after Phase D is
`min 16 (h + m + l)`, and after Phase D all sixteen cores are occupied or the
three ready queues are empty. -/
theorem C6_phaseD_work_conserving (s : Sim)
    (hc : s.cores = List.replicate CORECOUNT (-1))
    (hv : ∀ p ∈ s.high_queue ++ s.med_queue ++ s.low_queue, PIDMIN ≤ p) :
    occupied (phaseD s)
      = min CORECOUNT (s.high_queue.length + s.med_queue.length + s.low_queue.length) ∧
    (occupied (phaseD s) = CORECOUNT ∨
      ((phaseD s).high_queue = [] ∧ (phaseD s).med_queue = [] ∧ (phaseD s).low_queue = [])) := by
  obtain ⟨kh, km, kl, h1, h2, h3, h4, h5, h6, _, hocc, hle, hfin⟩ := phaseD_summary s hc hv
  rw [hocc]
  rcases hfin with h | ⟨a, b, c⟩
  · exact ⟨by omega, Or.inl h⟩
  · refine ⟨by omega, Or.inr ?_⟩
    rw [h4, h5, h6, a, b, c]
    simp

set_option maxRecDepth 100000 in
/-- Witness of C6 on the first pass over `mixedLoad`: seventeen processes,
sixteen cores occupied. -/
theorem C6_phaseD_work_conserving_witness :
    (initSim mixedLoad).high_queue.length + (initSim mixedLoad).med_queue.length
      + (initSim mixedLoad).low_queue.length = 17 ∧
    occupied (phaseD (initSim mixedLoad))
      = min CORECOUNT ((initSim mixedLoad).high_queue.length
          + (initSim mixedLoad).med_queue.length + (initSim mixedLoad).low_queue.length) :=
  ⟨by decide, (C6_phaseD_work_conserving (initSim mixedLoad) (by decide) (by decide)).1⟩

/-! ## Phase D: order within a queue -/

theorem take_closed_downward (l : List Int) (k i j : Nat) (p q : Int) (hnd : l.Nodup)
    (hij : i < j) (hp : l[i]? = some p) (hq : l[j]? = some q) (hin : q ∈ l.take k) :
    p ∈ l.take k := by
  obtain ⟨j1, hj1, e⟩ := List.mem_take_iff_getElem.1 hin
  have hjl : j < l.length := by
    by_contra h
    rw [List.getElem?_eq_none (Nat.le_of_not_lt h)] at hq
    exact Option.noConfusion hq
  have e2 : l[j1]? = l[j]? := by
    rw [hq, List.getElem?_eq_getElem (by omega), e]
  have hjj : j1 = j := List.getElem?_inj (by omega) hnd e2
  have hil : i < l.length := by omega
  rw [List.getElem?_eq_getElem hil] at hp
  injection hp with hp
  exact List.mem_take_iff_getElem.2 ⟨i, by omega, hp⟩

theorem mem_of_getElem? (l : List Int) (j : Nat) (q : Int) (h : l[j]? = some q) : q ∈ l := by
  have hjl : j < l.length := by
    by_contra hh
    rw [List.getElem?_eq_none (Nat.le_of_not_lt hh)] at h
    exact Option.noConfusion h
  rw [List.getElem?_eq_getElem hjl] at h
  injection h with h
  exact h ▸ List.getElem_mem hjl

/-- C8: from a state with all sixteen cores empty and process ids in the
ready queues, Phase D pops a prefix of each ready queue (of lengths `kh`, `km`,
`kl`), leaves the rest of each queue in its order, and the processes on the
cores are exactly the three popped prefixes; so, when no id is queued twice,
a process on a core after Phase D has every process that stood before it in its
queue on a core as well. -/
theorem C8_phaseD_pops_prefixes (s : Sim)
    (hc : s.cores = List.replicate CORECOUNT (-1))
    (hv : ∀ p ∈ s.high_queue ++ s.med_queue ++ s.low_queue, PIDMIN ≤ p) :
    ∃ kh km kl : Nat,
      (phaseD s).high_queue = s.high_queue.drop kh ∧
      (phaseD s).med_queue = s.med_queue.drop km ∧
      (phaseD s).low_queue = s.low_queue.drop kl ∧
      List.Perm ((phaseD s).cores.filter (fun c => decide (c > 0)))
        (s.high_queue.take kh ++ s.med_queue.take km ++ s.low_queue.take kl) ∧
      ((s.high_queue ++ s.med_queue ++ s.low_queue).Nodup →
        ∀ (i j : Nat) (p q : Int), i < j → q ∈ (phaseD s).cores →
          ((s.high_queue[i]? = some p ∧ s.high_queue[j]? = some q) ∨
           (s.med_queue[i]? = some p ∧ s.med_queue[j]? = some q) ∨
           (s.low_queue[i]? = some p ∧ s.low_queue[j]? = some q)) →
          p ∈ (phaseD s).cores) := by
  obtain ⟨kh, km, kl, _, _, _, h4, h5, h6, hperm, _, _, _⟩ := phaseD_summary s hc hv
  refine ⟨kh, km, kl, h4, h5, h6, hperm, ?_⟩
  intro hnd i j p q hij hq hcase
  rw [List.append_assoc, List.nodup_append, List.nodup_append] at hnd
  obtain ⟨ndH, ⟨ndM, ndL, dML⟩, dH⟩ := hnd
  have hmem : ∀ x, x ∈ (phaseD s).cores → PIDMIN ≤ x →
      x ∈ s.high_queue.take kh ++ s.med_queue.take km ++ s.low_queue.take kl := by
    intro x hx hpos
    apply hperm.mem_iff.1
    rw [List.mem_filter]
    refine ⟨hx, ?_⟩
    unfold PIDMIN at hpos
    simp only [gt_iff_lt, decide_eq_true_eq]; omega
  have hback : ∀ x, x ∈ s.high_queue.take kh ++ s.med_queue.take km ++ s.low_queue.take kl →
      x ∈ (phaseD s).cores := by
    intro x hx
    exact (List.mem_filter.1 (hperm.mem_iff.2 hx)).1
  rcases hcase with ⟨hp1, hq1⟩ | ⟨hp1, hq1⟩ | ⟨hp1, hq1⟩
  · have hqH : q ∈ s.high_queue := mem_of_getElem? _ _ _ hq1
    have h := hmem q hq (hv q (by simp [hqH]))
    simp only [List.mem_append] at h
    have hin : q ∈ s.high_queue.take kh := by
      rcases h with (h | h) | h
      · exact h
      · exact absurd (List.mem_append_left _ (List.mem_of_mem_take h)) (fun h2 => dH hqH h2)
      · exact absurd (List.mem_append_right _ (List.mem_of_mem_take h)) (fun h2 => dH hqH h2)
    exact hback p (by
      simp only [List.mem_append]
      exact Or.inl (Or.inl (take_closed_downward _ kh i j p q ndH hij hp1 hq1 hin)))
  · have hqM : q ∈ s.med_queue := mem_of_getElem? _ _ _ hq1
    have h := hmem q hq (hv q (by simp [hqM]))
    simp only [List.mem_append] at h
    have hin : q ∈ s.med_queue.take km := by
      rcases h with (h | h) | h
      · exact absurd (List.mem_append_left _ hqM) (fun h2 => dH (List.mem_of_mem_take h) h2)
      · exact h
      · exact absurd (List.mem_of_mem_take h) (fun h2 => dML hqM h2)
    exact hback p (by
      simp only [List.mem_append]
      exact Or.inl (Or.inr (take_closed_downward _ km i j p q ndM hij hp1 hq1 hin)))
  · have hqL : q ∈ s.low_queue := mem_of_getElem? _ _ _ hq1
    have h := hmem q hq (hv q (by simp [hqL]))
    simp only [List.mem_append] at h
    have hin : q ∈ s.low_queue.take kl := by
      rcases h with (h | h) | h
      · exact absurd (List.mem_append_right _ hqL) (fun h2 => dH (List.mem_of_mem_take h) h2)
      · exact absurd hqL (fun h2 => dML (List.mem_of_mem_take h) h2)
      · exact h
    exact hback p (by
      simp only [List.mem_append]
      exact Or.inr (take_closed_downward _ kl i j p q ndL hij hp1 hq1 hin))

set_option maxRecDepth 100000 in
/-- Witness of C8 on the first pass over `mixedLoad`. -/
theorem C8_phaseD_pops_prefixes_witness :
    (initSim mixedLoad).high_queue = [30, 31, 32, 33, 34, 35, 36, 37, 38, 39] ∧
    ∃ kh km kl : Nat,
      (phaseD (initSim mixedLoad)).high_queue = (initSim mixedLoad).high_queue.drop kh ∧
      (phaseD (initSim mixedLoad)).med_queue = (initSim mixedLoad).med_queue.drop km ∧
      (phaseD (initSim mixedLoad)).low_queue = (initSim mixedLoad).low_queue.drop kl ∧
      List.Perm ((phaseD (initSim mixedLoad)).cores.filter (fun c => decide (c > 0)))
        ((initSim mixedLoad).high_queue.take kh ++ (initSim mixedLoad).med_queue.take km
          ++ (initSim mixedLoad).low_queue.take kl) := by
  refine ⟨by decide, ?_⟩
  obtain ⟨kh, km, kl, h1, h2, h3, h4, _⟩ :=
    C8_phaseD_pops_prefixes (initSim mixedLoad) (by decide) (by decide)
  exact ⟨kh, km, kl, h1, h2, h3, h4⟩

/-! ## The loop invariant: steps that move no process -/

/-- A state with the same queues and cores, and records that agree in state,
priority and cpu bursts, satisfies the invariant as well. -/
theorem WF_of_same (n : Nat) (s t : Sim) (h : WF n s)
    (e1 : t.high_queue = s.high_queue) (e2 : t.med_queue = s.med_queue)
    (e3 : t.low_queue = s.low_queue) (e4 : t.wait_queue = s.wait_queue)
    (e5 : t.cores = s.cores) (e6 : t.proc_blocks.length = s.proc_blocks.length)
    (e7 : ∀ pid, (getPCB t.proc_blocks pid).STATE = (getPCB s.proc_blocks pid).STATE)
    (e8 : ∀ pid, (getPCB t.proc_blocks pid).PRIORITY = (getPCB s.proc_blocks pid).PRIORITY)
    (e9 : ∀ pid, (getPCB t.proc_blocks pid).CPU_TIME = (getPCB s.proc_blocks pid).CPU_TIME) :
    WF n t := by
  refine ⟨by rw [e6]; exact h.lenP, by rw [e5]; exact h.lenC, ?_, ?_, ?_, ?_, ?_⟩
  · intro pid hv; rw [e8]; exact h.prio pid hv
  · intro pid hm; rw [e1, e2, e3, e4] at hm; exact h.qv pid hm
  · intro pid hm; rw [e5] at hm; exact h.cv pid hm
  · intro pid hv
    have := h.one pid hv
    unfold occ at this ⊢
    rw [e1, e2, e3, e4, e5, e7]; exact this
  · intro pid hm hv; rw [e1, e2, e3, e5] at hm; rw [e9]; exact h.cpu pid hm hv

theorem WF_phaseA (n : Nat) (s : Sim) (h : WF n s) : WF n (phaseA s) := by
  apply WF_of_same n s (phaseA s) h rfl rfl rfl rfl rfl
  · simp [phaseA]
  · intro pid; unfold phaseA
    apply proj_getPCB_map PCB.STATE; intro r; split <;> rfl
  · intro pid; unfold phaseA
    apply proj_getPCB_map PCB.PRIORITY; intro r; split <;> rfl
  · intro pid; unfold phaseA
    apply proj_getPCB_map PCB.CPU_TIME; intro r; split <;> rfl

theorem WF_phaseC (n : Nat) (s : Sim) (h : WF n s) : WF n (phaseC s) := by
  apply WF_of_same n s (phaseC s) h rfl rfl rfl rfl rfl
  · simp [phaseC]
  · intro pid; unfold phaseC
    apply proj_getPCB_map PCB.STATE; intro r; split <;> rfl
  · intro pid; unfold phaseC
    apply proj_getPCB_map PCB.PRIORITY; intro r; split <;> rfl
  · intro pid; unfold phaseC
    apply proj_getPCB_map PCB.CPU_TIME; intro r; split <;> rfl

theorem WF_creditWait (n : Nat) (s : Sim) (b : Int) (h : WF n s) : WF n (creditWait s b) := by
  apply WF_of_same n s (creditWait s b) h rfl rfl rfl rfl rfl
  · simp [creditWait]
  · intro pid; unfold creditWait
    apply proj_getPCB_map PCB.STATE; intro r; split <;> rfl
  · intro pid; unfold creditWait
    apply proj_getPCB_map PCB.PRIORITY; intro r; split <;> rfl
  · intro pid; unfold creditWait
    apply proj_getPCB_map PCB.CPU_TIME; intro r; split <;> rfl

theorem WF_checkDone (n : Nat) (s : Sim) (h : WF n s) : WF n (checkDone s) := by
  unfold checkDone
  split
  · exact WF_of_same n s _ h rfl rfl rfl rfl rfl rfl (fun _ => rfl) (fun _ => rfl) (fun _ => rfl)
  · exact h

theorem WF_ioOverflow (n : Nat) (s : Sim) (p b d : Int) (h : WF n s) :
    WF n (ioOverflow s p b d) := by
  apply WF_of_same n s (ioOverflow s p b d) h rfl rfl rfl rfl rfl
  · simp [ioOverflow, creditWait, Sim.upd, length_updPCB]
  · intro pid
    simp [ioOverflow, state_creditWait, Sim.upd, STATE_updPCB]
  · intro pid
    unfold ioOverflow creditWait
    simp only [Sim.upd]
    rw [proj_getPCB_map PCB.PRIORITY _ _ _ (by intro r; split <;> rfl)]
    simp [PRIORITY_updPCB]
  · intro pid
    unfold ioOverflow creditWait
    simp only [Sim.upd]
    rw [proj_getPCB_map PCB.CPU_TIME _ _ _ (by intro r; split <;> rfl)]
    simp [CPU_TIME_updPCB]

/-! ## The loop invariant: steps that move one process -/

theorem count_set_slot (cs : List Int) (i : Nat) (a b x : Int) (hi : cs[i]? = some a) :
    (cs.set i b).count x + (if a = x then 1 else 0) = cs.count x + (if b = x then 1 else 0) := by
  induction cs generalizing i with
  | nil => simp at hi
  | cons c cs ih =>
    cases i with
    | zero =>
      simp at hi
      subst hi
      simp [List.count_cons]
      omega
    | succ i =>
      simp at hi
      have := ih i hi
      simp [List.count_cons]
      omega

theorem validPid_ne_neg_one (n : Nat) (pid : Int) (h : ValidPid n pid) : pid ≠ -1 := by
  have := h.1
  unfold PIDMIN at this
  omega

/-- A step that moves the one process `c` and leaves every other process where
it is keeps the invariant, when `c` is in exactly one place afterwards and
has a cpu burst left if that place is a ready queue or a core. -/
theorem WF_of_move (n : Nat) (s t : Sim) (c : Int) (h : WF n s) (hv : ValidPid n c)
    (H1 : t.proc_blocks.length = s.proc_blocks.length)
    (H2 : ∀ pid, pid ≠ c → getPCB t.proc_blocks pid = getPCB s.proc_blocks pid)
    (H3 : (getPCB t.proc_blocks c).PRIORITY = (getPCB s.proc_blocks c).PRIORITY)
    (H4 : ∀ pid, pid ≠ c → t.high_queue.count pid = s.high_queue.count pid ∧
      t.med_queue.count pid = s.med_queue.count pid ∧
      t.low_queue.count pid = s.low_queue.count pid ∧
      t.wait_queue.count pid = s.wait_queue.count pid)
    (H5 : ∀ pid, pid ≠ c → pid ≠ -1 → t.cores.count pid = s.cores.count pid)
    (H6 : t.cores.length = s.cores.length)
    (H7 : occ t c = 1)
    (H8 : (c ∈ t.high_queue ∨ c ∈ t.med_queue ∨ c ∈ t.low_queue ∨ c ∈ t.cores) →
      (getPCB t.proc_blocks c).CPU_TIME ≠ []) :
    WF n t := by
  have mem_iff : ∀ (l1 l2 : List Int) (pid : Int), l1.count pid = l2.count pid →
      (pid ∈ l1 ↔ pid ∈ l2) := by
    intro l1 l2 pid e
    rw [← List.count_pos_iff, ← List.count_pos_iff, e]
  refine ⟨by rw [H1]; exact h.lenP, by rw [H6]; exact h.lenC, ?_, ?_, ?_, ?_, ?_⟩
  · intro pid hp
    by_cases e : pid = c
    · subst e; rw [H3]; exact h.prio pid hp
    · rw [H2 pid e]; exact h.prio pid hp
  · intro pid hm
    by_cases e : pid = c
    · subst e; exact hv
    · obtain ⟨a1, a2, a3, a4⟩ := H4 pid e
      rw [mem_iff _ _ pid a1, mem_iff _ _ pid a2, mem_iff _ _ pid a3, mem_iff _ _ pid a4] at hm
      exact h.qv pid hm
  · intro pid hm
    by_cases e : pid = c
    · subst e; exact Or.inr hv
    · by_cases e1 : pid = -1
      · exact Or.inl e1
      · rw [mem_iff _ _ pid (H5 pid e e1)] at hm
        exact h.cv pid hm
  · intro pid hp
    by_cases e : pid = c
    · subst e; exact H7
    · obtain ⟨a1, a2, a3, a4⟩ := H4 pid e
      have a5 := H5 pid e (validPid_ne_neg_one n pid hp)
      have := h.one pid hp
      unfold occ at this ⊢
      rw [a1, a2, a3, a4, a5, H2 pid e]; exact this
  · intro pid hm hp
    by_cases e : pid = c
    · subst e; exact H8 hm
    · obtain ⟨a1, a2, a3, _⟩ := H4 pid e
      have a5 := H5 pid e (validPid_ne_neg_one n pid hp)
      rw [mem_iff _ _ pid a1, mem_iff _ _ pid a2, mem_iff _ _ pid a3, mem_iff _ _ pid a5] at hm
      rw [H2 pid e]; exact h.cpu pid hm hp

/-- What the invariant says about a process found on a core. -/
theorem WF_on_core (n : Nat) (s : Sim) (h : WF n s) (i : Nat) (c : Int)
    (hc : s.cores[i]? = some c) (hv : ValidPid n c) :
    s.high_queue.count c = 0 ∧ s.med_queue.count c = 0 ∧ s.low_queue.count c = 0 ∧
    s.wait_queue.count c = 0 ∧ s.cores.count c = 1 ∧ (getPCB s.proc_blocks c).STATE ≠ 4 := by
  have h1 := h.one c hv
  have hm : c ∈ s.cores := mem_of_getElem? _ _ _ hc
  have hpos : 0 < s.cores.count c := List.count_pos_iff.2 hm
  unfold occ at h1
  by_cases h4 : (getPCB s.proc_blocks c).STATE = 4
  · rw [if_pos h4] at h1; omega
  · rw [if_neg h4] at h1
    refine ⟨by omega, by omega, by omega, by omega, by omega, h4⟩

theorem completeBurst_wait (s : Sim) (c b : Int) (tl : List Int)
    (hio : (getPCB s.proc_blocks c).IO_TIME ≠ []) :
    completeBurst s c b tl =
      { s with
        proc_blocks := updPCB (updPCB (updPCB s.proc_blocks c
          (fun p => { p with TURNAROUND := p.TURNAROUND + b })) c
          (fun p => { p with STATE := 2 })) c (fun p => { p with CPU_TIME := tl }),
        wait_queue := s.wait_queue ++ [c],
        final_cpu_time := some ((b - RRTIME) + RRTIME),
        cpu_bursts := s.cpu_bursts + 1 } := by
  unfold completeBurst
  simp only [Sim.upd]
  have e : (getPCB (updPCB s.proc_blocks c
      (fun p => { p with TURNAROUND := p.TURNAROUND + b })) c).IO_TIME
      = (getPCB s.proc_blocks c).IO_TIME := by simp [IO_TIME_updPCB]
  rw [e, if_pos hio]

theorem completeBurst_done (s : Sim) (c b : Int) (tl : List Int)
    (hio : (getPCB s.proc_blocks c).IO_TIME = []) :
    completeBurst s c b tl =
      { s with
        proc_blocks := updPCB (updPCB (updPCB s.proc_blocks c
          (fun p => { p with TURNAROUND := p.TURNAROUND + b })) c
          (fun p => { p with STATE := 4 })) c (fun p => { p with CPU_TIME := tl }),
        final_cpu_time := some ((b - RRTIME) + RRTIME),
        cpu_bursts := s.cpu_bursts + 1 } := by
  unfold completeBurst
  simp only [Sim.upd]
  have e : (getPCB (updPCB s.proc_blocks c
      (fun p => { p with TURNAROUND := p.TURNAROUND + b })) c).IO_TIME
      = (getPCB s.proc_blocks c).IO_TIME := by simp [IO_TIME_updPCB]
  rw [e, if_neg (by simp [hio])]

theorem WF_complete (n : Nat) (s : Sim) (h : WF n s) (i : Nat) (c b : Int) (tl : List Int)
    (hc : s.cores[i]? = some c) (hv : ValidPid n c) :
    WF n { completeBurst s c b tl with cores := (completeBurst s c b tl).cores.set i (-1) } := by
  obtain ⟨f1, f2, f3, f4, f5, f6⟩ := WF_on_core n s h i c hc hv
  have hc1 : PIDMIN ≤ c := hv.1
  have hc2 : c < PIDMIN + s.proc_blocks.length := by rw [h.lenP]; exact hv.2
  have hcs := fun x => count_set_slot s.cores i c (-1) x hc
  have hneg := validPid_ne_neg_one n c hv
  by_cases hio : (getPCB s.proc_blocks c).IO_TIME = []
  · rw [completeBurst_done s c b tl hio]
    apply WF_of_move n s _ c h hv
    · simp [length_updPCB]
    · intro pid e; simp [getPCB_updPCB_ne _ _ _ _ e]
    · simp [PRIORITY_updPCB]
    · intro pid e; simp
    · intro pid e e1
      have := hcs pid
      simp [Ne.symm e, Ne.symm e1] at this
      simpa using this
    · simp
    · have := hcs c
      simp [Ne.symm hneg] at this
      simp [occ, getPCB_updPCB_eq, length_updPCB, hc1, hc2, f1, f2, f3, f4]
      omega
    · intro hm
      exfalso
      have := hcs c
      simp [Ne.symm hneg] at this
      simp at hm
      rcases hm with hm | hm | hm | hm
      · have := List.count_pos_iff.2 hm; omega
      · have := List.count_pos_iff.2 hm; omega
      · have := List.count_pos_iff.2 hm; omega
      · have := List.count_pos_iff.2 hm; omega
  · rw [completeBurst_wait s c b tl hio]
    apply WF_of_move n s _ c h hv
    · simp [length_updPCB]
    · intro pid e; simp [getPCB_updPCB_ne _ _ _ _ e]
    · simp [PRIORITY_updPCB]
    · intro pid e; simp [List.count_append, List.count_singleton, Ne.symm e]
    · intro pid e e1
      have := hcs pid
      simp [Ne.symm e, Ne.symm e1] at this
      simpa using this
    · simp
    · have := hcs c
      simp [Ne.symm hneg] at this
      simp [occ, getPCB_updPCB_eq, length_updPCB, hc1, hc2, f1, f2, f3, f4, List.count_append]
      omega
    · intro hm
      exfalso
      have := hcs c
      simp [Ne.symm hneg] at this
      simp at hm
      rcases hm with hm | hm | hm | hm
      · have := List.count_pos_iff.2 hm; omega
      · have := List.count_pos_iff.2 hm; omega
      · have := List.count_pos_iff.2 hm; omega
      · have := List.count_pos_iff.2 hm; omega

theorem completeBurst_cores (s : Sim) (c b : Int) (tl : List Int) :
    (completeBurst s c b tl).cores = s.cores := by
  unfold completeBurst
  simp only [Sim.upd]
  split <;> rfl

theorem preemptBurst_cores (s : Sim) (c b : Int) (tl : List Int) :
    (preemptBurst s c b tl).cores = s.cores := by
  unfold preemptBurst
  simp only [Sim.upd]
  split_ifs <;> rfl

theorem WF_preempt (n : Nat) (s : Sim) (h : WF n s) (i : Nat) (c b : Int) (tl : List Int)
    (hc : s.cores[i]? = some c) (hv : ValidPid n c) :
    WF n { preemptBurst s c b tl with cores := (preemptBurst s c b tl).cores.set i (-1) } := by
  obtain ⟨f1, f2, f3, f4, f5, f6⟩ := WF_on_core n s h i c hc hv
  have hc1 : PIDMIN ≤ c := hv.1
  have hc2 : c < PIDMIN + s.proc_blocks.length := by rw [h.lenP]; exact hv.2
  have hcs := fun x => count_set_slot s.cores i c (-1) x hc
  have hneg := validPid_ne_neg_one n c hv
  have hcc := hcs c
  simp [Ne.symm hneg] at hcc
  have e : (getPCB (updPCB s.proc_blocks c
      (fun p => { p with CPU_TIME := (b - RRTIME) :: tl })) c).PRIORITY
      = (getPCB s.proc_blocks c).PRIORITY := by simp [PRIORITY_updPCB]
  unfold preemptBurst
  simp only [Sim.upd, e]
  rcases h.prio c hv with hp | hp | hp
  · rw [hp]
    simp only [if_true]
    apply WF_of_move n s _ c h hv
    · simp [length_updPCB]
    · intro pid e; simp [getPCB_updPCB_ne _ _ _ _ e]
    · simp [PRIORITY_updPCB]
    · intro pid e; simp [List.count_append, List.count_singleton, Ne.symm e]
    · intro pid e e1
      have := hcs pid
      simp [Ne.symm e, Ne.symm e1] at this
      simpa using this
    · simp
    · simp [occ, getPCB_updPCB_eq, length_updPCB, hc1, hc2, f1, f2, f3, f4, List.count_append,
        f6]
      omega
    · intro _
      simp [getPCB_updPCB_eq, hc1, hc2]
  · rw [hp]
    simp only [show ¬ ((2 : Int) = 1) by decide, if_false, if_true]
    apply WF_of_move n s _ c h hv
    · simp [length_updPCB]
    · intro pid e; simp [getPCB_updPCB_ne _ _ _ _ e]
    · simp [PRIORITY_updPCB]
    · intro pid e; simp [List.count_append, List.count_singleton, Ne.symm e]
    · intro pid e e1
      have := hcs pid
      simp [Ne.symm e, Ne.symm e1] at this
      simpa using this
    · simp
    · simp [occ, getPCB_updPCB_eq, length_updPCB, hc1, hc2, f1, f2, f3, f4, List.count_append,
        f6]
      omega
    · intro _
      simp [getPCB_updPCB_eq, hc1, hc2]
  · rw [hp]
    simp only [show ¬ ((3 : Int) = 1) by decide, show ¬ ((3 : Int) = 2) by decide, if_false,
      if_true]
    apply WF_of_move n s _ c h hv
    · simp [length_updPCB]
    · intro pid e; simp [getPCB_updPCB_ne _ _ _ _ e]
    · simp [PRIORITY_updPCB]
    · intro pid e; simp [List.count_append, List.count_singleton, Ne.symm e]
    · intro pid e e1
      have := hcs pid
      simp [Ne.symm e, Ne.symm e1] at this
      simpa using this
    · simp
    · simp [occ, getPCB_updPCB_eq, length_updPCB, hc1, hc2, f1, f2, f3, f4, List.count_append,
        f6]
      omega
    · intro _
      simp [getPCB_updPCB_eq, hc1, hc2]

/-! ## The loop invariant through Phase B -/

theorem set_same (cs : List Int) (i : Nat) (a : Int) (h : cs[i]? = some a) :
    cs.set i a = cs := by
  induction cs generalizing i with
  | nil => simp
  | cons c cs ih =>
    cases i with
    | zero => simp at h; simp [h]
    | succ i => simp at h; simp [ih i h]

theorem getD_of_getElem? (cs : List Int) (i : Nat) (a d : Int) (h : cs[i]? = some a) :
    cs.getD i d = a := by
  rw [List.getD_eq_getElem?_getD, h]; rfl

theorem coreStep_WF (n : Nat) (s : Sim) (idle : Bool) (h : WF n s) (i : Nat)
    (hi : i < CORECOUNT) :
    ∃ s1 idle1, coreStep i s idle = some (s1, idle1) ∧ WF n s1 ∧
      s1.cores = s.cores.set i (-1) := by
  have hlt : i < s.cores.length := by rw [h.lenC]; exact hi
  have hc : s.cores[i]? = some s.cores[i] := List.getElem?_eq_getElem hlt
  have hd : s.cores.getD i (-1) = s.cores[i] := getD_of_getElem? _ _ _ _ hc
  unfold coreStep
  simp only [hd]
  by_cases hpos : s.cores[i] > 0
  · simp only [hpos, if_true]
    have hv : ValidPid n s.cores[i] := by
      rcases h.cv _ (List.getElem_mem hlt) with e | e
      · omega
      · exact e
    have hcpu := h.cpu _ (Or.inr (Or.inr (Or.inr (List.getElem_mem hlt)))) hv
    cases hct : (getPCB s.proc_blocks s.cores[i]).CPU_TIME with
    | nil => exact absurd hct hcpu
    | cons b tl =>
      simp only
      by_cases hb : b - RRTIME ≤ 0
      · simp only [hb, if_true]
        exact ⟨_, _, rfl, WF_complete n s h i _ b tl hc hv, by simp [completeBurst_cores]⟩
      · simp only [hb, if_false]
        exact ⟨_, _, rfl, WF_preempt n s h i _ b tl hc hv, by simp [preemptBurst_cores]⟩
  · simp only [hpos, if_false]
    have hneg : s.cores[i] = -1 := by
      rcases h.cv _ (List.getElem_mem hlt) with e | e
      · exact e
      · have := e.1; unfold PIDMIN at this; omega
    refine ⟨_, _, rfl, ?_, ?_⟩
    · apply WF_of_same n s _ h
      · split <;> rfl
      · split <;> rfl
      · split <;> rfl
      · split <;> rfl
      · have : s.cores.set i (-1) = s.cores := set_same _ _ _ (hneg ▸ hc)
        simp only []
        split <;> exact this
      · split <;> rfl
      · intro pid; split <;> rfl
      · intro pid; split <;> rfl
      · intro pid; split <;> rfl
    · split <;> rfl

theorem coreLoop_WF (n : Nat) : ∀ (is : List Nat) (s : Sim) (idle : Bool), WF n s →
    (∀ i ∈ is, i < CORECOUNT) →
    WF n (coreLoop is s idle) ∧
    ∀ j, (j ∈ is ∨ s.cores[j]? = some (-1)) → j < CORECOUNT →
      (coreLoop is s idle).cores[j]? = some (-1) := by
  intro is
  induction is with
  | nil =>
    intro s idle h _
    refine ⟨h, fun j hj _ => ?_⟩
    rcases hj with hj | hj
    · simp at hj
    · exact hj
  | cons i is ih =>
    intro s idle h hall
    obtain ⟨s1, idle1, e, hwf, hcores⟩ :=
      coreStep_WF n s idle h i (hall i (List.mem_cons_self i is))
    simp only [coreLoop, e]
    obtain ⟨r1, r2⟩ := ih s1 idle1 hwf (fun j hj => hall j (List.mem_cons_of_mem i hj))
    refine ⟨r1, fun j hj hj16 => ?_⟩
    apply r2 j _ hj16
    have hjl : j < s.cores.length := by rw [h.lenC]; exact hj16
    by_cases hij : i = j
    · right; rw [hcores, hij]; simp [hjl]
    · rcases hj with hj | hj
      · rcases List.mem_cons.1 hj with e1 | e1
        · exact absurd e1.symm hij
        · exact Or.inl e1
      · right; rw [hcores, List.getElem?_set_ne hij]; exact hj

theorem phaseB_WF (n : Nat) (s : Sim) (h : WF n s) :
    WF n (phaseB s) ∧ (phaseB s).cores = List.replicate CORECOUNT (-1) := by
  obtain ⟨r1, r2⟩ := coreLoop_WF n (List.range CORECOUNT) s false h
    (fun i hi => List.mem_range.1 hi)
  refine ⟨r1, ?_⟩
  apply List.ext_getElem?
  intro j
  by_cases hj : j < CORECOUNT
  · rw [show phaseB s = coreLoop (List.range CORECOUNT) s false from rfl,
      r2 j (Or.inl (List.mem_range.2 hj)) hj, List.getElem?_replicate]
    simp [hj]
  · have h1 : (phaseB s).cores.length ≤ j := by
      have := r1.lenC
      unfold phaseB; omega
    rw [List.getElem?_eq_none h1, List.getElem?_eq_none (by simp; omega)]

/-! ## The loop invariant through Phase D -/

theorem WF_takeHigh (n : Nat) (s : Sim) (i : Nat) (h : WF n s)
    (hi : s.cores[i]? = some (-1)) : WF n (takeHigh i s) := by
  cases hq : s.high_queue with
  | nil => rw [takeHigh_nil i s hq]; exact h
  | cons p q =>
    have hv : ValidPid n p := h.qv p (Or.inl (by rw [hq]; exact List.mem_cons_self p q))
    have hc1 : PIDMIN ≤ p := hv.1
    have hc2 : p < PIDMIN + s.proc_blocks.length := by rw [h.lenP]; exact hv.2
    have hneg := validPid_ne_neg_one n p hv
    have hcs := fun x => count_set_slot s.cores i (-1) p x hi
    have hone := h.one p hv
    have hcpu := h.cpu p (Or.inl (by rw [hq]; exact List.mem_cons_self p q)) hv
    unfold occ at hone
    rw [hq] at hone
    simp only [List.count_cons_self] at hone
    have hcp := hcs p
    simp [Ne.symm hneg] at hcp
    have hst : (getPCB s.proc_blocks p).STATE ≠ 4 := by
      intro e; rw [if_pos e] at hone; omega
    rw [if_neg hst] at hone
    unfold takeHigh
    simp only [hq, Sim.upd]
    apply WF_of_move n s _ p h hv
    · simp [length_updPCB]
    · intro pid e; simp [getPCB_updPCB_ne _ _ _ _ e]
    · simp [PRIORITY_updPCB]
    · intro pid e; simp [hq, List.count_cons, Ne.symm e]
    · intro pid e e1
      have := hcs pid
      simp [Ne.symm e, Ne.symm e1] at this
      simpa using this
    · simp
    · simp [occ, getPCB_updPCB_eq, length_updPCB, hc1, hc2]
      omega
    · intro _
      simp [CPU_TIME_updPCB]
      exact hcpu

theorem WF_takeMed (n : Nat) (s : Sim) (i : Nat) (h : WF n s)
    (hi : s.cores[i]? = some (-1)) : WF n (takeMed i s) := by
  cases hq : s.med_queue with
  | nil => rw [takeMed_nil i s hq]; exact h
  | cons p q =>
    have hv : ValidPid n p :=
      h.qv p (Or.inr (Or.inl (by rw [hq]; exact List.mem_cons_self p q)))
    have hc1 : PIDMIN ≤ p := hv.1
    have hc2 : p < PIDMIN + s.proc_blocks.length := by rw [h.lenP]; exact hv.2
    have hneg := validPid_ne_neg_one n p hv
    have hcs := fun x => count_set_slot s.cores i (-1) p x hi
    have hone := h.one p hv
    have hcpu := h.cpu p (Or.inr (Or.inl (by rw [hq]; exact List.mem_cons_self p q))) hv
    unfold occ at hone
    rw [hq] at hone
    simp only [List.count_cons_self] at hone
    have hcp := hcs p
    simp [Ne.symm hneg] at hcp
    have hst : (getPCB s.proc_blocks p).STATE ≠ 4 := by
      intro e; rw [if_pos e] at hone; omega
    rw [if_neg hst] at hone
    unfold takeMed
    simp only [hq, Sim.upd]
    apply WF_of_move n s _ p h hv
    · simp [length_updPCB]
    · intro pid e; simp [getPCB_updPCB_ne _ _ _ _ e]
    · simp [PRIORITY_updPCB]
    · intro pid e; simp [hq, List.count_cons, Ne.symm e]
    · intro pid e e1
      have := hcs pid
      simp [Ne.symm e, Ne.symm e1] at this
      simpa using this
    · simp
    · simp [occ, getPCB_updPCB_eq, length_updPCB, hc1, hc2]
      omega
    · intro _
      simp [CPU_TIME_updPCB]
      exact hcpu

theorem WF_takeLow (n : Nat) (s : Sim) (i : Nat) (h : WF n s)
    (hi : s.cores[i]? = some (-1)) : WF n (takeLow i s) := by
  cases hq : s.low_queue with
  | nil => rw [takeLow_nil i s hq]; exact h
  | cons p q =>
    have hv : ValidPid n p :=
      h.qv p (Or.inr (Or.inr (Or.inl (by rw [hq]; exact List.mem_cons_self p q))))
    have hc1 : PIDMIN ≤ p := hv.1
    have hc2 : p < PIDMIN + s.proc_blocks.length := by rw [h.lenP]; exact hv.2
    have hneg := validPid_ne_neg_one n p hv
    have hcs := fun x => count_set_slot s.cores i (-1) p x hi
    have hone := h.one p hv
    have hcpu :=
      h.cpu p (Or.inr (Or.inr (Or.inl (by rw [hq]; exact List.mem_cons_self p q)))) hv
    unfold occ at hone
    rw [hq] at hone
    simp only [List.count_cons_self] at hone
    have hcp := hcs p
    simp [Ne.symm hneg] at hcp
    have hst : (getPCB s.proc_blocks p).STATE ≠ 4 := by
      intro e; rw [if_pos e] at hone; omega
    rw [if_neg hst] at hone
    unfold takeLow
    simp only [hq, Sim.upd]
    apply WF_of_move n s _ p h hv
    · simp [length_updPCB]
    · intro pid e; simp [getPCB_updPCB_ne _ _ _ _ e]
    · simp [PRIORITY_updPCB]
    · intro pid e; simp [hq, List.count_cons, Ne.symm e]
    · intro pid e e1
      have := hcs pid
      simp [Ne.symm e, Ne.symm e1] at this
      simpa using this
    · simp
    · simp [occ, getPCB_updPCB_eq, length_updPCB, hc1, hc2]
      omega
    · intro _
      simp [CPU_TIME_updPCB]
      exact hcpu

theorem WF_spillStep (n : Nat) (s : Sim) (i : Nat) (hi : i < CORECOUNT) (h : WF n s) :
    WF n (spillStep i s) := by
  unfold spillStep
  have hlt : i < s.cores.length := by rw [h.lenC]; exact hi
  by_cases hc : s.cores.getD i (-1) = -1
  · have hs : s.cores[i]? = some (-1) := by
      rw [List.getD_eq_getElem?_getD, List.getElem?_eq_getElem hlt] at hc
      rw [List.getElem?_eq_getElem hlt]
      simpa using hc
    rw [if_pos hc]
    split_ifs
    · exact WF_takeHigh n s i h hs
    · exact WF_takeMed n s i h hs
    · exact WF_takeLow n s i h hs
    · exact h
  · rw [if_neg hc]; exact h

theorem WF_reservedFill (n : Nat) (s : Sim) (h : WF n s)
    (hc : s.cores = List.replicate CORECOUNT (-1)) : WF n (reservedFill s) := by
  have e1 : HIGHRES = 8 := rfl
  have e2 : MEDRES = 5 := rfl
  have e3 : CORECOUNT = 16 := rfl
  have hslot : ∀ j, j < 16 → s.cores[j]? = some (-1) := by
    intro j hj
    rw [hc, e3, List.getElem?_replicate]
    simp [hj]
  obtain ⟨a1, a2⟩ := fold_slots (WF n) takeHigh (fun i t ht hi => WF_takeHigh n t i ht hi)
    takeHigh_cores_ne (List.range' 0 8) s (List.nodup_range' 0 8) h
    (fun i hi => hslot i (by simp [List.mem_range'_1] at hi; omega))
  obtain ⟨b1, b2⟩ := fold_slots (WF n) takeMed (fun i t ht hi => WF_takeMed n t i ht hi)
    takeMed_cores_ne (List.range' 8 5) _ (List.nodup_range' 8 5) a1
    (fun i hi => by
      simp [List.mem_range'_1] at hi
      rw [a2 i (by simp [List.mem_range'_1]; omega)]
      exact hslot i (by omega))
  obtain ⟨c1, _⟩ := fold_slots (WF n) takeLow (fun i t ht hi => WF_takeLow n t i ht hi)
    takeLow_cores_ne (List.range' 13 3) _ (List.nodup_range' 13 3) b1
    (fun i hi => by
      simp [List.mem_range'_1] at hi
      rw [b2 i (by simp [List.mem_range'_1]; omega), a2 i (by simp [List.mem_range'_1]; omega)]
      exact hslot i (by omega))
  simpa [reservedFill, e1, e2, e3] using c1

theorem WF_phaseD (n : Nat) (s : Sim) (h : WF n s)
    (hc : s.cores = List.replicate CORECOUNT (-1)) : WF n (phaseD s) := by
  have hfold : ∀ (is : List Nat) (t : Sim), (∀ i ∈ is, i < CORECOUNT) → WF n t →
      WF n (is.foldl (fun t i => spillStep i t) t) := by
    intro is
    induction is with
    | nil => intro t _ ht; exact ht
    | cons i is ih =>
      intro t hall ht
      rw [List.foldl_cons]
      exact ih _ (fun j hj => hall j (List.mem_cons_of_mem i hj))
        (WF_spillStep n t i (hall i (List.mem_cons_self i is)) ht)
  exact hfold _ _ (fun i hi => List.mem_range.1 hi) (WF_reservedFill n s h hc)

/-! ## The loop invariant through Phase E -/

theorem WF_ioConsume (n : Nat) (s : Sim) (p : Int) (rest : List Int) (b : Int) (h : WF n s)
    (hwq : s.wait_queue = p :: rest) : WF n (ioConsume s p rest b) := by
  have h1 := WF_creditWait n s b h
  have hwq1 : (creditWait s b).wait_queue = p :: rest := hwq
  unfold ioConsume
  simp only [Sim.upd]
  generalize creditWait s b = s1 at h1 hwq1 ⊢
  have hv : ValidPid n p :=
    h1.qv p (Or.inr (Or.inr (Or.inr (by rw [hwq1]; exact List.mem_cons_self p rest))))
  have hc1 : PIDMIN ≤ p := hv.1
  have hc2 : p < PIDMIN + s1.proc_blocks.length := by rw [h1.lenP]; exact hv.2
  have hone := h1.one p hv
  unfold occ at hone
  rw [hwq1] at hone
  simp only [List.count_cons_self] at hone
  have hst : (getPCB s1.proc_blocks p).STATE ≠ 4 := by
    intro e; rw [if_pos e] at hone; omega
  rw [if_neg hst] at hone
  have eC : (getPCB (updPCB s1.proc_blocks p
      (fun r => { r with IO_TIME := r.IO_TIME.tail })) p).CPU_TIME
      = (getPCB s1.proc_blocks p).CPU_TIME := by simp [CPU_TIME_updPCB]
  have eP : (getPCB (updPCB s1.proc_blocks p
      (fun r => { r with IO_TIME := r.IO_TIME.tail })) p).PRIORITY
      = (getPCB s1.proc_blocks p).PRIORITY := by simp [PRIORITY_updPCB]
  simp only [eC, eP]
  by_cases hcpu : (getPCB s1.proc_blocks p).CPU_TIME = []
  · simp only [hcpu, ne_eq, not_true_eq_false, if_false]
    apply WF_of_move n s1 _ p h1 hv
    · simp [length_updPCB]
    · intro pid e; simp [getPCB_updPCB_ne _ _ _ _ e]
    · simp [PRIORITY_updPCB]
    · intro pid e; simp [hwq1, List.count_cons, Ne.symm e]
    · intro pid e e1; simp
    · simp
    · simp [occ, getPCB_updPCB_eq, length_updPCB, hc1, hc2]
      omega
    · intro hm
      exfalso
      simp at hm
      rcases hm with hm | hm | hm | hm
      · have := List.count_pos_iff.2 hm; omega
      · have := List.count_pos_iff.2 hm; omega
      · have := List.count_pos_iff.2 hm; omega
      · have := List.count_pos_iff.2 hm; omega
  · simp only [hcpu, ne_eq, not_false_eq_true, if_true]
    rcases h1.prio p hv with hp | hp | hp
    · rw [hp]
      simp only [if_true]
      apply WF_of_move n s1 _ p h1 hv
      · simp [length_updPCB]
      · intro pid e; simp [getPCB_updPCB_ne _ _ _ _ e]
      · simp [PRIORITY_updPCB]
      · intro pid e
        simp [hwq1, List.count_cons, List.count_append, List.count_singleton, Ne.symm e]
      · intro pid e e1; simp
      · simp
      · simp [occ, getPCB_updPCB_eq, length_updPCB, hc1, hc2, List.count_append]
        omega
      · intro _
        simp [CPU_TIME_updPCB]
        exact hcpu
    · rw [hp]
      simp only [show ¬ ((2 : Int) = 1) by decide, if_false, if_true]
      apply WF_of_move n s1 _ p h1 hv
      · simp [length_updPCB]
      · intro pid e; simp [getPCB_updPCB_ne _ _ _ _ e]
      · simp [PRIORITY_updPCB]
      · intro pid e
        simp [hwq1, List.count_cons, List.count_append, List.count_singleton, Ne.symm e]
      · intro pid e e1; simp
      · simp
      · simp [occ, getPCB_updPCB_eq, length_updPCB, hc1, hc2, List.count_append]
        omega
      · intro _
        simp [CPU_TIME_updPCB]
        exact hcpu
    · rw [hp]
      simp only [show ¬ ((3 : Int) = 1) by decide, show ¬ ((3 : Int) = 2) by decide, if_false]
      apply WF_of_move n s1 _ p h1 hv
      · simp [length_updPCB]
      · intro pid e; simp [getPCB_updPCB_ne _ _ _ _ e]
      · simp [PRIORITY_updPCB]
      · intro pid e
        simp [hwq1, List.count_cons, List.count_append, List.count_singleton, Ne.symm e]
      · intro pid e e1; simp
      · simp
      · simp [occ, getPCB_updPCB_eq, length_updPCB, hc1, hc2, List.count_append]
        omega
      · intro _
        simp [CPU_TIME_updPCB]
        exact hcpu

theorem ioConsume_wait_queue (s : Sim) (p : Int) (rest : List Int) (b : Int) :
    (ioConsume s p rest b).wait_queue = rest := by
  simp [ioConsume]

theorem WF_ioLoop (n : Nat) : ∀ (wq : List Int) (t : Int) (s : Sim), s.wait_queue = wq →
    WF n s → WF n (ioLoop wq t s) := by
  intro wq
  induction wq with
  | nil => intro t s _ h; exact h
  | cons p rest ih =>
    intro t s hwq h
    simp only [ioLoop]
    split_ifs
    · exact WF_ioOverflow n s p _ _ h
    · exact WF_ioConsume n s p rest _ h hwq
    · exact ih _ _ (ioConsume_wait_queue s p rest _) (WF_ioConsume n s p rest _ h hwq)

theorem WF_phaseE (n : Nat) (s : Sim) (h : WF n s) : WF n (phaseE s) := by
  unfold phaseE
  exact WF_ioLoop n s.wait_queue 0 { s with final_io_time := none } rfl
    (WF_of_same n s _ h rfl rfl rfl rfl rfl rfl (fun _ => rfl) (fun _ => rfl) (fun _ => rfl))

theorem WF_tick (n : Nat) (s : Sim) (h : WF n s) : WF n (tick s) := by
  unfold tick
  obtain ⟨hB, hcores⟩ := phaseB_WF n (phaseA s) (WF_phaseA n s h)
  have hC := WF_phaseC n _ hB
  have hD := WF_phaseD n _ hC (by rw [show (phaseC (phaseB (phaseA s))).cores
    = (phaseB (phaseA s)).cores from rfl]; exact hcores)
  exact WF_checkDone n _ (WF_phaseE n _ hD)

theorem WF_tickN (n : Nat) : ∀ (k : Nat) (s : Sim), WF n s → WF n (tickN k s) := by
  intro k
  induction k with
  | zero => intro s h; exact h
  | succ k ih =>
    intro s h
    simp only [tickN]
    split
    · exact ih _ (WF_tick n s h)
    · exact h

/-! ## The loop invariant at the start -/

theorem init_fold : ∀ (w : List PCB) (s : Sim),
    (w.foldl initStep s).proc_blocks
      = s.proc_blocks ++ w.map (fun p => { p with TURNAROUND := 0, WAIT := 0, RESPONSE := 0 }) ∧
    (w.foldl initStep s).high_queue
      = s.high_queue ++ (w.filter (fun p => decide (p.PRIORITY = 1))).map PCB.PID ∧
    (w.foldl initStep s).med_queue
      = s.med_queue ++ (w.filter (fun p => decide (p.PRIORITY = 2))).map PCB.PID ∧
    (w.foldl initStep s).low_queue
      = s.low_queue ++ (w.filter (fun p => decide (p.PRIORITY = 3))).map PCB.PID ∧
    (w.foldl initStep s).wait_queue = s.wait_queue ∧
    (w.foldl initStep s).cores = s.cores := by
  intro w
  induction w with
  | nil => intro s; simp
  | cons p w ih =>
    intro s
    rw [List.foldl_cons]
    obtain ⟨a1, a2, a3, a4, a5, a6⟩ := ih (initStep s p)
    rw [a1, a2, a3, a4, a5, a6]
    unfold initStep
    by_cases h1 : p.PRIORITY = 1
    · simp [h1]
    · by_cases h2 : p.PRIORITY = 2
      · simp [h1, h2]
      · by_cases h3 : p.PRIORITY = 3
        · simp [h1, h2, h3]
        · simp [h1, h2, h3]

theorem count_by_priority (x : Int) : ∀ (w : List PCB),
    (∀ p ∈ w, p.PRIORITY = 1 ∨ p.PRIORITY = 2 ∨ p.PRIORITY = 3) →
    ((w.filter (fun p => decide (p.PRIORITY = 1))).map PCB.PID).count x
      + ((w.filter (fun p => decide (p.PRIORITY = 2))).map PCB.PID).count x
      + ((w.filter (fun p => decide (p.PRIORITY = 3))).map PCB.PID).count x
      = (w.map PCB.PID).count x := by
  intro w
  induction w with
  | nil => intro _; simp
  | cons p w ih =>
    intro h
    have ih1 := ih (fun q hq => h q (List.mem_cons_of_mem p hq))
    rcases h p (List.mem_cons_self p w) with e | e | e
    · simp [List.filter_cons, e, List.count_cons]; omega
    · simp [List.filter_cons, e, List.count_cons]; omega
    · simp [List.filter_cons, e, List.count_cons]; omega

theorem count_pids (x : Int) : ∀ (w : List PCB) (a : Int),
    (∀ (i : Nat) (p : PCB), w[i]? = some p → p.PID = a + i) →
    (w.map PCB.PID).count x = if a ≤ x ∧ x < a + w.length then 1 else 0 := by
  intro w
  induction w with
  | nil =>
    intro a _
    have : ¬ (a ≤ x ∧ x < a + ([] : List PCB).length) := by
      simp only [List.length_nil, Nat.cast_zero]; omega
    rw [if_neg this]; rfl
  | cons p w ih =>
    intro a h
    have hp : p.PID = a := by simpa using h 0 p (by simp)
    have ih1 := ih (a + 1) (fun i q hq => by
      have := h (i + 1) q (by simpa using hq)
      rw [this]; push_cast; ring)
    rw [List.map_cons, List.count_cons, ih1, hp]
    simp only [List.length_cons, Nat.cast_add, Nat.cast_one, beq_iff_eq]
    by_cases e : a = x
    · have c1 : ¬ (a + 1 ≤ x ∧ x < a + 1 + w.length) := by omega
      have c2 : a ≤ x ∧ x < a + (w.length + 1) := by omega
      rw [if_neg c1, if_pos c2, if_pos e]
    · by_cases c1 : a + 1 ≤ x ∧ x < a + 1 + w.length
      · have c2 : a ≤ x ∧ x < a + (w.length + 1) := by omega
        rw [if_pos c1, if_pos c2, if_neg e]
      · have c2 : ¬ (a ≤ x ∧ x < a + (w.length + 1)) := by omega
        rw [if_neg c1, if_neg c2, if_neg e]

theorem getPCB_mem (w : List PCB) (pid : Int) (h1 : PIDMIN ≤ pid)
    (h2 : pid < PIDMIN + w.length) : getPCB w pid ∈ w := by
  unfold getPCB
  have hp : ¬ pid < PIDMIN := by omega
  have hlt : (pid - PIDMIN).toNat < w.length := by omega
  simp only [hp, if_false, List.getD_eq_getElem?_getD, List.getElem?_eq_getElem hlt,
    Option.getD_some]
  exact List.getElem_mem hlt

theorem WF_init (w : List PCB)
    (hpid : ∀ (i : Nat) (p : PCB), w[i]? = some p → p.PID = PIDMIN + i)
    (hprio : ∀ p ∈ w, p.PRIORITY = 1 ∨ p.PRIORITY = 2 ∨ p.PRIORITY = 3)
    (hcpu : ∀ p ∈ w, p.CPU_TIME ≠ [])
    (hst : ∀ p ∈ w, p.STATE = 1) :
    WF w.length (initSim w) := by
  obtain ⟨a1, a2, a3, a4, a5, a6⟩ := init_fold w emptySim
  have b1 : (initSim w).proc_blocks
      = w.map (fun p => { p with TURNAROUND := 0, WAIT := 0, RESPONSE := 0 }) := by
    rw [show initSim w = w.foldl initStep emptySim from rfl, a1]; rfl
  have b2 : (initSim w).high_queue
      = (w.filter (fun p => decide (p.PRIORITY = 1))).map PCB.PID := by
    rw [show initSim w = w.foldl initStep emptySim from rfl, a2]; rfl
  have b3 : (initSim w).med_queue
      = (w.filter (fun p => decide (p.PRIORITY = 2))).map PCB.PID := by
    rw [show initSim w = w.foldl initStep emptySim from rfl, a3]; rfl
  have b4 : (initSim w).low_queue
      = (w.filter (fun p => decide (p.PRIORITY = 3))).map PCB.PID := by
    rw [show initSim w = w.foldl initStep emptySim from rfl, a4]; rfl
  have b5 : (initSim w).wait_queue = [] := by
    rw [show initSim w = w.foldl initStep emptySim from rfl, a5]; rfl
  have b6 : (initSim w).cores = List.replicate CORECOUNT (-1) := by
    rw [show initSim w = w.foldl initStep emptySim from rfl, a6]; rfl
  have hget : ∀ pid, ValidPid w.length pid →
      getPCB (initSim w).proc_blocks pid
        = { getPCB w pid with TURNAROUND := 0, WAIT := 0, RESPONSE := 0 } := by
    intro pid hv
    rw [b1, getPCB_map _ _ _ hv.1 hv.2]
  have hmemq : ∀ (pid : Int) (P : PCB → Bool), pid ∈ (w.filter P).map PCB.PID →
      ValidPid w.length pid := by
    intro pid P hm
    obtain ⟨p, hp, e⟩ := List.mem_map.1 hm
    have hpw : p ∈ w := (List.mem_filter.1 hp).1
    obtain ⟨i, hi, e2⟩ := List.getElem_of_mem hpw
    have := hpid i p (by rw [List.getElem?_eq_getElem hi, e2])
    constructor
    · rw [← e, this]; omega
    · rw [← e, this]; omega
  refine ⟨by rw [b1]; simp, by rw [b6]; simp, ?_, ?_, ?_, ?_, ?_⟩
  · intro pid hv
    rw [hget pid hv]
    exact hprio (getPCB w pid) (getPCB_mem w pid hv.1 hv.2)
  · intro pid hm
    rw [b2, b3, b4, b5] at hm
    rcases hm with hm | hm | hm | hm
    · exact hmemq pid _ hm
    · exact hmemq pid _ hm
    · exact hmemq pid _ hm
    · simp at hm
  · intro pid hm
    rw [b6] at hm
    exact Or.inl (List.eq_of_mem_replicate hm)
  · intro pid hv
    unfold occ
    rw [b2, b3, b4, b5, b6, hget pid hv, count_by_priority pid w hprio,
      count_pids pid w PIDMIN hpid]
    have hs := hst _ (getPCB_mem w pid hv.1 hv.2)
    have hne := validPid_ne_neg_one _ pid hv
    have hv2 : PIDMIN ≤ pid ∧ pid < PIDMIN + w.length := hv
    simp [hs, hv2, List.count_replicate, Ne.symm hne]
  · intro pid _ hv
    rw [hget pid hv]
    exact hcpu (getPCB w pid) (getPCB_mem w pid hv.1 hv.2)

theorem pid_of_map (w : List PCB)
    (h : w.map PCB.PID = (List.range w.length).map (fun (i : Nat) => PIDMIN + (i : Int))) :
    ∀ (i : Nat) (p : PCB), w[i]? = some p → p.PID = PIDMIN + i := by
  intro i p hp
  have hi : i < w.length := by
    by_contra hh
    rw [List.getElem?_eq_none (Nat.le_of_not_lt hh)] at hp
    exact Option.noConfusion hp
  have e := congrArg (fun l => l[i]?) h
  simp only [List.getElem?_map, hp, Option.map_some', List.getElem?_range hi] at e
  injection e

/-- C1: for a workload whose record `i` has pid `30 + i`, a priority in
1, 2, 3, a cpu burst and state 1, after any number of passes of the loop every
process id of the run is in exactly one place: its occurrences in the three
ready queues, the wait queue and the cores, plus one if its record is in state
4, add up to 1. -/
theorem C1_each_pid_in_exactly_one_place (w : List PCB)
    (hpid : w.map PCB.PID = (List.range w.length).map (fun (i : Nat) => PIDMIN + (i : Int)))
    (hprio : ∀ p ∈ w, p.PRIORITY = 1 ∨ p.PRIORITY = 2 ∨ p.PRIORITY = 3)
    (hcpu : ∀ p ∈ w, p.CPU_TIME ≠ [])
    (hst : ∀ p ∈ w, p.STATE = 1)
    (k : Nat) (i : Nat) (hi : i < w.length) :
    occ (tickN k (initSim w)) (PIDMIN + i) = 1 :=
  (WF_tickN w.length k (initSim w) (WF_init w (pid_of_map w hpid) hprio hcpu hst)).one
    (PIDMIN + i) ⟨by omega, by omega⟩

set_option maxRecDepth 100000 in
/-- Witness of C1: `mixedLoad` after five passes, process 33. -/
theorem C1_each_pid_in_exactly_one_place_witness :
    mixedLoad.length = 17 ∧ (tickN 5 (initSim mixedLoad)).run = true ∧
    occ (tickN 5 (initSim mixedLoad)) (PIDMIN + (3 : Nat)) = 1 :=
  ⟨by decide, by decide,
    C1_each_pid_in_exactly_one_place mixedLoad (by decide) (by decide) (by decide) (by decide)
      5 3 (by decide)⟩

/-! ## Claims C11 to C20 settled by evaluation -/

set_option maxRecDepth 1000000 in
/-- C12 (the code departs from the claim): in the second pass over `loadC12`
process 30 is preempted in Phase B and stands in the high queue at Phase C, but
its record is still in state 3 (line 154 pushes it without setting state 1), so
Phase C does not add RRTIME to its response: the counter is 40 before and after
the pass.  Process 46, which stands in the same queue in state 1, gets its
40. -/
theorem C12_preempted_process_gets_no_response :
    (tickN 1 (initSim loadC12)).run = true ∧
    (tickN 1 (initSim loadC12)).cores.getD 0 (-1) = 30 ∧
    (phaseB (phaseA (tickN 1 (initSim loadC12)))).high_queue
      = [46, 30, 31, 32, 33, 34, 35, 36, 37, 38, 39, 40, 41, 42, 43, 44, 45] ∧
    (getPCB (phaseB (phaseA (tickN 1 (initSim loadC12)))).proc_blocks 30).STATE = 3 ∧
    (getPCB (tickN 1 (initSim loadC12)).proc_blocks 30).RESPONSE = 40 ∧
    (getPCB (tick (tickN 1 (initSim loadC12))).proc_blocks 30).RESPONSE = 40 ∧
    (getPCB (tickN 1 (initSim loadC12)).proc_blocks 46).RESPONSE = 40 ∧
    (getPCB (tick (tickN 1 (initSim loadC12))).proc_blocks 46).RESPONSE = 80 := by
  decide

set_option maxRecDepth 1000000 in
/-- C16 (the code departs from the claim): for the single process with cpu
burst 1 the loop ends after the first pass; that pass has added the whole
RRTIME = 40 to the run time, the process is still in state 3 with its burst of 1
not serviced, and neither `final_cpu_time` nor `final_io_time` was assigned, so
the sum added at line 316 has no defined value: the run time is `none`, not
one that counts 1 for the last burst.  On `mixedLoad` the last pass (the
seventh) assigns `final_cpu_time = 35` but not `final_io_time`, and the run
time is undefined again. -/
theorem C16_final_correction_reads_unassigned_locals :
    (tickN 1 (initSim (loadC3 1))).run = false ∧
    (phaseE (beforeE (initSim (loadC3 1)))).sim_simruntime = some RRTIME ∧
    (phaseE (beforeE (initSim (loadC3 1)))).final_cpu_time = none ∧
    (phaseE (beforeE (initSim (loadC3 1)))).final_io_time = none ∧
    (tickN 1 (initSim (loadC3 1))).sim_simruntime = none ∧
    (tickN 1 (initSim (loadC3 1))).proc_blocks.map (fun p => (p.STATE, p.CPU_TIME))
      = [(3, [1])] ∧
    (tickN 7 (initSim mixedLoad)).run = false ∧
    (phaseE (beforeE (tickN 6 (initSim mixedLoad)))).sim_simruntime = some 280 ∧
    (phaseE (beforeE (tickN 6 (initSim mixedLoad)))).final_cpu_time = some 35 ∧
    (phaseE (beforeE (tickN 6 (initSim mixedLoad)))).final_io_time = none ∧
    (tickN 7 (initSim mixedLoad)).sim_simruntime = none := by
  decide

set_option maxRecDepth 1000000 in
/-- C17 (counterexample): at the start of the second pass over `loadC17` core 0
holds process 30, which has no cpu burst.  Phase B leaves at once (all cores
keep their processes), yet the same pass goes on: Phase C adds 40 to the
response of process 46, Phase D overwrites core 0 with process 46 and pops the
high queue, the loop is still running after the pass and the next pass
changes the state again. -/
theorem C17_run_goes_on_after_break :
    (tickN 1 (initSim loadC17)).cores.getD 0 (-1) = 30 ∧
    (getPCB (tickN 1 (initSim loadC17)).proc_blocks 30).CPU_TIME = [] ∧
    (phaseB (phaseA (tickN 1 (initSim loadC17)))).cores
      = [30, 31, 32, 33, 34, 35, 36, 37, 38, 39, 40, 41, 42, 43, 44, 45] ∧
    (tickN 1 (initSim loadC17)).high_queue = [46, 47, 48, 49, 50, 51, 52, 53, 54] ∧
    (tick (tickN 1 (initSim loadC17))).high_queue = [54] ∧
    (tick (tickN 1 (initSim loadC17))).cores.getD 0 (-1) = 46 ∧
    (getPCB (tickN 1 (initSim loadC17)).proc_blocks 46).RESPONSE = 40 ∧
    (getPCB (tick (tickN 1 (initSim loadC17))).proc_blocks 46).RESPONSE = 80 ∧
    (tick (tickN 1 (initSim loadC17))).run = true ∧
    tick (tick (tickN 1 (initSim loadC17))) ≠ tick (tickN 1 (initSim loadC17)) := by
  decide

/-- C17 (as amended): when Phase B reaches a core whose process has no cpu
burst, the loop over the cores ends there with the state as it is at that
moment: that core and the cores after it are neither serviced nor reset.
Nothing else happens: when this is core 0, Phase B changes nothing at all and
the pass is Phase A, Phase C, Phase D, Phase E and the test for the end of the
run, as in any other pass. -/
theorem C17_break_only_ends_phaseB (s : Sim) (i : Nat) (rest : List Nat) (idle : Bool)
    (hc : s.cores.getD i (-1) > 0)
    (he : (getPCB s.proc_blocks (s.cores.getD i (-1))).CPU_TIME = []) :
    coreLoop (i :: rest) s idle = s ∧
    (i = 0 → phaseB s = s) ∧
    (i = 0 → tick s = checkDone (phaseE (phaseD (phaseC (phaseA s))))) := by
  have h1 : ∀ f, coreStep i s f = none := by
    intro f
    unfold coreStep
    simp only [hc, if_true, he]
  have h2 : ∀ l f, coreLoop (i :: l) s f = s := by
    intro l f; simp only [coreLoop, h1]
  have hA : (phaseA s).cores = s.cores := rfl
  have hB : ∀ pid, (getPCB (phaseA s).proc_blocks pid).CPU_TIME
      = (getPCB s.proc_blocks pid).CPU_TIME := by
    intro pid; unfold phaseA
    apply proj_getPCB_map PCB.CPU_TIME; intro r; split <;> rfl
  refine ⟨h2 rest idle, ?_, ?_⟩
  · intro e; subst e
    have : List.range CORECOUNT = 0 :: List.range' 1 15 := by decide
    show coreLoop (List.range CORECOUNT) s false = s
    rw [this]; exact h2 _ _
  · intro e; subst e
    have h3 : coreStep 0 (phaseA s) false = none := by
      unfold coreStep
      simp only [hA, hc, if_true, hB, he]
    have h4 : phaseB (phaseA s) = phaseA s := by
      show coreLoop (List.range CORECOUNT) (phaseA s) false = phaseA s
      have : List.range CORECOUNT = 0 :: List.range' 1 15 := by decide
      rw [this]; simp only [coreLoop, h3]
    unfold tick
    rw [h4]

set_option maxRecDepth 1000000 in
/-- Witness of C17 (as amended): the second pass over `loadC17`. -/
theorem C17_break_only_ends_phaseB_witness :
    (tickN 1 (initSim loadC17)).cores.getD 0 (-1) = 30 ∧
    phaseB (tickN 1 (initSim loadC17)) = tickN 1 (initSim loadC17) :=
  ⟨by decide,
    (C17_break_only_ends_phaseB (tickN 1 (initSim loadC17)) 0 (List.range' 1 15) false
      (by decide) (by decide)).2.1 rfl⟩

set_option maxRecDepth 1000000 in
/-- C19 (the code departs from the claim): the line with the single burst 30 is
loaded with cpu bursts `[30]` but io bursts `[-1]`, the entry `PCB()` starts
with and only the first io burst removes, not with no io burst.  In a run such
a record goes to the wait queue after its cpu burst, its io burst of -1 is
"used up" in Phase E and its wait time becomes negative.  A line with three
bursts is loaded as the claim says. -/
theorem C19_one_burst_line_keeps_sentinel :
    loadLine lineOneBurst = some (mkProc 30 1 [30] [-1]) ∧
    (loadLine lineOneBurst).map PCB.IO_TIME ≠ some [] ∧
    loadLine lineThreeBursts = some (mkProc 31 2 [45, 33] [7]) ∧
    loadC19.head? = loadLine lineOneBurst ∧
    (beforeE (tickN 1 (initSim loadC19))).wait_queue.head? = some 30 ∧
    (getPCB (beforeE (tickN 1 (initSim loadC19))).proc_blocks 30).IO_TIME = [-1] ∧
    (getPCB (tickN 2 (initSim loadC19)).proc_blocks 30).STATE = 4 ∧
    (getPCB (tickN 2 (initSim loadC19)).proc_blocks 30).WAIT = -1 := by
  decide

/-! ## Idle time -/

theorem completeBurst_idle (s : Sim) (c b : Int) (tl : List Int) :
    (completeBurst s c b tl).sim_core_idle = s.sim_core_idle ∧
    (completeBurst s c b tl).sim_cpu_idle = s.sim_cpu_idle := by
  unfold completeBurst
  simp only [Sim.upd]
  split <;> exact ⟨rfl, rfl⟩

theorem preemptBurst_idle (s : Sim) (c b : Int) (tl : List Int) :
    (preemptBurst s c b tl).sim_core_idle = s.sim_core_idle ∧
    (preemptBurst s c b tl).sim_cpu_idle = s.sim_cpu_idle := by
  unfold preemptBurst
  simp only [Sim.upd]
  split_ifs <;> exact ⟨rfl, rfl⟩

/-- What one pass of the loop over the cores does to the idle totals. -/
theorem coreStep_idle (i : Nat) (s s1 : Sim) (idle idle1 : Bool)
    (h : coreStep i s idle = some (s1, idle1)) :
    s1.sim_core_idle
      = s.sim_core_idle + (if s.cores.getD i (-1) > 0 then 0 else RRTIME) ∧
    s1.sim_cpu_idle
      = s.sim_cpu_idle + (if s.cores.getD i (-1) > 0 ∨ idle = true then 0 else RRTIME) ∧
    idle1 = (idle || !decide (s.cores.getD i (-1) > 0)) := by
  unfold coreStep at h
  generalize s.cores.getD i (-1) = c at h ⊢
  by_cases hc : c > 0
  · simp only [hc, if_true] at h
    cases hct : (getPCB s.proc_blocks c).CPU_TIME with
    | nil => rw [hct] at h; exact Option.noConfusion h
    | cons b tl =>
      rw [hct] at h
      simp only [Option.some.injEq, Prod.mk.injEq] at h
      obtain ⟨h1, h2⟩ := h
      subst h1 h2
      by_cases hb : b - RRTIME ≤ 0
      · simp [hb, hc, completeBurst_idle]
      · simp [hb, hc, preemptBurst_idle]
  · simp only [hc, if_false, Option.some.injEq, Prod.mk.injEq] at h
    obtain ⟨h1, h2⟩ := h
    subst h1 h2
    cases idle <;> simp [hc]

theorem getD_set_ne (cs : List Int) (i j : Nat) (a d : Int) (h : i ≠ j) :
    (cs.set i a).getD j d = cs.getD j d := by
  rw [List.getD_eq_getElem?_getD, List.getD_eq_getElem?_getD, List.getElem?_set_ne h]

theorem coreLoop_idle (n : Nat) : ∀ (is : List Nat) (s : Sim) (idle : Bool), WF n s →
    is.Nodup → (∀ i ∈ is, i < CORECOUNT) →
    (coreLoop is s idle).sim_core_idle
      = s.sim_core_idle
        + RRTIME * (is.countP (fun i => decide (¬ s.cores.getD i (-1) > 0)) : Nat) ∧
    (coreLoop is s idle).sim_cpu_idle
      = s.sim_cpu_idle
        + (if idle = false ∧ 0 < is.countP (fun i => decide (¬ s.cores.getD i (-1) > 0))
            then RRTIME else 0) := by
  intro is
  induction is with
  | nil => intro s idle _ _ _; simp [coreLoop]
  | cons i is ih =>
    intro s idle h hnd hall
    rw [List.nodup_cons] at hnd
    obtain ⟨s1, idle1, e, hwf, hcores⟩ :=
      coreStep_WF n s idle h i (hall i (List.mem_cons_self i is))
    obtain ⟨a1, a2, a3⟩ := coreStep_idle i s s1 idle idle1 e
    obtain ⟨r1, r2⟩ := ih s1 idle1 hwf hnd.2 (fun j hj => hall j (List.mem_cons_of_mem i hj))
    have hcnt : is.countP (fun j => decide (¬ s1.cores.getD j (-1) > 0))
        = is.countP (fun j => decide (¬ s.cores.getD j (-1) > 0)) := by
      apply List.countP_congr
      intro j hj
      have hne : i ≠ j := fun e => hnd.1 (e ▸ hj)
      rw [hcores, getD_set_ne _ _ _ _ _ hne]
    rw [hcnt] at r1 r2
    simp only [coreLoop, e, List.countP_cons]
    rw [r1, r2, a1, a2, a3]
    generalize s.cores.getD i (-1) = c
    generalize is.countP (fun j => decide (¬ s.cores.getD j (-1) > 0)) = k
    by_cases hc : c > 0
    · cases idle <;> simp [hc]
    · by_cases hk : 0 < k
      · cases idle <;> simp [hc, hk] <;> ring
      · have hk0 : k = 0 := by omega
        subst hk0
        cases idle <;> simp [hc]

theorem countP_range_getD (P : Int → Bool) (d : Int) (l : List Int) :
    (List.range l.length).countP (fun i => P (l.getD i d)) = l.countP P := by
  have h : (List.range l.length).map (fun i => l.getD i d) = l := by
    apply List.ext_getElem
    · simp
    · intro i h1 h2
      simp at h1
      simp [List.getD_eq_getElem?_getD, List.getElem?_eq_getElem h1]
  conv_rhs => rw [← h]
  rw [List.countP_map]
  rfl

theorem phaseB_idle (n : Nat) (s : Sim) (h : WF n s) :
    (phaseB s).sim_core_idle = s.sim_core_idle + RRTIME * (emptySlots s : Nat) ∧
    (phaseB s).sim_cpu_idle
      = s.sim_cpu_idle + (if 0 < emptySlots s then RRTIME else 0) := by
  obtain ⟨r1, r2⟩ := coreLoop_idle n (List.range CORECOUNT) s false h
    (List.nodup_range CORECOUNT) (fun i hi => List.mem_range.1 hi)
  have e : (List.range CORECOUNT).countP (fun i => decide (¬ s.cores.getD i (-1) > 0))
      = emptySlots s := by
    rw [← h.lenC]
    exact countP_range_getD (fun c => decide (¬ c > 0)) (-1) s.cores
  rw [e] at r1 r2
  exact ⟨r1, by simpa using r2⟩

theorem takeHigh_idle (i : Nat) (s : Sim) :
    ((takeHigh i s).sim_core_idle, (takeHigh i s).sim_cpu_idle)
      = (s.sim_core_idle, s.sim_cpu_idle) := by
  unfold takeHigh; split <;> rfl

theorem takeMed_idle (i : Nat) (s : Sim) :
    ((takeMed i s).sim_core_idle, (takeMed i s).sim_cpu_idle)
      = (s.sim_core_idle, s.sim_cpu_idle) := by
  unfold takeMed; split <;> rfl

theorem takeLow_idle (i : Nat) (s : Sim) :
    ((takeLow i s).sim_core_idle, (takeLow i s).sim_cpu_idle)
      = (s.sim_core_idle, s.sim_cpu_idle) := by
  unfold takeLow; split <;> rfl

theorem spillStep_idle (i : Nat) (s : Sim) :
    ((spillStep i s).sim_core_idle, (spillStep i s).sim_cpu_idle)
      = (s.sim_core_idle, s.sim_cpu_idle) := by
  unfold spillStep
  split_ifs
  · exact takeHigh_idle i s
  · exact takeMed_idle i s
  · exact takeLow_idle i s
  · rfl
  · rfl

theorem phaseD_idle (s : Sim) :
    ((phaseD s).sim_core_idle, (phaseD s).sim_cpu_idle)
      = (s.sim_core_idle, s.sim_cpu_idle) := by
  unfold phaseD spillFill reservedFill
  rw [fold_keeps (fun t => (t.sim_core_idle, t.sim_cpu_idle)) spillStep spillStep_idle,
    fold_keeps (fun t => (t.sim_core_idle, t.sim_cpu_idle)) takeLow takeLow_idle,
    fold_keeps (fun t => (t.sim_core_idle, t.sim_cpu_idle)) takeMed takeMed_idle,
    fold_keeps (fun t => (t.sim_core_idle, t.sim_cpu_idle)) takeHigh takeHigh_idle]

theorem ioConsume_idle (s : Sim) (p : Int) (rest : List Int) (b : Int) :
    ((ioConsume s p rest b).sim_core_idle, (ioConsume s p rest b).sim_cpu_idle)
      = (s.sim_core_idle, s.sim_cpu_idle) := by
  unfold ioConsume
  simp only [Sim.upd]
  split_ifs <;> rfl

theorem ioLoop_idle : ∀ (wq : List Int) (t : Int) (s : Sim),
    ((ioLoop wq t s).sim_core_idle, (ioLoop wq t s).sim_cpu_idle)
      = (s.sim_core_idle, s.sim_cpu_idle) := by
  intro wq
  induction wq with
  | nil => intro t s; rfl
  | cons p rest ih =>
    intro t s
    simp only [ioLoop]
    split_ifs
    · rfl
    · exact ioConsume_idle s p rest _
    · rw [ih]; exact ioConsume_idle s p rest _

theorem checkDone_idle (s : Sim) :
    ((checkDone s).sim_core_idle, (checkDone s).sim_cpu_idle)
      = (s.sim_core_idle, s.sim_cpu_idle) := by
  unfold checkDone; split <;> rfl

theorem phaseE_idle (s : Sim) :
    ((phaseE s).sim_core_idle, (phaseE s).sim_cpu_idle)
      = (s.sim_core_idle, s.sim_cpu_idle) := by
  unfold phaseE
  rw [ioLoop_idle]

/-- What one pass of the loop does to the idle totals, in a state that
satisfies the loop invariant. -/
theorem tick_idle (n : Nat) (s : Sim) (h : WF n s) :
    (tick s).sim_core_idle = s.sim_core_idle + RRTIME * (emptySlots s : Nat) ∧
    (tick s).sim_cpu_idle = s.sim_cpu_idle + (if 0 < emptySlots s then RRTIME else 0) := by
  have h1 := phaseB_idle n (phaseA s) (WF_phaseA n s h)
  have e1 := checkDone_idle (phaseE (phaseD (phaseC (phaseB (phaseA s)))))
  have e2 := phaseE_idle (phaseD (phaseC (phaseB (phaseA s))))
  have e3 := phaseD_idle (phaseC (phaseB (phaseA s)))
  have e4 : ((phaseC (phaseB (phaseA s))).sim_core_idle,
      (phaseC (phaseB (phaseA s))).sim_cpu_idle)
      = ((phaseB (phaseA s)).sim_core_idle, (phaseB (phaseA s)).sim_cpu_idle) := rfl
  have h2 := e1.trans (e2.trans (e3.trans e4))
  rw [Prod.mk.injEq] at h2
  have e5 : emptySlots (phaseA s) = emptySlots s := rfl
  have e6 : (phaseA s).sim_core_idle = s.sim_core_idle := rfl
  have e7 : (phaseA s).sim_cpu_idle = s.sim_cpu_idle := rfl
  rw [e5, e6, e7] at h1
  have e8 : tick s = checkDone (phaseE (phaseD (phaseC (phaseB (phaseA s))))) := rfl
  rw [e8, h2.1, h2.2]
  exact h1

set_option maxRecDepth 1000000 in
/-- C15 (counterexample): on `loadC15` (thirty-three processes with one cpu
burst of 60) the longest remaining burst is 60 after the first pass, so the
window is two passes; the loop is still running after the third pass, and the
number of remaining bursts is 33 after the first, the second and the third
pass: it does not go down in the window made of passes two and three. -/
theorem C15_no_progress_in_window :
    progressWindow (tickN 1 (initSim loadC15)) = 2 ∧
    (tickN 3 (initSim loadC15)).run = true ∧
    burstTotal (tickN 1 (initSim loadC15)) = 33 ∧
    burstTotal (tickN 2 (initSim loadC15)) = 33 ∧
    burstTotal (tickN 3 (initSim loadC15)) = 33 ∧
    ¬ (burstTotal (tickN 2 (initSim loadC15)) < burstTotal (tickN 1 (initSim loadC15)) ∨
      burstTotal (tickN 3 (initSim loadC15)) < burstTotal (tickN 2 (initSim loadC15))) := by
  decide

/-! ## The number of remaining bursts -/

theorem sum_map_modify (w : PCB → Nat) (f : PCB → PCB) : ∀ (l : List PCB) (i : Nat) (r : PCB),
    l[i]? = some r → ((l.modify f i).map w).sum + w r = (l.map w).sum + w (f r) := by
  intro l
  induction l with
  | nil => intro i r h; simp at h
  | cons a l ih =>
    intro i r h
    cases i with
    | zero =>
      simp at h
      subst h
      simp [List.modify]
      omega
    | succ i =>
      simp at h
      have := ih i r h
      simp [List.modify] at this ⊢
      omega

/-- An update of one record either changes nothing (the index is outside the
vector) or replaces the record read by `getPCB`. -/
theorem total_updPCB (w : PCB → Nat) (pbs : List PCB) (c : Int) (f : PCB → PCB) :
    updPCB pbs c f = pbs ∨
    (PIDMIN ≤ c ∧ c < PIDMIN + pbs.length ∧
      ((updPCB pbs c f).map w).sum + w (getPCB pbs c) = (pbs.map w).sum + w (f (getPCB pbs c))) := by
  unfold updPCB getPCB
  by_cases hc : c < PIDMIN
  · left; simp [hc]
  · simp only [hc, if_false]
    by_cases hlt : (c - PIDMIN).toNat < pbs.length
    · right
      refine ⟨by omega, by omega, ?_⟩
      have hr : pbs[(c - PIDMIN).toNat]? = some pbs[(c - PIDMIN).toNat] :=
        List.getElem?_eq_getElem hlt
      rw [List.getD_eq_getElem?_getD, hr]
      exact sum_map_modify w f pbs _ _ hr
    · left
      exact List.modify_eq_self (Nat.le_of_not_lt hlt)

theorem total_updPCB_le (w : PCB → Nat) (pbs : List PCB) (c : Int) (f : PCB → PCB)
    (hf : w (f (getPCB pbs c)) ≤ w (getPCB pbs c)) :
    ((updPCB pbs c f).map w).sum ≤ (pbs.map w).sum := by
  rcases total_updPCB w pbs c f with h | ⟨_, _, h⟩
  · rw [h]
  · omega

theorem total_map (w : PCB → Nat) (pbs : List PCB) (g : PCB → PCB) (hg : ∀ r, w (g r) = w r) :
    ((pbs.map g).map w).sum = (pbs.map w).sum := by
  rw [List.map_map]
  congr 1
  apply List.map_congr_left
  intro r _
  exact hg r

theorem burstTotal_upd_le (s : Sim) (c : Int) (f : PCB → PCB)
    (hf : (f (getPCB s.proc_blocks c)).bursts ≤ (getPCB s.proc_blocks c).bursts) :
    burstTotal (s.upd c f) ≤ burstTotal s :=
  total_updPCB_le PCB.bursts s.proc_blocks c f hf

theorem burstTotal_completeBurst (s : Sim) (c b : Int) (tl : List Int)
    (hcpu : (getPCB s.proc_blocks c).CPU_TIME = b :: tl) :
    burstTotal (completeBurst s c b tl) ≤ burstTotal s ∧
    (PIDMIN ≤ c → c < PIDMIN + s.proc_blocks.length →
      burstTotal (completeBurst s c b tl) < burstTotal s) := by
  have key : ∀ (pbs : List PCB), (getPCB pbs c).CPU_TIME = b :: tl →
      ((updPCB pbs c (fun p => { p with CPU_TIME := tl })).map PCB.bursts).sum
        ≤ (pbs.map PCB.bursts).sum ∧
      (PIDMIN ≤ c → c < PIDMIN + pbs.length →
        ((updPCB pbs c (fun p => { p with CPU_TIME := tl })).map PCB.bursts).sum
          < (pbs.map PCB.bursts).sum) := by
    intro pbs h
    have hw : ({ getPCB pbs c with CPU_TIME := tl } : PCB).bursts + 1 = (getPCB pbs c).bursts := by
      simp [PCB.bursts, h]; omega
    rcases total_updPCB PCB.bursts pbs c (fun p => { p with CPU_TIME := tl }) with e | ⟨_, _, e⟩
    · rw [e]
      refine ⟨le_refl _, fun h1 h2 => ?_⟩
      exfalso
      have h3 := getPCB_updPCB_eq pbs c (fun p => { p with CPU_TIME := tl }) h1 h2
      rw [e] at h3
      have h4 : (getPCB pbs c).bursts = ({ getPCB pbs c with CPU_TIME := tl } : PCB).bursts :=
        congrArg PCB.bursts h3
      omega
    · have e2 : ((updPCB pbs c (fun p => { p with CPU_TIME := tl })).map PCB.bursts).sum
          + (getPCB pbs c).bursts
          = (pbs.map PCB.bursts).sum + ({ getPCB pbs c with CPU_TIME := tl } : PCB).bursts := e
      exact ⟨by omega, fun _ _ => by omega⟩
  have e1 : ∀ (pbs : List PCB) (g : PCB → PCB), (∀ r, (g r).bursts = r.bursts) →
      ((updPCB pbs c g).map PCB.bursts).sum = (pbs.map PCB.bursts).sum := by
    intro pbs g hg
    rcases total_updPCB PCB.bursts pbs c g with e | ⟨_, _, e⟩
    · rw [e]
    · rw [hg] at e; omega
  have main : ∀ (st : Int),
      ((updPCB (updPCB (updPCB s.proc_blocks c
          (fun p => { p with TURNAROUND := p.TURNAROUND + b })) c
          (fun p => { p with STATE := st })) c
          (fun p => { p with CPU_TIME := tl })).map PCB.bursts).sum
        ≤ (s.proc_blocks.map PCB.bursts).sum ∧
      (PIDMIN ≤ c → c < PIDMIN + s.proc_blocks.length →
        ((updPCB (updPCB (updPCB s.proc_blocks c
          (fun p => { p with TURNAROUND := p.TURNAROUND + b })) c
          (fun p => { p with STATE := st })) c
          (fun p => { p with CPU_TIME := tl })).map PCB.bursts).sum
        < (s.proc_blocks.map PCB.bursts).sum) := by
    intro st
    have hc2 : (getPCB (updPCB (updPCB s.proc_blocks c
        (fun p => { p with TURNAROUND := p.TURNAROUND + b })) c
        (fun p => { p with STATE := st })) c).CPU_TIME = b :: tl := by
      simp [CPU_TIME_updPCB, hcpu]
    obtain ⟨k1, k2⟩ := key _ hc2
    have a1 := e1 s.proc_blocks (fun p => { p with TURNAROUND := p.TURNAROUND + b })
      (fun r => rfl)
    have a2 := e1 (updPCB s.proc_blocks c
      (fun p => { p with TURNAROUND := p.TURNAROUND + b })) (fun p => { p with STATE := st })
      (fun r => rfl)
    refine ⟨by omega, fun h3 h4 => ?_⟩
    have := k2 h3 (by simpa [length_updPCB] using h4)
    omega
  by_cases h2 : (getPCB s.proc_blocks c).IO_TIME = []
  · rw [completeBurst_done s c b tl h2]
    exact main 4
  · rw [completeBurst_wait s c b tl h2]
    exact main 2

theorem burstTotal_preemptBurst (s : Sim) (c b : Int) (tl : List Int)
    (hcpu : (getPCB s.proc_blocks c).CPU_TIME = b :: tl) :
    burstTotal (preemptBurst s c b tl) ≤ burstTotal s := by
  have h1 : burstTotal (s.upd c (fun p => { p with CPU_TIME := (b - RRTIME) :: tl }))
      ≤ burstTotal s := by
    apply burstTotal_upd_le
    simp [PCB.bursts, hcpu]
  unfold preemptBurst
  simp only
  split_ifs <;> exact h1

theorem burstTotal_coreStep (i : Nat) (s s1 : Sim) (idle idle1 : Bool)
    (h : coreStep i s idle = some (s1, idle1)) : burstTotal s1 ≤ burstTotal s := by
  unfold coreStep at h
  generalize s.cores.getD i (-1) = c at h
  by_cases hc : c > 0
  · simp only [hc, if_true] at h
    cases hct : (getPCB s.proc_blocks c).CPU_TIME with
    | nil => rw [hct] at h; exact Option.noConfusion h
    | cons b tl =>
      rw [hct] at h
      simp only [Option.some.injEq, Prod.mk.injEq] at h
      obtain ⟨h1, _⟩ := h
      subst h1
      by_cases hb : b - RRTIME ≤ 0
      · simp only [hb, if_true]
        exact (burstTotal_completeBurst s c b tl hct).1
      · simp only [hb, if_false]
        exact burstTotal_preemptBurst s c b tl hct
  · simp only [hc, if_false, Option.some.injEq, Prod.mk.injEq] at h
    obtain ⟨h1, _⟩ := h
    subst h1
    split <;> exact le_refl _

theorem burstTotal_coreLoop : ∀ (is : List Nat) (s : Sim) (idle : Bool),
    burstTotal (coreLoop is s idle) ≤ burstTotal s := by
  intro is
  induction is with
  | nil => intro s idle; exact le_refl _
  | cons i is ih =>
    intro s idle
    simp only [coreLoop]
    cases e : coreStep i s idle with
    | none => exact le_refl _
    | some r =>
      obtain ⟨s1, idle1⟩ := r
      exact le_trans (ih s1 idle1) (burstTotal_coreStep i s s1 idle idle1 e)

theorem burstTotal_takeHigh (i : Nat) (s : Sim) : burstTotal (takeHigh i s) ≤ burstTotal s := by
  unfold takeHigh
  split
  · exact le_refl _
  · exact burstTotal_upd_le _ _ _ (le_refl _)

theorem burstTotal_takeMed (i : Nat) (s : Sim) : burstTotal (takeMed i s) ≤ burstTotal s := by
  unfold takeMed
  split
  · exact le_refl _
  · exact burstTotal_upd_le _ _ _ (le_refl _)

theorem burstTotal_takeLow (i : Nat) (s : Sim) : burstTotal (takeLow i s) ≤ burstTotal s := by
  unfold takeLow
  split
  · exact le_refl _
  · exact burstTotal_upd_le _ _ _ (le_refl _)

theorem burstTotal_spillStep (i : Nat) (s : Sim) :
    burstTotal (spillStep i s) ≤ burstTotal s := by
  unfold spillStep
  split_ifs
  · exact burstTotal_takeHigh i s
  · exact burstTotal_takeMed i s
  · exact burstTotal_takeLow i s
  · exact le_refl _
  · exact le_refl _

/-- A loop whose body never lets a measure grow never lets it grow. -/
theorem fold_le (g : Sim → Nat) (f : Nat → Sim → Sim) (hle : ∀ i s, g (f i s) ≤ g s) :
    ∀ (is : List Nat) (s : Sim), g (is.foldl (fun t i => f i t) s) ≤ g s := by
  intro is
  induction is with
  | nil => intro s; exact le_refl _
  | cons i is ih => intro s; rw [List.foldl_cons]; exact le_trans (ih _) (hle i s)

theorem burstTotal_phaseD (s : Sim) : burstTotal (phaseD s) ≤ burstTotal s := by
  unfold phaseD spillFill reservedFill
  exact le_trans (fold_le burstTotal spillStep burstTotal_spillStep _ _)
    (le_trans (fold_le burstTotal takeLow burstTotal_takeLow _ _)
      (le_trans (fold_le burstTotal takeMed burstTotal_takeMed _ _)
        (fold_le burstTotal takeHigh burstTotal_takeHigh _ _)))

theorem burstTotal_creditWait (s : Sim) (b : Int) :
    burstTotal (creditWait s b) = burstTotal s := by
  unfold creditWait burstTotal
  apply total_map
  intro r
  split <;> rfl

theorem burstTotal_ioOverflow (s : Sim) (p b d : Int) :
    burstTotal (ioOverflow s p b d) ≤ burstTotal s := by
  unfold ioOverflow
  simp only
  have h1 : burstTotal (creditWait (s.upd p
      (fun r => { r with IO_TIME := r.IO_TIME.set 0 (b + d) })) b)
      ≤ burstTotal s := by
    rw [burstTotal_creditWait]
    apply burstTotal_upd_le
    simp [PCB.bursts]
  exact h1

theorem burstTotal_ioConsume (s : Sim) (p : Int) (rest : List Int) (b : Int) :
    burstTotal (ioConsume s p rest b) ≤ burstTotal s := by
  have h1 : burstTotal ((creditWait s b).upd p (fun r => { r with IO_TIME := r.IO_TIME.tail }))
      ≤ burstTotal s := by
    rw [← burstTotal_creditWait s b]
    apply burstTotal_upd_le
    simp [PCB.bursts]
  unfold ioConsume
  simp only
  split_ifs
  · exact le_trans (burstTotal_upd_le _ _ _ (le_refl _)) h1
  · exact le_trans (burstTotal_upd_le _ _ _ (le_refl _)) h1
  · exact le_trans (burstTotal_upd_le _ _ _ (le_refl _)) h1
  · exact le_trans (burstTotal_upd_le _ _ _ (le_refl _)) h1

theorem burstTotal_ioLoop : ∀ (wq : List Int) (t : Int) (s : Sim),
    burstTotal (ioLoop wq t s) ≤ burstTotal s := by
  intro wq
  induction wq with
  | nil => intro t s; exact le_refl _
  | cons p rest ih =>
    intro t s
    simp only [ioLoop]
    split_ifs
    · exact burstTotal_ioOverflow s p _ _
    · exact burstTotal_ioConsume s p rest _
    · exact le_trans (ih _ _) (burstTotal_ioConsume s p rest _)

theorem burstTotal_phaseA (s : Sim) : burstTotal (phaseA s) = burstTotal s := by
  unfold phaseA burstTotal
  apply total_map
  intro r
  split <;> rfl

theorem burstTotal_phaseC (s : Sim) : burstTotal (phaseC s) = burstTotal s := by
  unfold phaseC burstTotal
  apply total_map
  intro r
  split <;> rfl

theorem burstTotal_checkDone (s : Sim) : burstTotal (checkDone s) = burstTotal s := by
  unfold checkDone
  split <;> rfl

theorem burstTotal_phaseE (s : Sim) : burstTotal (phaseE s) ≤ burstTotal s := by
  unfold phaseE
  exact burstTotal_ioLoop _ _ _

/-- After Phase B the rest of the pass never lets the number of remaining
bursts grow. -/
theorem burstTotal_after_phaseB (s : Sim) :
    burstTotal (tick s) ≤ burstTotal (phaseB (phaseA s)) := by
  have e : tick s = checkDone (phaseE (phaseD (phaseC (phaseB (phaseA s))))) := rfl
  rw [e, burstTotal_checkDone]
  refine le_trans (burstTotal_phaseE _) (le_trans (burstTotal_phaseD _) ?_)
  rw [burstTotal_phaseC]

theorem burstTotal_tick (s : Sim) : burstTotal (tick s) ≤ burstTotal s := by
  refine le_trans (burstTotal_after_phaseB s) ?_
  have : burstTotal (phaseB (phaseA s)) ≤ burstTotal (phaseA s) := burstTotal_coreLoop _ _ _
  rw [burstTotal_phaseA] at this
  exact this

theorem completeBurst_rec (s : Sim) (c b : Int) (tl : List Int) (pid : Int) (h : pid ≠ c) :
    getPCB (completeBurst s c b tl).proc_blocks pid = getPCB s.proc_blocks pid := by
  by_cases h2 : (getPCB s.proc_blocks c).IO_TIME = []
  · rw [completeBurst_done s c b tl h2]
    simp [getPCB_updPCB_ne _ _ _ _ h]
  · rw [completeBurst_wait s c b tl h2]
    simp [getPCB_updPCB_ne _ _ _ _ h]

theorem preemptBurst_rec (s : Sim) (c b : Int) (tl : List Int) (pid : Int) (h : pid ≠ c) :
    getPCB (preemptBurst s c b tl).proc_blocks pid = getPCB s.proc_blocks pid := by
  unfold preemptBurst
  simp only [Sim.upd]
  split_ifs <;> simp [getPCB_updPCB_ne _ _ _ _ h]

/-- One pass of the loop over the cores changes no record but the one of the
process on that core. -/
theorem coreStep_rec (i : Nat) (s s1 : Sim) (idle idle1 : Bool)
    (h : coreStep i s idle = some (s1, idle1)) (pid : Int)
    (hne : pid ≠ s.cores.getD i (-1)) :
    getPCB s1.proc_blocks pid = getPCB s.proc_blocks pid := by
  unfold coreStep at h
  generalize s.cores.getD i (-1) = c at h hne
  by_cases hc : c > 0
  · simp only [hc, if_true] at h
    cases hct : (getPCB s.proc_blocks c).CPU_TIME with
    | nil => rw [hct] at h; exact Option.noConfusion h
    | cons b tl =>
      rw [hct] at h
      simp only [Option.some.injEq, Prod.mk.injEq] at h
      obtain ⟨h1, _⟩ := h
      subst h1
      by_cases hb : b - RRTIME ≤ 0
      · simp only [hb, if_true]
        exact completeBurst_rec s c b tl pid hne
      · simp only [hb, if_false]
        exact preemptBurst_rec s c b tl pid hne
  · simp only [hc, if_false, Option.some.injEq, Prod.mk.injEq] at h
    obtain ⟨h1, _⟩ := h
    subst h1
    split <;> rfl

theorem two_slots_count (l : List Int) (i j : Nat) (c : Int) (hi : l[i]? = some c)
    (hj : l[j]? = some c) (hne : i ≠ j) : 2 ≤ l.count c := by
  have h1 := count_set_slot l i c (c + 1) c hi
  have h2 : (l.set i (c + 1))[j]? = some c := by
    rw [List.getElem?_set_ne hne]; exact hj
  have h3 : 0 < (l.set i (c + 1)).count c := List.count_pos_iff.2 (mem_of_getElem? _ _ _ h2)
  simp at h1
  omega

theorem burstTotal_coreStep_lt (n : Nat) (i : Nat) (s s1 : Sim) (idle idle1 : Bool)
    (hwf : WF n s) (h : coreStep i s idle = some (s1, idle1)) (c b : Int) (tl : List Int)
    (hc : s.cores[i]? = some c) (hpos : c > 0)
    (hcpu : (getPCB s.proc_blocks c).CPU_TIME = b :: tl) (hb : b ≤ RRTIME) :
    burstTotal s1 < burstTotal s := by
  have hd : s.cores.getD i (-1) = c := getD_of_getElem? _ _ _ _ hc
  have hv : ValidPid n c := by
    rcases hwf.cv c (mem_of_getElem? _ _ _ hc) with e | e
    · omega
    · exact e
  unfold coreStep at h
  rw [hd] at h
  simp only [hpos, if_true, hcpu] at h
  have hb2 : b - RRTIME ≤ 0 := by omega
  simp only [hb2, if_true, Option.some.injEq, Prod.mk.injEq] at h
  obtain ⟨h1, _⟩ := h
  subst h1
  exact (burstTotal_completeBurst s c b tl hcpu).2 hv.1 (by rw [hwf.lenP]; exact hv.2)

/-- When a core holds a process whose head cpu burst is at most RRTIME, the
loop over the cores takes a burst away. -/
theorem burstTotal_coreLoop_lt (n : Nat) : ∀ (is : List Nat) (s : Sim) (idle : Bool),
    WF n s → (∀ j ∈ is, j < CORECOUNT) → ∀ (i : Nat) (c b : Int) (tl : List Int),
    i ∈ is → s.cores[i]? = some c → c > 0 →
    (getPCB s.proc_blocks c).CPU_TIME = b :: tl → b ≤ RRTIME →
    burstTotal (coreLoop is s idle) < burstTotal s := by
  intro is
  induction is with
  | nil => intro s idle _ _ i c b tl hi; simp at hi
  | cons j is ih =>
    intro s idle hwf hall i c b tl hi hc hpos hcpu hb
    obtain ⟨s1, idle1, e, hwf1, hcores⟩ :=
      coreStep_WF n s idle hwf j (hall j (List.mem_cons_self j is))
    simp only [coreLoop, e]
    by_cases hij : j = i
    · subst hij
      exact lt_of_le_of_lt (burstTotal_coreLoop is s1 idle1)
        (burstTotal_coreStep_lt n j s s1 idle idle1 hwf e c b tl hc hpos hcpu hb)
    · have hi2 : i ∈ is := by
        rcases List.mem_cons.1 hi with h | h
        · exact absurd h.symm hij
        · exact h
      have hc1 : s1.cores[i]? = some c := by
        rw [hcores, List.getElem?_set_ne hij]; exact hc
      have hv : ValidPid n c := by
        rcases hwf.cv c (mem_of_getElem? _ _ _ hc) with e | e
        · omega
        · exact e
      have hne : c ≠ s.cores.getD j (-1) := by
        intro e2
        have hjl : j < s.cores.length := by
          rw [hwf.lenC]; exact hall j (List.mem_cons_self j is)
        have hj : s.cores[j]? = some c := by
          rw [List.getD_eq_getElem?_getD, List.getElem?_eq_getElem hjl] at e2
          rw [List.getElem?_eq_getElem hjl, e2]; rfl
        have := two_slots_count s.cores j i c hj hc hij
        have := (WF_on_core n s hwf i c hc hv).2.2.2.2.1
        omega
      have hcpu1 : (getPCB s1.proc_blocks c).CPU_TIME = b :: tl := by
        rw [coreStep_rec j s s1 idle idle1 e c hne]; exact hcpu
      exact lt_of_lt_of_le
        (ih s1 idle1 hwf1 (fun k hk => hall k (List.mem_cons_of_mem j hk)) i c b tl hi2 hc1
          hpos hcpu1 hb)
        (burstTotal_coreStep j s s1 idle idle1 e)

theorem burstTotal_tick_lt (n : Nat) (s : Sim) (hwf : WF n s) (i : Nat) (c b : Int)
    (tl : List Int) (hc : s.cores[i]? = some c) (hpos : c > 0)
    (hcpu : (getPCB s.proc_blocks c).CPU_TIME = b :: tl) (hb : b ≤ RRTIME) :
    burstTotal (tick s) < burstTotal s := by
  have hi : i < CORECOUNT := by
    by_contra hh
    rw [List.getElem?_eq_none (by rw [hwf.lenC]; omega)] at hc
    exact Option.noConfusion hc
  have hA : (getPCB (phaseA s).proc_blocks c).CPU_TIME = b :: tl := by
    rw [← hcpu]; unfold phaseA
    apply proj_getPCB_map PCB.CPU_TIME; intro r; split <;> rfl
  have h1 := burstTotal_coreLoop_lt n (List.range CORECOUNT) (phaseA s) false
    (WF_phaseA n s hwf) (fun j hj => List.mem_range.1 hj) i c b tl (List.mem_range.2 hi)
    hc hpos hA hb
  rw [burstTotal_phaseA] at h1
  exact lt_of_le_of_lt (burstTotal_after_phaseB s) h1

/-- C15 (as amended): the number of remaining bursts, summed over all records,
never grows in a pass of the loop, whatever the state; and for a workload
whose record `i` has pid `30 + i`, a priority in 1, 2, 3, a cpu burst and
state 1, it goes down in every pass at whose start a core holds a process whose
head cpu burst is at most RRTIME. -/
theorem C15_bursts_never_grow_and_completion_shrinks (w : List PCB)
    (hpid : w.map PCB.PID = (List.range w.length).map (fun (i : Nat) => PIDMIN + (i : Int)))
    (hprio : ∀ p ∈ w, p.PRIORITY = 1 ∨ p.PRIORITY = 2 ∨ p.PRIORITY = 3)
    (hcpu : ∀ p ∈ w, p.CPU_TIME ≠ [])
    (hst : ∀ p ∈ w, p.STATE = 1)
    (k i : Nat) (c : Int)
    (hc : (tickN k (initSim w)).cores[i]? = some c) (hpos : c > 0)
    (hb : ∃ b, (getPCB (tickN k (initSim w)).proc_blocks c).CPU_TIME.head? = some b ∧
      b ≤ RRTIME) :
    burstTotal (tick (tickN k (initSim w))) < burstTotal (tickN k (initSim w)) ∧
    ∀ s : Sim, burstTotal (tick s) ≤ burstTotal s := by
  refine ⟨?_, burstTotal_tick⟩
  obtain ⟨b, hb1, hb2⟩ := hb
  have hk := WF_tickN w.length k (initSim w) (WF_init w (pid_of_map w hpid) hprio hcpu hst)
  cases hct : (getPCB (tickN k (initSim w)).proc_blocks c).CPU_TIME with
  | nil => rw [hct] at hb1; simp at hb1
  | cons b1 tl =>
    rw [hct] at hb1
    simp at hb1
    subst hb1
    exact burstTotal_tick_lt w.length _ hk i c b1 tl hc hpos hct hb2

set_option maxRecDepth 1000000 in
/-- Witness of C15 (as amended): the second pass over `loadC2`, where core 0
holds process 30 with a cpu burst of 30. -/
theorem C15_bursts_never_grow_witness :
    (tickN 1 (initSim loadC2)).cores[0]? = some 30 ∧
    burstTotal (tick (tickN 1 (initSim loadC2))) < burstTotal (tickN 1 (initSim loadC2)) :=
  ⟨by decide,
    (C15_bursts_never_grow_and_completion_shrinks loadC2 (by decide) (by decide) (by decide)
      (by decide) 1 0 30 (by decide) (by decide) ⟨30, by decide, by decide⟩).1⟩

/-! ## A process that is in no queue and on no core stays there -/

theorem sameRec_refl (s : Sim) (x : Int) : SameRec s s x := ⟨rfl, rfl, rfl⟩

theorem sameRec_trans (s t u : Sim) (x : Int) (h1 : SameRec s t x) (h2 : SameRec t u x) :
    SameRec s u x :=
  ⟨h2.1.trans h1.1, h2.2.1.trans h1.2.1, h2.2.2.trans h1.2.2⟩

theorem sameRec_of_eq (s t : Sim) (x : Int)
    (h : getPCB t.proc_blocks x = getPCB s.proc_blocks x) : SameRec s t x := by
  unfold SameRec; rw [h]; exact ⟨rfl, rfl, rfl⟩

theorem sameRec_map (s t : Sim) (x : Int) (g : PCB → PCB)
    (ht : t.proc_blocks = s.proc_blocks.map g)
    (h1 : ∀ r, (g r).STATE = r.STATE) (h2 : ∀ r, (g r).CPU_TIME = r.CPU_TIME)
    (h3 : ∀ r, (g r).IO_TIME = r.IO_TIME) : SameRec s t x := by
  unfold SameRec
  rw [ht]
  exact ⟨proj_getPCB_map PCB.STATE _ _ _ h1, proj_getPCB_map PCB.CPU_TIME _ _ _ h2,
    proj_getPCB_map PCB.IO_TIME _ _ _ h3⟩

theorem completeBurst_queues (s : Sim) (c b : Int) (tl : List Int) :
    (completeBurst s c b tl).high_queue = s.high_queue ∧
    (completeBurst s c b tl).med_queue = s.med_queue ∧
    (completeBurst s c b tl).low_queue = s.low_queue ∧
    (completeBurst s c b tl).wait_queue
      = (if (getPCB s.proc_blocks c).IO_TIME = [] then s.wait_queue else s.wait_queue ++ [c]) := by
  by_cases h2 : (getPCB s.proc_blocks c).IO_TIME = []
  · rw [completeBurst_done s c b tl h2]; simp [h2]
  · rw [completeBurst_wait s c b tl h2]; simp [h2]

theorem init_run (w : List PCB) : (initSim w).run = true := by
  have hgen : ∀ (l : List PCB) (s : Sim), (l.foldl initStep s).run = s.run := by
    intro l
    induction l with
    | nil => intro s; rfl
    | cons p l ih =>
      intro s
      rw [List.foldl_cons, ih]
      unfold initStep
      split_ifs <;> rfl
  exact hgen w emptySim

theorem getPCB_at (w : List PCB) (j : Nat) (p : PCB) (hp : w[j]? = some p) :
    getPCB w (PIDMIN + j) = p := by
  unfold getPCB
  have h1 : ¬ (PIDMIN + (j : Int) < PIDMIN) := by omega
  have h2 : (PIDMIN + (j : Int) - PIDMIN).toNat = j := by omega
  simp only [h1, if_false, h2, List.getD_eq_getElem?_getD, hp, Option.getD_some]

theorem locR_respects : RespectsRec LocR := by
  intro rd wt co r r1 h1 h2 h3 h
  unfold LocR at h ⊢
  rw [h1, h3]; exact h

theorem altR_respects : RespectsRec AltR := by
  intro rd wt co r r1 h1 h2 h3 h
  unfold AltR at h ⊢
  rw [h1, h2, h3]; exact h

/-- A step that leaves queues and cores as they are and keeps state and bursts
of every record keeps the relation. -/
theorem holds_of_same (R : Prop → Prop → Prop → PCB → Prop) (hR : RespectsRec R)
    (n : Nat) (s t : Sim) (h : Holds R n s)
    (e1 : t.high_queue = s.high_queue) (e2 : t.med_queue = s.med_queue)
    (e3 : t.low_queue = s.low_queue) (e4 : t.wait_queue = s.wait_queue)
    (e5 : t.cores = s.cores) (e6 : ∀ pid, SameRec s t pid) : Holds R n t := by
  intro pid hv
  have := h pid hv
  unfold rdy at this ⊢
  rw [e1, e2, e3, e4, e5]
  exact hR _ _ _ _ _ (e6 pid).1 (e6 pid).2.1 (e6 pid).2.2 this

/-- A step that moves the one process `c` keeps the relation when it holds for
`c` afterwards. -/
theorem holds_of_moves (R : Prop → Prop → Prop → PCB → Prop) (hR : RespectsRec R)
    (n : Nat) (s t : Sim) (c : Int) (hm : Moves s t c) (h : Holds R n s)
    (hc : ValidPid n c →
      R (rdy t c) (c ∈ t.wait_queue) (c ∈ t.cores) (getPCB t.proc_blocks c)) :
    Holds R n t := by
  intro pid hv
  by_cases e : pid = c
  · subst e; exact hc hv
  · have h1 := h pid hv
    have hne := validPid_ne_neg_one n pid hv
    rw [propext (hm.rd pid e), propext (hm.wt pid e), propext (hm.co pid e hne)]
    exact hR _ _ _ _ _ (hm.recs pid e).1 (hm.recs pid e).2.1 (hm.recs pid e).2.2 h1

theorem mem_iff_of_count (l1 l2 : List Int) (pid : Int) (e : l1.count pid = l2.count pid) :
    (pid ∈ l1 ↔ pid ∈ l2) := by
  rw [← List.count_pos_iff, ← List.count_pos_iff, e]

theorem not_mem_of_count (l : List Int) (pid : Int) (e : l.count pid = 0) : pid ∉ l :=
  List.count_eq_zero.1 e

/-- What `occ = 1` says about the places of one process. -/
theorem occ_one_places (s : Sim) (c : Int) (h : occ s c = 1) :
    ((getPCB s.proc_blocks c).STATE = 4 → ¬ rdy s c ∧ c ∉ s.wait_queue ∧ c ∉ s.cores) ∧
    (rdy s c → c ∉ s.wait_queue ∧ c ∉ s.cores ∧ (getPCB s.proc_blocks c).STATE ≠ 4) ∧
    (c ∈ s.wait_queue → ¬ rdy s c ∧ c ∉ s.cores ∧ (getPCB s.proc_blocks c).STATE ≠ 4) ∧
    (c ∈ s.cores → ¬ rdy s c ∧ c ∉ s.wait_queue ∧ (getPCB s.proc_blocks c).STATE ≠ 4) := by
  unfold occ at h
  unfold rdy
  have a1 : 0 < s.high_queue.count c ↔ c ∈ s.high_queue := List.count_pos_iff
  have a2 : 0 < s.med_queue.count c ↔ c ∈ s.med_queue := List.count_pos_iff
  have a3 : 0 < s.low_queue.count c ↔ c ∈ s.low_queue := List.count_pos_iff
  have a4 : 0 < s.wait_queue.count c ↔ c ∈ s.wait_queue := List.count_pos_iff
  have a5 : 0 < s.cores.count c ↔ c ∈ s.cores := List.count_pos_iff
  by_cases h4 : (getPCB s.proc_blocks c).STATE = 4
  · rw [if_pos h4] at h
    have b1 : ¬ c ∈ s.high_queue := fun m => by have := a1.2 m; omega
    have b2 : ¬ c ∈ s.med_queue := fun m => by have := a2.2 m; omega
    have b3 : ¬ c ∈ s.low_queue := fun m => by have := a3.2 m; omega
    have b4 : ¬ c ∈ s.wait_queue := fun m => by have := a4.2 m; omega
    have b5 : ¬ c ∈ s.cores := fun m => by have := a5.2 m; omega
    simp [h4, b1, b2, b3, b4, b5]
  · rw [if_neg h4] at h
    refine ⟨fun e => absurd e h4, ?_, ?_, ?_⟩
    · intro hr
      have : 0 < s.high_queue.count c + s.med_queue.count c + s.low_queue.count c := by
        rcases hr with m | m | m
        · have := a1.2 m; omega
        · have := a2.2 m; omega
        · have := a3.2 m; omega
      exact ⟨fun m => by have := a4.2 m; omega, fun m => by have := a5.2 m; omega, h4⟩
    · intro hw
      have := a4.2 hw
      refine ⟨?_, fun m => by have := a5.2 m; omega, h4⟩
      rintro (m | m | m)
      · have := a1.2 m; omega
      · have := a2.2 m; omega
      · have := a3.2 m; omega
    · intro hw
      have := a5.2 hw
      refine ⟨?_, fun m => by have := a4.2 m; omega, h4⟩
      rintro (m | m | m)
      · have := a1.2 m; omega
      · have := a2.2 m; omega
      · have := a3.2 m; omega

/-- A step is a move of `c` when the records and the counts of every other
process id are as before. -/
theorem moves_of_counts (s t : Sim) (c : Int)
    (H2 : ∀ pid, pid ≠ c → getPCB t.proc_blocks pid = getPCB s.proc_blocks pid)
    (H4 : ∀ pid, pid ≠ c → t.high_queue.count pid = s.high_queue.count pid ∧
      t.med_queue.count pid = s.med_queue.count pid ∧
      t.low_queue.count pid = s.low_queue.count pid ∧
      t.wait_queue.count pid = s.wait_queue.count pid)
    (H5 : ∀ pid, pid ≠ c → pid ≠ -1 → t.cores.count pid = s.cores.count pid) :
    Moves s t c := by
  refine ⟨fun pid e => sameRec_of_eq s t pid (H2 pid e), ?_, ?_, ?_⟩
  · intro pid e
    obtain ⟨h1, h2, h3, _⟩ := H4 pid e
    unfold rdy
    rw [mem_iff_of_count _ _ pid h1, mem_iff_of_count _ _ pid h2, mem_iff_of_count _ _ pid h3]
  · intro pid e
    exact mem_iff_of_count _ _ pid (H4 pid e).2.2.2
  · intro pid e e1
    exact mem_iff_of_count _ _ pid (H5 pid e e1)

/-- A finished cpu burst as a move of the process on the core. -/
theorem complete_moves (n : Nat) (s : Sim) (h : WF n s) (i : Nat) (c b : Int) (tl : List Int)
    (hc : s.cores[i]? = some c) (hv : ValidPid n c) (t : Sim)
    (ht : t = { completeBurst s c b tl with
      cores := (completeBurst s c b tl).cores.set i (-1) }) :
    Moves s t c ∧ ¬ rdy t c ∧ c ∉ t.cores ∧
    (c ∈ t.wait_queue ↔ (getPCB s.proc_blocks c).IO_TIME ≠ []) ∧
    (getPCB t.proc_blocks c).STATE
      = (if (getPCB s.proc_blocks c).IO_TIME = [] then 4 else 2) ∧
    (getPCB t.proc_blocks c).CPU_TIME = tl ∧
    (getPCB t.proc_blocks c).IO_TIME = (getPCB s.proc_blocks c).IO_TIME := by
  have hwf : WF n t := by rw [ht]; exact WF_complete n s h i c b tl hc hv
  obtain ⟨p1, p2, p3, p4⟩ := occ_one_places t c (hwf.one c hv)
  have hc1 : PIDMIN ≤ c := hv.1
  have hc2 : c < PIDMIN + s.proc_blocks.length := by rw [h.lenP]; exact hv.2
  have hcs := fun x => count_set_slot s.cores i c (-1) x hc
  by_cases hio : (getPCB s.proc_blocks c).IO_TIME = []
  · rw [completeBurst_done s c b tl hio] at ht
    have hm : Moves s t c := by
      subst ht
      apply moves_of_counts
      · intro pid e; simp [getPCB_updPCB_ne _ _ _ _ e]
      · intro pid e; simp
      · intro pid e e1
        have := hcs pid
        simp [Ne.symm e, Ne.symm e1] at this
        simpa using this
    have hr : (getPCB t.proc_blocks c).STATE = 4 ∧ (getPCB t.proc_blocks c).CPU_TIME = tl ∧
        (getPCB t.proc_blocks c).IO_TIME = (getPCB s.proc_blocks c).IO_TIME := by
      subst ht
      simp [getPCB_updPCB_eq, length_updPCB, hc1, hc2]
    obtain ⟨q1, q2, q3⟩ := p1 hr.1
    refine ⟨hm, q1, q3, ?_, ?_, hr.2.1, hr.2.2⟩
    · simp [hio, q2]
    · rw [if_pos hio]; exact hr.1
  · rw [completeBurst_wait s c b tl hio] at ht
    have hm : Moves s t c := by
      subst ht
      apply moves_of_counts
      · intro pid e; simp [getPCB_updPCB_ne _ _ _ _ e]
      · intro pid e; simp [List.count_append, List.count_singleton, Ne.symm e]
      · intro pid e e1
        have := hcs pid
        simp [Ne.symm e, Ne.symm e1] at this
        simpa using this
    have hr : (getPCB t.proc_blocks c).STATE = 2 ∧ (getPCB t.proc_blocks c).CPU_TIME = tl ∧
        (getPCB t.proc_blocks c).IO_TIME = (getPCB s.proc_blocks c).IO_TIME := by
      subst ht
      simp [getPCB_updPCB_eq, length_updPCB, hc1, hc2]
    have hw : c ∈ t.wait_queue := by subst ht; simp
    obtain ⟨q1, q2, q3⟩ := p3 hw
    refine ⟨hm, q1, q2, ?_, ?_, hr.2.1, hr.2.2⟩
    · simp [hio, hw]
    · rw [if_neg hio]; exact hr.1

/-- A burst that is not over as a move of the process on the core. -/
theorem preempt_moves (n : Nat) (s : Sim) (h : WF n s) (i : Nat) (c b : Int) (tl : List Int)
    (hc : s.cores[i]? = some c) (hv : ValidPid n c) (t : Sim)
    (ht : t = { preemptBurst s c b tl with
      cores := (preemptBurst s c b tl).cores.set i (-1) }) :
    Moves s t c ∧ rdy t c ∧ c ∉ t.cores ∧ c ∉ t.wait_queue ∧
    (getPCB t.proc_blocks c).STATE = (getPCB s.proc_blocks c).STATE ∧
    (getPCB t.proc_blocks c).CPU_TIME = (b - RRTIME) :: tl ∧
    (getPCB t.proc_blocks c).IO_TIME = (getPCB s.proc_blocks c).IO_TIME := by
  have hwf : WF n t := by rw [ht]; exact WF_preempt n s h i c b tl hc hv
  obtain ⟨p1, p2, p3, p4⟩ := occ_one_places t c (hwf.one c hv)
  have hc1 : PIDMIN ≤ c := hv.1
  have hc2 : c < PIDMIN + s.proc_blocks.length := by rw [h.lenP]; exact hv.2
  have hcs := fun x => count_set_slot s.cores i c (-1) x hc
  have e : (getPCB (updPCB s.proc_blocks c
      (fun p => { p with CPU_TIME := (b - RRTIME) :: tl })) c).PRIORITY
      = (getPCB s.proc_blocks c).PRIORITY := by simp [PRIORITY_updPCB]
  unfold preemptBurst at ht
  simp only [Sim.upd, e] at ht
  have main : Moves s t c ∧ rdy t c ∧
      (getPCB t.proc_blocks c).STATE = (getPCB s.proc_blocks c).STATE ∧
      (getPCB t.proc_blocks c).CPU_TIME = (b - RRTIME) :: tl ∧
      (getPCB t.proc_blocks c).IO_TIME = (getPCB s.proc_blocks c).IO_TIME := by
    rcases h.prio c hv with hp | hp | hp
    · rw [hp] at ht
      simp only [if_true] at ht
      subst ht
      refine ⟨?_, ?_, ?_⟩
      · apply moves_of_counts
        · intro pid e; simp [getPCB_updPCB_ne _ _ _ _ e]
        · intro pid e; simp [List.count_append, List.count_singleton, Ne.symm e]
        · intro pid e e1
          have := hcs pid
          simp [Ne.symm e, Ne.symm e1] at this
          simpa using this
      · simp [rdy]
      · simp [getPCB_updPCB_eq, length_updPCB, hc1, hc2]
    · rw [hp] at ht
      simp only [show ¬ ((2 : Int) = 1) by decide, if_false, if_true] at ht
      subst ht
      refine ⟨?_, ?_, ?_⟩
      · apply moves_of_counts
        · intro pid e; simp [getPCB_updPCB_ne _ _ _ _ e]
        · intro pid e; simp [List.count_append, List.count_singleton, Ne.symm e]
        · intro pid e e1
          have := hcs pid
          simp [Ne.symm e, Ne.symm e1] at this
          simpa using this
      · simp [rdy]
      · simp [getPCB_updPCB_eq, length_updPCB, hc1, hc2]
    · rw [hp] at ht
      simp only [show ¬ ((3 : Int) = 1) by decide, show ¬ ((3 : Int) = 2) by decide, if_false,
        if_true] at ht
      subst ht
      refine ⟨?_, ?_, ?_⟩
      · apply moves_of_counts
        · intro pid e; simp [getPCB_updPCB_ne _ _ _ _ e]
        · intro pid e; simp [List.count_append, List.count_singleton, Ne.symm e]
        · intro pid e e1
          have := hcs pid
          simp [Ne.symm e, Ne.symm e1] at this
          simpa using this
      · simp [rdy]
      · simp [getPCB_updPCB_eq, length_updPCB, hc1, hc2]
  obtain ⟨m1, m2, m3, m4, m5⟩ := main
  obtain ⟨q1, q2, _⟩ := p2 m2
  exact ⟨m1, m2, q2, q1, m3, m4, m5⟩

theorem sameRec_creditWait (s : Sim) (b : Int) (x : Int) : SameRec s (creditWait s b) x := by
  refine sameRec_map s (creditWait s b) x _ rfl ?_ ?_ ?_ <;> intro r <;> split <;> rfl

/-- Loading the front of the high queue as a move of that process. -/
theorem takeHigh_moves (n : Nat) (s : Sim) (i : Nat) (h : WF n s)
    (hi : s.cores[i]? = some (-1)) (p : Int) (q : List Int) (hq : s.high_queue = p :: q) :
    Moves s (takeHigh i s) p ∧ p ∈ (takeHigh i s).cores ∧ ¬ rdy (takeHigh i s) p ∧
    p ∉ (takeHigh i s).wait_queue ∧
    (getPCB (takeHigh i s).proc_blocks p).STATE = 3 ∧
    (getPCB (takeHigh i s).proc_blocks p).CPU_TIME = (getPCB s.proc_blocks p).CPU_TIME ∧
    (getPCB (takeHigh i s).proc_blocks p).IO_TIME = (getPCB s.proc_blocks p).IO_TIME := by
  have hv : ValidPid n p := h.qv p (Or.inl (by rw [hq]; exact List.mem_cons_self p q))
  have hwf := WF_takeHigh n s i h hi
  obtain ⟨p1, p2, p3, p4⟩ := occ_one_places _ p (hwf.one p hv)
  have hc1 : PIDMIN ≤ p := hv.1
  have hc2 : p < PIDMIN + s.proc_blocks.length := by rw [h.lenP]; exact hv.2
  have hcs := fun x => count_set_slot s.cores i (-1) p x hi
  have e : takeHigh i s = ({ s with cores := s.cores.set i p, high_queue := q } : Sim).upd p
      (fun r => { r with STATE := 3 }) := by
    unfold takeHigh; simp only [hq]
  have hm : Moves s (takeHigh i s) p := by
    rw [e]
    simp only [Sim.upd]
    apply moves_of_counts
    · intro pid e; simp [getPCB_updPCB_ne _ _ _ _ e]
    · intro pid e; simp [hq, List.count_cons, Ne.symm e]
    · intro pid e e1
      have := hcs pid
      simp [Ne.symm e, Ne.symm e1] at this
      simpa using this
  have hco : p ∈ (takeHigh i s).cores := by
    rw [e]
    simp only [Sim.upd]
    have := hcs p
    simp [Ne.symm (validPid_ne_neg_one n p hv)] at this
    exact List.count_pos_iff.1 (by omega)
  have hr : (getPCB (takeHigh i s).proc_blocks p).STATE = 3 ∧
      (getPCB (takeHigh i s).proc_blocks p).CPU_TIME = (getPCB s.proc_blocks p).CPU_TIME ∧
      (getPCB (takeHigh i s).proc_blocks p).IO_TIME = (getPCB s.proc_blocks p).IO_TIME := by
    rw [e]
    simp [Sim.upd, getPCB_updPCB_eq, hc1, hc2]
  obtain ⟨q1, q2, _⟩ := p4 hco
  exact ⟨hm, hco, q1, q2, hr⟩

/-- Loading the front of the medium queue as a move of that process. -/
theorem takeMed_moves (n : Nat) (s : Sim) (i : Nat) (h : WF n s)
    (hi : s.cores[i]? = some (-1)) (p : Int) (q : List Int) (hq : s.med_queue = p :: q) :
    Moves s (takeMed i s) p ∧ p ∈ (takeMed i s).cores ∧ ¬ rdy (takeMed i s) p ∧
    p ∉ (takeMed i s).wait_queue ∧
    (getPCB (takeMed i s).proc_blocks p).STATE = 3 ∧
    (getPCB (takeMed i s).proc_blocks p).CPU_TIME = (getPCB s.proc_blocks p).CPU_TIME ∧
    (getPCB (takeMed i s).proc_blocks p).IO_TIME = (getPCB s.proc_blocks p).IO_TIME := by
  have hv : ValidPid n p :=
    h.qv p (Or.inr (Or.inl (by rw [hq]; exact List.mem_cons_self p q)))
  have hwf := WF_takeMed n s i h hi
  obtain ⟨p1, p2, p3, p4⟩ := occ_one_places _ p (hwf.one p hv)
  have hc1 : PIDMIN ≤ p := hv.1
  have hc2 : p < PIDMIN + s.proc_blocks.length := by rw [h.lenP]; exact hv.2
  have hcs := fun x => count_set_slot s.cores i (-1) p x hi
  have e : takeMed i s = ({ s with cores := s.cores.set i p, med_queue := q } : Sim).upd p
      (fun r => { r with STATE := 3 }) := by
    unfold takeMed; simp only [hq]
  have hm : Moves s (takeMed i s) p := by
    rw [e]
    simp only [Sim.upd]
    apply moves_of_counts
    · intro pid e; simp [getPCB_updPCB_ne _ _ _ _ e]
    · intro pid e; simp [hq, List.count_cons, Ne.symm e]
    · intro pid e e1
      have := hcs pid
      simp [Ne.symm e, Ne.symm e1] at this
      simpa using this
  have hco : p ∈ (takeMed i s).cores := by
    rw [e]
    simp only [Sim.upd]
    have := hcs p
    simp [Ne.symm (validPid_ne_neg_one n p hv)] at this
    exact List.count_pos_iff.1 (by omega)
  have hr : (getPCB (takeMed i s).proc_blocks p).STATE = 3 ∧
      (getPCB (takeMed i s).proc_blocks p).CPU_TIME = (getPCB s.proc_blocks p).CPU_TIME ∧
      (getPCB (takeMed i s).proc_blocks p).IO_TIME = (getPCB s.proc_blocks p).IO_TIME := by
    rw [e]
    simp [Sim.upd, getPCB_updPCB_eq, hc1, hc2]
  obtain ⟨q1, q2, _⟩ := p4 hco
  exact ⟨hm, hco, q1, q2, hr⟩

/-- Loading the front of the low queue as a move of that process. -/
theorem takeLow_moves (n : Nat) (s : Sim) (i : Nat) (h : WF n s)
    (hi : s.cores[i]? = some (-1)) (p : Int) (q : List Int) (hq : s.low_queue = p :: q) :
    Moves s (takeLow i s) p ∧ p ∈ (takeLow i s).cores ∧ ¬ rdy (takeLow i s) p ∧
    p ∉ (takeLow i s).wait_queue ∧
    (getPCB (takeLow i s).proc_blocks p).STATE = 3 ∧
    (getPCB (takeLow i s).proc_blocks p).CPU_TIME = (getPCB s.proc_blocks p).CPU_TIME ∧
    (getPCB (takeLow i s).proc_blocks p).IO_TIME = (getPCB s.proc_blocks p).IO_TIME := by
  have hv : ValidPid n p :=
    h.qv p (Or.inr (Or.inr (Or.inl (by rw [hq]; exact List.mem_cons_self p q))))
  have hwf := WF_takeLow n s i h hi
  obtain ⟨p1, p2, p3, p4⟩ := occ_one_places _ p (hwf.one p hv)
  have hc1 : PIDMIN ≤ p := hv.1
  have hc2 : p < PIDMIN + s.proc_blocks.length := by rw [h.lenP]; exact hv.2
  have hcs := fun x => count_set_slot s.cores i (-1) p x hi
  have e : takeLow i s = ({ s with cores := s.cores.set i p, low_queue := q } : Sim).upd p
      (fun r => { r with STATE := 3 }) := by
    unfold takeLow; simp only [hq]
  have hm : Moves s (takeLow i s) p := by
    rw [e]
    simp only [Sim.upd]
    apply moves_of_counts
    · intro pid e; simp [getPCB_updPCB_ne _ _ _ _ e]
    · intro pid e; simp [hq, List.count_cons, Ne.symm e]
    · intro pid e e1
      have := hcs pid
      simp [Ne.symm e, Ne.symm e1] at this
      simpa using this
  have hco : p ∈ (takeLow i s).cores := by
    rw [e]
    simp only [Sim.upd]
    have := hcs p
    simp [Ne.symm (validPid_ne_neg_one n p hv)] at this
    exact List.count_pos_iff.1 (by omega)
  have hr : (getPCB (takeLow i s).proc_blocks p).STATE = 3 ∧
      (getPCB (takeLow i s).proc_blocks p).CPU_TIME = (getPCB s.proc_blocks p).CPU_TIME ∧
      (getPCB (takeLow i s).proc_blocks p).IO_TIME = (getPCB s.proc_blocks p).IO_TIME := by
    rw [e]
    simp [Sim.upd, getPCB_updPCB_eq, hc1, hc2]
  obtain ⟨q1, q2, _⟩ := p4 hco
  exact ⟨hm, hco, q1, q2, hr⟩

/-- An io burst that does not fit changes the head io burst of the front process
and nothing else that the relations look at. -/
theorem ioOverflow_moves (n : Nat) (s : Sim) (p b d : Int) (hv : ValidPid n p)
    (h : WF n s) :
    Moves s (ioOverflow s p b d) p ∧
    (ioOverflow s p b d).high_queue = s.high_queue ∧
    (ioOverflow s p b d).med_queue = s.med_queue ∧
    (ioOverflow s p b d).low_queue = s.low_queue ∧
    (ioOverflow s p b d).wait_queue = s.wait_queue ∧
    (ioOverflow s p b d).cores = s.cores ∧
    (getPCB (ioOverflow s p b d).proc_blocks p).STATE = (getPCB s.proc_blocks p).STATE ∧
    (getPCB (ioOverflow s p b d).proc_blocks p).CPU_TIME = (getPCB s.proc_blocks p).CPU_TIME ∧
    (getPCB (ioOverflow s p b d).proc_blocks p).IO_TIME
      = (getPCB s.proc_blocks p).IO_TIME.set 0 (b + d) := by
  have hc1 : PIDMIN ≤ p := hv.1
  have hc2 : p < PIDMIN + s.proc_blocks.length := by rw [h.lenP]; exact hv.2
  have hcw := sameRec_creditWait
    (s.upd p (fun r => { r with IO_TIME := r.IO_TIME.set 0 (b + d) })) b
  refine ⟨⟨?_, fun _ _ => Iff.rfl, fun _ _ => Iff.rfl, fun _ _ _ => Iff.rfl⟩,
    rfl, rfl, rfl, rfl, rfl, ?_, ?_, ?_⟩
  · intro pid e
    exact sameRec_trans _ _ _ pid (sameRec_of_eq _ _ pid (getPCB_updPCB_ne _ _ _ _ e)) (hcw pid)
  · have := (hcw p).1
    simp only [Sim.upd] at this
    rw [show (ioOverflow s p b d).proc_blocks = (creditWait
      (s.upd p (fun r => { r with IO_TIME := r.IO_TIME.set 0 (b + d) })) b).proc_blocks from rfl]
    simp only [Sim.upd]
    rw [this]
    simp [STATE_updPCB]
  · have := (hcw p).2.1
    simp only [Sim.upd] at this
    rw [show (ioOverflow s p b d).proc_blocks = (creditWait
      (s.upd p (fun r => { r with IO_TIME := r.IO_TIME.set 0 (b + d) })) b).proc_blocks from rfl]
    simp only [Sim.upd]
    rw [this]
    simp [CPU_TIME_updPCB]
  · have := (hcw p).2.2
    simp only [Sim.upd] at this
    rw [show (ioOverflow s p b d).proc_blocks = (creditWait
      (s.upd p (fun r => { r with IO_TIME := r.IO_TIME.set 0 (b + d) })) b).proc_blocks from rfl]
    simp only [Sim.upd]
    rw [this, getPCB_updPCB_eq _ _ _ hc1 hc2]

/-- The part of a fitting io burst after the wait credit, from any state `s1`
whose wait queue starts with `p`, as a move of `p`. -/
theorem consume_moves_aux (n : Nat) (s1 : Sim) (p : Int) (rest : List Int) (h1 : WF n s1)
    (hwq1 : s1.wait_queue = p :: rest) (t : Sim)
    (ht : t =
      (let s2 := s1.upd p (fun r => { r with IO_TIME := r.IO_TIME.tail })
       let s3 :=
        if (getPCB s2.proc_blocks p).CPU_TIME ≠ [] then
          if (getPCB s2.proc_blocks p).PRIORITY = 1 then
            ({ s2 with high_queue := s2.high_queue ++ [p] } : Sim).upd p
              (fun r => { r with STATE := 1 })
          else if (getPCB s2.proc_blocks p).PRIORITY = 2 then
            ({ s2 with med_queue := s2.med_queue ++ [p] } : Sim).upd p
              (fun r => { r with STATE := 1 })
          else
            ({ s2 with low_queue := s2.low_queue ++ [p] } : Sim).upd p
              (fun r => { r with STATE := 1 })
        else
          s2.upd p (fun r => { r with STATE := 4 })
       { s3 with wait_queue := rest })) :
    Moves s1 t p ∧ (rdy t p ↔ (getPCB s1.proc_blocks p).CPU_TIME ≠ []) ∧
    (getPCB t.proc_blocks p).STATE
      = (if (getPCB s1.proc_blocks p).CPU_TIME = [] then 4 else 1) ∧
    (getPCB t.proc_blocks p).CPU_TIME = (getPCB s1.proc_blocks p).CPU_TIME ∧
    (getPCB t.proc_blocks p).IO_TIME = (getPCB s1.proc_blocks p).IO_TIME.tail ∧
    t.cores = s1.cores ∧ t.wait_queue = rest := by
  have hv : ValidPid n p :=
    h1.qv p (Or.inr (Or.inr (Or.inr (by rw [hwq1]; exact List.mem_cons_self p rest))))
  have hc1 : PIDMIN ≤ p := hv.1
  have hc2 : p < PIDMIN + s1.proc_blocks.length := by rw [h1.lenP]; exact hv.2
  obtain ⟨_, _, p3, _⟩ := occ_one_places s1 p (h1.one p hv)
  obtain ⟨q1, q2, q3⟩ := p3 (by rw [hwq1]; exact List.mem_cons_self p rest)
  have eC : (getPCB (updPCB s1.proc_blocks p
      (fun r => { r with IO_TIME := r.IO_TIME.tail })) p).CPU_TIME
      = (getPCB s1.proc_blocks p).CPU_TIME := by simp [CPU_TIME_updPCB]
  have eP : (getPCB (updPCB s1.proc_blocks p
      (fun r => { r with IO_TIME := r.IO_TIME.tail })) p).PRIORITY
      = (getPCB s1.proc_blocks p).PRIORITY := by simp [PRIORITY_updPCB]
  simp only [Sim.upd, eC, eP] at ht
  unfold rdy at q1
  by_cases hcpu : (getPCB s1.proc_blocks p).CPU_TIME = []
  · simp only [hcpu, ne_eq, not_true_eq_false, if_false] at ht
    subst ht
    refine ⟨?_, ?_, ?_, ?_, ?_, rfl, rfl⟩
    · apply moves_of_counts
      · intro pid e; simp [getPCB_updPCB_ne _ _ _ _ e]
      · intro pid e; simp [hwq1, List.count_cons, Ne.symm e]
      · intro pid e e1; simp
    · simp only [rdy, hcpu, ne_eq, not_true_eq_false, iff_false]
      exact q1
    · simp [getPCB_updPCB_eq, length_updPCB, hc1, hc2, hcpu]
    · simp [getPCB_updPCB_eq, length_updPCB, hc1, hc2]
    · simp [getPCB_updPCB_eq, length_updPCB, hc1, hc2]
  · simp only [hcpu, ne_eq, not_false_eq_true, if_true] at ht
    rcases h1.prio p hv with hp | hp | hp
    · rw [hp] at ht
      simp only [if_true] at ht
      subst ht
      refine ⟨?_, ?_, ?_, ?_, ?_, rfl, rfl⟩
      · apply moves_of_counts
        · intro pid e; simp [getPCB_updPCB_ne _ _ _ _ e]
        · intro pid e
          simp [hwq1, List.count_cons, List.count_append, List.count_singleton, Ne.symm e]
        · intro pid e e1; simp
      · simp [rdy, hcpu]
      · simp [getPCB_updPCB_eq, length_updPCB, hc1, hc2, hcpu]
      · simp [getPCB_updPCB_eq, length_updPCB, hc1, hc2]
      · simp [getPCB_updPCB_eq, length_updPCB, hc1, hc2]
    · rw [hp] at ht
      simp only [show ¬ ((2 : Int) = 1) by decide, if_false, if_true] at ht
      subst ht
      refine ⟨?_, ?_, ?_, ?_, ?_, rfl, rfl⟩
      · apply moves_of_counts
        · intro pid e; simp [getPCB_updPCB_ne _ _ _ _ e]
        · intro pid e
          simp [hwq1, List.count_cons, List.count_append, List.count_singleton, Ne.symm e]
        · intro pid e e1; simp
      · simp [rdy, hcpu]
      · simp [getPCB_updPCB_eq, length_updPCB, hc1, hc2, hcpu]
      · simp [getPCB_updPCB_eq, length_updPCB, hc1, hc2]
      · simp [getPCB_updPCB_eq, length_updPCB, hc1, hc2]
    · rw [hp] at ht
      simp only [show ¬ ((3 : Int) = 1) by decide, show ¬ ((3 : Int) = 2) by decide,
        if_false] at ht
      subst ht
      refine ⟨?_, ?_, ?_, ?_, ?_, rfl, rfl⟩
      · apply moves_of_counts
        · intro pid e; simp [getPCB_updPCB_ne _ _ _ _ e]
        · intro pid e
          simp [hwq1, List.count_cons, List.count_append, List.count_singleton, Ne.symm e]
        · intro pid e e1; simp
      · simp [rdy, hcpu]
      · simp [getPCB_updPCB_eq, length_updPCB, hc1, hc2, hcpu]
      · simp [getPCB_updPCB_eq, length_updPCB, hc1, hc2]
      · simp [getPCB_updPCB_eq, length_updPCB, hc1, hc2]

/-- An io burst that fits as a move of the front process of the wait queue. -/
theorem ioConsume_moves (n : Nat) (s : Sim) (p : Int) (rest : List Int) (b : Int)
    (h : WF n s) (hwq : s.wait_queue = p :: rest) :
    Moves s (ioConsume s p rest b) p ∧
    (rdy (ioConsume s p rest b) p ↔ (getPCB s.proc_blocks p).CPU_TIME ≠ []) ∧
    p ∉ (ioConsume s p rest b).wait_queue ∧ p ∉ (ioConsume s p rest b).cores ∧
    (getPCB (ioConsume s p rest b).proc_blocks p).STATE
      = (if (getPCB s.proc_blocks p).CPU_TIME = [] then 4 else 1) ∧
    (getPCB (ioConsume s p rest b).proc_blocks p).CPU_TIME
      = (getPCB s.proc_blocks p).CPU_TIME ∧
    (getPCB (ioConsume s p rest b).proc_blocks p).IO_TIME
      = (getPCB s.proc_blocks p).IO_TIME.tail := by
  have hv : ValidPid n p :=
    h.qv p (Or.inr (Or.inr (Or.inr (by rw [hwq]; exact List.mem_cons_self p rest))))
  obtain ⟨m, a1, a2, a3, a4, a5, a6⟩ := consume_moves_aux n (creditWait s b) p rest
    (WF_creditWait n s b h) hwq (ioConsume s p rest b) rfl
  obtain ⟨_, _, p3, _⟩ := occ_one_places s p (h.one p hv)
  obtain ⟨_, q2, _⟩ := p3 (by rw [hwq]; exact List.mem_cons_self p rest)
  have hs := sameRec_creditWait s b p
  have hwf := WF_ioConsume n s p rest b h hwq
  obtain ⟨r1, r2, _, _⟩ := occ_one_places _ p (hwf.one p hv)
  rw [hs.2.1] at a1 a2 a3
  rw [hs.2.2] at a4
  have hnw : p ∉ (ioConsume s p rest b).wait_queue := by
    by_cases hcpu : (getPCB s.proc_blocks p).CPU_TIME = []
    · rw [if_pos hcpu] at a2
      exact (r1 a2).2.1
    · exact (r2 (a1.2 hcpu)).1
  refine ⟨⟨?_, m.rd, m.wt, m.co⟩, a1, hnw, ?_, a2, a3, a4⟩
  · intro pid e
    exact sameRec_trans _ _ _ pid (sameRec_creditWait s b pid) (m.recs pid e)
  · rw [a5]; exact q2

/-- What one pass of the loop over the cores does under the invariant: a burst
of the process on the core is over, or it is not, or the core was free and
only the idle totals change. -/
theorem coreStep_cases (n : Nat) (s : Sim) (idle : Bool) (h : WF n s) (i : Nat)
    (hi : i < CORECOUNT) (s1 : Sim) (idle1 : Bool)
    (e : coreStep i s idle = some (s1, idle1)) :
    (∃ (c b : Int) (tl : List Int), s.cores[i]? = some c ∧ ValidPid n c ∧
      (getPCB s.proc_blocks c).CPU_TIME = b :: tl ∧
      ((b - RRTIME ≤ 0 ∧ s1 = { completeBurst s c b tl with
          cores := (completeBurst s c b tl).cores.set i (-1) }) ∨
       (¬ b - RRTIME ≤ 0 ∧ s1 = { preemptBurst s c b tl with
          cores := (preemptBurst s c b tl).cores.set i (-1) }))) ∨
    (s1.high_queue = s.high_queue ∧ s1.med_queue = s.med_queue ∧
      s1.low_queue = s.low_queue ∧ s1.wait_queue = s.wait_queue ∧
      s1.cores = s.cores ∧ s1.proc_blocks = s.proc_blocks) := by
  have hlt : i < s.cores.length := by rw [h.lenC]; exact hi
  have hc : s.cores[i]? = some s.cores[i] := List.getElem?_eq_getElem hlt
  have hd : s.cores.getD i (-1) = s.cores[i] := getD_of_getElem? _ _ _ _ hc
  unfold coreStep at e
  simp only [hd] at e
  by_cases hpos : s.cores[i] > 0
  · simp only [hpos, if_true] at e
    have hv : ValidPid n s.cores[i] := by
      rcases h.cv _ (List.getElem_mem hlt) with e | e
      · omega
      · exact e
    left
    cases hct : (getPCB s.proc_blocks s.cores[i]).CPU_TIME with
    | nil => rw [hct] at e; simp at e
    | cons b tl =>
      rw [hct] at e
      simp only [Option.some.injEq, Prod.mk.injEq] at e
      refine ⟨_, b, tl, hc, hv, hct, ?_⟩
      by_cases hb : b - RRTIME ≤ 0
      · left
        simp only [hb, if_true] at e
        exact ⟨hb, e.1.symm⟩
      · right
        simp only [hb, if_false] at e
        exact ⟨hb, e.1.symm⟩
  · simp only [hpos, if_false, Option.some.injEq, Prod.mk.injEq] at e
    have hneg : s.cores[i] = -1 := by
      rcases h.cv _ (List.getElem_mem hlt) with e | e
      · exact e
      · have := e.1; unfold PIDMIN at this; omega
    right
    have hset : s.cores.set i (-1) = s.cores := set_same _ _ _ (hneg ▸ hc)
    rw [← e.1]
    refine ⟨?_, ?_, ?_, ?_, ?_, ?_⟩
    · split <;> rfl
    · split <;> rfl
    · split <;> rfl
    · split <;> rfl
    · simp only []
      split <;> exact hset
    · split <;> rfl

/-! ## Properties kept by every step are kept by the loop -/

theorem keeps_same (n : Nat) (I : Sim → Prop) (hI : StepClosed n I) (s t : Sim) (h : I s)
    (e1 : t.high_queue = s.high_queue) (e2 : t.med_queue = s.med_queue)
    (e3 : t.low_queue = s.low_queue) (e4 : t.wait_queue = s.wait_queue)
    (e5 : t.cores = s.cores) (e6 : t.proc_blocks = s.proc_blocks) : I t :=
  hI.frame s t h e1 e2 e3 e4 e5 (fun pid => sameRec_of_eq s t pid (by rw [e6]))

theorem keeps_coreLoop (n : Nat) (I : Sim → Prop) (hI : StepClosed n I) :
    ∀ (is : List Nat) (s : Sim) (idle : Bool), WF n s → I s →
    (∀ i ∈ is, i < CORECOUNT) → I (coreLoop is s idle) := by
  intro is
  induction is with
  | nil => intro s idle _ h _; exact h
  | cons i is ih =>
    intro s idle hwf h hall
    have hi := hall i (List.mem_cons_self i is)
    obtain ⟨s1, idle1, e, hwf1, _⟩ := coreStep_WF n s idle hwf i hi
    simp only [coreLoop, e]
    apply ih s1 idle1 hwf1 _ (fun j hj => hall j (List.mem_cons_of_mem i hj))
    rcases coreStep_cases n s idle hwf i hi s1 idle1 e with
      ⟨c, b, tl, hc, hv, hct, hcase⟩ | ⟨e1, e2, e3, e4, e5, e6⟩
    · rcases hcase with ⟨hb, hs⟩ | ⟨hb, hs⟩
      · rw [hs]; exact hI.complete s i c b tl hwf h hc hv hct hb
      · rw [hs]; exact hI.preempt s i c b tl hwf h hc hv hct hb
    · exact keeps_same n I hI s s1 h e1 e2 e3 e4 e5 e6

theorem keeps_takeHigh (n : Nat) (I : Sim → Prop) (hI : StepClosed n I) (s : Sim) (i : Nat)
    (hwf : WF n s) (h : I s) (hi : s.cores[i]? = some (-1)) : I (takeHigh i s) := by
  cases hq : s.high_queue with
  | nil => rw [takeHigh_nil i s hq]; exact h
  | cons p q => exact hI.takeH s i p q hwf h hi hq

theorem keeps_takeMed (n : Nat) (I : Sim → Prop) (hI : StepClosed n I) (s : Sim) (i : Nat)
    (hwf : WF n s) (h : I s) (hi : s.cores[i]? = some (-1)) : I (takeMed i s) := by
  cases hq : s.med_queue with
  | nil => rw [takeMed_nil i s hq]; exact h
  | cons p q => exact hI.takeM s i p q hwf h hi hq

theorem keeps_takeLow (n : Nat) (I : Sim → Prop) (hI : StepClosed n I) (s : Sim) (i : Nat)
    (hwf : WF n s) (h : I s) (hi : s.cores[i]? = some (-1)) : I (takeLow i s) := by
  cases hq : s.low_queue with
  | nil => rw [takeLow_nil i s hq]; exact h
  | cons p q => exact hI.takeL s i p q hwf h hi hq

theorem keeps_spillStep (n : Nat) (I : Sim → Prop) (hI : StepClosed n I) (s : Sim) (i : Nat)
    (hi : i < CORECOUNT) (hwf : WF n s) (h : I s) : I (spillStep i s) := by
  unfold spillStep
  have hlt : i < s.cores.length := by rw [hwf.lenC]; exact hi
  by_cases hc : s.cores.getD i (-1) = -1
  · have hs : s.cores[i]? = some (-1) := by
      rw [List.getD_eq_getElem?_getD, List.getElem?_eq_getElem hlt] at hc
      rw [List.getElem?_eq_getElem hlt]
      simpa using hc
    rw [if_pos hc]
    split_ifs
    · exact keeps_takeHigh n I hI s i hwf h hs
    · exact keeps_takeMed n I hI s i hwf h hs
    · exact keeps_takeLow n I hI s i hwf h hs
    · exact h
  · rw [if_neg hc]; exact h

theorem keeps_reservedFill (n : Nat) (I : Sim → Prop) (hI : StepClosed n I) (s : Sim)
    (hwf : WF n s) (h : I s) (hc : s.cores = List.replicate CORECOUNT (-1)) :
    I (reservedFill s) := by
  have e3 : CORECOUNT = 16 := rfl
  have hslot : ∀ j, j < 16 → s.cores[j]? = some (-1) := by
    intro j hj
    rw [hc, e3, List.getElem?_replicate]
    simp [hj]
  obtain ⟨a1, a2⟩ := fold_slots (fun t => WF n t ∧ I t) takeHigh
    (fun i t ht hi => ⟨WF_takeHigh n t i ht.1 hi, keeps_takeHigh n I hI t i ht.1 ht.2 hi⟩)
    takeHigh_cores_ne (List.range' 0 8) s (List.nodup_range' 0 8) ⟨hwf, h⟩
    (fun i hi => hslot i (by simp [List.mem_range'_1] at hi; omega))
  obtain ⟨b1, b2⟩ := fold_slots (fun t => WF n t ∧ I t) takeMed
    (fun i t ht hi => ⟨WF_takeMed n t i ht.1 hi, keeps_takeMed n I hI t i ht.1 ht.2 hi⟩)
    takeMed_cores_ne (List.range' 8 5) _ (List.nodup_range' 8 5) a1
    (fun i hi => by
      simp [List.mem_range'_1] at hi
      rw [a2 i (by simp [List.mem_range'_1]; omega)]
      exact hslot i (by omega))
  obtain ⟨c1, _⟩ := fold_slots (fun t => WF n t ∧ I t) takeLow
    (fun i t ht hi => ⟨WF_takeLow n t i ht.1 hi, keeps_takeLow n I hI t i ht.1 ht.2 hi⟩)
    takeLow_cores_ne (List.range' 13 3) _ (List.nodup_range' 13 3) b1
    (fun i hi => by
      simp [List.mem_range'_1] at hi
      rw [b2 i (by simp [List.mem_range'_1]; omega), a2 i (by simp [List.mem_range'_1]; omega)]
      exact hslot i (by omega))
  exact c1.2

theorem keeps_phaseD (n : Nat) (I : Sim → Prop) (hI : StepClosed n I) (s : Sim)
    (hwf : WF n s) (h : I s) (hc : s.cores = List.replicate CORECOUNT (-1)) :
    I (phaseD s) := by
  have hfold : ∀ (is : List Nat) (t : Sim), (∀ i ∈ is, i < CORECOUNT) → WF n t → I t →
      I (is.foldl (fun t i => spillStep i t) t) := by
    intro is
    induction is with
    | nil => intro t _ _ ht; exact ht
    | cons i is ih =>
      intro t hall hw ht
      rw [List.foldl_cons]
      exact ih _ (fun j hj => hall j (List.mem_cons_of_mem i hj))
        (WF_spillStep n t i (hall i (List.mem_cons_self i is)) hw)
        (keeps_spillStep n I hI t i (hall i (List.mem_cons_self i is)) hw ht)
  exact hfold _ _ (fun i hi => List.mem_range.1 hi) (WF_reservedFill n s hwf hc)
    (keeps_reservedFill n I hI s hwf h hc)

theorem keeps_ioLoop (n : Nat) (I : Sim → Prop) (hI : StepClosed n I) :
    ∀ (wq : List Int) (t : Int) (s : Sim), s.wait_queue = wq → WF n s → I s →
    I (ioLoop wq t s) := by
  intro wq
  induction wq with
  | nil => intro t s _ _ h; exact h
  | cons p rest ih =>
    intro t s hwq hwf h
    simp only [ioLoop]
    split_ifs with h1 h2
    · exact hI.overflow s p rest _ _ hwf h hwq rfl h1
    · exact hI.consume s p rest _ hwf h hwq rfl
    · exact ih _ _ (ioConsume_wait_queue s p rest _) (WF_ioConsume n s p rest _ hwf hwq)
        (hI.consume s p rest _ hwf h hwq rfl)

theorem keeps_phaseE (n : Nat) (I : Sim → Prop) (hI : StepClosed n I) (s : Sim)
    (hwf : WF n s) (h : I s) : I (phaseE s) := by
  unfold phaseE
  exact keeps_ioLoop n I hI s.wait_queue 0 { s with final_io_time := none } rfl
    (WF_of_same n s _ hwf rfl rfl rfl rfl rfl rfl (fun _ => rfl) (fun _ => rfl) (fun _ => rfl))
    (keeps_same n I hI s _ h rfl rfl rfl rfl rfl rfl)

theorem keeps_phaseA (n : Nat) (I : Sim → Prop) (hI : StepClosed n I) (s : Sim) (h : I s) :
    I (phaseA s) := by
  refine hI.frame s (phaseA s) h rfl rfl rfl rfl rfl (fun pid => ?_)
  refine sameRec_map s (phaseA s) pid _ rfl ?_ ?_ ?_ <;> intro r <;> split <;> rfl

theorem keeps_phaseC (n : Nat) (I : Sim → Prop) (hI : StepClosed n I) (s : Sim) (h : I s) :
    I (phaseC s) := by
  refine hI.frame s (phaseC s) h rfl rfl rfl rfl rfl (fun pid => ?_)
  refine sameRec_map s (phaseC s) pid _ rfl ?_ ?_ ?_ <;> intro r <;> split <;> rfl

theorem keeps_checkDone (n : Nat) (I : Sim → Prop) (hI : StepClosed n I) (s : Sim) (h : I s) :
    I (checkDone s) := by
  unfold checkDone
  split
  · exact keeps_same n I hI s _ h rfl rfl rfl rfl rfl rfl
  · exact h

/-- The state in the middle of a pass, with the cores loaded and the io bursts
still to handle, satisfies what every step keeps. -/
theorem keeps_beforeE (n : Nat) (I : Sim → Prop) (hI : StepClosed n I) (s : Sim)
    (hwf : WF n s) (h : I s) : WF n (beforeE s) ∧ I (beforeE s) := by
  unfold beforeE
  obtain ⟨hB, hcores⟩ := phaseB_WF n (phaseA s) (WF_phaseA n s hwf)
  have iB : I (phaseB (phaseA s)) :=
    keeps_coreLoop n I hI (List.range CORECOUNT) (phaseA s) false (WF_phaseA n s hwf)
      (keeps_phaseA n I hI s h) (fun i hi => List.mem_range.1 hi)
  have hC := WF_phaseC n _ hB
  have iC := keeps_phaseC n I hI _ iB
  have hcc : (phaseC (phaseB (phaseA s))).cores = List.replicate CORECOUNT (-1) := by
    rw [show (phaseC (phaseB (phaseA s))).cores = (phaseB (phaseA s)).cores from rfl]
    exact hcores
  exact ⟨WF_phaseD n _ hC hcc, keeps_phaseD n I hI _ hC iC hcc⟩

theorem keeps_tick (n : Nat) (I : Sim → Prop) (hI : StepClosed n I) (s : Sim)
    (hwf : WF n s) (h : I s) : I (tick s) := by
  obtain ⟨hD, iD⟩ := keeps_beforeE n I hI s hwf h
  have e : tick s = checkDone (phaseE (beforeE s)) := rfl
  rw [e]
  exact keeps_checkDone n I hI _ (keeps_phaseE n I hI _ hD iD)

theorem keeps_tickN (n : Nat) (I : Sim → Prop) (hI : StepClosed n I) :
    ∀ (k : Nat) (s : Sim), WF n s → I s → I (tickN k s) := by
  intro k
  induction k with
  | zero => intro s _ h; exact h
  | succ k ih =>
    intro s hwf h
    simp only [tickN]
    split
    · exact ih _ (WF_tick n s hwf) (keeps_tick n I hI s hwf h)
    · exact h

/-! ## State and place of a process go together -/

theorem locR_closed (n : Nat) : StepClosed n (Holds LocR n) := by
  refine ⟨?_, ?_, ?_, ?_, ?_, ?_, ?_, ?_⟩
  · intro s t h e1 e2 e3 e4 e5 e6
    exact holds_of_same LocR locR_respects n s t h e1 e2 e3 e4 e5 e6
  · intro s i c b tl hwf h hc hv hct _
    obtain ⟨hm, a1, a2, a3, a4, a5, a6⟩ := complete_moves n s hwf i c b tl hc hv _ rfl
    apply holds_of_moves LocR locR_respects n s _ c hm h
    intro _
    refine ⟨fun x => absurd x a1, fun x => absurd x a2, fun x => ?_⟩
    have hio := a3.1 x
    rw [a4, a6, if_neg hio]
    exact ⟨rfl, hio⟩
  · intro s i c b tl hwf h hc hv hct _
    obtain ⟨hm, a1, a2, a3, a4, a5, a6⟩ := preempt_moves n s hwf i c b tl hc hv _ rfl
    apply holds_of_moves LocR locR_respects n s _ c hm h
    intro _
    have h3 := (h c hv).2.1 (mem_of_getElem? _ _ _ hc)
    refine ⟨fun _ => ?_, fun x => absurd x a2, fun x => absurd x a3⟩
    rw [a4, h3]; exact Or.inr rfl
  · intro s i p q hwf h hi hq
    obtain ⟨hm, a1, a2, a3, a4, a5, a6⟩ := takeHigh_moves n s i hwf hi p q hq
    apply holds_of_moves LocR locR_respects n s _ p hm h
    intro _
    exact ⟨fun x => absurd x a2, fun _ => a4, fun x => absurd x a3⟩
  · intro s i p q hwf h hi hq
    obtain ⟨hm, a1, a2, a3, a4, a5, a6⟩ := takeMed_moves n s i hwf hi p q hq
    apply holds_of_moves LocR locR_respects n s _ p hm h
    intro _
    exact ⟨fun x => absurd x a2, fun _ => a4, fun x => absurd x a3⟩
  · intro s i p q hwf h hi hq
    obtain ⟨hm, a1, a2, a3, a4, a5, a6⟩ := takeLow_moves n s i hwf hi p q hq
    apply holds_of_moves LocR locR_respects n s _ p hm h
    intro _
    exact ⟨fun x => absurd x a2, fun _ => a4, fun x => absurd x a3⟩
  · intro s p rest b d hwf h hwq _ _
    have hv : ValidPid n p :=
      hwf.qv p (Or.inr (Or.inr (Or.inr (by rw [hwq]; exact List.mem_cons_self p rest))))
    obtain ⟨hm, e1, e2, e3, e4, e5, a1, a2, a3⟩ := ioOverflow_moves n s p b d hv hwf
    apply holds_of_moves LocR locR_respects n s _ p hm h
    intro _
    have hs := h p hv
    unfold LocR rdy at hs ⊢
    rw [e1, e2, e3, e4, e5, a1, a3]
    refine ⟨hs.1, hs.2.1, fun x => ⟨(hs.2.2 x).1, ?_⟩⟩
    have := (hs.2.2 x).2
    intro e
    apply this
    have hl := congrArg List.length e
    rw [List.length_set] at hl
    exact List.length_eq_zero.1 hl
  · intro s p rest b hwf h hwq _
    have hv : ValidPid n p :=
      hwf.qv p (Or.inr (Or.inr (Or.inr (by rw [hwq]; exact List.mem_cons_self p rest))))
    obtain ⟨hm, a1, a2, a3, a4, a5, a6⟩ := ioConsume_moves n s p rest b hwf hwq
    apply holds_of_moves LocR locR_respects n s _ p hm h
    intro _
    refine ⟨fun x => ?_, fun x => absurd x a3, fun x => absurd x a2⟩
    rw [a4, if_neg (a1.1 x)]; exact Or.inl rfl

/-! ## The numbers of bursts and the place of a process go together -/

theorem altR_closed (n : Nat) : StepClosed n (Holds AltR n) := by
  refine ⟨?_, ?_, ?_, ?_, ?_, ?_, ?_, ?_⟩
  · intro s t h e1 e2 e3 e4 e5 e6
    exact holds_of_same AltR altR_respects n s t h e1 e2 e3 e4 e5 e6
  · intro s i c b tl hwf h hc hv hct _
    obtain ⟨hm, a1, a2, a3, a4, a5, a6⟩ := complete_moves n s hwf i c b tl hc hv _ rfl
    apply holds_of_moves AltR altR_respects n s _ c hm h
    intro _
    have hs := (h c hv).1 (Or.inr (mem_of_getElem? _ _ _ hc))
    rw [hct] at hs
    simp only [List.length_cons] at hs
    refine ⟨fun x => ?_, fun x => ?_, fun x => ?_⟩
    · rcases x with x | x
      · exact absurd x a1
      · exact absurd x a2
    · rw [a5, a6]; omega
    · rw [a4] at x
      by_cases hio : (getPCB s.proc_blocks c).IO_TIME = []
      · rw [a5, a6, hio]
        rw [hio] at hs
        simp only [List.length_nil] at hs
        exact ⟨List.length_eq_zero.1 (by omega), rfl⟩
      · rw [if_neg hio] at x; omega
  · intro s i c b tl hwf h hc hv hct _
    obtain ⟨hm, a1, a2, a3, a4, a5, a6⟩ := preempt_moves n s hwf i c b tl hc hv _ rfl
    apply holds_of_moves AltR altR_respects n s _ c hm h
    intro _
    have hs := (h c hv).1 (Or.inr (mem_of_getElem? _ _ _ hc))
    rw [hct] at hs
    simp only [List.length_cons] at hs
    obtain ⟨_, _, _, _, _, f6⟩ := WF_on_core n s hwf i c hc hv
    refine ⟨fun _ => ?_, fun x => absurd x a3, fun x => ?_⟩
    · rw [a5, a6]; simp only [List.length_cons]; exact hs
    · rw [a4] at x; exact absurd x f6
  · intro s i p q hwf h hi hq
    obtain ⟨hm, a1, a2, a3, a4, a5, a6⟩ := takeHigh_moves n s i hwf hi p q hq
    apply holds_of_moves AltR altR_respects n s _ p hm h
    intro hv
    have hs := (h p hv).1 (Or.inl (Or.inl (by rw [hq]; exact List.mem_cons_self p q)))
    refine ⟨fun _ => ?_, fun x => absurd x a3, fun x => ?_⟩
    · rw [a5, a6]; exact hs
    · rw [a4] at x; omega
  · intro s i p q hwf h hi hq
    obtain ⟨hm, a1, a2, a3, a4, a5, a6⟩ := takeMed_moves n s i hwf hi p q hq
    apply holds_of_moves AltR altR_respects n s _ p hm h
    intro hv
    have hs := (h p hv).1
      (Or.inl (Or.inr (Or.inl (by rw [hq]; exact List.mem_cons_self p q))))
    refine ⟨fun _ => ?_, fun x => absurd x a3, fun x => ?_⟩
    · rw [a5, a6]; exact hs
    · rw [a4] at x; omega
  · intro s i p q hwf h hi hq
    obtain ⟨hm, a1, a2, a3, a4, a5, a6⟩ := takeLow_moves n s i hwf hi p q hq
    apply holds_of_moves AltR altR_respects n s _ p hm h
    intro hv
    have hs := (h p hv).1
      (Or.inl (Or.inr (Or.inr (by rw [hq]; exact List.mem_cons_self p q))))
    refine ⟨fun _ => ?_, fun x => absurd x a3, fun x => ?_⟩
    · rw [a5, a6]; exact hs
    · rw [a4] at x; omega
  · intro s p rest b d hwf h hwq _ _
    have hv : ValidPid n p :=
      hwf.qv p (Or.inr (Or.inr (Or.inr (by rw [hwq]; exact List.mem_cons_self p rest))))
    obtain ⟨hm, e1, e2, e3, e4, e5, a1, a2, a3⟩ := ioOverflow_moves n s p b d hv hwf
    apply holds_of_moves AltR altR_respects n s _ p hm h
    intro _
    have hs := h p hv
    unfold AltR rdy at hs ⊢
    rw [e1, e2, e3, e4, e5, a1, a2, a3, List.length_set]
    refine ⟨hs.1, hs.2.1, fun x => ⟨(hs.2.2 x).1, ?_⟩⟩
    rw [(hs.2.2 x).2]; rfl
  · intro s p rest b hwf h hwq _
    have hv : ValidPid n p :=
      hwf.qv p (Or.inr (Or.inr (Or.inr (by rw [hwq]; exact List.mem_cons_self p rest))))
    obtain ⟨hm, a1, a2, a3, a4, a5, a6⟩ := ioConsume_moves n s p rest b hwf hwq
    apply holds_of_moves AltR altR_respects n s _ p hm h
    intro _
    have hs := (h p hv).2.1 (by rw [hwq]; exact List.mem_cons_self p rest)
    refine ⟨fun x => ?_, fun x => absurd x a2, fun x => ?_⟩
    · rcases x with x | x
      · have hne := a1.1 x
        have hpos : 0 < (getPCB s.proc_blocks p).CPU_TIME.length :=
          List.length_pos.2 hne
        rw [a5, a6, List.length_tail]; omega
      · exact absurd x a3
    · rw [a4] at x
      by_cases hcpu : (getPCB s.proc_blocks p).CPU_TIME = []
      · rw [hcpu] at hs
        simp only [List.length_nil] at hs
        rw [a5, a6, hcpu]
        exact ⟨rfl, List.length_eq_zero.1 (by rw [List.length_tail]; omega)⟩
      · rw [if_neg hcpu] at x; omega

/-! ## The relations at the start -/

theorem init_state (w : List PCB) :
    (initSim w).proc_blocks
      = w.map (fun p => { p with TURNAROUND := 0, WAIT := 0, RESPONSE := 0 }) ∧
    (initSim w).wait_queue = [] ∧
    (initSim w).cores = List.replicate CORECOUNT (-1) := by
  obtain ⟨a1, _, _, _, a5, a6⟩ := init_fold w emptySim
  refine ⟨?_, ?_, ?_⟩
  · rw [show initSim w = w.foldl initStep emptySim from rfl, a1]; rfl
  · rw [show initSim w = w.foldl initStep emptySim from rfl, a5]; rfl
  · rw [show initSim w = w.foldl initStep emptySim from rfl, a6]; rfl

theorem init_record (w : List PCB) (pid : Int) (hv : ValidPid w.length pid) :
    getPCB (initSim w).proc_blocks pid
      = { getPCB w pid with TURNAROUND := 0, WAIT := 0, RESPONSE := 0 } ∧
    getPCB w pid ∈ w := by
  rw [(init_state w).1, getPCB_map _ _ _ hv.1 hv.2]
  exact ⟨rfl, getPCB_mem w pid hv.1 hv.2⟩

theorem locR_init (w : List PCB) (hst : ∀ p ∈ w, p.STATE = 1) :
    Holds LocR w.length (initSim w) := by
  intro pid hv
  obtain ⟨e, hm⟩ := init_record w pid hv
  obtain ⟨_, b5, b6⟩ := init_state w
  refine ⟨fun _ => Or.inl ?_, fun x => ?_, fun x => ?_⟩
  · rw [e]; exact hst (getPCB w pid) hm
  · rw [b6] at x
    exact absurd (List.eq_of_mem_replicate x) (validPid_ne_neg_one _ pid hv)
  · rw [b5] at x; simp at x

theorem altR_init (w : List PCB) (hst : ∀ p ∈ w, p.STATE = 1)
    (halt : ∀ p ∈ w, p.IO_TIME.length ≤ p.CPU_TIME.length ∧
      p.CPU_TIME.length ≤ p.IO_TIME.length + 1) :
    Holds AltR w.length (initSim w) := by
  intro pid hv
  obtain ⟨e, hm⟩ := init_record w pid hv
  obtain ⟨_, b5, b6⟩ := init_state w
  refine ⟨fun _ => ?_, fun x => ?_, fun x => ?_⟩
  · rw [e]; exact halt (getPCB w pid) hm
  · rw [b5] at x; simp at x
  · rw [e] at x
    have := hst (getPCB w pid) hm
    simp only [] at x
    omega

/-- A process whose record is not in state 4 is in a ready queue, in the wait
queue or on a core. -/
theorem occ_one_somewhere (s : Sim) (c : Int) (h : occ s c = 1)
    (h4 : (getPCB s.proc_blocks c).STATE ≠ 4) :
    rdy s c ∨ c ∈ s.wait_queue ∨ c ∈ s.cores := by
  unfold occ at h
  rw [if_neg h4] at h
  unfold rdy
  have a1 : 0 < s.high_queue.count c ↔ c ∈ s.high_queue := List.count_pos_iff
  have a2 : 0 < s.med_queue.count c ↔ c ∈ s.med_queue := List.count_pos_iff
  have a3 : 0 < s.low_queue.count c ↔ c ∈ s.low_queue := List.count_pos_iff
  have a4 : 0 < s.wait_queue.count c ↔ c ∈ s.wait_queue := List.count_pos_iff
  have a5 : 0 < s.cores.count c ↔ c ∈ s.cores := List.count_pos_iff
  by_cases b1 : 0 < s.high_queue.count c
  · exact Or.inl (Or.inl (a1.1 b1))
  by_cases b2 : 0 < s.med_queue.count c
  · exact Or.inl (Or.inr (Or.inl (a2.1 b2)))
  by_cases b3 : 0 < s.low_queue.count c
  · exact Or.inl (Or.inr (Or.inr (a3.1 b3)))
  by_cases b4 : 0 < s.wait_queue.count c
  · exact Or.inr (Or.inl (a4.1 b4))
  · exact Or.inr (Or.inr (a5.1 (by omega)))

/-- Every record of the vector is the record of a process id of the run. -/
theorem mem_proc_blocks (pbs : List PCB) (r : PCB) (h : r ∈ pbs) :
    ∃ pid, ValidPid pbs.length pid ∧ getPCB pbs pid = r := by
  obtain ⟨i, hi, e⟩ := List.getElem_of_mem h
  refine ⟨PIDMIN + i, ⟨by omega, by omega⟩, ?_⟩
  exact getPCB_at pbs i r (by rw [List.getElem?_eq_getElem hi, e])

/-! ## C14: finished means no bursts left -/

/-- C14: for a workload whose record `i` has pid `30 + i`, a priority in
1, 2, 3 and state 1, and whose records have a cpu burst and as many cpu bursts
as io bursts or one more, after any number of passes of the loop a record is in
state 4 exactly when it has no cpu burst and no io burst left. -/
theorem C14_finished_iff_no_bursts_left (w : List PCB)
    (hpid : w.map PCB.PID = (List.range w.length).map (fun (i : Nat) => PIDMIN + (i : Int)))
    (hprio : ∀ p ∈ w, p.PRIORITY = 1 ∨ p.PRIORITY = 2 ∨ p.PRIORITY = 3)
    (hst : ∀ p ∈ w, p.STATE = 1)
    (halt : ∀ p ∈ w, p.CPU_TIME ≠ [] ∧ p.IO_TIME.length ≤ p.CPU_TIME.length ∧
      p.CPU_TIME.length ≤ p.IO_TIME.length + 1)
    (k : Nat) :
    ∀ r ∈ (tickN k (initSim w)).proc_blocks,
      (r.STATE = 4 ↔ r.CPU_TIME = [] ∧ r.IO_TIME = []) := by
  have h0 := WF_init w (pid_of_map w hpid) hprio (fun p hp => (halt p hp).1) hst
  have hk := WF_tickN w.length k (initSim w) h0
  have hl := keeps_tickN w.length _ (locR_closed w.length) k (initSim w) h0 (locR_init w hst)
  have ha := keeps_tickN w.length _ (altR_closed w.length) k (initSim w) h0
    (altR_init w hst (fun p hp => (halt p hp).2))
  intro r hr
  obtain ⟨pid, hv, e⟩ := mem_proc_blocks _ r hr
  rw [hk.lenP] at hv
  subst e
  refine ⟨fun h4 => (ha pid hv).2.2 h4, fun hb => ?_⟩
  by_contra h4
  rcases occ_one_somewhere _ pid (hk.one pid hv) h4 with hq | hq | hq
  · refine hk.cpu pid ?_ hv hb.1
    rcases hq with hq | hq | hq
    · exact Or.inl hq
    · exact Or.inr (Or.inl hq)
    · exact Or.inr (Or.inr (Or.inl hq))
  · exact ((hl pid hv).2.2 hq).2 hb.2
  · exact hk.cpu pid (Or.inr (Or.inr (Or.inr hq))) hv hb.1

set_option maxRecDepth 1000000 in
/-- Witness of C14: `mixedLoad` after seven passes, where sixteen records are in
state 4 without bursts and the record of process 46 is in state 3 with a cpu
burst. -/
theorem C14_finished_iff_no_bursts_left_witness :
    (tickN 7 (initSim mixedLoad)).proc_blocks.map (fun r => (r.STATE, r.CPU_TIME, r.IO_TIME))
      = List.replicate 16 (4, [], []) ++ [(3, [35], [])] ∧
    ∀ r ∈ (tickN 7 (initSim mixedLoad)).proc_blocks,
      (r.STATE = 4 ↔ r.CPU_TIME = [] ∧ r.IO_TIME = []) :=
  ⟨by decide,
    C14_finished_iff_no_bursts_left mixedLoad (by decide) (by decide) (by decide) (by decide) 7⟩

/-! ## The states inside one pass of the loop -/

theorem coreLoopTrace_last : ∀ (is : List Nat) (s : Sim) (idle : Bool),
    (coreLoopTrace is s idle).getLast? = some (coreLoop is s idle) := by
  intro is
  induction is with
  | nil => intro s idle; rfl
  | cons i is ih =>
    intro s idle
    simp only [coreLoopTrace, coreLoop]
    cases h : coreStep i s idle with
    | none => rfl
    | some r =>
      obtain ⟨s1, idle1⟩ := r
      simp only []
      have := ih s1 idle1
      cases hl : coreLoopTrace is s1 idle1 with
      | nil => rw [hl] at this; simp at this
      | cons x xs => rw [hl] at this; rw [List.getLast?_cons_cons]; exact this

theorem foldTrace_last (f : Nat → Sim → Sim) : ∀ (is : List Nat) (s : Sim),
    (foldTrace f is s).getLast? = some (is.foldl (fun t i => f i t) s) := by
  intro is
  induction is with
  | nil => intro s; rfl
  | cons i is ih =>
    intro s
    simp only [foldTrace, List.foldl_cons]
    have := ih (f i s)
    cases hl : foldTrace f is (f i s) with
    | nil => rw [hl] at this; simp at this
    | cons x xs => rw [hl] at this; rw [List.getLast?_cons_cons]; exact this

theorem ioLoopTrace_last : ∀ (wq : List Int) (t : Int) (s : Sim),
    (ioLoopTrace wq t s).getLast? = some (ioLoop wq t s) := by
  intro wq
  induction wq with
  | nil => intro t s; rfl
  | cons p rest ih =>
    intro t s
    simp only [ioLoopTrace, ioLoop]
    split_ifs
    · rfl
    · rfl
    · have := ih (t + (getPCB s.proc_blocks p).IO_TIME.headD 0)
        (ioConsume s p rest ((getPCB s.proc_blocks p).IO_TIME.headD 0))
      cases hl : ioLoopTrace rest (t + (getPCB s.proc_blocks p).IO_TIME.headD 0)
          (ioConsume s p rest ((getPCB s.proc_blocks p).IO_TIME.headD 0)) with
      | nil => rw [hl] at this; simp at this
      | cons x xs => rw [hl] at this; rw [List.getLast?_cons_cons]; exact this

theorem keeps_coreStep (n : Nat) (I : Sim → Prop) (hI : StepClosed n I) (s : Sim)
    (idle : Bool) (hwf : WF n s) (h : I s) (i : Nat) (hi : i < CORECOUNT) (s1 : Sim)
    (idle1 : Bool) (e : coreStep i s idle = some (s1, idle1)) : I s1 := by
  rcases coreStep_cases n s idle hwf i hi s1 idle1 e with
    ⟨c, b, tl, hc, hv, hct, hcase⟩ | ⟨e1, e2, e3, e4, e5, e6⟩
  · rcases hcase with ⟨hb, hs⟩ | ⟨hb, hs⟩
    · rw [hs]; exact hI.complete s i c b tl hwf h hc hv hct hb
    · rw [hs]; exact hI.preempt s i c b tl hwf h hc hv hct hb
  · exact keeps_same n I hI s s1 h e1 e2 e3 e4 e5 e6

theorem trace_coreLoop (n : Nat) (I : Sim → Prop) (hI : StepClosed n I) :
    ∀ (is : List Nat) (s : Sim) (idle : Bool), WF n s → I s →
    (∀ i ∈ is, i < CORECOUNT) → ∀ t ∈ coreLoopTrace is s idle, WF n t ∧ I t := by
  intro is
  induction is with
  | nil =>
    intro s idle hwf h _ t ht
    simp only [coreLoopTrace, List.mem_singleton] at ht
    rw [ht]; exact ⟨hwf, h⟩
  | cons i is ih =>
    intro s idle hwf h hall t ht
    have hi := hall i (List.mem_cons_self i is)
    obtain ⟨s1, idle1, e, hwf1, _⟩ := coreStep_WF n s idle hwf i hi
    simp only [coreLoopTrace, e, List.mem_cons] at ht
    rcases ht with ht | ht
    · rw [ht]; exact ⟨hwf, h⟩
    · exact ih s1 idle1 hwf1 (keeps_coreStep n I hI s idle hwf h i hi s1 idle1 e)
        (fun j hj => hall j (List.mem_cons_of_mem i hj)) t ht

theorem trace_fold (J : Sim → Prop) (f : Nat → Sim → Sim)
    (hstep : ∀ i s, J s → s.cores[i]? = some (-1) → J (f i s))
    (hframe : ∀ i j s, i ≠ j → (f i s).cores[j]? = s.cores[j]?) :
    ∀ (is : List Nat) (s : Sim), is.Nodup → J s → (∀ i ∈ is, s.cores[i]? = some (-1)) →
      ∀ t ∈ foldTrace f is s, J t := by
  intro is
  induction is with
  | nil =>
    intro s _ h _ t ht
    simp only [foldTrace, List.mem_singleton] at ht
    rw [ht]; exact h
  | cons i is ih =>
    intro s hnd hinv hall t ht
    rw [List.nodup_cons] at hnd
    simp only [foldTrace, List.mem_cons] at ht
    rcases ht with ht | ht
    · rw [ht]; exact hinv
    · have h1 : J (f i s) := hstep i s hinv (hall i (List.mem_cons_self i is))
      have h2 : ∀ j ∈ is, (f i s).cores[j]? = some (-1) := by
        intro j hj
        have hne : i ≠ j := fun e => hnd.1 (e ▸ hj)
        rw [hframe i j s hne]
        exact hall j (List.mem_cons_of_mem i hj)
      exact ih (f i s) hnd.2 h1 h2 t ht

theorem trace_spill (J : Sim → Prop) (f : Nat → Sim → Sim)
    (hstep : ∀ i s, i < CORECOUNT → J s → J (f i s)) :
    ∀ (is : List Nat) (s : Sim), (∀ i ∈ is, i < CORECOUNT) → J s →
      ∀ t ∈ foldTrace f is s, J t := by
  intro is
  induction is with
  | nil =>
    intro s _ h t ht
    simp only [foldTrace, List.mem_singleton] at ht
    rw [ht]; exact h
  | cons i is ih =>
    intro s hall hinv t ht
    simp only [foldTrace, List.mem_cons] at ht
    rcases ht with ht | ht
    · rw [ht]; exact hinv
    · exact ih (f i s) (fun j hj => hall j (List.mem_cons_of_mem i hj))
        (hstep i s (hall i (List.mem_cons_self i is)) hinv) t ht

theorem trace_ioLoop (n : Nat) (I : Sim → Prop) (hI : StepClosed n I) :
    ∀ (wq : List Int) (tot : Int) (s : Sim), s.wait_queue = wq → WF n s → I s →
    ∀ t ∈ ioLoopTrace wq tot s, WF n t ∧ I t := by
  intro wq
  induction wq with
  | nil =>
    intro tot s _ hwf h t ht
    simp only [ioLoopTrace, List.mem_singleton] at ht
    rw [ht]; exact ⟨hwf, h⟩
  | cons p rest ih =>
    intro tot s hwq hwf h t ht
    simp only [ioLoopTrace] at ht
    split_ifs at ht with h1 h2
    · simp only [List.mem_cons, List.mem_singleton, List.not_mem_nil, or_false] at ht
      rcases ht with ht | ht
      · rw [ht]; exact ⟨hwf, h⟩
      · rw [ht]
        exact ⟨WF_ioOverflow n s p _ _ hwf, hI.overflow s p rest _ _ hwf h hwq rfl h1⟩
    · simp only [List.mem_cons, List.mem_singleton, List.not_mem_nil, or_false] at ht
      rcases ht with ht | ht
      · rw [ht]; exact ⟨hwf, h⟩
      · rw [ht]
        exact ⟨WF_ioConsume n s p rest _ hwf hwq, hI.consume s p rest _ hwf h hwq rfl⟩
    · simp only [List.mem_cons] at ht
      rcases ht with ht | ht
      · rw [ht]; exact ⟨hwf, h⟩
      · exact ih _ _ (ioConsume_wait_queue s p rest _) (WF_ioConsume n s p rest _ hwf hwq)
          (hI.consume s p rest _ hwf h hwq rfl) t ht

/-- What every step keeps holds, with the loop invariant, at every state
Phase D goes through. -/
theorem trace_phaseD (n : Nat) (I : Sim → Prop) (hI : StepClosed n I) (c : Sim)
    (hC : WF n c) (iC : I c) (hcc : c.cores = List.replicate CORECOUNT (-1)) :
    (∀ t ∈ foldTrace takeHigh (List.range' 0 HIGHRES) c, WF n t ∧ I t) ∧
    (∀ t ∈ foldTrace takeMed (List.range' HIGHRES MEDRES)
      ((List.range' 0 HIGHRES).foldl (fun t i => takeHigh i t) c), WF n t ∧ I t) ∧
    (∀ t ∈ foldTrace takeLow
      (List.range' (HIGHRES + MEDRES) (CORECOUNT - (HIGHRES + MEDRES)))
      ((List.range' HIGHRES MEDRES).foldl (fun t i => takeMed i t)
        ((List.range' 0 HIGHRES).foldl (fun t i => takeHigh i t) c)), WF n t ∧ I t) ∧
    (∀ t ∈ foldTrace spillStep (List.range CORECOUNT) (reservedFill c), WF n t ∧ I t) := by
  have e3 : CORECOUNT = 16 := rfl
  have hslot : ∀ j, j < 16 → c.cores[j]? = some (-1) := by
    intro j hj
    rw [hcc, e3, List.getElem?_replicate]
    simp [hj]
  have sH : ∀ i t, (WF n t ∧ I t) → t.cores[i]? = some (-1) →
      (WF n (takeHigh i t) ∧ I (takeHigh i t)) :=
    fun i t ht hi => ⟨WF_takeHigh n t i ht.1 hi, keeps_takeHigh n I hI t i ht.1 ht.2 hi⟩
  have sM : ∀ i t, (WF n t ∧ I t) → t.cores[i]? = some (-1) →
      (WF n (takeMed i t) ∧ I (takeMed i t)) :=
    fun i t ht hi => ⟨WF_takeMed n t i ht.1 hi, keeps_takeMed n I hI t i ht.1 ht.2 hi⟩
  have sL : ∀ i t, (WF n t ∧ I t) → t.cores[i]? = some (-1) →
      (WF n (takeLow i t) ∧ I (takeLow i t)) :=
    fun i t ht hi => ⟨WF_takeLow n t i ht.1 hi, keeps_takeLow n I hI t i ht.1 ht.2 hi⟩
  have hs1 : ∀ i ∈ List.range' 0 8, c.cores[i]? = some (-1) :=
    fun i hi => hslot i (by simp [List.mem_range'_1] at hi; omega)
  obtain ⟨a1, a2⟩ := fold_slots (fun t => WF n t ∧ I t) takeHigh sH
    takeHigh_cores_ne (List.range' 0 8) c (List.nodup_range' 0 8) ⟨hC, iC⟩ hs1
  have hs2 : ∀ i ∈ List.range' 8 5,
      ((List.range' 0 8).foldl (fun t i => takeHigh i t) c).cores[i]? = some (-1) := by
    intro i hi
    simp [List.mem_range'_1] at hi
    rw [a2 i (by simp [List.mem_range'_1]; omega)]
    exact hslot i (by omega)
  obtain ⟨b1, b2⟩ := fold_slots (fun t => WF n t ∧ I t) takeMed sM
    takeMed_cores_ne (List.range' 8 5) _ (List.nodup_range' 8 5) a1 hs2
  have hs3 : ∀ i ∈ List.range' 13 3,
      ((List.range' 8 5).foldl (fun t i => takeMed i t)
        ((List.range' 0 8).foldl (fun t i => takeHigh i t) c)).cores[i]? = some (-1) := by
    intro i hi
    simp [List.mem_range'_1] at hi
    rw [b2 i (by simp [List.mem_range'_1]; omega), a2 i (by simp [List.mem_range'_1]; omega)]
    exact hslot i (by omega)
  have hR : WF n (reservedFill c) ∧ I (reservedFill c) :=
    ⟨WF_reservedFill n _ hC hcc, keeps_reservedFill n I hI _ hC iC hcc⟩
  refine ⟨?_, ?_, ?_, ?_⟩
  · exact trace_fold (fun t => WF n t ∧ I t) takeHigh sH takeHigh_cores_ne (List.range' 0 8) c
      (List.nodup_range' 0 8) ⟨hC, iC⟩ hs1
  · exact trace_fold (fun t => WF n t ∧ I t) takeMed sM takeMed_cores_ne (List.range' 8 5) _
      (List.nodup_range' 8 5) a1 hs2
  · exact trace_fold (fun t => WF n t ∧ I t) takeLow sL takeLow_cores_ne (List.range' 13 3) _
      (List.nodup_range' 13 3) b1 hs3
  · exact trace_spill (fun t => WF n t ∧ I t) spillStep
      (fun i t hi ht => ⟨WF_spillStep n t i hi ht.1, keeps_spillStep n I hI t i hi ht.1 ht.2⟩)
      (List.range CORECOUNT) _ (fun i hi => List.mem_range.1 hi) hR

/-- The states of one pass, by the loop they belong to. -/
theorem mem_tickTrace (s t : Sim) (ht : t ∈ tickTrace s) :
    t = s ∨ t ∈ coreLoopTrace (List.range CORECOUNT) (phaseA s) false ∨
    t ∈ foldTrace takeHigh (List.range' 0 HIGHRES) (phaseC (phaseB (phaseA s))) ∨
    t ∈ foldTrace takeMed (List.range' HIGHRES MEDRES)
      ((List.range' 0 HIGHRES).foldl (fun t i => takeHigh i t)
        (phaseC (phaseB (phaseA s)))) ∨
    t ∈ foldTrace takeLow
      (List.range' (HIGHRES + MEDRES) (CORECOUNT - (HIGHRES + MEDRES)))
      ((List.range' HIGHRES MEDRES).foldl (fun t i => takeMed i t)
        ((List.range' 0 HIGHRES).foldl (fun t i => takeHigh i t)
          (phaseC (phaseB (phaseA s))))) ∨
    t ∈ foldTrace spillStep (List.range CORECOUNT)
      (reservedFill (phaseC (phaseB (phaseA s)))) ∨
    t ∈ ioLoopTrace (beforeE s).wait_queue 0 { beforeE s with final_io_time := none } ∨
    t = tick s := by
  unfold tickTrace at ht
  simp only [List.mem_cons, List.mem_append, List.mem_singleton, List.not_mem_nil,
    or_false] at ht
  rcases ht with ht | ((((((ht | ht) | ht) | ht) | ht) | ht) | ht)
  · exact Or.inl ht
  · exact Or.inr (Or.inl ht)
  · exact Or.inr (Or.inr (Or.inl ht))
  · exact Or.inr (Or.inr (Or.inr (Or.inl ht)))
  · exact Or.inr (Or.inr (Or.inr (Or.inr (Or.inl ht))))
  · exact Or.inr (Or.inr (Or.inr (Or.inr (Or.inr (Or.inl ht)))))
  · exact Or.inr (Or.inr (Or.inr (Or.inr (Or.inr (Or.inr (Or.inl ht))))))
  · exact Or.inr (Or.inr (Or.inr (Or.inr (Or.inr (Or.inr (Or.inr ht))))))

/-- What every step keeps holds, with the loop invariant, at every state
Phase E goes through. -/
theorem trace_phaseE (n : Nat) (I : Sim → Prop) (hI : StepClosed n I) (e : Sim)
    (hD : WF n e) (iD : I e) :
    ∀ t ∈ ioLoopTrace e.wait_queue 0 { e with final_io_time := none }, WF n t ∧ I t := by
  have hE0 : WF n { e with final_io_time := none } :=
    WF_of_same n e _ hD rfl rfl rfl rfl rfl rfl (fun _ => rfl) (fun _ => rfl) (fun _ => rfl)
  have iE0 : I { e with final_io_time := none } :=
    keeps_same n I hI e _ iD rfl rfl rfl rfl rfl rfl
  exact trace_ioLoop n I hI e.wait_queue 0 { e with final_io_time := none } rfl hE0 iE0

/-- What every step keeps holds, with the loop invariant, at every state one
pass of the loop goes through. -/
theorem trace_tick (n : Nat) (I : Sim → Prop) (hI : StepClosed n I) (s : Sim)
    (hwf : WF n s) (h : I s) : ∀ t ∈ tickTrace s, WF n t ∧ I t := by
  have hA := WF_phaseA n s hwf
  have iA := keeps_phaseA n I hI s h
  obtain ⟨hB, hcores⟩ := phaseB_WF n (phaseA s) hA
  have iB : I (phaseB (phaseA s)) :=
    keeps_coreLoop n I hI (List.range CORECOUNT) (phaseA s) false hA iA
      (fun i hi => List.mem_range.1 hi)
  have hC := WF_phaseC n (phaseB (phaseA s)) hB
  have iC := keeps_phaseC n I hI (phaseB (phaseA s)) iB
  have hcc : (phaseC (phaseB (phaseA s))).cores = List.replicate CORECOUNT (-1) := hcores
  obtain ⟨d1, d2, d3, d4⟩ := trace_phaseD n I hI (phaseC (phaseB (phaseA s))) hC iC hcc
  obtain ⟨hD, iD⟩ := keeps_beforeE n I hI s hwf h
  have d5 := trace_phaseE n I hI (beforeE s) hD iD
  have d6 := trace_coreLoop n I hI (List.range CORECOUNT) (phaseA s) false hA iA
      (fun i hi => List.mem_range.1 hi)
  have d7 := WF_tick n s hwf
  have d8 := keeps_tick n I hI s hwf h
  intro t ht
  rcases mem_tickTrace s t ht with ht | ht | ht | ht | ht | ht | ht | ht
  · rw [ht]; exact ⟨hwf, h⟩
  · exact d6 t ht
  · exact d1 t ht
  · exact d2 t ht
  · exact d3 t ht
  · exact d4 t ht
  · exact d5 t ht
  · rw [ht]; exact ⟨d7, d8⟩

/-! ## C20: the reads of the loop are in bounds -/

/-- C20: for a workload whose record `i` has pid `30 + i`, a priority in
1, 2, 3, a cpu burst and state 1, at every state that a pass of the loop goes
through (the start and end of each phase and of each pass of an inner loop),
after any number of passes: every process id in a queue or on a core indexes
a record of the vector, every process in a ready queue or on a core has a cpu
burst, every process in the wait queue has an io burst, and the body of the
loop over the cores does not leave by `break` at any core. -/
theorem C20_reads_in_bounds_and_no_break (w : List PCB)
    (hpid : w.map PCB.PID = (List.range w.length).map (fun (i : Nat) => PIDMIN + (i : Int)))
    (hprio : ∀ p ∈ w, p.PRIORITY = 1 ∨ p.PRIORITY = 2 ∨ p.PRIORITY = 3)
    (hcpu : ∀ p ∈ w, p.CPU_TIME ≠ [])
    (hst : ∀ p ∈ w, p.STATE = 1)
    (k : Nat) :
    ∀ t ∈ tickTrace (tickN k (initSim w)),
      (∀ pid, (rdy t pid ∨ pid ∈ t.wait_queue ∨ (pid ∈ t.cores ∧ pid > 0)) →
        PIDMIN ≤ pid ∧ pid < PIDMIN + t.proc_blocks.length) ∧
      (∀ pid, (rdy t pid ∨ (pid ∈ t.cores ∧ pid > 0)) →
        (getPCB t.proc_blocks pid).CPU_TIME ≠ []) ∧
      (∀ pid ∈ t.wait_queue, (getPCB t.proc_blocks pid).IO_TIME ≠ []) ∧
      (∀ (i : Nat) (idle : Bool), i < CORECOUNT → coreStep i t idle ≠ none) := by
  have h0 := WF_init w (pid_of_map w hpid) hprio hcpu hst
  have hk := WF_tickN w.length k (initSim w) h0
  have hl := keeps_tickN w.length _ (locR_closed w.length) k (initSim w) h0 (locR_init w hst)
  intro t ht
  obtain ⟨hwf, hloc⟩ := trace_tick w.length _ (locR_closed w.length) _ hk hl t ht
  have hvalid : ∀ pid, (rdy t pid ∨ pid ∈ t.wait_queue ∨ (pid ∈ t.cores ∧ pid > 0)) →
      ValidPid w.length pid := by
    intro pid hp
    rcases hp with (hq | hq | hq) | hq | hq
    · exact hwf.qv pid (Or.inl hq)
    · exact hwf.qv pid (Or.inr (Or.inl hq))
    · exact hwf.qv pid (Or.inr (Or.inr (Or.inl hq)))
    · exact hwf.qv pid (Or.inr (Or.inr (Or.inr hq)))
    · rcases hwf.cv pid hq.1 with e | e
      · have := hq.2; omega
      · exact e
  refine ⟨?_, ?_, ?_, ?_⟩
  · intro pid hp
    have := hvalid pid hp
    rw [hwf.lenP]
    exact this
  · intro pid hp
    rcases hp with hq | hq
    · have hv := hvalid pid (Or.inl hq)
      refine hwf.cpu pid ?_ hv
      rcases hq with hq | hq | hq
      · exact Or.inl hq
      · exact Or.inr (Or.inl hq)
      · exact Or.inr (Or.inr (Or.inl hq))
    · exact hwf.cpu pid (Or.inr (Or.inr (Or.inr hq.1))) (hvalid pid (Or.inr (Or.inr hq)))
  · intro pid hp
    exact ((hloc pid (hvalid pid (Or.inr (Or.inl hp)))).2.2 hp).2
  · intro i idle hi
    obtain ⟨s1, idle1, e, _, _⟩ := coreStep_WF w.length t idle hwf i hi
    rw [e]
    exact Option.some_ne_none _

set_option maxRecDepth 1000000 in
/-- Witness of C20: `mixedLoad`, the 62 states of the third pass, in which
Phase B sends the processes on the cores to the wait queue one by one. -/
theorem C20_reads_in_bounds_and_no_break_witness :
    ((tickN 2 (initSim mixedLoad)).run = true ∧
     (tickTrace (tickN 2 (initSim mixedLoad))).length = 62 ∧
     ((tickTrace (tickN 2 (initSim mixedLoad))).map (fun t => t.wait_queue.length)).take 17
       = [0, 0, 1, 2, 3, 4, 5, 6, 7, 8, 9, 10, 11, 12, 13, 13, 14]) ∧
    ∀ t ∈ tickTrace (tickN 2 (initSim mixedLoad)),
      (∀ pid, (rdy t pid ∨ pid ∈ t.wait_queue ∨ (pid ∈ t.cores ∧ pid > 0)) →
        PIDMIN ≤ pid ∧ pid < PIDMIN + t.proc_blocks.length) ∧
      (∀ pid, (rdy t pid ∨ (pid ∈ t.cores ∧ pid > 0)) →
        (getPCB t.proc_blocks pid).CPU_TIME ≠ []) ∧
      (∀ pid ∈ t.wait_queue, (getPCB t.proc_blocks pid).IO_TIME ≠ []) ∧
      (∀ (i : Nat) (idle : Bool), i < CORECOUNT → coreStep i t idle ≠ none) :=
  ⟨by decide,
    C20_reads_in_bounds_and_no_break mixedLoad (by decide) (by decide) (by decide) (by decide) 2⟩

/-! ## Phase E: the processes whose io burst fits -/

theorem wq_nodup (n : Nat) (s : Sim) (h : WF n s) : s.wait_queue.Nodup := by
  rw [List.nodup_iff_count_le_one]
  intro a
  by_cases ha : a ∈ s.wait_queue
  · have hv := h.qv a (Or.inr (Or.inr (Or.inr ha)))
    have := h.one a hv
    unfold occ at this
    omega
  · rw [List.count_eq_zero.2 ha]; omega

theorem priority_creditWait (s : Sim) (b : Int) (q : Int) :
    (getPCB (creditWait s b).proc_blocks q).PRIORITY = (getPCB s.proc_blocks q).PRIORITY := by
  unfold creditWait
  apply proj_getPCB_map
  intro r
  split <;> rfl

theorem priority_ioConsume (s : Sim) (p : Int) (rest : List Int) (b : Int) (q : Int) :
    (getPCB (ioConsume s p rest b).proc_blocks q).PRIORITY
      = (getPCB s.proc_blocks q).PRIORITY := by
  rw [← priority_creditWait s b q]
  unfold ioConsume
  simp only [Sim.upd]
  split_ifs <;> simp [PRIORITY_updPCB]

/-- The queues after an io burst that fits: the front process leaves the wait
queue and goes to the back of the ready queue of its priority when it has a cpu
burst left. -/
theorem ioConsume_queues (n : Nat) (s : Sim) (p : Int) (rest : List Int) (b : Int)
    (h : WF n s) (hwq : s.wait_queue = p :: rest) :
    (ioConsume s p rest b).high_queue = s.high_queue ++ [p].filter (requeues s 1) ∧
    (ioConsume s p rest b).med_queue = s.med_queue ++ [p].filter (requeues s 2) ∧
    (ioConsume s p rest b).low_queue = s.low_queue ++ [p].filter (requeues s 3) ∧
    (ioConsume s p rest b).cores = s.cores := by
  have hv : ValidPid n p :=
    h.qv p (Or.inr (Or.inr (Or.inr (by rw [hwq]; exact List.mem_cons_self p rest))))
  have eC : (getPCB (updPCB (creditWait s b).proc_blocks p
      (fun r => { r with IO_TIME := r.IO_TIME.tail })) p).CPU_TIME
      = (getPCB s.proc_blocks p).CPU_TIME := by
    rw [← (sameRec_creditWait s b p).2.1]; simp [CPU_TIME_updPCB]
  have eP : (getPCB (updPCB (creditWait s b).proc_blocks p
      (fun r => { r with IO_TIME := r.IO_TIME.tail })) p).PRIORITY
      = (getPCB s.proc_blocks p).PRIORITY := by
    rw [← priority_creditWait s b p]; simp [PRIORITY_updPCB]
  have q1 : (creditWait s b).high_queue = s.high_queue := rfl
  have q2 : (creditWait s b).med_queue = s.med_queue := rfl
  have q3 : (creditWait s b).low_queue = s.low_queue := rfl
  have q4 : (creditWait s b).cores = s.cores := rfl
  unfold ioConsume
  simp only [Sim.upd, eC, eP]
  by_cases hcpu : (getPCB s.proc_blocks p).CPU_TIME = []
  · simp [hcpu, requeues, q1, q2, q3, q4]
  · rcases h.prio p hv with hp | hp | hp
    · simp [hcpu, hp, requeues, q1, q2, q3, q4]
    · simp [hcpu, hp, requeues, q1, q2, q3, q4]
    · simp [hcpu, hp, requeues, q1, q2, q3, q4]

theorem sum_map_pos (f : Int → Int) (l : List Int) (h : ∀ q ∈ l, 0 < f q) :
    0 ≤ (l.map f).sum ∧ (l ≠ [] → 0 < (l.map f).sum) := by
  induction l with
  | nil => simp
  | cons a l ih =>
    have h1 := h a (List.mem_cons_self a l)
    have h2 := (ih (fun q hq => h q (List.mem_cons_of_mem a hq))).1
    simp only [List.map_cons, List.sum_cons]
    exact ⟨by omega, fun _ => by omega⟩

theorem tail_set_zero (l : List Int) (x : Int) : (l.set 0 x).tail = l.tail := by
  cases l <;> rfl

theorem WF_beforeE (n : Nat) (s : Sim) (h : WF n s) : WF n (beforeE s) := by
  unfold beforeE
  obtain ⟨hB, hcores⟩ := phaseB_WF n (phaseA s) (WF_phaseA n s h)
  exact WF_phaseD n _ (WF_phaseC n _ hB) hcores

/-- The loop of Phase E, started with running total `tot` on a state whose wait
queue is `wq` and whose waiting processes have a positive head io burst,
services exactly the first `k` processes, where the prefixes of `wq` whose head
io bursts fit into what is left of RRTIME are those of length at most `k`. -/
theorem ioLoop_prefix (n : Nat) : ∀ (wq : List Int) (tot : Int) (s : Sim),
    s.wait_queue = wq → WF n s → (∀ p ∈ wq, 0 < ioHead s p) → tot ≤ RRTIME →
    ∃ k, k ≤ wq.length ∧
      (∀ j, j ≤ wq.length →
        (tot + ((wq.take j).map (ioHead s)).sum ≤ RRTIME ↔ j ≤ k)) ∧
      Serviced s (ioLoop wq tot s) wq k := by
  intro wq
  induction wq with
  | nil =>
    intro tot s hwq hwf hpos htot
    refine ⟨0, le_refl _, ?_, ?_⟩
    · intro j hj
      simp only [List.length_nil, Nat.le_zero] at hj
      subst hj
      simp [htot]
    · unfold Serviced
      simp only [ioLoop, List.drop_nil, List.take_nil, List.filter_nil, List.append_nil,
        List.not_mem_nil, false_implies, implies_true, true_and, not_false_eq_true, and_true]
      exact ⟨hwq, fun pid _ => sameRec_refl s pid⟩
  | cons p rest ih =>
    intro tot s hwq hwf hpos htot
    have hv : ValidPid n p :=
      hwf.qv p (Or.inr (Or.inr (Or.inr (by rw [hwq]; exact List.mem_cons_self p rest))))
    have hnd := wq_nodup n s hwf
    rw [hwq] at hnd
    have hpr : p ∉ rest := (List.nodup_cons.1 hnd).1
    have hne : ∀ q ∈ rest, q ≠ p := fun q hq e => hpr (e ▸ hq)
    have hrestpos : ∀ q ∈ rest, 0 < ioHead s q :=
      fun q hq => hpos q (List.mem_cons_of_mem p hq)
    have hsum : ∀ j, 0 ≤ ((rest.take j).map (ioHead s)).sum :=
      fun j => (sum_map_pos _ _ (fun q hq => hrestpos q (List.mem_of_mem_take hq))).1
    have hsum1 : ∀ j, j + 1 ≤ rest.length → 0 < ((rest.take (j + 1)).map (ioHead s)).sum := by
      intro j hj
      apply (sum_map_pos _ _ (fun q hq => hrestpos q (List.mem_of_mem_take hq))).2
      cases rest with
      | nil => simp at hj
      | cons r rs => simp
    have hb : 0 < ioHead s p := hpos p (List.mem_cons_self p rest)
    have hbe : (getPCB s.proc_blocks p).IO_TIME.headD 0 = ioHead s p := rfl
    simp only [ioLoop]
    rw [hbe]
    generalize ioHead s p = b at hb hbe ⊢
    have hbe2 : ioHead s p = b := hbe
    split_ifs with h1 h2
    · obtain ⟨hm, e1, e2, e3, e4, e5, a1, a2, a3⟩ :=
        ioOverflow_moves n s p b (RRTIME - (tot + b)) hv hwf
      refine ⟨0, Nat.zero_le _, ?_, ?_⟩
      · intro j hj
        cases j with
        | zero => simp [htot]
        | succ j =>
          simp only [List.take_succ_cons, List.map_cons, List.sum_cons, hbe2]
          have := hsum j
          constructor
          · intro hh; omega
          · intro hh; omega
      · unfold Serviced
        refine ⟨by rw [e4, hwq]; rfl, by rw [e1]; simp, by rw [e2]; simp, by rw [e3]; simp,
          e5, ?_, ?_, ?_⟩
        · intro q hq; simp at hq
        · intro q _
          by_cases e : q = p
          · subst e
            exact ⟨a1, a2, by rw [a3, tail_set_zero], by rw [a3, List.length_set]⟩
          · have := hm.recs q e
            exact ⟨this.1, this.2.1, by rw [this.2.2], by rw [this.2.2]⟩
        · intro pid hp
          exact hm.recs pid (fun e => hp (e ▸ List.mem_cons_self p rest))
    · obtain ⟨hm, c1, c2, c3, c4, c5, c6⟩ := ioConsume_moves n s p rest b hwf hwq
      obtain ⟨g1, g2, g3, g4⟩ := ioConsume_queues n s p rest b hwf hwq
      refine ⟨1, by simp, ?_, ?_⟩
      · intro j hj
        match j with
        | 0 => simp [htot]
        | 1 =>
          simp only [List.take_succ_cons, List.take_zero, List.map_cons, List.map_nil,
            List.sum_cons, List.sum_nil, hbe2]
          constructor
          · intro _; exact le_refl _
          · intro _; omega
        | j + 2 =>
          simp only [List.take_succ_cons, List.map_cons, List.sum_cons, hbe2]
          have := hsum1 j (by simp only [List.length_cons] at hj; omega)
          constructor
          · intro hh; omega
          · intro hh; omega
      · unfold Serviced
        refine ⟨ioConsume_wait_queue s p rest b, g1, g2, g3, g4, ?_, ?_, ?_⟩
        · intro q hq
          simp only [List.take_succ_cons, List.take_zero, List.mem_singleton] at hq
          subst hq
          exact ⟨c6, c5, c4⟩
        · intro q hq
          simp only [List.drop_succ_cons, List.drop_zero] at hq
          have := hm.recs q (hne q hq)
          exact ⟨this.1, this.2.1, by rw [this.2.2], by rw [this.2.2]⟩
        · intro pid hp
          exact hm.recs pid (fun e => hp (e ▸ List.mem_cons_self p rest))
    · obtain ⟨hm, c1, c2, c3, c4, c5, c6⟩ := ioConsume_moves n s p rest b hwf hwq
      obtain ⟨g1, g2, g3, g4⟩ := ioConsume_queues n s p rest b hwf hwq
      have hwf1 := WF_ioConsume n s p rest b hwf hwq
      have hsame : ∀ q ∈ rest, ioHead (ioConsume s p rest b) q = ioHead s q := by
        intro q hq
        unfold ioHead
        rw [(hm.recs q (hne q hq)).2.2]
      have hreq : ∀ (pr : Int), ∀ q ∈ rest,
          requeues (ioConsume s p rest b) pr q = requeues s pr q := by
        intro pr q hq
        unfold requeues
        rw [priority_ioConsume, (hm.recs q (hne q hq)).2.1]
      obtain ⟨k, hk, hpre, hserv⟩ := ih (tot + b) (ioConsume s p rest b)
        (ioConsume_wait_queue s p rest b) hwf1
        (fun q hq => by rw [hsame q hq]; exact hrestpos q hq) (by omega)
      refine ⟨k + 1, by simp only [List.length_cons]; omega, ?_, ?_⟩
      · intro j hj
        cases j with
        | zero => simp [htot]
        | succ j =>
          have := hpre j (by simp only [List.length_cons] at hj; omega)
          rw [List.map_congr_left (fun q hq => hsame q (List.mem_of_mem_take hq))] at this
          simp only [List.take_succ_cons, List.map_cons, List.sum_cons, hbe2]
          rw [Nat.succ_le_succ_iff, ← this]
          constructor
          · intro hh; omega
          · intro hh; omega
      · unfold Serviced at hserv ⊢
        obtain ⟨s1, s2, s3, s4, s5, s6, s7, s8⟩ := hserv
        have hf : ∀ (pr : Int), (rest.take k).filter (requeues (ioConsume s p rest b) pr)
            = (rest.take k).filter (requeues s pr) :=
          fun pr => List.filter_congr (fun q hq => hreq pr q (List.mem_of_mem_take hq))
        have hsplit : ∀ (pr : Int), (p :: rest.take k).filter (requeues s pr)
            = [p].filter (requeues s pr) ++ (rest.take k).filter (requeues s pr) := by
          intro pr
          rw [← List.filter_append]; rfl
        refine ⟨by rw [s1]; rfl, ?_, ?_, ?_, by rw [s5, g4], ?_, ?_, ?_⟩
        · rw [s2, g1, hf, List.take_succ_cons, hsplit, List.append_assoc]
        · rw [s3, g2, hf, List.take_succ_cons, hsplit, List.append_assoc]
        · rw [s4, g3, hf, List.take_succ_cons, hsplit, List.append_assoc]
        · intro q hq
          rw [List.take_succ_cons, List.mem_cons] at hq
          rcases hq with hq | hq
          · subst hq
            have := s8 q hpr
            rw [this.1, this.2.1, this.2.2]
            exact ⟨c6, c5, c4⟩
          · have hq1 := List.mem_of_mem_take hq
            have h1 := hm.recs q (hne q hq1)
            have h2 := s6 q hq
            rw [h1.2.1, h1.2.2] at h2
            exact h2
        · intro q hq
          rw [List.drop_succ_cons] at hq
          have hq1 := List.mem_of_mem_drop hq
          have h1 := hm.recs q (hne q hq1)
          have h2 := s7 q hq
          rw [h1.1, h1.2.1, h1.2.2] at h2
          exact h2
        · intro pid hp
          have hp1 : pid ≠ p := fun e => hp (e ▸ List.mem_cons_self p rest)
          have hp2 : pid ∉ rest := fun e => hp (List.mem_cons_of_mem p e)
          exact sameRec_trans _ _ _ pid (hm.recs pid hp1) (s8 pid hp2)

/-! ## C11: Phase E services the longest prefix that fits -/

/-- C11: for a state that satisfies the loop invariant and whose waiting
processes all have a positive head io burst, Phase E services the first `k`
processes of the wait queue, where the prefixes of the wait queue whose head io
bursts add up to at most RRTIME are exactly those of length at most `k`: each
of the `k` processes has its head io burst removed and is appended, in the order
of the wait queue, to the ready queue of its priority in state 1 when it has a
cpu burst left, and is put in state 4 otherwise; the processes behind them stay
in the wait queue in their order, with their state, their cpu bursts and their
number of io bursts; the cores and all other records stay as they are. -/
theorem C11_phaseE_services_longest_prefix (n : Nat) (s : Sim) (hwf : WF n s)
    (hpos : ∀ p ∈ s.wait_queue, 0 < ioHead s p) :
    ∃ k, k ≤ s.wait_queue.length ∧
      (∀ j, j ≤ s.wait_queue.length →
        (((s.wait_queue.take j).map (ioHead s)).sum ≤ RRTIME ↔ j ≤ k)) ∧
      (phaseE s).wait_queue = s.wait_queue.drop k ∧
      (phaseE s).high_queue
        = s.high_queue ++ (s.wait_queue.take k).filter (requeues s 1) ∧
      (phaseE s).med_queue
        = s.med_queue ++ (s.wait_queue.take k).filter (requeues s 2) ∧
      (phaseE s).low_queue
        = s.low_queue ++ (s.wait_queue.take k).filter (requeues s 3) ∧
      (phaseE s).cores = s.cores ∧
      (∀ p ∈ s.wait_queue.take k,
        (getPCB (phaseE s).proc_blocks p).IO_TIME = (getPCB s.proc_blocks p).IO_TIME.tail ∧
        (getPCB (phaseE s).proc_blocks p).CPU_TIME = (getPCB s.proc_blocks p).CPU_TIME ∧
        (getPCB (phaseE s).proc_blocks p).STATE
          = (if (getPCB s.proc_blocks p).CPU_TIME = [] then 4 else 1)) ∧
      (∀ p ∈ s.wait_queue.drop k,
        (getPCB (phaseE s).proc_blocks p).STATE = (getPCB s.proc_blocks p).STATE ∧
        (getPCB (phaseE s).proc_blocks p).CPU_TIME = (getPCB s.proc_blocks p).CPU_TIME ∧
        (getPCB (phaseE s).proc_blocks p).IO_TIME.tail
          = (getPCB s.proc_blocks p).IO_TIME.tail ∧
        (getPCB (phaseE s).proc_blocks p).IO_TIME.length
          = (getPCB s.proc_blocks p).IO_TIME.length) ∧
      (∀ pid, pid ∉ s.wait_queue → SameRec s (phaseE s) pid) := by
  have h0 : WF n { s with final_io_time := none } :=
    WF_of_same n s _ hwf rfl rfl rfl rfl rfl rfl (fun _ => rfl) (fun _ => rfl) (fun _ => rfl)
  obtain ⟨k, hk, hpre, hserv⟩ := ioLoop_prefix n s.wait_queue 0
    { s with final_io_time := none } rfl h0 hpos (by decide)
  refine ⟨k, hk, ?_, hserv⟩
  intro j hj
  have := hpre j hj
  rw [zero_add] at this
  exact this

set_option maxRecDepth 100000 in
/-- Witness of C11: on `stateC11` the wait queue is 30, 31, ..., 45 with head io
bursts of 15; the first two fit into RRTIME = 40 and go to the high queue, the
other fourteen stay in the wait queue. -/
theorem C11_phaseE_services_longest_prefix_witness :
    (stateC11.wait_queue = (List.range 16).map (fun (i : Nat) => (30 : Int) + i) ∧
     (∀ p ∈ stateC11.wait_queue, ioHead stateC11 p = 15) ∧
     (phaseE stateC11).high_queue = [30, 31] ∧
     (phaseE stateC11).wait_queue = (List.range 14).map (fun (i : Nat) => (32 : Int) + i)) ∧
    ∃ k, k ≤ stateC11.wait_queue.length ∧
      (∀ j, j ≤ stateC11.wait_queue.length →
        (((stateC11.wait_queue.take j).map (ioHead stateC11)).sum ≤ RRTIME ↔ j ≤ k)) ∧
      (phaseE stateC11).wait_queue = stateC11.wait_queue.drop k ∧
      (phaseE stateC11).high_queue
        = stateC11.high_queue ++ (stateC11.wait_queue.take k).filter (requeues stateC11 1) ∧
      (phaseE stateC11).med_queue
        = stateC11.med_queue ++ (stateC11.wait_queue.take k).filter (requeues stateC11 2) ∧
      (phaseE stateC11).low_queue
        = stateC11.low_queue ++ (stateC11.wait_queue.take k).filter (requeues stateC11 3) ∧
      (phaseE stateC11).cores = stateC11.cores ∧
      (∀ p ∈ stateC11.wait_queue.take k,
        (getPCB (phaseE stateC11).proc_blocks p).IO_TIME
          = (getPCB stateC11.proc_blocks p).IO_TIME.tail ∧
        (getPCB (phaseE stateC11).proc_blocks p).CPU_TIME
          = (getPCB stateC11.proc_blocks p).CPU_TIME ∧
        (getPCB (phaseE stateC11).proc_blocks p).STATE
          = (if (getPCB stateC11.proc_blocks p).CPU_TIME = [] then 4 else 1)) ∧
      (∀ p ∈ stateC11.wait_queue.drop k,
        (getPCB (phaseE stateC11).proc_blocks p).STATE
          = (getPCB stateC11.proc_blocks p).STATE ∧
        (getPCB (phaseE stateC11).proc_blocks p).CPU_TIME
          = (getPCB stateC11.proc_blocks p).CPU_TIME ∧
        (getPCB (phaseE stateC11).proc_blocks p).IO_TIME.tail
          = (getPCB stateC11.proc_blocks p).IO_TIME.tail ∧
        (getPCB (phaseE stateC11).proc_blocks p).IO_TIME.length
          = (getPCB stateC11.proc_blocks p).IO_TIME.length) ∧
      (∀ pid, pid ∉ stateC11.wait_queue → SameRec stateC11 (phaseE stateC11) pid) :=
  ⟨by decide,
    C11_phaseE_services_longest_prefix loadC11.length stateC11
      (WF_beforeE _ _ (WF_tickN _ 1 _
        (WF_init loadC11 (pid_of_map loadC11 (by decide)) (by decide) (by decide)
          (by decide))))
      (by decide)⟩

/-! ## The counters of completed bursts and the two correction terms -/

theorem completeBurst_book (s : Sim) (c b : Int) (tl : List Int) :
    (completeBurst s c b tl).cpu_bursts = s.cpu_bursts + 1 ∧
    (completeBurst s c b tl).run = s.run ∧
    (completeBurst s c b tl).final_io_time = s.final_io_time := by
  unfold completeBurst
  simp only [Sim.upd]
  split <;> exact ⟨rfl, rfl, rfl⟩

theorem preemptBurst_book (s : Sim) (c b : Int) (tl : List Int) :
    (preemptBurst s c b tl).cpu_bursts = s.cpu_bursts ∧
    (preemptBurst s c b tl).final_cpu_time = s.final_cpu_time ∧
    (preemptBurst s c b tl).run = s.run ∧
    (preemptBurst s c b tl).final_io_time = s.final_io_time := by
  unfold preemptBurst
  simp only [Sim.upd]
  split_ifs <;> exact ⟨rfl, rfl, rfl, rfl⟩

/-- One pass of the loop over the cores leaves `run` alone and either leaves
`final_cpu_time` and the count of completed bursts alone or adds one to the
count. -/
theorem coreStep_book (i : Nat) (s s1 : Sim) (idle idle1 : Bool)
    (h : coreStep i s idle = some (s1, idle1)) :
    s1.run = s.run ∧ s1.final_io_time = s.final_io_time ∧
    ((s1.final_cpu_time = s.final_cpu_time ∧ s1.cpu_bursts = s.cpu_bursts) ∨
      s1.cpu_bursts = s.cpu_bursts + 1) := by
  unfold coreStep at h
  generalize s.cores.getD i (-1) = c at h ⊢
  by_cases hc : c > 0
  · simp only [hc, if_true] at h
    cases hct : (getPCB s.proc_blocks c).CPU_TIME with
    | nil => rw [hct] at h; exact Option.noConfusion h
    | cons b tl =>
      rw [hct] at h
      simp only [Option.some.injEq, Prod.mk.injEq] at h
      obtain ⟨h1, _⟩ := h
      subst h1
      by_cases hb : b - RRTIME ≤ 0
      · simp only [hb, if_true]
        obtain ⟨a1, a2, a3⟩ := completeBurst_book s c b tl
        exact ⟨a2, a3, Or.inr a1⟩
      · simp only [hb, if_false]
        obtain ⟨a1, a2, a3, a4⟩ := preemptBurst_book s c b tl
        exact ⟨a3, a4, Or.inl ⟨a2, a1⟩⟩
  · simp only [hc, if_false, Option.some.injEq, Prod.mk.injEq] at h
    obtain ⟨h1, _⟩ := h
    subst h1
    cases idle <;> exact ⟨rfl, rfl, Or.inl ⟨rfl, rfl⟩⟩

theorem coreLoop_book : ∀ (is : List Nat) (s : Sim) (idle : Bool),
    (coreLoop is s idle).run = s.run ∧
    (coreLoop is s idle).final_io_time = s.final_io_time ∧
    s.cpu_bursts ≤ (coreLoop is s idle).cpu_bursts ∧
    (((coreLoop is s idle).final_cpu_time = s.final_cpu_time ∧
        (coreLoop is s idle).cpu_bursts = s.cpu_bursts) ∨
      s.cpu_bursts < (coreLoop is s idle).cpu_bursts) := by
  intro is
  induction is with
  | nil => intro s idle; exact ⟨rfl, rfl, le_refl _, Or.inl ⟨rfl, rfl⟩⟩
  | cons i is ih =>
    intro s idle
    simp only [coreLoop]
    cases h : coreStep i s idle with
    | none => exact ⟨rfl, rfl, le_refl _, Or.inl ⟨rfl, rfl⟩⟩
    | some r =>
      obtain ⟨s1, idle1⟩ := r
      simp only []
      obtain ⟨a1, a2, a3⟩ := coreStep_book i s s1 idle idle1 h
      obtain ⟨b1, b2, b3, b4⟩ := ih s1 idle1
      refine ⟨b1.trans a1, b2.trans a2, ?_, ?_⟩
      · rcases a3 with a3 | a3
        · rw [← a3.2]; exact b3
        · omega
      · rcases a3 with a3 | a3
        · rcases b4 with b4 | b4
          · exact Or.inl ⟨b4.1.trans a3.1, b4.2.trans a3.2⟩
          · right; rw [← a3.2]; exact b4
        · right; omega

theorem takeHigh_book (i : Nat) (s : Sim) :
    ((takeHigh i s).cpu_bursts, (takeHigh i s).final_cpu_time, (takeHigh i s).run,
      (takeHigh i s).wait_queue)
      = (s.cpu_bursts, s.final_cpu_time, s.run, s.wait_queue) := by
  unfold takeHigh; split <;> rfl

theorem takeMed_book (i : Nat) (s : Sim) :
    ((takeMed i s).cpu_bursts, (takeMed i s).final_cpu_time, (takeMed i s).run,
      (takeMed i s).wait_queue)
      = (s.cpu_bursts, s.final_cpu_time, s.run, s.wait_queue) := by
  unfold takeMed; split <;> rfl

theorem takeLow_book (i : Nat) (s : Sim) :
    ((takeLow i s).cpu_bursts, (takeLow i s).final_cpu_time, (takeLow i s).run,
      (takeLow i s).wait_queue)
      = (s.cpu_bursts, s.final_cpu_time, s.run, s.wait_queue) := by
  unfold takeLow; split <;> rfl

theorem spillStep_book (i : Nat) (s : Sim) :
    ((spillStep i s).cpu_bursts, (spillStep i s).final_cpu_time, (spillStep i s).run,
      (spillStep i s).wait_queue)
      = (s.cpu_bursts, s.final_cpu_time, s.run, s.wait_queue) := by
  unfold spillStep
  split_ifs
  · exact takeHigh_book i s
  · exact takeMed_book i s
  · exact takeLow_book i s
  · rfl
  · rfl

/-- Phase D leaves the count of completed bursts, `final_cpu_time`, `run` and
the wait queue alone. -/
theorem phaseD_book (s : Sim) :
    ((phaseD s).cpu_bursts, (phaseD s).final_cpu_time, (phaseD s).run, (phaseD s).wait_queue)
      = (s.cpu_bursts, s.final_cpu_time, s.run, s.wait_queue) := by
  unfold phaseD spillFill reservedFill
  rw [fold_keeps (fun t => (t.cpu_bursts, t.final_cpu_time, t.run, t.wait_queue))
      spillStep spillStep_book,
    fold_keeps (fun t => (t.cpu_bursts, t.final_cpu_time, t.run, t.wait_queue))
      takeLow takeLow_book,
    fold_keeps (fun t => (t.cpu_bursts, t.final_cpu_time, t.run, t.wait_queue))
      takeMed takeMed_book,
    fold_keeps (fun t => (t.cpu_bursts, t.final_cpu_time, t.run, t.wait_queue))
      takeHigh takeHigh_book]

theorem ioConsume_book (s : Sim) (p : Int) (rest : List Int) (b : Int) :
    ((ioConsume s p rest b).cpu_bursts, (ioConsume s p rest b).final_cpu_time,
      (ioConsume s p rest b).run, (ioConsume s p rest b).final_io_time)
      = (s.cpu_bursts, s.final_cpu_time, s.run, s.final_io_time) := by
  unfold ioConsume
  simp only [Sim.upd]
  split_ifs <;> rfl

theorem ioLoop_book : ∀ (wq : List Int) (t : Int) (s : Sim),
    ((ioLoop wq t s).cpu_bursts, (ioLoop wq t s).final_cpu_time, (ioLoop wq t s).run)
      = (s.cpu_bursts, s.final_cpu_time, s.run) := by
  intro wq
  induction wq with
  | nil => intro t s; rfl
  | cons p rest ih =>
    intro t s
    have e := ioConsume_book s p rest ((getPCB s.proc_blocks p).IO_TIME.headD 0)
    simp only [Prod.mk.injEq] at e
    simp only [ioLoop]
    split_ifs
    · rfl
    · rw [e.1, e.2.1, e.2.2.1]
    · rw [ih, e.1, e.2.1, e.2.2.1]

/-- The loop of Phase E writes `final_io_time` only in the branch that leaves
the front process in the wait queue: when the wait queue is empty afterwards,
`final_io_time` is what it was. -/
theorem ioLoop_final_io : ∀ (wq : List Int) (t : Int) (s : Sim), s.wait_queue = wq →
    (ioLoop wq t s).wait_queue = [] → (ioLoop wq t s).final_io_time = s.final_io_time := by
  intro wq
  induction wq with
  | nil => intro t s _ _; rfl
  | cons p rest ih =>
    intro t s hwq
    have e := ioConsume_book s p rest ((getPCB s.proc_blocks p).IO_TIME.headD 0)
    simp only [Prod.mk.injEq] at e
    simp only [ioLoop]
    split_ifs
    · intro h
      have : (ioOverflow s p ((getPCB s.proc_blocks p).IO_TIME.headD 0)
          (RRTIME - (t + (getPCB s.proc_blocks p).IO_TIME.headD 0))).wait_queue
          = s.wait_queue := rfl
      rw [this, hwq] at h
      exact absurd h (List.cons_ne_nil p rest)
    · intro _; exact e.2.2.2
    · intro h
      rw [ih _ _ (ioConsume_wait_queue s p rest _) h]
      exact e.2.2.2

theorem checkDone_book (e : Sim) :
    (checkDone e).cpu_bursts = e.cpu_bursts ∧
    (checkDone e).final_cpu_time = e.final_cpu_time ∧
    (checkDone e).final_io_time = e.final_io_time ∧
    (checkDone e).wait_queue = e.wait_queue ∧
    (checkDone e).high_queue = e.high_queue ∧
    (checkDone e).med_queue = e.med_queue ∧
    (checkDone e).low_queue = e.low_queue ∧
    (checkDone e).cores = e.cores ∧
    (checkDone e).proc_blocks = e.proc_blocks := by
  unfold checkDone
  split <;> exact ⟨rfl, rfl, rfl, rfl, rfl, rfl, rfl, rfl, rfl⟩

theorem phaseE_book (e : Sim) :
    (phaseE e).cpu_bursts = e.cpu_bursts ∧
    (phaseE e).final_cpu_time = e.final_cpu_time ∧
    (phaseE e).run = e.run ∧
    ((phaseE e).wait_queue = [] → (phaseE e).final_io_time = none) := by
  have eE := ioLoop_book e.wait_queue 0 { e with final_io_time := none }
  simp only [Prod.mk.injEq] at eE
  exact ⟨eE.1, eE.2.1, eE.2.2,
    ioLoop_final_io e.wait_queue 0 { e with final_io_time := none } rfl⟩

theorem phaseB_book (a : Sim) :
    (phaseB a).run = a.run ∧
    a.cpu_bursts ≤ (phaseB a).cpu_bursts ∧
    (((phaseB a).final_cpu_time = a.final_cpu_time ∧ (phaseB a).cpu_bursts = a.cpu_bursts) ∨
      a.cpu_bursts < (phaseB a).cpu_bursts) := by
  obtain ⟨b1, _, b3, b4⟩ := coreLoop_book (List.range CORECOUNT) a false
  exact ⟨b1, b3, b4⟩

theorem beforeE_book (s : Sim) :
    (beforeE s).run = s.run ∧
    s.cpu_bursts ≤ (beforeE s).cpu_bursts ∧
    ((beforeE s).final_cpu_time = none ∨ s.cpu_bursts < (beforeE s).cpu_bursts) := by
  obtain ⟨b1, b3, b4⟩ := phaseB_book (phaseA s)
  have eD := phaseD_book (phaseC (phaseB (phaseA s)))
  simp only [Prod.mk.injEq] at eD
  obtain ⟨d1, d2, d3, _⟩ := eD
  have c1 : (phaseC (phaseB (phaseA s))).cpu_bursts = (phaseB (phaseA s)).cpu_bursts := rfl
  have c2 : (phaseC (phaseB (phaseA s))).final_cpu_time
      = (phaseB (phaseA s)).final_cpu_time := rfl
  have c3 : (phaseC (phaseB (phaseA s))).run = (phaseB (phaseA s)).run := rfl
  have g1 : (phaseA s).cpu_bursts = s.cpu_bursts := rfl
  have g2 : (phaseA s).final_cpu_time = none := rfl
  have g3 : (phaseA s).run = s.run := rfl
  have e : beforeE s = phaseD (phaseC (phaseB (phaseA s))) := rfl
  rw [e, d1, d2, d3, c1, c2, c3]
  rw [g1] at b3 b4
  rw [g2] at b4
  rw [g3] at b1
  refine ⟨b1, b3, ?_⟩
  rcases b4 with b4 | b4
  · exact Or.inl b4.1
  · exact Or.inr b4

/-- The count of completed bursts, `final_cpu_time` and `final_io_time` over one
pass of the loop. -/
theorem tick_book (s : Sim) :
    s.cpu_bursts ≤ (tick s).cpu_bursts ∧
    ((tick s).final_cpu_time = none ∨ s.cpu_bursts < (tick s).cpu_bursts) ∧
    ((tick s).wait_queue = [] → (tick s).final_io_time = none) ∧
    (tick s).wait_queue = (phaseE (beforeE s)).wait_queue ∧
    (tick s).high_queue = (phaseE (beforeE s)).high_queue ∧
    (tick s).med_queue = (phaseE (beforeE s)).med_queue ∧
    (tick s).low_queue = (phaseE (beforeE s)).low_queue := by
  obtain ⟨_, b2, b3⟩ := beforeE_book s
  obtain ⟨d1, d2, _, d4⟩ := phaseE_book (beforeE s)
  obtain ⟨f1, f2, f3, f4, f5, f6, f7, _, _⟩ := checkDone_book (phaseE (beforeE s))
  have f0 : tick s = checkDone (phaseE (beforeE s)) := rfl
  rw [f0, f1, f2, f3, f4, f5, f6, f7, d1, d2]
  exact ⟨b2, b3, d4, rfl, rfl, rfl, rfl⟩

/-! ## C25: the pass that ends the run does not write `final_io_time` -/

/-- C25: for every state, when the three ready queues and the wait queue are
empty at the end of a pass, Phase E of that pass has left `final_io_time`
unassigned (the branch that assigns it keeps the front process in the wait
queue), `final_cpu_time` is assigned in the pass only if the count of completed
cpu bursts went up in it, the loop ends, and the sum that line 316 adds to the
run time has no defined value. -/
theorem C25_terminating_tick_never_assigns_io_term (s : Sim)
    (hend : (tick s).high_queue = [] ∧ (tick s).med_queue = [] ∧
      (tick s).low_queue = [] ∧ (tick s).wait_queue = []) :
    (∀ (x : Sim) (p b d : Int), (ioOverflow x p b d).final_io_time = some b ∧
      (ioOverflow x p b d).wait_queue = x.wait_queue) ∧
    (phaseE (beforeE s)).final_io_time = none ∧
    (tick s).final_io_time = none ∧
    ((tick s).final_cpu_time = none ∨ s.cpu_bursts < (tick s).cpu_bursts) ∧
    (tick s).run = false ∧
    (tick s).sim_simruntime = none := by
  obtain ⟨_, b2, b3, b4, b5, b6, b7⟩ := tick_book s
  obtain ⟨h1, h2, h3, h4⟩ := hend
  rw [b4] at h4
  rw [b5] at h1
  rw [b6] at h2
  rw [b7] at h3
  have hio := (phaseE_book (beforeE s)).2.2.2 h4
  have f0 : tick s = checkDone (phaseE (beforeE s)) := rfl
  refine ⟨fun x p b d => ⟨rfl, rfl⟩, hio, ?_, b2, ?_, ?_⟩
  · rw [f0, (checkDone_book (phaseE (beforeE s))).2.2.1]; exact hio
  · rw [f0]
    generalize phaseE (beforeE s) = e at h1 h2 h3 h4 hio
    unfold checkDone
    rw [if_pos ⟨h1, h2, h3, h4⟩]
  · rw [f0]
    generalize phaseE (beforeE s) = e at h1 h2 h3 h4 hio
    unfold checkDone
    rw [if_pos ⟨h1, h2, h3, h4⟩]
    simp only [hio]
    cases e.sim_simruntime <;> cases e.final_cpu_time <;> rfl

set_option maxRecDepth 100000 in
/-- Witness of C25: the only pass over the workload of one process with a cpu
burst of 1. -/
theorem C25_terminating_tick_never_assigns_io_term_witness :
    ((tick (initSim (loadC3 1))).wait_queue = [] ∧ (initSim (loadC3 1)).run = true) ∧
    (∀ (x : Sim) (p b d : Int), (ioOverflow x p b d).final_io_time = some b ∧
      (ioOverflow x p b d).wait_queue = x.wait_queue) ∧
    (phaseE (beforeE (initSim (loadC3 1)))).final_io_time = none ∧
    (tick (initSim (loadC3 1))).final_io_time = none ∧
    ((tick (initSim (loadC3 1))).final_cpu_time = none ∨
      (initSim (loadC3 1)).cpu_bursts < (tick (initSim (loadC3 1))).cpu_bursts) ∧
    (tick (initSim (loadC3 1))).run = false ∧
    (tick (initSim (loadC3 1))).sim_simruntime = none :=
  ⟨by decide, C25_terminating_tick_never_assigns_io_term (initSim (loadC3 1)) (by decide)⟩

/-! ## C24: state 2 and the wait queue -/

theorem getPCB_outside (pbs : List PCB) (pid : Int)
    (h : ¬ (PIDMIN ≤ pid ∧ pid < PIDMIN + pbs.length)) : getPCB pbs pid = PCB.blank := by
  unfold getPCB
  by_cases h1 : pid < PIDMIN
  · rw [if_pos h1]
  · rw [if_neg h1, List.getD_eq_getElem?_getD, List.getElem?_eq_none (by omega)]
    rfl

/-- In a state that satisfies the loop invariant and the relation between
place and state, the records in state 2 are those of the processes in the wait
queue. -/
theorem waiting_iff (n : Nat) (t : Sim) (hwf : WF n t) (hloc : Holds LocR n t) (pid : Int) :
    (getPCB t.proc_blocks pid).STATE = 2 ↔ pid ∈ t.wait_queue := by
  by_cases hv : ValidPid n pid
  · constructor
    · intro h2
      have h4 : (getPCB t.proc_blocks pid).STATE ≠ 4 := by rw [h2]; decide
      rcases occ_one_somewhere t pid (hwf.one pid hv) h4 with hq | hq | hq
      · rcases (hloc pid hv).1 hq with e | e <;> rw [e] at h2 <;> exact absurd h2 (by decide)
      · exact hq
      · have e := (hloc pid hv).2.1 hq
        rw [e] at h2
        exact absurd h2 (by decide)
    · intro hq
      exact ((hloc pid hv).2.2 hq).1
  · have hb : getPCB t.proc_blocks pid = PCB.blank := by
      apply getPCB_outside
      rw [hwf.lenP]
      exact hv
    constructor
    · intro h2
      rw [hb] at h2
      exact absurd h2 (by decide)
    · intro hq
      exact absurd (hwf.qv pid (Or.inr (Or.inr (Or.inr hq)))) hv

/-- C24: for a workload whose record `i` has pid `30 + i`, a priority in
1, 2, 3, a cpu burst and state 1, at every state that a pass of the loop goes
through (so at the start of every pass and at the start of every pass of the
loop of Phase E), a record is in state 2 exactly when its process id is in the
wait queue; this is still so after the head io burst of a process was rewritten
(the point where the overflow branch credits the wait time), and the credit
loop adds the burst, as an `int` sum, to the wait time of exactly the processes
in the wait queue: their new wait time is the old one plus the burst whenever
that sum is in the range of `int` (the wrapped sum otherwise), and the wait
time of every other process stays as it is. -/
theorem C24_waiting_state_iff_in_wait_queue (w : List PCB)
    (hpid : w.map PCB.PID = (List.range w.length).map (fun (i : Nat) => PIDMIN + (i : Int)))
    (hprio : ∀ p ∈ w, p.PRIORITY = 1 ∨ p.PRIORITY = 2 ∨ p.PRIORITY = 3)
    (hcpu : ∀ p ∈ w, p.CPU_TIME ≠ [])
    (hst : ∀ p ∈ w, p.STATE = 1)
    (k : Nat) :
    ∀ t ∈ tickTrace (tickN k (initSim w)), ∀ pid : Int,
      ((getPCB t.proc_blocks pid).STATE = 2 ↔ pid ∈ t.wait_queue) ∧
      (∀ (p x : Int),
        ((getPCB (t.upd p (fun r => { r with IO_TIME := r.IO_TIME.set 0 x })).proc_blocks
          pid).STATE = 2 ↔ pid ∈ t.wait_queue)) ∧
      (∀ b : Int,
        (getPCB (creditWait t b).proc_blocks pid).WAIT
          = (if pid ∈ t.wait_queue then int32 ((getPCB t.proc_blocks pid).WAIT + b)
              else (getPCB t.proc_blocks pid).WAIT) ∧
        (InInt ((getPCB t.proc_blocks pid).WAIT + b) →
          (getPCB (creditWait t b).proc_blocks pid).WAIT
            = (getPCB t.proc_blocks pid).WAIT + (if pid ∈ t.wait_queue then b else 0))) := by
  have h0 := WF_init w (pid_of_map w hpid) hprio hcpu hst
  have hk := WF_tickN w.length k (initSim w) h0
  have hl := keeps_tickN w.length _ (locR_closed w.length) k (initSim w) h0 (locR_init w hst)
  intro t ht pid
  obtain ⟨hwf, hloc⟩ := trace_tick w.length _ (locR_closed w.length) _ hk hl t ht
  have hiff := waiting_iff w.length t hwf hloc pid
  refine ⟨hiff, ?_, ?_⟩
  · intro p x
    have e : (getPCB (t.upd p (fun r => { r with IO_TIME := r.IO_TIME.set 0 x })).proc_blocks
        pid).STATE = (getPCB t.proc_blocks pid).STATE := by
      simp [Sim.upd, STATE_updPCB]
    rw [e]
    exact hiff
  · intro b
    have hc : (getPCB (creditWait t b).proc_blocks pid).WAIT
        = (if pid ∈ t.wait_queue then int32 ((getPCB t.proc_blocks pid).WAIT + b)
            else (getPCB t.proc_blocks pid).WAIT) := by
      rw [wait_creditWait]
      by_cases hq : pid ∈ t.wait_queue
      · rw [if_pos hq, if_pos (hiff.2 hq)]
      · rw [if_neg hq, if_neg (fun h => hq (hiff.1 h))]
    refine ⟨hc, fun hr => ?_⟩
    rw [hc]
    by_cases hq : pid ∈ t.wait_queue
    · rw [if_pos hq, if_pos hq, int32_of_range _ hr]
    · rw [if_neg hq, if_neg hq]; omega

set_option maxRecDepth 1000000 in
/-- Witness of C24: `mixedLoad`, the states of the third pass, in which
fifteen processes enter the wait queue in Phase B and five leave it in Phase E. -/
theorem C24_waiting_state_iff_in_wait_queue_witness :
    ((tickN 2 (initSim mixedLoad)).wait_queue = [] ∧
     (beforeE (tickN 2 (initSim mixedLoad))).wait_queue
       = [30, 31, 32, 33, 34, 35, 36, 37, 40, 41, 38, 39, 43, 45, 42] ∧
     (tick (tickN 2 (initSim mixedLoad))).wait_queue
       = [35, 36, 37, 40, 41, 38, 39, 43, 45, 42]) ∧
    ∀ t ∈ tickTrace (tickN 2 (initSim mixedLoad)), ∀ pid : Int,
      ((getPCB t.proc_blocks pid).STATE = 2 ↔ pid ∈ t.wait_queue) ∧
      (∀ (p x : Int),
        ((getPCB (t.upd p (fun r => { r with IO_TIME := r.IO_TIME.set 0 x })).proc_blocks
          pid).STATE = 2 ↔ pid ∈ t.wait_queue)) ∧
      (∀ b : Int,
        (getPCB (creditWait t b).proc_blocks pid).WAIT
          = (if pid ∈ t.wait_queue then int32 ((getPCB t.proc_blocks pid).WAIT + b)
              else (getPCB t.proc_blocks pid).WAIT) ∧
        (InInt ((getPCB t.proc_blocks pid).WAIT + b) →
          (getPCB (creditWait t b).proc_blocks pid).WAIT
            = (getPCB t.proc_blocks pid).WAIT + (if pid ∈ t.wait_queue then b else 0))) :=
  ⟨by decide,
    C24_waiting_state_iff_in_wait_queue mixedLoad (by decide) (by decide) (by decide)
      (by decide) 2⟩

/-! ## Phase D: which queue the free cores go to -/

theorem takeMed_high_queue (i : Nat) (s : Sim) : (takeMed i s).high_queue = s.high_queue := by
  cases hq : s.med_queue with
  | nil => rw [takeMed_nil i s hq]
  | cons p q => exact (takeMed_cons i s p q hq).1

theorem takeLow_high_queue (i : Nat) (s : Sim) : (takeLow i s).high_queue = s.high_queue := by
  cases hq : s.low_queue with
  | nil => rw [takeLow_nil i s hq]
  | cons p q => exact (takeLow_cons i s p q hq).1

theorem takeLow_med_queue (i : Nat) (s : Sim) : (takeLow i s).med_queue = s.med_queue := by
  cases hq : s.low_queue with
  | nil => rw [takeLow_nil i s hq]
  | cons p q => exact (takeLow_cons i s p q hq).2.1

theorem fold_takeHigh_queue : ∀ (k a : Nat) (s : Sim),
    ((List.range' a k).foldl (fun t i => takeHigh i t) s).high_queue
      = s.high_queue.drop k := by
  intro k
  induction k with
  | zero => intro a s; simp
  | succ k ih =>
    intro a s
    rw [List.range'_succ, List.foldl_cons, ih]
    cases hq : s.high_queue with
    | nil => rw [takeHigh_nil a s hq, hq]; simp
    | cons p q => rw [(takeHigh_cons a s p q hq).1]; simp

theorem fold_takeMed_queue : ∀ (k a : Nat) (s : Sim),
    ((List.range' a k).foldl (fun t i => takeMed i t) s).med_queue
      = s.med_queue.drop k := by
  intro k
  induction k with
  | zero => intro a s; simp
  | succ k ih =>
    intro a s
    rw [List.range'_succ, List.foldl_cons, ih]
    cases hq : s.med_queue with
    | nil => rw [takeMed_nil a s hq, hq]; simp
    | cons p q => rw [(takeMed_cons a s p q hq).2.1]; simp

theorem fold_takeLow_queue : ∀ (k a : Nat) (s : Sim),
    ((List.range' a k).foldl (fun t i => takeLow i t) s).low_queue
      = s.low_queue.drop k := by
  intro k
  induction k with
  | zero => intro a s; simp
  | succ k ih =>
    intro a s
    rw [List.range'_succ, List.foldl_cons, ih]
    cases hq : s.low_queue with
    | nil => rw [takeLow_nil a s hq, hq]; simp
    | cons p q => rw [(takeLow_cons a s p q hq).2.2.1]; simp

/-- The ready queues after the three reserved loops. -/
theorem reservedFill_queues (s : Sim) :
    (reservedFill s).high_queue = s.high_queue.drop HIGHRES ∧
    (reservedFill s).med_queue = s.med_queue.drop MEDRES ∧
    (reservedFill s).low_queue = s.low_queue.drop LOWRES := by
  unfold reservedFill
  refine ⟨?_, ?_, ?_⟩
  · rw [fold_keeps Sim.high_queue takeLow takeLow_high_queue,
      fold_keeps Sim.high_queue takeMed takeMed_high_queue, fold_takeHigh_queue]
  · rw [fold_keeps Sim.med_queue takeLow takeLow_med_queue, fold_takeMed_queue,
      fold_keeps Sim.med_queue takeHigh takeHigh_med_queue]
  · rw [fold_takeLow_queue, fold_keeps Sim.low_queue takeMed takeMed_low_queue,
      fold_keeps Sim.low_queue takeHigh takeHigh_low_queue]
    rfl

/-- One pass of the loop over all cores takes from the medium queue only when
the high queue is empty and from the low queue only when both are: while the
high queue is not empty the other two are `M` and `L`, and while the medium
queue is not empty the low queue is `L`. -/
theorem spillStep_tiers (M L : List Int) (i : Nat) (t : Sim)
    (h : (t.high_queue ≠ [] → t.med_queue = M ∧ t.low_queue = L) ∧
      (t.med_queue ≠ [] → t.low_queue = L)) :
    ((spillStep i t).high_queue ≠ [] →
      (spillStep i t).med_queue = M ∧ (spillStep i t).low_queue = L) ∧
    ((spillStep i t).med_queue ≠ [] → (spillStep i t).low_queue = L) := by
  unfold spillStep
  split_ifs with h0 h1 h2 h3
  · rw [takeHigh_med_queue, takeHigh_low_queue]
    exact ⟨fun _ => h.1 h1, fun _ => (h.1 h1).2⟩
  · rw [takeMed_high_queue, takeMed_low_queue]
    have e : t.high_queue = [] := by simpa using h1
    exact ⟨fun x => absurd e x, fun _ => h.2 h2⟩
  · rw [takeLow_high_queue, takeLow_med_queue]
    have e1 : t.high_queue = [] := by simpa using h1
    have e2 : t.med_queue = [] := by simpa using h2
    exact ⟨fun x => absurd e1 x, fun x => absurd e2 x⟩
  · exact h
  · exact h

theorem phaseD_tiers (s : Sim) :
    ((phaseD s).high_queue ≠ [] →
      (phaseD s).med_queue = s.med_queue.drop MEDRES ∧
      (phaseD s).low_queue = s.low_queue.drop LOWRES) ∧
    ((phaseD s).med_queue ≠ [] → (phaseD s).low_queue = s.low_queue.drop LOWRES) := by
  obtain ⟨_, r2, r3⟩ := reservedFill_queues s
  have hfold : ∀ (is : List Nat) (t : Sim),
      ((t.high_queue ≠ [] → t.med_queue = s.med_queue.drop MEDRES ∧
          t.low_queue = s.low_queue.drop LOWRES) ∧
        (t.med_queue ≠ [] → t.low_queue = s.low_queue.drop LOWRES)) →
      (((is.foldl (fun t i => spillStep i t) t).high_queue ≠ [] →
          (is.foldl (fun t i => spillStep i t) t).med_queue = s.med_queue.drop MEDRES ∧
          (is.foldl (fun t i => spillStep i t) t).low_queue = s.low_queue.drop LOWRES) ∧
        ((is.foldl (fun t i => spillStep i t) t).med_queue ≠ [] →
          (is.foldl (fun t i => spillStep i t) t).low_queue = s.low_queue.drop LOWRES)) := by
    intro is
    induction is with
    | nil => intro t h; exact h
    | cons i is ih =>
      intro t h
      rw [List.foldl_cons]
      exact ih _ (spillStep_tiers _ _ i t h)
  exact hfold (List.range CORECOUNT) (reservedFill s) ⟨fun _ => ⟨r2, r3⟩, fun _ => r3⟩

theorem drop_eq_drop (l : List Int) (a b : Nat) (h : l.drop b = l.drop a) (hb : b ≤ l.length) :
    b = min l.length a := by
  have := congrArg List.length h
  simp only [List.length_drop] at this
  omega

theorem countP_mem_disjoint (A B : List Int) (h : ∀ x ∈ A, x ∉ B) :
    A.countP (fun c => decide (c ∈ B)) = 0 := by
  rw [List.countP_eq_zero]
  intro x hx
  simpa using h x hx

theorem countP_mem_take (A : List Int) (k : Nat) :
    (A.take k).countP (fun c => decide (c ∈ A)) = (A.take k).length := by
  rw [List.countP_eq_length]
  intro x hx
  simpa using List.mem_of_mem_take hx

/-- The number of cores that hold a process of the list `B`, when the
processes on the cores are those of three lists of which `B` contains the
middle one and no member of the two others. -/
theorem countP_cores_mem (cs A1 A2 A3 B : List Int)
    (hperm : List.Perm (cs.filter (fun c => decide (c > 0))) (A1 ++ A2 ++ A3))
    (hpos : ∀ x ∈ B, x > 0)
    (h1 : A1.countP (fun c => decide (c ∈ B)) = 0)
    (h2 : A2.countP (fun c => decide (c ∈ B)) = A2.length)
    (h3 : A3.countP (fun c => decide (c ∈ B)) = 0) :
    cs.countP (fun c => decide (c ∈ B)) = A2.length := by
  have e : cs.countP (fun c => decide (c ∈ B))
      = (cs.filter (fun c => decide (c > 0))).countP (fun c => decide (c ∈ B)) := by
    rw [List.countP_filter]
    apply List.countP_congr
    intro x _
    by_cases hx : x ∈ B
    · simp [hx, hpos x hx]
    · simp [hx]
  rw [e, hperm.countP_eq, List.countP_append, List.countP_append, h1, h2, h3]
  omega

/-! ## C21: the free cores go to the high queue first -/

/-- C21: from a state with all sixteen cores free and process ids in the ready
queues, Phase D pops `kh`, `km` and `kl` processes from the high, medium and low
queue and the processes on the cores are these (when no id is queued twice, `km`
cores hold a process of the medium queue and `kl` cores one of the low queue).
If the high queue is not empty afterwards, then `km` is the smaller of 5 and the
length of the medium queue and `kl` the smaller of 3 and the length of the low
queue: the medium and the low queue got their reserved cores only.  If the
medium queue is not empty afterwards, `kl` is the smaller of 3 and the length
of the low queue. -/
theorem C21_spillover_respects_tier_priority (s : Sim)
    (hc : s.cores = List.replicate CORECOUNT (-1))
    (hv : ∀ p ∈ s.high_queue ++ s.med_queue ++ s.low_queue, PIDMIN ≤ p) :
    ∃ kh km kl : Nat,
      (phaseD s).high_queue = s.high_queue.drop kh ∧
      (phaseD s).med_queue = s.med_queue.drop km ∧
      (phaseD s).low_queue = s.low_queue.drop kl ∧
      List.Perm ((phaseD s).cores.filter (fun c => decide (c > 0)))
        (s.high_queue.take kh ++ s.med_queue.take km ++ s.low_queue.take kl) ∧
      ((s.high_queue ++ s.med_queue ++ s.low_queue).Nodup →
        (phaseD s).cores.countP (fun c => decide (c ∈ s.med_queue)) = km ∧
        (phaseD s).cores.countP (fun c => decide (c ∈ s.low_queue)) = kl) ∧
      ((phaseD s).high_queue ≠ [] →
        km = min s.med_queue.length MEDRES ∧ kl = min s.low_queue.length LOWRES) ∧
      ((phaseD s).med_queue ≠ [] → kl = min s.low_queue.length LOWRES) := by
  obtain ⟨kh, km, kl, h1, h2, h3, h4, h5, h6, hperm, _, _, _⟩ := phaseD_summary s hc hv
  obtain ⟨t1, t2⟩ := phaseD_tiers s
  have hposall : ∀ x ∈ s.high_queue ++ s.med_queue ++ s.low_queue, x > 0 := by
    intro x hx
    have := hv x hx
    unfold PIDMIN at this
    omega
  refine ⟨kh, km, kl, h4, h5, h6, hperm, ?_, ?_, ?_⟩
  · intro hnd
    rw [List.nodup_append] at hnd
    obtain ⟨hnd1, _, hd2⟩ := hnd
    rw [List.nodup_append] at hnd1
    obtain ⟨_, _, hd1⟩ := hnd1
    constructor
    · have := countP_cores_mem (phaseD s).cores (s.high_queue.take kh) (s.med_queue.take km)
        (s.low_queue.take kl) s.med_queue hperm
        (fun x hx => hposall x (by simp [hx]))
        (countP_mem_disjoint _ _ (fun x hx => hd1 (List.mem_of_mem_take hx)))
        (countP_mem_take _ _)
        (countP_mem_disjoint _ _ (fun x hx hm =>
          hd2 (List.mem_append_right _ hm) (List.mem_of_mem_take hx)))
      rw [this, List.length_take]
      omega
    · have hperm2 : List.Perm ((phaseD s).cores.filter (fun c => decide (c > 0)))
          ((s.high_queue.take kh ++ s.med_queue.take km) ++ s.low_queue.take kl ++ []) := by
        rw [List.append_nil]; exact hperm
      have := countP_cores_mem (phaseD s).cores (s.high_queue.take kh ++ s.med_queue.take km)
        (s.low_queue.take kl) [] s.low_queue hperm2
        (fun x hx => hposall x (by simp [hx]))
        (countP_mem_disjoint _ _ (fun x hx hl => by
          rcases List.mem_append.1 hx with hx | hx
          · exact hd2 (List.mem_append_left _ (List.mem_of_mem_take hx)) hl
          · exact hd2 (List.mem_append_right _ (List.mem_of_mem_take hx)) hl))
        (countP_mem_take _ _)
        (by simp)
      rw [this, List.length_take]
      omega
  · intro hne
    obtain ⟨a, b⟩ := t1 hne
    rw [h5] at a
    rw [h6] at b
    exact ⟨by rw [drop_eq_drop _ _ _ a h2], by rw [drop_eq_drop _ _ _ b h3]⟩
  · intro hne
    have b := t2 hne
    rw [h6] at b
    rw [drop_eq_drop _ _ _ b h3]

set_option maxRecDepth 1000000 in
/-- Witness of C21: on `stateC21` (queues of 20, 2 and 1 processes) Phase D
leaves seven processes in the high queue; the two medium and the one low
process are on cores 8, 9 and 13, and the five other free cores went to the
high queue. -/
theorem C21_spillover_respects_tier_priority_witness :
    ((phaseD stateC21).high_queue = [43, 44, 45, 46, 47, 48, 49] ∧
     (phaseD stateC21).cores
       = [30, 31, 32, 33, 34, 35, 36, 37, 50, 51, 38, 39, 40, 52, 41, 42] ∧
     stateC21.med_queue = [50, 51] ∧ stateC21.low_queue = [52]) ∧
    ∃ kh km kl : Nat,
      (phaseD stateC21).high_queue = stateC21.high_queue.drop kh ∧
      (phaseD stateC21).med_queue = stateC21.med_queue.drop km ∧
      (phaseD stateC21).low_queue = stateC21.low_queue.drop kl ∧
      List.Perm ((phaseD stateC21).cores.filter (fun c => decide (c > 0)))
        (stateC21.high_queue.take kh ++ stateC21.med_queue.take km
          ++ stateC21.low_queue.take kl) ∧
      ((stateC21.high_queue ++ stateC21.med_queue ++ stateC21.low_queue).Nodup →
        (phaseD stateC21).cores.countP (fun c => decide (c ∈ stateC21.med_queue)) = km ∧
        (phaseD stateC21).cores.countP (fun c => decide (c ∈ stateC21.low_queue)) = kl) ∧
      ((phaseD stateC21).high_queue ≠ [] →
        km = min stateC21.med_queue.length MEDRES ∧
        kl = min stateC21.low_queue.length LOWRES) ∧
      ((phaseD stateC21).med_queue ≠ [] → kl = min stateC21.low_queue.length LOWRES) :=
  ⟨by decide, C21_spillover_respects_tier_priority stateC21 (by decide) (by decide)⟩

/-! ## Phase B in closed form -/

theorem preemptBurst_queues (s : Sim) (c b : Int) (tl : List Int) :
    (preemptBurst s c b tl).high_queue
      = s.high_queue ++ (if (getPCB s.proc_blocks c).PRIORITY = 1 then [c] else []) ∧
    (preemptBurst s c b tl).med_queue
      = s.med_queue ++ (if (getPCB s.proc_blocks c).PRIORITY = 2 then [c] else []) ∧
    (preemptBurst s c b tl).low_queue
      = s.low_queue ++ (if (getPCB s.proc_blocks c).PRIORITY = 3 then [c] else []) ∧
    (preemptBurst s c b tl).wait_queue = s.wait_queue ∧
    (preemptBurst s c b tl).proc_blocks
      = updPCB s.proc_blocks c (fun p => { p with CPU_TIME := (b - RRTIME) :: tl }) := by
  have e : (getPCB (updPCB s.proc_blocks c
      (fun p => { p with CPU_TIME := (b - RRTIME) :: tl })) c).PRIORITY
      = (getPCB s.proc_blocks c).PRIORITY := by simp [PRIORITY_updPCB]
  unfold preemptBurst
  simp only [Sim.upd, e]
  by_cases h1 : (getPCB s.proc_blocks c).PRIORITY = 1
  · simp [h1]
  · by_cases h2 : (getPCB s.proc_blocks c).PRIORITY = 2
    · simp [h2]
    · by_cases h3 : (getPCB s.proc_blocks c).PRIORITY = 3
      · simp [h3]
      · simp [h1, h2, h3]

theorem completeBurst_record (s : Sim) (c b : Int) (tl : List Int)
    (h1 : PIDMIN ≤ c) (h2 : c < PIDMIN + s.proc_blocks.length) :
    getPCB (completeBurst s c b tl).proc_blocks c
      = { getPCB s.proc_blocks c with
          TURNAROUND := (getPCB s.proc_blocks c).TURNAROUND + b,
          STATE := (if (getPCB s.proc_blocks c).IO_TIME = [] then 4 else 2),
          CPU_TIME := tl } := by
  by_cases hio : (getPCB s.proc_blocks c).IO_TIME = []
  · rw [completeBurst_done s c b tl hio]
    simp [getPCB_updPCB_eq, length_updPCB, h1, h2, hio]
  · rw [completeBurst_wait s c b tl hio]
    simp [getPCB_updPCB_eq, length_updPCB, h1, h2, hio]

/-- One pass of the loop over the cores, by what the core holds. -/
theorem coreStep_closed (n : Nat) (s : Sim) (hwf : WF n s) (i : Nat) (hi : i < CORECOUNT)
    (idle : Bool) (s1 : Sim) (idle1 : Bool) (h : coreStep i s idle = some (s1, idle1))
    (c : Int) (hc : s.cores.getD i (-1) = c) :
    s1.high_queue = s.high_queue ++ [c].filter (preempted s 1) ∧
    s1.med_queue = s.med_queue ++ [c].filter (preempted s 2) ∧
    s1.low_queue = s.low_queue ++ [c].filter (preempted s 3) ∧
    s1.wait_queue = s.wait_queue ++ [c].filter (toWait s) ∧
    s1.cpu_bursts = s.cpu_bursts + ([c].countP (completed s) : Nat) ∧
    (∀ (b : Int) (tl : List Int), c > 0 → (getPCB s.proc_blocks c).CPU_TIME = b :: tl →
      ¬ b - RRTIME ≤ 0 →
      getPCB s1.proc_blocks c
        = { getPCB s.proc_blocks c with CPU_TIME := (b - RRTIME) :: tl }) ∧
    (∀ (b : Int) (tl : List Int), c > 0 → (getPCB s.proc_blocks c).CPU_TIME = b :: tl →
      b - RRTIME ≤ 0 →
      getPCB s1.proc_blocks c
        = { getPCB s.proc_blocks c with
            TURNAROUND := (getPCB s.proc_blocks c).TURNAROUND + b,
            STATE := (if (getPCB s.proc_blocks c).IO_TIME = [] then 4 else 2),
            CPU_TIME := tl }) := by
  have hlt : i < s.cores.length := by rw [hwf.lenC]; exact hi
  have hci : s.cores[i]? = some c := by
    rw [← hc, List.getD_eq_getElem?_getD, List.getElem?_eq_getElem hlt]; rfl
  unfold coreStep at h
  rw [hc] at h
  by_cases hpos : c > 0
  · have hv : ValidPid n c := by
      rcases hwf.cv c (mem_of_getElem? _ _ _ hci) with e | e
      · omega
      · exact e
    have hc1 : PIDMIN ≤ c := hv.1
    have hc2 : c < PIDMIN + s.proc_blocks.length := by rw [hwf.lenP]; exact hv.2
    simp only [hpos, if_true] at h
    cases hct : (getPCB s.proc_blocks c).CPU_TIME with
    | nil => rw [hct] at h; exact Option.noConfusion h
    | cons b tl =>
      rw [hct] at h
      simp only [Option.some.injEq, Prod.mk.injEq] at h
      obtain ⟨h1, _⟩ := h
      subst h1
      by_cases hb : b - RRTIME ≤ 0
      · simp only [hb, if_true]
        obtain ⟨q1, q2, q3, q4⟩ := completeBurst_queues s c b tl
        obtain ⟨k1, _, _⟩ := completeBurst_book s c b tl
        refine ⟨?_, ?_, ?_, ?_, ?_, ?_, ?_⟩
        · rw [q1]; simp [preempted, hct, hb]
        · rw [q2]; simp [preempted, hct, hb]
        · rw [q3]; simp [preempted, hct, hb]
        · rw [q4]
          by_cases hio : (getPCB s.proc_blocks c).IO_TIME = []
          · simp [toWait, completed, hct, hb, hio]
          · simp [toWait, completed, hct, hb, hio, hpos]
        · rw [k1]; simp [completed, hct, hb, hpos]
        · intro b1 tl1 _ e hb1
          injection e with e1 e2
          subst e1
          exact absurd hb hb1
        · intro b1 tl1 _ e _
          injection e with e1 e2
          subst e1 e2
          exact completeBurst_record s c b tl hc1 hc2
      · simp only [hb, if_false]
        obtain ⟨q1, q2, q3, q4, q5⟩ := preemptBurst_queues s c b tl
        obtain ⟨k1, _, _, _⟩ := preemptBurst_book s c b tl
        refine ⟨?_, ?_, ?_, ?_, ?_, ?_, ?_⟩
        · rw [q1]
          by_cases hp : (getPCB s.proc_blocks c).PRIORITY = 1
          · simp [preempted, hct, hb, hp, hpos]
          · simp [preempted, hct, hb, hp]
        · rw [q2]
          by_cases hp : (getPCB s.proc_blocks c).PRIORITY = 2
          · simp [preempted, hct, hb, hp, hpos]
          · simp [preempted, hct, hb, hp]
        · rw [q3]
          by_cases hp : (getPCB s.proc_blocks c).PRIORITY = 3
          · simp [preempted, hct, hb, hp, hpos]
          · simp [preempted, hct, hb, hp]
        · rw [q4]; simp [toWait, completed, hct, hb]
        · rw [k1]; simp [completed, hct, hb]
        · intro b1 tl1 _ e _
          injection e with e1 e2
          subst e1 e2
          show getPCB (preemptBurst s c b tl).proc_blocks c = _
          rw [q5, getPCB_updPCB_eq _ _ _ hc1 hc2]
        · intro b1 tl1 _ e hb1
          injection e with e1 e2
          subst e1
          exact absurd hb1 hb
  · simp only [hpos, if_false, Option.some.injEq, Prod.mk.injEq] at h
    obtain ⟨h1, _⟩ := h
    subst h1
    refine ⟨?_, ?_, ?_, ?_, ?_, fun _ _ x => absurd x hpos, fun _ _ x => absurd x hpos⟩
    · cases idle <;> simp [preempted, hpos]
    · cases idle <;> simp [preempted, hpos]
    · cases idle <;> simp [preempted, hpos]
    · cases idle <;> simp [toWait, completed, hpos]
    · cases idle <;> simp [completed, hpos]

/-- A process is on one core only. -/
theorem core_unique (n : Nat) (s : Sim) (hwf : WF n s) (i j : Nat) (c : Int)
    (hi : i < CORECOUNT) (hj : j < CORECOUNT) (hij : i ≠ j)
    (h1 : s.cores.getD i (-1) = c) (h2 : s.cores.getD j (-1) = c) (hpos : c > 0) : False := by
  have hil : i < s.cores.length := by rw [hwf.lenC]; exact hi
  have hjl : j < s.cores.length := by rw [hwf.lenC]; exact hj
  have e1 : s.cores[i]? = some c := by
    rw [← h1, List.getD_eq_getElem?_getD, List.getElem?_eq_getElem hil]; rfl
  have e2 : s.cores[j]? = some c := by
    rw [← h2, List.getD_eq_getElem?_getD, List.getElem?_eq_getElem hjl]; rfl
  have hv : ValidPid n c := by
    rcases hwf.cv c (mem_of_getElem? _ _ _ e1) with e | e
    · omega
    · exact e
  have := two_slots_count s.cores i j c e1 e2 hij
  have := (WF_on_core n s hwf i c e1 hv).2.2.2.2.1
  omega

/-- The three tests of Phase B read the record of the process only, and only
for a process id that is positive. -/
theorem tests_congr (s s1 : Sim) (c : Int)
    (h : c > 0 → getPCB s1.proc_blocks c = getPCB s.proc_blocks c) :
    (∀ pr, preempted s1 pr c = preempted s pr c) ∧ completed s1 c = completed s c ∧
    toWait s1 c = toWait s c := by
  by_cases hpos : c > 0
  · have e := h hpos
    unfold toWait completed preempted
    rw [e]
    exact ⟨fun _ => rfl, rfl, rfl⟩
  · unfold toWait completed preempted
    simp [hpos]

theorem filter_cons_split (P : Int → Bool) (c : Int) (l : List Int) :
    (c :: l).filter P = [c].filter P ++ l.filter P := by
  rw [← List.filter_append]; rfl

theorem countP_cons_split (P : Int → Bool) (c : Int) (l : List Int) :
    (c :: l).countP P = [c].countP P + l.countP P := by
  rw [← List.countP_append]; rfl

/-- The loop over the cores in closed form, for the core indices `is` still to
visit: the processes whose burst is not over go to the back of the ready queue
of their priority in the order of the cores, those whose burst is over and who
have an io burst go to the wait queue, the count of completed bursts grows by
the number of bursts that are over, and the records change as in a single
pass. -/
theorem coreLoop_closed (n : Nat) : ∀ (is : List Nat) (s : Sim) (idle : Bool), WF n s →
    is.Nodup → (∀ i ∈ is, i < CORECOUNT) →
    (coreLoop is s idle).high_queue
      = s.high_queue ++ (is.map (fun i => s.cores.getD i (-1))).filter (preempted s 1) ∧
    (coreLoop is s idle).med_queue
      = s.med_queue ++ (is.map (fun i => s.cores.getD i (-1))).filter (preempted s 2) ∧
    (coreLoop is s idle).low_queue
      = s.low_queue ++ (is.map (fun i => s.cores.getD i (-1))).filter (preempted s 3) ∧
    (coreLoop is s idle).wait_queue
      = s.wait_queue ++ (is.map (fun i => s.cores.getD i (-1))).filter (toWait s) ∧
    (coreLoop is s idle).cpu_bursts
      = s.cpu_bursts + ((is.map (fun i => s.cores.getD i (-1))).countP (completed s) : Nat) ∧
    (∀ pid, pid ∉ is.map (fun i => s.cores.getD i (-1)) →
      getPCB (coreLoop is s idle).proc_blocks pid = getPCB s.proc_blocks pid) ∧
    (∀ c ∈ is.map (fun i => s.cores.getD i (-1)), ∀ (b : Int) (tl : List Int), c > 0 →
      (getPCB s.proc_blocks c).CPU_TIME = b :: tl → ¬ b - RRTIME ≤ 0 →
      getPCB (coreLoop is s idle).proc_blocks c
        = { getPCB s.proc_blocks c with CPU_TIME := (b - RRTIME) :: tl }) ∧
    (∀ c ∈ is.map (fun i => s.cores.getD i (-1)), ∀ (b : Int) (tl : List Int), c > 0 →
      (getPCB s.proc_blocks c).CPU_TIME = b :: tl → b - RRTIME ≤ 0 →
      getPCB (coreLoop is s idle).proc_blocks c
        = { getPCB s.proc_blocks c with
            TURNAROUND := (getPCB s.proc_blocks c).TURNAROUND + b,
            STATE := (if (getPCB s.proc_blocks c).IO_TIME = [] then 4 else 2),
            CPU_TIME := tl }) := by
  intro is
  induction is with
  | nil =>
    intro s idle _ _ _
    simp [coreLoop]
  | cons i is ih =>
    intro s idle hwf hnd hall
    rw [List.nodup_cons] at hnd
    have hi := hall i (List.mem_cons_self i is)
    obtain ⟨s1, idle1, e, hwf1, hcores⟩ := coreStep_WF n s idle hwf i hi
    obtain ⟨a1, a2, a3, a4, a5, a6, a7⟩ :=
      coreStep_closed n s hwf i hi idle s1 idle1 e (s.cores.getD i (-1)) rfl
    have hrec := coreStep_rec i s s1 idle idle1 e
    obtain ⟨r1, r2, r3, r4, r5, r6, r7, r8⟩ :=
      ih s1 idle1 hwf1 hnd.2 (fun j hj => hall j (List.mem_cons_of_mem i hj))
    have hmap : is.map (fun j => s1.cores.getD j (-1))
        = is.map (fun j => s.cores.getD j (-1)) := by
      apply List.map_congr_left
      intro j hj
      have hne : i ≠ j := fun e => hnd.1 (e ▸ hj)
      rw [hcores, getD_set_ne _ _ _ _ _ hne]
    rw [hmap] at r1 r2 r3 r4 r5 r6 r7 r8
    generalize hcdef : s.cores.getD i (-1) = c at a1 a2 a3 a4 a5 a6 a7 hrec
    generalize hcs : is.map (fun j => s.cores.getD j (-1)) = cs at r1 r2 r3 r4 r5 r6 r7 r8
    have huniq : c > 0 → c ∉ cs := by
      intro hpos hm
      rw [← hcs] at hm
      obtain ⟨j, hj, ej⟩ := List.mem_map.1 hm
      exact core_unique n s hwf i j c hi (hall j (List.mem_cons_of_mem i hj))
        (fun e => hnd.1 (e ▸ hj)) hcdef ej hpos
    have hsame : ∀ c1 ∈ cs, c1 > 0 → getPCB s1.proc_blocks c1 = getPCB s.proc_blocks c1 := by
      intro c1 hc1 hpos
      apply hrec
      intro e2
      exact huniq (e2 ▸ hpos) (e2 ▸ hc1)
    have hP : ∀ (pr : Int), cs.filter (preempted s1 pr) = cs.filter (preempted s pr) :=
      fun pr => List.filter_congr (fun c1 hc1 => (tests_congr s s1 c1 (hsame c1 hc1)).1 pr)
    have hW : cs.filter (toWait s1) = cs.filter (toWait s) :=
      List.filter_congr (fun c1 hc1 => (tests_congr s s1 c1 (hsame c1 hc1)).2.2)
    have hC : cs.countP (completed s1) = cs.countP (completed s) :=
      List.countP_congr (fun c1 hc1 => by rw [(tests_congr s s1 c1 (hsame c1 hc1)).2.1])
    simp only [coreLoop, e, List.map_cons, hcdef, hcs]
    refine ⟨?_, ?_, ?_, ?_, ?_, ?_, ?_, ?_⟩
    · rw [r1, a1, hP, filter_cons_split _ c cs, List.append_assoc]
    · rw [r2, a2, hP, filter_cons_split _ c cs, List.append_assoc]
    · rw [r3, a3, hP, filter_cons_split _ c cs, List.append_assoc]
    · rw [r4, a4, hW, filter_cons_split _ c cs, List.append_assoc]
    · rw [r5, a5, hC, countP_cons_split _ c cs]
      push_cast
      ring
    · intro pid hp
      simp only [List.mem_cons, not_or] at hp
      rw [r6 pid hp.2, hrec pid hp.1]
    · intro c1 hc1 b tl hpos hcpu hb
      by_cases e1 : c1 = c
      · subst e1
        rw [r6 c1 (huniq hpos)]
        exact a6 b tl hpos hcpu hb
      · have hc2 : c1 ∈ cs := by
          rcases List.mem_cons.1 hc1 with h | h
          · exact absurd h e1
          · exact h
        have e2 := hrec c1 e1
        have := r7 c1 hc2 b tl hpos (by rw [e2]; exact hcpu) hb
        rw [this, e2]
    · intro c1 hc1 b tl hpos hcpu hb
      by_cases e1 : c1 = c
      · subst e1
        rw [r6 c1 (huniq hpos)]
        exact a7 b tl hpos hcpu hb
      · have hc2 : c1 ∈ cs := by
          rcases List.mem_cons.1 hc1 with h | h
          · exact absurd h e1
          · exact h
        have e2 := hrec c1 e1
        have := r8 c1 hc2 b tl hpos (by rw [e2]; exact hcpu) hb
        rw [this, e2]

theorem map_range_getD (l : List Int) (d : Int) :
    (List.range l.length).map (fun i => l.getD i d) = l := by
  apply List.ext_getElem
  · simp
  · intro i h1 h2
    simp at h1
    simp [List.getD_eq_getElem?_getD, List.getElem?_eq_getElem h1]

/-- Phase B in closed form, from a state that satisfies the loop invariant. -/
theorem phaseB_closed (n : Nat) (s : Sim) (hwf : WF n s) :
    (phaseB s).high_queue = s.high_queue ++ s.cores.filter (preempted s 1) ∧
    (phaseB s).med_queue = s.med_queue ++ s.cores.filter (preempted s 2) ∧
    (phaseB s).low_queue = s.low_queue ++ s.cores.filter (preempted s 3) ∧
    (phaseB s).wait_queue = s.wait_queue ++ s.cores.filter (toWait s) ∧
    (phaseB s).cpu_bursts = s.cpu_bursts + (s.cores.countP (completed s) : Nat) ∧
    (∀ pid, pid ∉ s.cores → getPCB (phaseB s).proc_blocks pid = getPCB s.proc_blocks pid) ∧
    (∀ c ∈ s.cores, ∀ (b : Int) (tl : List Int), c > 0 →
      (getPCB s.proc_blocks c).CPU_TIME = b :: tl → ¬ b - RRTIME ≤ 0 →
      getPCB (phaseB s).proc_blocks c
        = { getPCB s.proc_blocks c with CPU_TIME := (b - RRTIME) :: tl }) ∧
    (∀ c ∈ s.cores, ∀ (b : Int) (tl : List Int), c > 0 →
      (getPCB s.proc_blocks c).CPU_TIME = b :: tl → b - RRTIME ≤ 0 →
      getPCB (phaseB s).proc_blocks c
        = { getPCB s.proc_blocks c with
            TURNAROUND := (getPCB s.proc_blocks c).TURNAROUND + b,
            STATE := (if (getPCB s.proc_blocks c).IO_TIME = [] then 4 else 2),
            CPU_TIME := tl }) := by
  have h := coreLoop_closed n (List.range CORECOUNT) s false hwf (List.nodup_range CORECOUNT)
    (fun i hi => List.mem_range.1 hi)
  have e : (List.range CORECOUNT).map (fun i => s.cores.getD i (-1)) = s.cores := by
    rw [← hwf.lenC]; exact map_range_getD s.cores (-1)
  rw [e] at h
  exact h

theorem tests_fields (s s1 : Sim) (c : Int)
    (h1 : (getPCB s1.proc_blocks c).PRIORITY = (getPCB s.proc_blocks c).PRIORITY)
    (h2 : (getPCB s1.proc_blocks c).CPU_TIME = (getPCB s.proc_blocks c).CPU_TIME)
    (h3 : (getPCB s1.proc_blocks c).IO_TIME = (getPCB s.proc_blocks c).IO_TIME) :
    (∀ pr, preempted s1 pr c = preempted s pr c) ∧ completed s1 c = completed s c ∧
    toWait s1 c = toWait s c := by
  unfold toWait completed preempted
  rw [h1, h2, h3]
  exact ⟨fun _ => rfl, rfl, rfl⟩

theorem phaseA_fields (s : Sim) (c : Int) :
    (getPCB (phaseA s).proc_blocks c).PRIORITY = (getPCB s.proc_blocks c).PRIORITY ∧
    (getPCB (phaseA s).proc_blocks c).CPU_TIME = (getPCB s.proc_blocks c).CPU_TIME ∧
    (getPCB (phaseA s).proc_blocks c).IO_TIME = (getPCB s.proc_blocks c).IO_TIME ∧
    (getPCB (phaseA s).proc_blocks c).STATE = (getPCB s.proc_blocks c).STATE ∧
    (getPCB (phaseA s).proc_blocks c).WAIT = (getPCB s.proc_blocks c).WAIT ∧
    (getPCB (phaseA s).proc_blocks c).RESPONSE = (getPCB s.proc_blocks c).RESPONSE := by
  unfold phaseA
  refine ⟨?_, ?_, ?_, ?_, ?_, ?_⟩
  · exact proj_getPCB_map PCB.PRIORITY _ _ _ (by intro r; split <;> rfl)
  · exact proj_getPCB_map PCB.CPU_TIME _ _ _ (by intro r; split <;> rfl)
  · exact proj_getPCB_map PCB.IO_TIME _ _ _ (by intro r; split <;> rfl)
  · exact proj_getPCB_map PCB.STATE _ _ _ (by intro r; split <;> rfl)
  · exact proj_getPCB_map PCB.WAIT _ _ _ (by intro r; split <;> rfl)
  · exact proj_getPCB_map PCB.RESPONSE _ _ _ (by intro r; split <;> rfl)

/-- Phase A and Phase B of one pass in closed form: the queues, the count of
completed bursts and the cores after Phase B, in terms of the state at the
start of the pass. -/
theorem phaseAB_closed (n : Nat) (s : Sim) (hwf : WF n s) :
    (phaseB (phaseA s)).high_queue = s.high_queue ++ s.cores.filter (preempted s 1) ∧
    (phaseB (phaseA s)).med_queue = s.med_queue ++ s.cores.filter (preempted s 2) ∧
    (phaseB (phaseA s)).low_queue = s.low_queue ++ s.cores.filter (preempted s 3) ∧
    (phaseB (phaseA s)).wait_queue = s.wait_queue ++ s.cores.filter (toWait s) ∧
    (phaseB (phaseA s)).cpu_bursts = s.cpu_bursts + (s.cores.countP (completed s) : Nat) ∧
    (phaseB (phaseA s)).cores = List.replicate CORECOUNT (-1) := by
  have hA := WF_phaseA n s hwf
  obtain ⟨c1, c2, c3, c4, c5, _, _, _⟩ := phaseB_closed n (phaseA s) hA
  have hcores := (phaseB_WF n (phaseA s) hA).2
  have t := fun c => tests_fields s (phaseA s) c (phaseA_fields s c).1 (phaseA_fields s c).2.1
    (phaseA_fields s c).2.2.1
  have e0 : (phaseA s).cores = s.cores := rfl
  have e1 : (phaseA s).high_queue = s.high_queue := rfl
  have e2 : (phaseA s).med_queue = s.med_queue := rfl
  have e3 : (phaseA s).low_queue = s.low_queue := rfl
  have e4 : (phaseA s).wait_queue = s.wait_queue := rfl
  have e5 : (phaseA s).cpu_bursts = s.cpu_bursts := rfl
  rw [e0] at c1 c2 c3 c4 c5
  rw [e1] at c1
  rw [e2] at c2
  rw [e3] at c3
  rw [e4] at c4
  rw [e5] at c5
  rw [List.filter_congr (fun c _ => (t c).1 1)] at c1
  rw [List.filter_congr (fun c _ => (t c).1 2)] at c2
  rw [List.filter_congr (fun c _ => (t c).1 3)] at c3
  rw [List.filter_congr (fun c _ => (t c).2.2)] at c4
  rw [List.countP_congr (fun c _ => by rw [(t c).2.1])] at c5
  exact ⟨c1, c2, c3, c4, c5, hcores⟩

/-! ## C22: a burst that is not over -/

/-- C22: in a state that satisfies the loop invariant, let the process `p` be
on core `i` with head cpu burst `b` more than RRTIME.  After Phase A and Phase B
its cpu bursts are `b - RRTIME` followed by the other ones and its io bursts
are as before; each ready queue is its content at the start followed by the
processes of its priority whose burst is not over, in the order of the cores,
and `p` is one of those of its own priority, which is 1, 2 or 3; the count of
completed bursts has grown by the number of cores whose burst is over, and `p`
is not one of them; all cores are free. -/
theorem C22_preemption_step (n : Nat) (s : Sim) (hwf : WF n s) (i : Nat) (p b : Int)
    (tl : List Int) (hp : s.cores[i]? = some p) (hpos : p > 0)
    (hcpu : (getPCB s.proc_blocks p).CPU_TIME = b :: tl) (hb : b > RRTIME) :
    (getPCB (phaseB (phaseA s)).proc_blocks p).CPU_TIME = (b - RRTIME) :: tl ∧
    (getPCB (phaseB (phaseA s)).proc_blocks p).IO_TIME = (getPCB s.proc_blocks p).IO_TIME ∧
    (phaseB (phaseA s)).high_queue = s.high_queue ++ s.cores.filter (preempted s 1) ∧
    (phaseB (phaseA s)).med_queue = s.med_queue ++ s.cores.filter (preempted s 2) ∧
    (phaseB (phaseA s)).low_queue = s.low_queue ++ s.cores.filter (preempted s 3) ∧
    p ∈ s.cores.filter (preempted s (getPCB s.proc_blocks p).PRIORITY) ∧
    ((getPCB s.proc_blocks p).PRIORITY = 1 ∨ (getPCB s.proc_blocks p).PRIORITY = 2 ∨
      (getPCB s.proc_blocks p).PRIORITY = 3) ∧
    (phaseB (phaseA s)).cpu_bursts = s.cpu_bursts + (s.cores.countP (completed s) : Nat) ∧
    completed s p = false ∧
    (phaseB (phaseA s)).cores = List.replicate CORECOUNT (-1) := by
  obtain ⟨c1, c2, c3, _, c5, c6⟩ := phaseAB_closed n s hwf
  have hA := WF_phaseA n s hwf
  obtain ⟨_, _, _, _, _, _, r7, _⟩ := phaseB_closed n (phaseA s) hA
  obtain ⟨f1, f2, f3, _, _, _⟩ := phaseA_fields s p
  have hm : p ∈ s.cores := mem_of_getElem? _ _ _ hp
  have hv : ValidPid n p := by
    rcases hwf.cv p hm with e | e
    · omega
    · exact e
  have hnb : ¬ b - RRTIME ≤ 0 := by omega
  have hrec := r7 p hm b tl hpos (by rw [f2]; exact hcpu) hnb
  refine ⟨?_, ?_, c1, c2, c3, ?_, hwf.prio p hv, c5, ?_, c6⟩
  · rw [hrec]
  · rw [hrec]; exact f3
  · rw [List.mem_filter]
    refine ⟨hm, ?_⟩
    simp [preempted, hpos, hcpu, hnb]
  · simp [completed, hcpu, hnb]

set_option maxRecDepth 1000000 in
/-- Witness of C22: the second pass over `loadC12` (seventeen high priority
processes with a cpu burst of 90), process 30 on core 0. -/
theorem C22_preemption_step_witness :
    ((tickN 1 (initSim loadC12)).high_queue = [46] ∧
     (tickN 1 (initSim loadC12)).cores = (List.range 16).map (fun (i : Nat) => (30 : Int) + i) ∧
     (phaseB (phaseA (tickN 1 (initSim loadC12)))).high_queue
       = 46 :: (List.range 16).map (fun (i : Nat) => (30 : Int) + i)) ∧
    (getPCB (phaseB (phaseA (tickN 1 (initSim loadC12)))).proc_blocks 30).CPU_TIME
      = (90 - RRTIME) :: [] ∧
    (getPCB (phaseB (phaseA (tickN 1 (initSim loadC12)))).proc_blocks 30).IO_TIME
      = (getPCB (tickN 1 (initSim loadC12)).proc_blocks 30).IO_TIME ∧
    (phaseB (phaseA (tickN 1 (initSim loadC12)))).high_queue
      = (tickN 1 (initSim loadC12)).high_queue
        ++ (tickN 1 (initSim loadC12)).cores.filter (preempted (tickN 1 (initSim loadC12)) 1) ∧
    (phaseB (phaseA (tickN 1 (initSim loadC12)))).med_queue
      = (tickN 1 (initSim loadC12)).med_queue
        ++ (tickN 1 (initSim loadC12)).cores.filter (preempted (tickN 1 (initSim loadC12)) 2) ∧
    (phaseB (phaseA (tickN 1 (initSim loadC12)))).low_queue
      = (tickN 1 (initSim loadC12)).low_queue
        ++ (tickN 1 (initSim loadC12)).cores.filter (preempted (tickN 1 (initSim loadC12)) 3) ∧
    (30 : Int) ∈ (tickN 1 (initSim loadC12)).cores.filter
      (preempted (tickN 1 (initSim loadC12))
        (getPCB (tickN 1 (initSim loadC12)).proc_blocks 30).PRIORITY) ∧
    ((getPCB (tickN 1 (initSim loadC12)).proc_blocks 30).PRIORITY = 1 ∨
      (getPCB (tickN 1 (initSim loadC12)).proc_blocks 30).PRIORITY = 2 ∨
      (getPCB (tickN 1 (initSim loadC12)).proc_blocks 30).PRIORITY = 3) ∧
    (phaseB (phaseA (tickN 1 (initSim loadC12)))).cpu_bursts
      = (tickN 1 (initSim loadC12)).cpu_bursts
        + ((tickN 1 (initSim loadC12)).cores.countP
            (completed (tickN 1 (initSim loadC12))) : Nat) ∧
    completed (tickN 1 (initSim loadC12)) 30 = false ∧
    (phaseB (phaseA (tickN 1 (initSim loadC12)))).cores = List.replicate CORECOUNT (-1) :=
  ⟨by decide,
    C22_preemption_step loadC12.length (tickN 1 (initSim loadC12))
      (WF_tickN _ 1 _
        (WF_init loadC12 (pid_of_map loadC12 (by decide)) (by decide) (by decide) (by decide)))
      0 30 90 [] (by decide) (by decide) (by decide) (by decide)⟩

/-! ## Counting the processes of a run -/

/-- A list of distinct process ids of a run with `n` records has at most `n`
items. -/
theorem valid_nodup_length (n : Nat) (l : List Int) (hnd : l.Nodup)
    (hv : ∀ x ∈ l, ValidPid n x) : l.length ≤ n := by
  have hsub : l ⊆ (List.range n).map (fun (i : Nat) => PIDMIN + (i : Int)) := by
    intro x hx
    obtain ⟨h1, h2⟩ := hv x hx
    rw [List.mem_map]
    refine ⟨(x - PIDMIN).toNat, List.mem_range.2 (by omega), by omega⟩
  have := (List.Nodup.subperm hnd hsub).length_le
  simpa using this

/-- When every process id of a run with `n` records is in the list, the list has
at least `n` items. -/
theorem all_in_length (n : Nat) (l : List Int) (h : ∀ x, ValidPid n x → x ∈ l) :
    n ≤ l.length := by
  have hnd : ((List.range n).map (fun (i : Nat) => PIDMIN + (i : Int))).Nodup := by
    apply List.Nodup.map _ (List.nodup_range n)
    intro a b e
    simpa using e
  have hsub : (List.range n).map (fun (i : Nat) => PIDMIN + (i : Int)) ⊆ l := by
    intro x hx
    obtain ⟨i, hi, e⟩ := List.mem_map.1 hx
    have := List.mem_range.1 hi
    exact h x ⟨by omega, by omega⟩
  have := (List.Nodup.subperm hnd hsub).length_le
  simpa using this

/-- The ready queues of a state that satisfies the loop invariant hold at most
`n` processes. -/
theorem ready_length_le (n : Nat) (s : Sim) (hwf : WF n s) :
    s.high_queue.length + s.med_queue.length + s.low_queue.length ≤ n := by
  have hv : ∀ x ∈ s.high_queue ++ s.med_queue ++ s.low_queue, ValidPid n x := by
    intro x hx
    simp only [List.mem_append] at hx
    rcases hx with (hx | hx) | hx
    · exact hwf.qv x (Or.inl hx)
    · exact hwf.qv x (Or.inr (Or.inl hx))
    · exact hwf.qv x (Or.inr (Or.inr (Or.inl hx)))
  have hnd : (s.high_queue ++ s.med_queue ++ s.low_queue).Nodup := by
    rw [List.nodup_iff_count_le_one]
    intro a
    by_cases ha : a ∈ s.high_queue ++ s.med_queue ++ s.low_queue
    · have := hwf.one a (hv a ha)
      unfold occ at this
      simp only [List.count_append]
      omega
    · rw [List.count_eq_zero.2 ha]; omega
  have := valid_nodup_length n _ hnd hv
  simpa [Nat.add_assoc] using this

/-! ## Phase D and Phase E on the records -/

theorem fold_inv (P : Sim → Prop) (f : Nat → Sim → Sim) (h : ∀ i t, P t → P (f i t)) :
    ∀ (is : List Nat) (t : Sim), P t → P (is.foldl (fun t i => f i t) t) := by
  intro is
  induction is with
  | nil => intro t ht; exact ht
  | cons i is ih => intro t ht; rw [List.foldl_cons]; exact ih _ (h i t ht)

theorem state_upd3 (pbs : List PCB) (p pid : Int) :
    (getPCB (updPCB pbs p (fun r => { r with STATE := 3 })) pid).STATE = 3 ∨
    (getPCB (updPCB pbs p (fun r => { r with STATE := 3 })) pid).STATE
      = (getPCB pbs pid).STATE := by
  by_cases e : pid = p
  · subst e
    by_cases hr : PIDMIN ≤ pid ∧ pid < PIDMIN + pbs.length
    · left; rw [getPCB_updPCB_eq _ _ _ hr.1 hr.2]
    · right
      rw [getPCB_outside _ _ hr, getPCB_outside _ _ (by rw [length_updPCB]; exact hr)]
  · right; rw [getPCB_updPCB_ne _ _ _ _ e]

theorem takeHigh_state (i : Nat) (t : Sim) (pid : Int) :
    (getPCB (takeHigh i t).proc_blocks pid).STATE = 3 ∨
    (getPCB (takeHigh i t).proc_blocks pid).STATE = (getPCB t.proc_blocks pid).STATE := by
  unfold takeHigh
  split
  · exact Or.inr rfl
  · exact state_upd3 _ _ _

theorem takeMed_state (i : Nat) (t : Sim) (pid : Int) :
    (getPCB (takeMed i t).proc_blocks pid).STATE = 3 ∨
    (getPCB (takeMed i t).proc_blocks pid).STATE = (getPCB t.proc_blocks pid).STATE := by
  unfold takeMed
  split
  · exact Or.inr rfl
  · exact state_upd3 _ _ _

theorem takeLow_state (i : Nat) (t : Sim) (pid : Int) :
    (getPCB (takeLow i t).proc_blocks pid).STATE = 3 ∨
    (getPCB (takeLow i t).proc_blocks pid).STATE = (getPCB t.proc_blocks pid).STATE := by
  unfold takeLow
  split
  · exact Or.inr rfl
  · exact state_upd3 _ _ _

theorem spillStep_state (i : Nat) (t : Sim) (pid : Int) :
    (getPCB (spillStep i t).proc_blocks pid).STATE = 3 ∨
    (getPCB (spillStep i t).proc_blocks pid).STATE = (getPCB t.proc_blocks pid).STATE := by
  unfold spillStep
  split_ifs
  · exact takeHigh_state i t pid
  · exact takeMed_state i t pid
  · exact takeLow_state i t pid
  · exact Or.inr rfl
  · exact Or.inr rfl

/-- Phase D sets states to 3 and to nothing else. -/
theorem phaseD_state (s : Sim) (pid : Int) :
    (getPCB (phaseD s).proc_blocks pid).STATE = 3 ∨
    (getPCB (phaseD s).proc_blocks pid).STATE = (getPCB s.proc_blocks pid).STATE := by
  have step : ∀ (f : Nat → Sim → Sim),
      (∀ i t, (getPCB (f i t).proc_blocks pid).STATE = 3 ∨
        (getPCB (f i t).proc_blocks pid).STATE = (getPCB t.proc_blocks pid).STATE) →
      ∀ (is : List Nat) (t : Sim),
        ((getPCB t.proc_blocks pid).STATE = 3 ∨
          (getPCB t.proc_blocks pid).STATE = (getPCB s.proc_blocks pid).STATE) →
        ((getPCB (is.foldl (fun t i => f i t) t).proc_blocks pid).STATE = 3 ∨
          (getPCB (is.foldl (fun t i => f i t) t).proc_blocks pid).STATE
            = (getPCB s.proc_blocks pid).STATE) := by
    intro f hf is t ht
    apply fold_inv (fun t => (getPCB t.proc_blocks pid).STATE = 3 ∨
      (getPCB t.proc_blocks pid).STATE = (getPCB s.proc_blocks pid).STATE) f _ is t ht
    intro i t1 h1
    rcases hf i t1 with e | e
    · exact Or.inl e
    · rw [e]; exact h1
  unfold phaseD spillFill reservedFill
  apply step spillStep (fun i t => spillStep_state i t pid)
  apply step takeLow (fun i t => takeLow_state i t pid)
  apply step takeMed (fun i t => takeMed_state i t pid)
  apply step takeHigh (fun i t => takeHigh_state i t pid)
  exact Or.inr rfl

theorem takeX_proj {α : Type} (g : PCB → α) (hg : ∀ r, g { r with STATE := 3 } = g r)
    (pid : Int) (i : Nat) (t : Sim) :
    g (getPCB (takeHigh i t).proc_blocks pid) = g (getPCB t.proc_blocks pid) ∧
    g (getPCB (takeMed i t).proc_blocks pid) = g (getPCB t.proc_blocks pid) ∧
    g (getPCB (takeLow i t).proc_blocks pid) = g (getPCB t.proc_blocks pid) := by
  refine ⟨?_, ?_, ?_⟩
  · unfold takeHigh
    split
    · rfl
    · exact proj_getPCB_updPCB g _ _ _ _ hg
  · unfold takeMed
    split
    · rfl
    · exact proj_getPCB_updPCB g _ _ _ _ hg
  · unfold takeLow
    split
    · rfl
    · exact proj_getPCB_updPCB g _ _ _ _ hg

/-- Phase D changes nothing in a record but the state. -/
theorem phaseD_proj {α : Type} (g : PCB → α) (hg : ∀ r, g { r with STATE := 3 } = g r)
    (s : Sim) (pid : Int) :
    g (getPCB (phaseD s).proc_blocks pid) = g (getPCB s.proc_blocks pid) := by
  have hS : ∀ i t, g (getPCB (spillStep i t).proc_blocks pid) = g (getPCB t.proc_blocks pid) := by
    intro i t
    unfold spillStep
    split_ifs
    · exact (takeX_proj g hg pid i t).1
    · exact (takeX_proj g hg pid i t).2.1
    · exact (takeX_proj g hg pid i t).2.2
    · rfl
    · rfl
  unfold phaseD spillFill reservedFill
  rw [fold_keeps (fun t => g (getPCB t.proc_blocks pid)) spillStep hS,
    fold_keeps (fun t => g (getPCB t.proc_blocks pid)) takeLow
      (fun i t => (takeX_proj g hg pid i t).2.2),
    fold_keeps (fun t => g (getPCB t.proc_blocks pid)) takeMed
      (fun i t => (takeX_proj g hg pid i t).2.1),
    fold_keeps (fun t => g (getPCB t.proc_blocks pid)) takeHigh
      (fun i t => (takeX_proj g hg pid i t).1)]

/-- Phase E with an empty wait queue declares `final_io_time` and does nothing
else. -/
theorem phaseE_nil (e : Sim) (h : e.wait_queue = []) :
    phaseE e = { e with final_io_time := none } := by
  unfold phaseE
  rw [h]
  rfl

/-- The tests of Phase B fail on a core without a process. -/
theorem tests_free (s : Sim) (cs : List Int) (h : ∀ c ∈ cs, ¬ c > 0) :
    (∀ pr, cs.filter (preempted s pr) = []) ∧ cs.filter (toWait s) = [] ∧
    cs.countP (completed s) = 0 := by
  refine ⟨fun pr => ?_, ?_, ?_⟩
  · rw [List.filter_eq_nil_iff]
    intro c hc
    simp [preempted, h c hc]
  · rw [List.filter_eq_nil_iff]
    intro c hc
    simp [toWait, completed, h c hc]
  · rw [List.countP_eq_zero]
    intro c hc
    simp [completed, h c hc]

/-! ## One pass on the records -/

/-- The totals of the run are 0 before the first pass. -/
theorem init_totals (w : List PCB) :
    (initSim w).cpu_bursts = 0 ∧ (initSim w).sim_core_idle = 0 ∧
    (initSim w).sim_cpu_idle = 0 := by
  have hgen : ∀ (l : List PCB) (s : Sim),
      ((l.foldl initStep s).cpu_bursts, (l.foldl initStep s).sim_core_idle,
        (l.foldl initStep s).sim_cpu_idle)
        = (s.cpu_bursts, s.sim_core_idle, s.sim_cpu_idle) := by
    intro l
    induction l with
    | nil => intro s; rfl
    | cons p l ih =>
      intro s
      rw [List.foldl_cons, ih]
      unfold initStep
      split_ifs <;> rfl
  have := hgen w emptySim
  simp only [Prod.mk.injEq] at this
  exact ⟨this.1, this.2.1, this.2.2⟩

/-- The record of a process after Phase A and Phase B, in terms of the state
at the start of the pass: a process that is not on a core keeps state and
bursts, and a process on a core has a head cpu burst, which either loses
RRTIME or is removed, and then the state is 4 or 2. -/
theorem phaseAB_rec (n : Nat) (s : Sim) (hwf : WF n s) (pid : Int) (hv : ValidPid n pid) :
    (getPCB (phaseB (phaseA s)).proc_blocks pid).IO_TIME = (getPCB s.proc_blocks pid).IO_TIME ∧
    (pid ∉ s.cores →
      (getPCB (phaseB (phaseA s)).proc_blocks pid).STATE = (getPCB s.proc_blocks pid).STATE ∧
      (getPCB (phaseB (phaseA s)).proc_blocks pid).CPU_TIME
        = (getPCB s.proc_blocks pid).CPU_TIME) ∧
    (pid ∈ s.cores → ∃ (b : Int) (tl : List Int),
      (getPCB s.proc_blocks pid).CPU_TIME = b :: tl ∧
      ((¬ b - RRTIME ≤ 0 ∧ completed s pid = false ∧
          (getPCB (phaseB (phaseA s)).proc_blocks pid).CPU_TIME = (b - RRTIME) :: tl ∧
          (getPCB (phaseB (phaseA s)).proc_blocks pid).STATE
            = (getPCB s.proc_blocks pid).STATE) ∨
        (b - RRTIME ≤ 0 ∧ completed s pid = true ∧
          (getPCB (phaseB (phaseA s)).proc_blocks pid).CPU_TIME = tl ∧
          (getPCB (phaseB (phaseA s)).proc_blocks pid).STATE
            = (if (getPCB s.proc_blocks pid).IO_TIME = [] then 4 else 2)))) := by
  have hA := WF_phaseA n s hwf
  obtain ⟨_, _, _, _, _, c6, c7, c8⟩ := phaseB_closed n (phaseA s) hA
  obtain ⟨a1, a2, a3, a4, _, _⟩ := phaseA_fields s pid
  have e0 : (phaseA s).cores = s.cores := rfl
  rw [e0] at c6 c7 c8
  have hpos : pid > 0 := by
    have := hv.1
    unfold PIDMIN at this
    omega
  by_cases hc : pid ∈ s.cores
  · have hne : (getPCB s.proc_blocks pid).CPU_TIME ≠ [] :=
      hwf.cpu pid (Or.inr (Or.inr (Or.inr hc))) hv
    obtain ⟨b, tl, hb⟩ : ∃ b tl, (getPCB s.proc_blocks pid).CPU_TIME = b :: tl := by
      cases h : (getPCB s.proc_blocks pid).CPU_TIME with
      | nil => exact absurd h hne
      | cons b tl => exact ⟨b, tl, rfl⟩
    by_cases hle : b - RRTIME ≤ 0
    · have e := c8 pid hc b tl hpos (by rw [a2]; exact hb) hle
      refine ⟨by rw [e]; exact a3, fun h => absurd hc h, fun _ => ⟨b, tl, hb, Or.inr ⟨hle, ?_, ?_, ?_⟩⟩⟩
      · unfold completed
        rw [hb]
        simp [hpos, hle]
      · rw [e]
      · rw [e]
        show (if (getPCB (phaseA s).proc_blocks pid).IO_TIME = [] then (4 : Int) else 2) = _
        rw [a3]
    · have e := c7 pid hc b tl hpos (by rw [a2]; exact hb) hle
      refine ⟨by rw [e]; exact a3, fun h => absurd hc h, fun _ => ⟨b, tl, hb, Or.inl ⟨hle, ?_, ?_, ?_⟩⟩⟩
      · unfold completed
        rw [hb]
        simp [hpos, hle]
      · rw [e]
      · rw [e]
        exact a4
  · have e := c6 pid hc
    refine ⟨by rw [e]; exact a3, fun _ => ⟨by rw [e]; exact a4, by rw [e]; exact a2⟩,
      fun h => absurd h hc⟩

/-- Phase C and Phase D change, in a record, the response time and the state
only, and the state only to 3. -/
theorem phaseCD_fields (b : Sim) (pid : Int) :
    (getPCB (phaseD (phaseC b)).proc_blocks pid).CPU_TIME = (getPCB b.proc_blocks pid).CPU_TIME ∧
    (getPCB (phaseD (phaseC b)).proc_blocks pid).IO_TIME = (getPCB b.proc_blocks pid).IO_TIME ∧
    (getPCB (phaseD (phaseC b)).proc_blocks pid).TURNAROUND
      = (getPCB b.proc_blocks pid).TURNAROUND ∧
    (getPCB (phaseD (phaseC b)).proc_blocks pid).WAIT = (getPCB b.proc_blocks pid).WAIT ∧
    (getPCB (phaseD (phaseC b)).proc_blocks pid).PRIORITY = (getPCB b.proc_blocks pid).PRIORITY ∧
    ((getPCB (phaseD (phaseC b)).proc_blocks pid).STATE = 3 ∨
      (getPCB (phaseD (phaseC b)).proc_blocks pid).STATE = (getPCB b.proc_blocks pid).STATE) := by
  have hC : ∀ {α : Type} (g : PCB → α), (∀ r, g { r with RESPONSE := r.RESPONSE + RRTIME } = g r) →
      g (getPCB (phaseC b).proc_blocks pid) = g (getPCB b.proc_blocks pid) := by
    intro α g hg
    unfold phaseC
    exact proj_getPCB_map g _ _ _ (by intro r; split; exact hg r; rfl)
  refine ⟨?_, ?_, ?_, ?_, ?_, ?_⟩
  · rw [phaseD_proj PCB.CPU_TIME (fun _ => rfl)]; exact hC PCB.CPU_TIME (fun _ => rfl)
  · rw [phaseD_proj PCB.IO_TIME (fun _ => rfl)]; exact hC PCB.IO_TIME (fun _ => rfl)
  · rw [phaseD_proj PCB.TURNAROUND (fun _ => rfl)]; exact hC PCB.TURNAROUND (fun _ => rfl)
  · rw [phaseD_proj PCB.WAIT (fun _ => rfl)]; exact hC PCB.WAIT (fun _ => rfl)
  · rw [phaseD_proj PCB.PRIORITY (fun _ => rfl)]; exact hC PCB.PRIORITY (fun _ => rfl)
  · rcases phaseD_state (phaseC b) pid with e | e
    · exact Or.inl e
    · right; rw [e]; exact hC PCB.STATE (fun _ => rfl)

/-- The response time after Phase C and Phase D: RRTIME more for a record in
state 1 after Phase B. -/
theorem phaseCD_response (b : Sim) (pid : Int) (h1 : PIDMIN ≤ pid)
    (h2 : pid < PIDMIN + b.proc_blocks.length) :
    (getPCB (phaseD (phaseC b)).proc_blocks pid).RESPONSE
      = (getPCB b.proc_blocks pid).RESPONSE
        + (if (getPCB b.proc_blocks pid).STATE = 1 then RRTIME else 0) := by
  rw [phaseD_proj PCB.RESPONSE (fun _ => rfl)]
  unfold phaseC
  show (getPCB (b.proc_blocks.map _) pid).RESPONSE = _
  rw [getPCB_map _ _ _ h1 h2]
  split_ifs <;> simp

/-- The turnaround time after Phase A and Phase B of a process that is on no
core: RRTIME more unless the record is in state 4. -/
theorem phaseAB_turnaround (n : Nat) (s : Sim) (hwf : WF n s) (pid : Int)
    (hv : ValidPid n pid) (hc : pid ∉ s.cores) :
    (getPCB (phaseB (phaseA s)).proc_blocks pid).TURNAROUND
      = (getPCB s.proc_blocks pid).TURNAROUND
        + (if (getPCB s.proc_blocks pid).STATE ≠ 4 then RRTIME else 0) ∧
    (getPCB (phaseB (phaseA s)).proc_blocks pid).WAIT = (getPCB s.proc_blocks pid).WAIT ∧
    (getPCB (phaseB (phaseA s)).proc_blocks pid).RESPONSE
      = (getPCB s.proc_blocks pid).RESPONSE := by
  have hA := WF_phaseA n s hwf
  obtain ⟨_, _, _, _, _, c6, _, _⟩ := phaseB_closed n (phaseA s) hA
  have e0 : (phaseA s).cores = s.cores := rfl
  rw [e0] at c6
  rw [c6 pid hc]
  obtain ⟨_, _, _, _, a5, a6⟩ := phaseA_fields s pid
  refine ⟨?_, a5, a6⟩
  unfold phaseA
  show (getPCB (s.proc_blocks.map _) pid).TURNAROUND = _
  rw [getPCB_map _ _ _ hv.1 (by rw [hwf.lenP]; exact hv.2)]
  split_ifs <;> simp

/-! ## The end of the run -/

theorem tick_unfold (s : Sim) :
    tick s = checkDone (phaseE (beforeE s)) ∧
    beforeE s = phaseD (phaseC (phaseB (phaseA s))) := ⟨rfl, rfl⟩

theorem checkDone_run (e : Sim) :
    ((e.high_queue = [] ∧ e.med_queue = [] ∧ e.low_queue = [] ∧ e.wait_queue = []) →
      (checkDone e).run = false) ∧
    (¬ (e.high_queue = [] ∧ e.med_queue = [] ∧ e.low_queue = [] ∧ e.wait_queue = []) →
      (checkDone e).run = e.run) := by
  unfold checkDone
  constructor
  · intro h; rw [if_pos h]
  · intro h; rw [if_neg h]

/-- The flag `run` after one pass: false when the four queues are empty, and
else as before the pass. -/
theorem tick_run (s : Sim) :
    (((tick s).high_queue = [] ∧ (tick s).med_queue = [] ∧ (tick s).low_queue = [] ∧
        (tick s).wait_queue = []) → (tick s).run = false) ∧
    (¬ ((tick s).high_queue = [] ∧ (tick s).med_queue = [] ∧ (tick s).low_queue = [] ∧
        (tick s).wait_queue = []) → (tick s).run = s.run) := by
  obtain ⟨_, _, _, b4, b5, b6, b7⟩ := tick_book s
  obtain ⟨r1, r2⟩ := checkDone_run (phaseE (beforeE s))
  have e := (tick_unfold s).1
  have hr : (phaseE (beforeE s)).run = s.run := by
    rw [(phaseE_book (beforeE s)).2.2.1, (beforeE_book s).1]
  rw [b4, b5, b6, b7]
  constructor
  · intro h; rw [e]; exact r1 h
  · intro h; rw [e, r2 h, hr]

theorem tickN_succ (k : Nat) (s : Sim) (h : s.run = true) :
    tickN (k + 1) s = tickN k (tick s) := by
  simp [tickN, h]

/-- A property kept by every pass made while `run` is true holds after any
number of passes. -/
theorem tickN_keeps (P : Sim → Prop) (hP : ∀ s, P s → s.run = true → P (tick s)) :
    ∀ (k : Nat) (s : Sim), P s → P (tickN k s) := by
  intro k
  induction k with
  | zero => intro s h; exact h
  | succ k ih =>
    intro s h
    by_cases hr : s.run = true
    · rw [tickN_succ k s hr]; exact ih _ (hP s h hr)
    · rw [tickN_stopped _ s (by simpa using hr)]; exact h

/-- The loop ends only with the four queues empty. -/
theorem tickN_ended (k : Nat) (s : Sim) (hr : s.run = true)
    (he : (tickN k s).run = false) :
    (tickN k s).high_queue = [] ∧ (tickN k s).med_queue = [] ∧ (tickN k s).low_queue = [] ∧
    (tickN k s).wait_queue = [] := by
  have := tickN_keeps (fun t => t.run = true ∨ (t.high_queue = [] ∧ t.med_queue = [] ∧
    t.low_queue = [] ∧ t.wait_queue = [])) (by
      intro t _ htr
      by_cases hq : (tick t).high_queue = [] ∧ (tick t).med_queue = [] ∧
          (tick t).low_queue = [] ∧ (tick t).wait_queue = []
      · exact Or.inr hq
      · left; rw [(tick_run t).2 hq]; exact htr) k s (Or.inl hr)
  rcases this with h | h
  · rw [he] at h; exact absurd h (by decide)
  · exact h

/-- With the four queues empty, every process that is not finished is on a
core. -/
theorem all_on_cores (n : Nat) (s : Sim) (hwf : WF n s)
    (hq : s.high_queue = [] ∧ s.med_queue = [] ∧ s.low_queue = [] ∧ s.wait_queue = [])
    (pid : Int) (hv : ValidPid n pid) (h4 : (getPCB s.proc_blocks pid).STATE ≠ 4) :
    pid ∈ s.cores := by
  rcases occ_one_somewhere s pid (hwf.one pid hv) h4 with h | h | h
  · unfold rdy at h
    rw [hq.1, hq.2.1, hq.2.2.1] at h
    simp at h
  · rw [hq.2.2.2] at h; simp at h
  · exact h

theorem phaseC_book (b : Sim) :
    (phaseC b).cpu_bursts = b.cpu_bursts ∧ (phaseC b).wait_queue = b.wait_queue ∧
    (phaseC b).cores = b.cores ∧ (phaseC b).high_queue = b.high_queue ∧
    (phaseC b).med_queue = b.med_queue ∧ (phaseC b).low_queue = b.low_queue :=
  ⟨rfl, rfl, rfl, rfl, rfl, rfl⟩

/-- The counters of one pass that come from Phase B. -/
theorem tick_cpu_bursts (s : Sim) :
    (tick s).cpu_bursts = (phaseB (phaseA s)).cpu_bursts ∧
    (beforeE s).wait_queue = (phaseB (phaseA s)).wait_queue := by
  obtain ⟨e, e1⟩ := tick_unfold s
  have hd := phaseD_book (phaseC (phaseB (phaseA s)))
  simp only [Prod.mk.injEq] at hd
  obtain ⟨p1, p2, _⟩ := phaseC_book (phaseB (phaseA s))
  constructor
  · rw [e, (checkDone_book _).1, (phaseE_book _).1, e1, hd.1, p1]
  · rw [e1, hd.2.2.2, p2]

theorem nil_pass (e : Sim) (hw : e.wait_queue = []) :
    (checkDone (phaseE e)).proc_blocks = e.proc_blocks ∧
    (checkDone (phaseE e)).cores = e.cores ∧
    (checkDone (phaseE e)).high_queue = e.high_queue ∧
    (checkDone (phaseE e)).med_queue = e.med_queue ∧
    (checkDone (phaseE e)).low_queue = e.low_queue ∧
    (checkDone (phaseE e)).wait_queue = [] := by
  obtain ⟨_, _, _, c4, c5, c6, c7, c8, c9⟩ := checkDone_book (phaseE e)
  rw [c4, c5, c6, c7, c8, c9, phaseE_nil _ hw]
  exact ⟨rfl, rfl, rfl, rfl, rfl, hw⟩

/-- The part of one pass after Phase E starts with an empty wait queue: the
records, the cores and the ready queues are those Phase D left. -/
theorem tick_quiet_wait (s : Sim) (hw : (beforeE s).wait_queue = []) :
    (tick s).proc_blocks = (beforeE s).proc_blocks ∧ (tick s).cores = (beforeE s).cores ∧
    (tick s).high_queue = (beforeE s).high_queue ∧ (tick s).med_queue = (beforeE s).med_queue ∧
    (tick s).low_queue = (beforeE s).low_queue ∧ (tick s).wait_queue = [] := by
  rw [(tick_unfold s).1]
  exact nil_pass (beforeE s) hw

/-- One pass from a state with free cores, an empty wait queue and at most
sixteen processes, all in state 1: the four queues are empty afterwards, no
burst is counted, every process is on a core in state 3 with its bursts and
its wait time as before and with RRTIME more of turnaround and of response. -/
theorem free_pass (n : Nat) (s : Sim) (hwf : WF n s) (hloc : Holds LocR n s)
    (hc : s.cores = List.replicate CORECOUNT (-1)) (hw : s.wait_queue = [])
    (hs : ∀ pid, ValidPid n pid → (getPCB s.proc_blocks pid).STATE = 1)
    (hn : n ≤ CORECOUNT) :
    ((tick s).high_queue = [] ∧ (tick s).med_queue = [] ∧ (tick s).low_queue = [] ∧
      (tick s).wait_queue = []) ∧
    (tick s).cpu_bursts = s.cpu_bursts ∧
    (∀ pid, ValidPid n pid →
      pid ∈ (tick s).cores ∧
      (getPCB (tick s).proc_blocks pid).STATE = 3 ∧
      (getPCB (tick s).proc_blocks pid).CPU_TIME = (getPCB s.proc_blocks pid).CPU_TIME ∧
      (getPCB (tick s).proc_blocks pid).IO_TIME = (getPCB s.proc_blocks pid).IO_TIME ∧
      (getPCB (tick s).proc_blocks pid).TURNAROUND
        = (getPCB s.proc_blocks pid).TURNAROUND + RRTIME ∧
      (getPCB (tick s).proc_blocks pid).RESPONSE
        = (getPCB s.proc_blocks pid).RESPONSE + RRTIME ∧
      (getPCB (tick s).proc_blocks pid).WAIT = (getPCB s.proc_blocks pid).WAIT) := by
  have hfree : ∀ c ∈ s.cores, ¬ c > 0 := by
    intro c hcm
    rw [hc] at hcm
    rw [List.eq_of_mem_replicate hcm]
    decide
  obtain ⟨f1, f2, f3⟩ := tests_free s s.cores hfree
  obtain ⟨a1, a2, a3, a4, a5, a6⟩ := phaseAB_closed n s hwf
  rw [f1 1, List.append_nil] at a1
  rw [f1 2, List.append_nil] at a2
  rw [f1 3, List.append_nil] at a3
  rw [f2, hw, List.append_nil] at a4
  rw [f3] at a5
  have hB := (phaseB_WF n (phaseA s) (WF_phaseA n s hwf)).1
  have hC := WF_phaseC n _ hB
  have hlen := ready_length_le n _ hC
  have hcC : (phaseC (phaseB (phaseA s))).cores = List.replicate CORECOUNT (-1) := by
    rw [(phaseC_book _).2.2.1]; exact a6
  have hvC : ∀ p ∈ (phaseC (phaseB (phaseA s))).high_queue
      ++ (phaseC (phaseB (phaseA s))).med_queue ++ (phaseC (phaseB (phaseA s))).low_queue,
      PIDMIN ≤ p := by
    intro p hp
    simp only [List.mem_append] at hp
    rcases hp with (hp | hp) | hp
    · exact (hC.qv p (Or.inl hp)).1
    · exact (hC.qv p (Or.inr (Or.inl hp))).1
    · exact (hC.qv p (Or.inr (Or.inr (Or.inl hp)))).1
  obtain ⟨kh, km, kl, l1, l2, l3, d1, d2, d3, _, _, _, hall⟩ :=
    phaseD_summary (phaseC (phaseB (phaseA s))) hcC hvC
  have e1 := (tick_unfold s).2
  have hk : kh = (phaseC (phaseB (phaseA s))).high_queue.length ∧
      km = (phaseC (phaseB (phaseA s))).med_queue.length ∧
      kl = (phaseC (phaseB (phaseA s))).low_queue.length := by
    rcases hall with h | h
    · refine ⟨?_, ?_, ?_⟩ <;> omega
    · exact h
  have hwE : (beforeE s).wait_queue = [] := by
    rw [(tick_cpu_bursts s).2]; exact a4
  obtain ⟨t1, t2, t3, t4, t5, t6⟩ := tick_quiet_wait s hwE
  have hq : (tick s).high_queue = [] ∧ (tick s).med_queue = [] ∧ (tick s).low_queue = [] ∧
      (tick s).wait_queue = [] := by
    refine ⟨?_, ?_, ?_, t6⟩
    · rw [t3, e1, d1, hk.1]; exact List.drop_length _
    · rw [t4, e1, d2, hk.2.1]; exact List.drop_length _
    · rw [t5, e1, d3, hk.2.2]; exact List.drop_length _
  have hT := WF_tick n s hwf
  have hL := keeps_tick n _ (locR_closed n) s hwf hloc
  refine ⟨hq, ?_, ?_⟩
  · rw [(tick_cpu_bursts s).1, a5]; simp
  · intro pid hv
    have hnc : pid ∉ s.cores := by
      intro hm
      have := hfree pid hm
      have := hv.1
      unfold PIDMIN at this
      omega
    obtain ⟨r1, r2, _⟩ := phaseAB_rec n s hwf pid hv
    obtain ⟨r3, r4⟩ := r2 hnc
    obtain ⟨u1, u2, u3⟩ := phaseAB_turnaround n s hwf pid hv hnc
    obtain ⟨g1, g2, g3, g4, _, g6⟩ := phaseCD_fields (phaseB (phaseA s)) pid
    have g5 := phaseCD_response (phaseB (phaseA s)) pid hv.1 (by rw [hB.lenP]; exact hv.2)
    have hst : (getPCB (tick s).proc_blocks pid).STATE ≠ 4 := by
      rw [t1, e1]
      rcases g6 with e | e
      · rw [e]; decide
      · rw [e, r3, hs pid hv]; decide
    have hon := all_on_cores n (tick s) hT hq pid hv hst
    refine ⟨hon, (hL pid hv).2.1 hon, ?_, ?_, ?_, ?_, ?_⟩
    · rw [t1, e1, g1, r4]
    · rw [t1, e1, g2, r1]
    · rw [t1, e1, g3, u1, hs pid hv]; simp
    · rw [t1, e1, g5, u3, r3, hs pid hv]; simp
    · rw [t1, e1, g4, u2]

/-- One pass keeps this: the count of completed bursts is not negative, and
either it is at least 1, or the wait queue is empty and no record is in
state 4. -/
theorem pass_counts (n : Nat) (s : Sim) (hwf : WF n s)
    (h : 0 ≤ s.cpu_bursts ∧ (1 ≤ s.cpu_bursts ∨
      (s.wait_queue = [] ∧ ∀ pid, ValidPid n pid → (getPCB s.proc_blocks pid).STATE ≠ 4))) :
    0 ≤ (tick s).cpu_bursts ∧ (1 ≤ (tick s).cpu_bursts ∨
      ((tick s).wait_queue = [] ∧
        ∀ pid, ValidPid n pid → (getPCB (tick s).proc_blocks pid).STATE ≠ 4)) := by
  obtain ⟨h0, h1⟩ := h
  have hle := (tick_book s).1
  refine ⟨by omega, ?_⟩
  rcases h1 with h1 | ⟨hw, h4⟩
  · left; omega
  · obtain ⟨_, _, _, a4, a5, _⟩ := phaseAB_closed n s hwf
    by_cases hcnt : s.cores.countP (completed s) = 0
    · right
      have hnone : ∀ c ∈ s.cores, completed s c = false := by
        intro c hc
        have := (List.countP_eq_zero.1 hcnt) c hc
        simpa using this
      have hf : s.cores.filter (toWait s) = [] := by
        rw [List.filter_eq_nil_iff]
        intro c hc
        unfold toWait
        rw [hnone c hc]
        simp
      rw [hf, hw, List.append_nil] at a4
      have hwE : (beforeE s).wait_queue = [] := by
        rw [(tick_cpu_bursts s).2]; exact a4
      obtain ⟨t1, _, _, _, _, t6⟩ := tick_quiet_wait s hwE
      refine ⟨t6, ?_⟩
      intro pid hv
      have e1 := (tick_unfold s).2
      obtain ⟨_, r2, r3⟩ := phaseAB_rec n s hwf pid hv
      have hsame : (getPCB (phaseB (phaseA s)).proc_blocks pid).STATE
          = (getPCB s.proc_blocks pid).STATE := by
        by_cases hc : pid ∈ s.cores
        · obtain ⟨b, tl, _, hcase⟩ := r3 hc
          rcases hcase with ⟨_, _, _, e⟩ | ⟨_, e, _, _⟩
          · exact e
          · rw [hnone pid hc] at e; exact absurd e (by decide)
        · exact (r2 hc).1
      rw [t1, e1]
      rcases (phaseCD_fields (phaseB (phaseA s)) pid).2.2.2.2.2 with e | e
      · rw [e]; decide
      · rw [e, hsame]; exact h4 pid hv
    · left
      rw [(tick_cpu_bursts s).1, a5]
      have : 0 < s.cores.countP (completed s) := Nat.pos_of_ne_zero hcnt
      omega

/-! ## The work left never grows -/

theorem work_eq (r r1 : PCB) (h1 : r1.CPU_TIME = r.CPU_TIME) (h2 : r1.IO_TIME = r.IO_TIME) :
    work r1 = work r := by
  unfold work
  rw [h1, h2]

theorem work_cpu_lt (r r1 : PCB) (b b1 : Int) (tl : List Int) (h : r.CPU_TIME = b :: tl)
    (h1 : r1.CPU_TIME = b1 :: tl) (hio : r1.IO_TIME = r.IO_TIME) (hb : b1 < b) (hpos : 0 ≤ b1) :
    work r1 < work r := by
  unfold work
  rw [h, h1, hio]
  simp only [List.map_cons, List.sum_cons]
  omega

theorem work_cpu_tail (r r1 : PCB) (b : Int) (tl : List Int) (h : r.CPU_TIME = b :: tl)
    (h1 : r1.CPU_TIME = tl) (hio : r1.IO_TIME = r.IO_TIME) : work r1 < work r := by
  unfold work
  rw [h, h1, hio]
  simp only [List.map_cons, List.sum_cons]
  omega

theorem work_io_set (r r1 : PCB) (b x : Int) (tl : List Int) (h : r.IO_TIME = b :: tl)
    (h1 : r1.IO_TIME = r.IO_TIME.set 0 x) (hc : r1.CPU_TIME = r.CPU_TIME) (hb : x < b)
    (hpos : 0 ≤ x) : work r1 < work r := by
  unfold work
  rw [h1, h, hc]
  simp only [List.set_cons_zero, List.map_cons, List.sum_cons]
  omega

theorem work_io_tail (r r1 : PCB) (h1 : r1.IO_TIME = r.IO_TIME.tail)
    (hc : r1.CPU_TIME = r.CPU_TIME) (hne : r.IO_TIME ≠ []) : work r1 < work r := by
  unfold work
  rw [h1, hc]
  cases h : r.IO_TIME with
  | nil => exact absurd h hne
  | cons b tl =>
    simp only [List.tail_cons, List.map_cons, List.sum_cons]
    omega

theorem workLeft_le (n : Nat) (s t : Sim)
    (h : ∀ pid, ValidPid n pid →
      work (getPCB t.proc_blocks pid) ≤ work (getPCB s.proc_blocks pid)) :
    workLeft n t ≤ workLeft n s := by
  unfold workLeft
  apply List.sum_le_sum
  intro i hi
  have := List.mem_range.1 hi
  exact h _ ⟨by omega, by omega⟩

theorem workLeft_lt (n : Nat) (s t : Sim)
    (h : ∀ pid, ValidPid n pid →
      work (getPCB t.proc_blocks pid) ≤ work (getPCB s.proc_blocks pid))
    (p : Int) (hv : ValidPid n p)
    (hlt : work (getPCB t.proc_blocks p) < work (getPCB s.proc_blocks p)) :
    workLeft n t < workLeft n s := by
  unfold workLeft
  apply List.sum_lt_sum
  · intro i hi
    have := List.mem_range.1 hi
    exact h _ ⟨by omega, by omega⟩
  · obtain ⟨h1, h2⟩ := hv
    refine ⟨(p - PIDMIN).toNat, List.mem_range.2 (by omega), ?_⟩
    have e : PIDMIN + (((p - PIDMIN).toNat : Nat) : Int) = p := by omega
    rw [e]
    exact hlt

theorem workLeft_same (n : Nat) (s t : Sim) (h : t.proc_blocks = s.proc_blocks) :
    workLeft n t = workLeft n s := by
  unfold workLeft
  rw [h]

theorem work_phaseCD (b : Sim) (pid : Int) :
    work (getPCB (phaseD (phaseC b)).proc_blocks pid) = work (getPCB b.proc_blocks pid) := by
  obtain ⟨g1, g2, _⟩ := phaseCD_fields b pid
  exact work_eq _ _ g1 g2

/-- Phase A and Phase B never add work to a record, and take some away from
the record of a process on a core. -/
theorem work_phaseAB (n : Nat) (s : Sim) (hwf : WF n s) (pid : Int) (hv : ValidPid n pid) :
    work (getPCB (phaseB (phaseA s)).proc_blocks pid) ≤ work (getPCB s.proc_blocks pid) ∧
    (pid ∈ s.cores →
      work (getPCB (phaseB (phaseA s)).proc_blocks pid) < work (getPCB s.proc_blocks pid)) := by
  obtain ⟨r1, r2, r3⟩ := phaseAB_rec n s hwf pid hv
  generalize getPCB (phaseB (phaseA s)).proc_blocks pid = x at r1 r2 r3
  generalize getPCB s.proc_blocks pid = y at r1 r2 r3
  by_cases hc : pid ∈ s.cores
  · obtain ⟨b, tl, hb, hcase⟩ := r3 hc
    have hlt : work x < work y := by
      rcases hcase with ⟨hn, _, e, _⟩ | ⟨_, _, e, _⟩
      · exact work_cpu_lt y x b (b - RRTIME) tl hb e r1 (by unfold RRTIME; omega) (by omega)
      · exact work_cpu_tail y x b tl hb e r1
    exact ⟨Nat.le_of_lt hlt, fun _ => hlt⟩
  · exact ⟨Nat.le_of_eq (work_eq y x (r2 hc).2 r1), fun h => absurd h hc⟩

/-- The part of one pass before Phase E never adds work, and takes some away
when a core holds a process. -/
theorem workLeft_beforeE (n : Nat) (s : Sim) (hwf : WF n s) :
    workLeft n (beforeE s) ≤ workLeft n s ∧
    (0 < occupied s → workLeft n (beforeE s) < workLeft n s) := by
  have e1 := (tick_unfold s).2
  have hrec : ∀ pid, ValidPid n pid →
      work (getPCB (beforeE s).proc_blocks pid) ≤ work (getPCB s.proc_blocks pid) ∧
      (pid ∈ s.cores →
        work (getPCB (beforeE s).proc_blocks pid) < work (getPCB s.proc_blocks pid)) := by
    intro pid hv
    have h1 := work_phaseCD (phaseB (phaseA s)) pid
    rw [← e1] at h1
    rw [h1]
    exact work_phaseAB n s hwf pid hv
  refine ⟨workLeft_le n s _ (fun pid hv => (hrec pid hv).1), ?_⟩
  intro hocc
  unfold occupied at hocc
  obtain ⟨c, hc, hpos⟩ := List.countP_pos_iff.1 hocc
  have hpos : c > 0 := by simpa using hpos
  have hv : ValidPid n c := by
    rcases hwf.cv c hc with h | h
    · omega
    · exact h
  exact workLeft_lt n s _ (fun pid hv => (hrec pid hv).1) c hv ((hrec c hv).2 hc)

/-- The loop of Phase E never adds work, and takes some away when the wait
queue is not empty. -/
theorem workLeft_ioLoop (n : Nat) : ∀ (wq : List Int) (tot : Int) (s : Sim),
    s.wait_queue = wq → WF n s → Holds LocR n s → tot < RRTIME →
    workLeft n (ioLoop wq tot s) ≤ workLeft n s ∧
    (wq ≠ [] → workLeft n (ioLoop wq tot s) < workLeft n s) := by
  intro wq
  induction wq with
  | nil =>
    intro tot s _ _ _ _
    exact ⟨Nat.le_refl _, fun h => absurd rfl h⟩
  | cons p rest ih =>
    intro tot s hwq hwf hloc htot
    have hv : ValidPid n p := hwf.qv p (Or.inr (Or.inr (Or.inr (by rw [hwq]; simp))))
    have hio : (getPCB s.proc_blocks p).IO_TIME ≠ [] :=
      ((hloc p hv).2.2 (by rw [hwq]; simp)).2
    obtain ⟨b, tl, hb⟩ : ∃ b tl, (getPCB s.proc_blocks p).IO_TIME = b :: tl := by
      cases h : (getPCB s.proc_blocks p).IO_TIME with
      | nil => exact absurd h hio
      | cons b tl => exact ⟨b, tl, rfl⟩
    have hhead : (getPCB s.proc_blocks p).IO_TIME.headD 0 = b := by rw [hb]; rfl
    have hcons : workLeft n (ioConsume s p rest b) < workLeft n s := by
      obtain ⟨m, _, _, _, _, m6, m7⟩ := ioConsume_moves n s p rest b hwf hwq
      have hle : ∀ pid, ValidPid n pid →
          work (getPCB (ioConsume s p rest b).proc_blocks pid)
            ≤ work (getPCB s.proc_blocks pid) := by
        intro pid _
        by_cases e : pid = p
        · subst e; exact Nat.le_of_lt (work_io_tail _ _ m7 m6 hio)
        · exact Nat.le_of_eq (work_eq _ _ (m.recs pid e).2.1 (m.recs pid e).2.2)
      exact workLeft_lt n s _ hle p hv (work_io_tail _ _ m7 m6 hio)
    suffices hlt : workLeft n (ioLoop (p :: rest) tot s) < workLeft n s from
      ⟨Nat.le_of_lt hlt, fun _ => hlt⟩
    unfold ioLoop
    simp only [hhead]
    split_ifs with h1 h2
    · obtain ⟨m, _, _, _, _, _, _, m8, m9⟩ :=
        ioOverflow_moves n s p b (RRTIME - (tot + b)) hv hwf
      have hp : work (getPCB (ioOverflow s p b (RRTIME - (tot + b))).proc_blocks p)
          < work (getPCB s.proc_blocks p) :=
        work_io_set _ _ b (b + (RRTIME - (tot + b))) tl hb m9 m8 (by omega) (by omega)
      have hle : ∀ pid, ValidPid n pid →
          work (getPCB (ioOverflow s p b (RRTIME - (tot + b))).proc_blocks pid)
            ≤ work (getPCB s.proc_blocks pid) := by
        intro pid _
        by_cases e : pid = p
        · subst e; exact Nat.le_of_lt hp
        · exact Nat.le_of_eq (work_eq _ _ (m.recs pid e).2.1 (m.recs pid e).2.2)
      exact workLeft_lt n s _ hle p hv hp
    · exact hcons
    · have hW := WF_ioConsume n s p rest b hwf hwq
      have hL := (locR_closed n).consume s p rest b hwf hloc hwq hhead.symm
      have := (ih (tot + b) (ioConsume s p rest b) rfl hW hL (by omega)).1
      omega

/-- Phase E never adds work, and takes some away when the wait queue is not
empty. -/
theorem workLeft_phaseE (n : Nat) (e : Sim) (hwf : WF n e) (hloc : Holds LocR n e) :
    workLeft n (phaseE e) ≤ workLeft n e ∧
    (e.wait_queue ≠ [] → workLeft n (phaseE e) < workLeft n e) := by
  have := workLeft_ioLoop n e.wait_queue 0 { e with final_io_time := none } rfl
    (WF_of_same n e _ hwf rfl rfl rfl rfl rfl rfl (fun _ => rfl) (fun _ => rfl) (fun _ => rfl))
    (keeps_same n _ (locR_closed n) e _ hloc rfl rfl rfl rfl rfl rfl) (by decide)
  unfold phaseE
  exact this

/-- One pass never adds work; it takes some away when a core holds a process
at its start or the wait queue is not empty when Phase E starts. -/
theorem workLeft_tick (n : Nat) (s : Sim) (hwf : WF n s) (hloc : Holds LocR n s) :
    workLeft n (tick s) ≤ workLeft n s ∧
    (0 < occupied s ∨ (beforeE s).wait_queue ≠ [] → workLeft n (tick s) < workLeft n s) := by
  obtain ⟨hW, hL⟩ := keeps_beforeE n _ (locR_closed n) s hwf hloc
  obtain ⟨b1, b2⟩ := workLeft_beforeE n s hwf
  obtain ⟨p1, p2⟩ := workLeft_phaseE n (beforeE s) hW hL
  have e : workLeft n (tick s) = workLeft n (phaseE (beforeE s)) := by
    apply workLeft_same
    rw [(tick_unfold s).1]
    exact (checkDone_book _).2.2.2.2.2.2.2.2
  rw [e]
  refine ⟨by omega, ?_⟩
  rintro (h | h)
  · have := b2 h; omega
  · have := p2 h; omega

/-! ## Every pass makes progress -/

/-- After Phase C the cores are free and the ready queues hold process ids
of the run. -/
theorem phaseC_ready (n : Nat) (s : Sim) (hwf : WF n s) :
    (phaseC (phaseB (phaseA s))).cores = List.replicate CORECOUNT (-1) ∧
    (∀ p ∈ (phaseC (phaseB (phaseA s))).high_queue
      ++ (phaseC (phaseB (phaseA s))).med_queue ++ (phaseC (phaseB (phaseA s))).low_queue,
      PIDMIN ≤ p) := by
  obtain ⟨hB, hcores⟩ := phaseB_WF n (phaseA s) (WF_phaseA n s hwf)
  have hC := WF_phaseC n _ hB
  constructor
  · rw [(phaseC_book _).2.2.1]; exact hcores
  · intro p hp
    simp only [List.mem_append] at hp
    rcases hp with (hp | hp) | hp
    · exact (hC.qv p (Or.inl hp)).1
    · exact (hC.qv p (Or.inr (Or.inl hp))).1
    · exact (hC.qv p (Or.inr (Or.inr (Or.inl hp)))).1

/-- Phase D leaves the cores free only when the three ready queues are
empty. -/
theorem phaseD_none (c : Sim) (hc : c.cores = List.replicate CORECOUNT (-1))
    (hv : ∀ p ∈ c.high_queue ++ c.med_queue ++ c.low_queue, PIDMIN ≤ p)
    (h0 : occupied (phaseD c) = 0) :
    (phaseD c).high_queue = [] ∧ (phaseD c).med_queue = [] ∧ (phaseD c).low_queue = [] := by
  obtain ⟨kh, km, kl, _, _, _, d1, d2, d3, _, hocc, _, hall⟩ := phaseD_summary c hc hv
  rw [h0] at hocc
  have hk : c.high_queue.length = 0 ∧ c.med_queue.length = 0 ∧ c.low_queue.length = 0 := by
    rcases hall with h | h
    · unfold CORECOUNT at h; omega
    · omega
  rw [d1, d2, d3, List.length_eq_zero.1 hk.1, List.length_eq_zero.1 hk.2.1,
    List.length_eq_zero.1 hk.2.2]
  simp

/-- One pass from a state that satisfies the loop invariant either ends with
the four queues empty or makes the potential smaller. -/
theorem tick_progress (n : Nat) (s : Sim) (hwf : WF n s) (hloc : Holds LocR n s) :
    ((tick s).high_queue = [] ∧ (tick s).med_queue = [] ∧ (tick s).low_queue = [] ∧
      (tick s).wait_queue = []) ∨
    potential n (tick s) < potential n s := by
  obtain ⟨w1, w2⟩ := workLeft_tick n s hwf hloc
  by_cases h : 0 < occupied s ∨ (beforeE s).wait_queue ≠ []
  · right
    have := w2 h
    unfold potential
    split_ifs <;> omega
  · have h2 : (beforeE s).wait_queue = [] := by
      by_contra hne
      exact h (Or.inr hne)
    have h1 : occupied s = 0 := by
      by_contra hne
      exact h (Or.inl (Nat.pos_of_ne_zero hne))
    obtain ⟨_, t2, t3, t4, t5, t6⟩ := tick_quiet_wait s h2
    by_cases hocc : occupied (tick s) = 0
    · left
      have hoccE : occupied (beforeE s) = 0 := by
        unfold occupied at hocc
        rw [t2] at hocc
        exact hocc
      obtain ⟨hc, hv⟩ := phaseC_ready n s hwf
      rw [(tick_unfold s).2] at hoccE
      obtain ⟨q1, q2, q3⟩ := phaseD_none _ hc hv hoccE
      rw [← (tick_unfold s).2] at q1 q2 q3
      exact ⟨by rw [t3]; exact q1, by rw [t4]; exact q2, by rw [t5]; exact q3, t6⟩
    · right
      unfold potential
      rw [if_neg hocc, if_pos h1]
      omega

theorem tickN_add : ∀ (k i : Nat) (s : Sim), tickN (k + i) s = tickN i (tickN k s) := by
  intro k
  induction k with
  | zero => intro i s; rw [Nat.zero_add]; rfl
  | succ k ih =>
    intro i s
    by_cases hr : s.run = true
    · rw [show k + 1 + i = (k + i) + 1 by omega, tickN_succ _ s hr, tickN_succ _ s hr, ih]
    · have hf : s.run = false := by simpa using hr
      rw [tickN_stopped _ s hf, tickN_stopped _ s hf, tickN_stopped _ s hf]

/-- From a state that satisfies the loop invariant, with `run` true, the loop
ends within potential-plus-one passes, with the four queues empty. -/
theorem run_ends (n : Nat) : ∀ (m : Nat) (s : Sim), WF n s → Holds LocR n s →
    s.run = true → potential n s ≤ m →
    ∃ k, k ≤ m + 1 ∧ (tickN k s).run = false ∧
      ((tickN k s).high_queue = [] ∧ (tickN k s).med_queue = [] ∧
        (tickN k s).low_queue = [] ∧ (tickN k s).wait_queue = []) := by
  intro m
  induction m with
  | zero =>
    intro s hwf hloc hr hm
    have e : tickN 1 s = tick s := by rw [tickN_succ 0 s hr]; rfl
    rcases tick_progress n s hwf hloc with hq | hlt
    · exact ⟨1, by omega, by rw [e]; exact (tick_run s).1 hq, by rw [e]; exact hq⟩
    · omega
  | succ m ih =>
    intro s hwf hloc hr hm
    have e : tickN 1 s = tick s := by rw [tickN_succ 0 s hr]; rfl
    by_cases hq : (tick s).high_queue = [] ∧ (tick s).med_queue = [] ∧
        (tick s).low_queue = [] ∧ (tick s).wait_queue = []
    · exact ⟨1, by omega, by rw [e]; exact (tick_run s).1 hq, by rw [e]; exact hq⟩
    · have hlt : potential n (tick s) < potential n s := by
        rcases tick_progress n s hwf hloc with h | h
        · exact absurd h hq
        · exact h
      have hrun : (tick s).run = true := by rw [(tick_run s).2 hq]; exact hr
      obtain ⟨k, hk, h1, h2⟩ := ih (tick s) (WF_tick n s hwf)
        (keeps_tick n _ (locR_closed n) s hwf hloc) hrun (by omega)
      refine ⟨k + 1, by omega, ?_, ?_⟩
      · rw [tickN_succ k s hr]; exact h1
      · rw [tickN_succ k s hr]; exact h2

/-- The loop over a loaded workload ends: after some number of passes, at
most the potential of the first state plus one, `run` is false and the four
queues are empty, and more passes change nothing. -/
theorem loop_ends (w : List PCB)
    (hpid : w.map PCB.PID = (List.range w.length).map (fun (i : Nat) => PIDMIN + (i : Int)))
    (hprio : ∀ p ∈ w, p.PRIORITY = 1 ∨ p.PRIORITY = 2 ∨ p.PRIORITY = 3)
    (hcpu : ∀ p ∈ w, p.CPU_TIME ≠ [])
    (hst : ∀ p ∈ w, p.STATE = 1) :
    ∃ k, k ≤ potential w.length (initSim w) + 1 ∧
      (tickN k (initSim w)).run = false ∧
      ((tickN k (initSim w)).high_queue = [] ∧ (tickN k (initSim w)).med_queue = [] ∧
        (tickN k (initSim w)).low_queue = [] ∧ (tickN k (initSim w)).wait_queue = []) ∧
      ∀ j, k ≤ j → tickN j (initSim w) = tickN k (initSim w) := by
  have h0 := WF_init w (pid_of_map w hpid) hprio hcpu hst
  obtain ⟨k, hk, h1, h2⟩ := run_ends w.length _ (initSim w) h0 (locR_init w hst)
    (init_run w) (Nat.le_refl _)
  refine ⟨k, hk, h1, h2, ?_⟩
  intro j hj
  obtain ⟨i, rfl⟩ := Nat.exists_eq_add_of_le hj
  rw [tickN_add, tickN_stopped _ _ h1]

/-! ## C23: the loop ends -/

/-- C23: for every loaded workload in which record i has process id 30 + i,
every priority is 1, 2 or 3, every record has a cpu burst and is in state 1
(as the loader leaves it), the loop `while (run)` ends: there is a number of
passes, at most the potential of the first state plus one, after which `run`
is false and the four queues are empty, and making more passes changes
nothing; no ceiling on the number of passes is used. -/
theorem C23_run_loop_ends (w : List PCB)
    (hpid : w.map PCB.PID = (List.range w.length).map (fun (i : Nat) => PIDMIN + (i : Int)))
    (hprio : ∀ p ∈ w, p.PRIORITY = 1 ∨ p.PRIORITY = 2 ∨ p.PRIORITY = 3)
    (hcpu : ∀ p ∈ w, p.CPU_TIME ≠ [])
    (hst : ∀ p ∈ w, p.STATE = 1) :
    ∃ k, k ≤ potential w.length (initSim w) + 1 ∧
      (tickN k (initSim w)).run = false ∧
      ((tickN k (initSim w)).high_queue = [] ∧ (tickN k (initSim w)).med_queue = [] ∧
        (tickN k (initSim w)).low_queue = [] ∧ (tickN k (initSim w)).wait_queue = []) ∧
      ∀ j, k ≤ j → tickN j (initSim w) = tickN k (initSim w) :=
  loop_ends w hpid hprio hcpu hst

set_option maxRecDepth 1000000 in
/-- Witness of C23: `mixedLoad`, whose potential is 3231 and whose loop is
still running after six passes and has ended after seven. -/
theorem C23_run_loop_ends_witness :
    (potential mixedLoad.length (initSim mixedLoad) = 3231 ∧
      (tickN 6 (initSim mixedLoad)).run = true ∧
      (tickN 7 (initSim mixedLoad)).run = false) ∧
    ∃ k, k ≤ potential mixedLoad.length (initSim mixedLoad) + 1 ∧
      (tickN k (initSim mixedLoad)).run = false ∧
      ((tickN k (initSim mixedLoad)).high_queue = [] ∧
        (tickN k (initSim mixedLoad)).med_queue = [] ∧
        (tickN k (initSim mixedLoad)).low_queue = [] ∧
        (tickN k (initSim mixedLoad)).wait_queue = []) ∧
      ∀ j, k ≤ j → tickN j (initSim mixedLoad) = tickN k (initSim mixedLoad) :=
  ⟨by decide,
    C23_run_loop_ends mixedLoad (by decide) (by decide) (by decide) (by decide)⟩

/-! ## C26: workloads of at most sixteen processes -/

/-- C26: for a loaded workload (process ids 30 + i, priorities 1, 2 or 3, a
cpu burst in every record, state 1) of at most 16 processes the loop makes
exactly one pass: `run` is true before it and false after it, and at its end
every process is on a core in state 3 with the cpu and io bursts it was loaded
with, turnaround RRTIME, response RRTIME and wait 0, the core idle time is
16 * RRTIME, the cpu idle time is RRTIME and the count of completed cpu bursts
is 0.  For a loaded workload of more than 16 processes the loop ends, and
whenever it has ended the count of completed cpu bursts is at least 1. -/
theorem C26_small_workload_ends_after_one_pass (w : List PCB)
    (hpid : w.map PCB.PID = (List.range w.length).map (fun (i : Nat) => PIDMIN + (i : Int)))
    (hprio : ∀ p ∈ w, p.PRIORITY = 1 ∨ p.PRIORITY = 2 ∨ p.PRIORITY = 3)
    (hcpu : ∀ p ∈ w, p.CPU_TIME ≠ [])
    (hst : ∀ p ∈ w, p.STATE = 1) :
    (w.length ≤ 16 →
      (initSim w).run = true ∧ (tick (initSim w)).run = false ∧
      (∀ k, tickN (k + 1) (initSim w) = tick (initSim w)) ∧
      (∀ pid, ValidPid w.length pid →
        pid ∈ (tick (initSim w)).cores ∧
        (getPCB (tick (initSim w)).proc_blocks pid).STATE = 3 ∧
        (getPCB (tick (initSim w)).proc_blocks pid).CPU_TIME = (getPCB w pid).CPU_TIME ∧
        (getPCB (tick (initSim w)).proc_blocks pid).IO_TIME = (getPCB w pid).IO_TIME ∧
        (getPCB (tick (initSim w)).proc_blocks pid).TURNAROUND = RRTIME ∧
        (getPCB (tick (initSim w)).proc_blocks pid).RESPONSE = RRTIME ∧
        (getPCB (tick (initSim w)).proc_blocks pid).WAIT = 0) ∧
      (tick (initSim w)).sim_core_idle = 16 * RRTIME ∧
      (tick (initSim w)).sim_cpu_idle = RRTIME ∧
      (tick (initSim w)).cpu_bursts = 0) ∧
    (16 < w.length →
      (∃ k, (tickN k (initSim w)).run = false) ∧
      ∀ k, (tickN k (initSim w)).run = false → 1 ≤ (tickN k (initSim w)).cpu_bursts) := by
  have h0 := WF_init w (pid_of_map w hpid) hprio hcpu hst
  have hl0 := locR_init w hst
  obtain ⟨_, hw0, hc0⟩ := init_state w
  obtain ⟨i1, i2, i3⟩ := init_totals w
  have hs0 : ∀ pid, ValidPid w.length pid → (getPCB (initSim w).proc_blocks pid).STATE = 1 := by
    intro pid hv
    obtain ⟨e, hm⟩ := init_record w pid hv
    rw [e]
    exact hst (getPCB w pid) hm
  constructor
  · intro hn
    obtain ⟨hq, hb, hrec⟩ := free_pass w.length (initSim w) h0 hl0 hc0 hw0 hs0 hn
    have hf := (tick_run (initSim w)).1 hq
    obtain ⟨d1, d2⟩ := tick_idle w.length (initSim w) h0
    have hes : emptySlots (initSim w) = 16 := by
      unfold emptySlots
      rw [hc0]
      decide
    refine ⟨init_run w, hf, ?_, ?_, ?_, ?_, ?_⟩
    · intro k
      rw [tickN_succ k _ (init_run w), tickN_stopped k _ hf]
    · intro pid hv
      obtain ⟨r1, r2, r3, r4, r5, r6, r7⟩ := hrec pid hv
      obtain ⟨e, _⟩ := init_record w pid hv
      rw [e] at r3 r4 r5 r6 r7
      refine ⟨r1, r2, r3, r4, ?_, ?_, r7⟩
      · rw [r5]; simp
      · rw [r6]; simp
    · rw [d1, i2, hes]; unfold RRTIME; norm_num
    · rw [d2, i3, hes]; simp
    · rw [hb, i1]
  · intro hn
    obtain ⟨k, _, hk, _⟩ := loop_ends w hpid hprio hcpu hst
    refine ⟨⟨k, hk⟩, ?_⟩
    intro k he
    have hJ := tickN_keeps (fun s => WF w.length s ∧ (0 ≤ s.cpu_bursts ∧ (1 ≤ s.cpu_bursts ∨
      (s.wait_queue = [] ∧
        ∀ pid, ValidPid w.length pid → (getPCB s.proc_blocks pid).STATE ≠ 4))))
      (fun s h _ => ⟨WF_tick w.length s h.1, pass_counts w.length s h.1 h.2⟩) k (initSim w)
      ⟨h0, by rw [i1], Or.inr ⟨hw0, fun pid hv => by rw [hs0 pid hv]; decide⟩⟩
    obtain ⟨hwf, _, hcase⟩ := hJ
    rcases hcase with h | ⟨_, h4⟩
    · exact h
    · exfalso
      have hq := tickN_ended k (initSim w) (init_run w) he
      have hall := all_in_length w.length (tickN k (initSim w)).cores
        (fun pid hv => all_on_cores w.length _ hwf hq pid hv (h4 pid hv))
      rw [hwf.lenC] at hall
      unfold CORECOUNT at hall
      omega

set_option maxRecDepth 1000000 in
/-- Witness of C26: `loadC4` (two processes) for the first part and `loadC2`
(seventeen processes with one cpu burst of 30) for the second, whose loop has
ended after two passes with sixteen completed bursts. -/
theorem C26_small_workload_ends_after_one_pass_witness :
    (loadC4.length = 2 ∧ loadC2.length = 17 ∧
      (tick (initSim loadC4)).cores
        = [30, -1, -1, -1, -1, -1, -1, -1, 31, -1, -1, -1, -1, -1, -1, -1] ∧
      (tickN 2 (initSim loadC2)).run = false ∧ (tickN 2 (initSim loadC2)).cpu_bursts = 16) ∧
    ((initSim loadC4).run = true ∧ (tick (initSim loadC4)).run = false ∧
      (∀ k, tickN (k + 1) (initSim loadC4) = tick (initSim loadC4)) ∧
      (∀ pid, ValidPid loadC4.length pid →
        pid ∈ (tick (initSim loadC4)).cores ∧
        (getPCB (tick (initSim loadC4)).proc_blocks pid).STATE = 3 ∧
        (getPCB (tick (initSim loadC4)).proc_blocks pid).CPU_TIME
          = (getPCB loadC4 pid).CPU_TIME ∧
        (getPCB (tick (initSim loadC4)).proc_blocks pid).IO_TIME
          = (getPCB loadC4 pid).IO_TIME ∧
        (getPCB (tick (initSim loadC4)).proc_blocks pid).TURNAROUND = RRTIME ∧
        (getPCB (tick (initSim loadC4)).proc_blocks pid).RESPONSE = RRTIME ∧
        (getPCB (tick (initSim loadC4)).proc_blocks pid).WAIT = 0) ∧
      (tick (initSim loadC4)).sim_core_idle = 16 * RRTIME ∧
      (tick (initSim loadC4)).sim_cpu_idle = RRTIME ∧
      (tick (initSim loadC4)).cpu_bursts = 0) ∧
    ((∃ k, (tickN k (initSim loadC2)).run = false) ∧
      ∀ k, (tickN k (initSim loadC2)).run = false →
        1 ≤ (tickN k (initSim loadC2)).cpu_bursts) :=
  ⟨by decide,
    (C26_small_workload_ends_after_one_pass loadC4 (by decide) (by decide) (by decide)
      (by decide)).1 (by decide),
    (C26_small_workload_ends_after_one_pass loadC2 (by decide) (by decide) (by decide)
      (by decide)).2 (by decide)⟩

/-! ## C7: twenty processes in the high queue -/

theorem setRange_len : ∀ (xs : List Int) (cs : List Int) (a : Nat),
    (setRange cs a xs).length = cs.length := by
  intro xs
  induction xs with
  | nil => intro cs a; rfl
  | cons x xs ih => intro cs a; unfold setRange; rw [ih]; simp

/-- On cores that are free, with enough processes in the high queue, the
loop of lines 217-234 does what the loop of lines 189-195 does: every core
takes the front of the high queue. -/
theorem spill_takes_high : ∀ (k a : Nat) (t : Sim), k ≤ t.high_queue.length →
    (∀ j, a ≤ j → j < a + k → t.cores.getD j (-1) = -1) →
    (List.range' a k).foldl (fun t i => spillStep i t) t
      = (List.range' a k).foldl (fun t i => takeHigh i t) t := by
  intro k
  induction k with
  | zero => intro a t _ _; rfl
  | succ k ih =>
    intro a t hk hfree
    rw [List.range'_succ, List.foldl_cons, List.foldl_cons]
    obtain ⟨p, q, hq⟩ : ∃ p q, t.high_queue = p :: q := by
      cases h : t.high_queue with
      | nil => rw [h] at hk; simp at hk
      | cons p q => exact ⟨p, q, rfl⟩
    have e : spillStep a t = takeHigh a t := by
      unfold spillStep
      rw [if_pos (hfree a (Nat.le_refl a) (by omega)), if_pos (by rw [hq]; simp)]
    rw [e]
    obtain ⟨c1, _, _, _, c5⟩ := takeHigh_cons a t p q hq
    apply ih
    · rw [c1]; rw [hq] at hk; simpa using hk
    · intro j h1 h2
      rw [c5, List.getD_eq_getElem?_getD, List.getElem?_set_ne (by omega),
        ← List.getD_eq_getElem?_getD]
      exact hfree j (by omega) (by omega)

/-- The loop of lines 217-234 leaves alone the cores that hold a process. -/
theorem spill_skips : ∀ (is : List Nat) (t : Sim),
    (∀ i ∈ is, t.cores.getD i (-1) ≠ -1) →
    is.foldl (fun t i => spillStep i t) t = t := by
  intro is
  induction is with
  | nil => intro t _; rfl
  | cons i is ih =>
    intro t h
    have e : spillStep i t = t := by
      unfold spillStep
      rw [if_neg (h i (by simp))]
    rw [List.foldl_cons, e]
    exact ih t (fun j hj => h j (by simp [hj]))

theorem fold_fixed (f : Nat → Sim → Sim) (t : Sim) (h : ∀ i, f i t = t) :
    ∀ (is : List Nat), is.foldl (fun t i => f i t) t = t := by
  intro is
  induction is with
  | nil => rfl
  | cons i is ih => rw [List.foldl_cons, h i]; exact ih

/-- Setting the cores that follow the prefix `pre` to the items of `xs`. -/
theorem setRange_prefix : ∀ (xs cs pre : List Int), xs.length ≤ cs.length →
    setRange (pre ++ cs) pre.length xs = pre ++ xs ++ cs.drop xs.length := by
  intro xs
  induction xs with
  | nil => intro cs pre _; simp [setRange]
  | cons x xs ih =>
    intro cs pre h
    cases cs with
    | nil => simp at h
    | cons c cs =>
      unfold setRange
      have e : (pre ++ c :: cs).set pre.length x = (pre ++ [x]) ++ cs := by
        simp [List.set_append]
      rw [e]
      have := ih cs (pre ++ [x]) (by simpa using h)
      rw [List.length_append, List.length_singleton] at this
      rw [this]
      simp

/-- With an empty medium and low queue and all cores free, Phase D puts the
first sixteen processes of the high queue on the cores 0 to 15, in the order
of the queue: the first eight by the loop of lines 189-195, the next eight by
the loop of lines 217-234. -/
theorem phaseD_high_only (s : Sim) (hc : s.cores = List.replicate CORECOUNT (-1))
    (hv : ∀ p ∈ s.high_queue, PIDMIN ≤ p) (h16 : CORECOUNT ≤ s.high_queue.length)
    (hm : s.med_queue = []) (hl : s.low_queue = []) :
    (reservedFill s).cores
      = s.high_queue.take HIGHRES ++ List.replicate (CORECOUNT - HIGHRES) (-1) ∧
    (reservedFill s).high_queue = s.high_queue.drop HIGHRES ∧
    (phaseD s).cores = s.high_queue.take CORECOUNT ∧
    (phaseD s).high_queue = s.high_queue.drop CORECOUNT := by
  have e16 : CORECOUNT = 16 := rfl
  have e8 : HIGHRES = 8 := rfl
  rw [e16] at h16 hc
  rw [e16, e8]
  have hs1c := fold_takeHigh_cores 8 0 s
  have hs1q := fold_takeHigh_queue 8 0 s
  have hs1m : ((List.range' 0 8).foldl (fun t i => takeHigh i t) s).med_queue = [] := by
    rw [fold_keeps (fun t => t.med_queue) takeHigh takeHigh_med_queue]; exact hm
  have hs1l : ((List.range' 0 8).foldl (fun t i => takeHigh i t) s).low_queue = [] := by
    rw [fold_keeps (fun t => t.low_queue) takeHigh takeHigh_low_queue]; exact hl
  have hres : reservedFill s = (List.range' 0 8).foldl (fun t i => takeHigh i t) s := by
    have e : reservedFill s
        = (List.range' (HIGHRES + MEDRES) (CORECOUNT - (HIGHRES + MEDRES))).foldl
            (fun t i => takeLow i t)
            ((List.range' HIGHRES MEDRES).foldl (fun t i => takeMed i t)
              ((List.range' 0 HIGHRES).foldl (fun t i => takeHigh i t) s)) := rfl
    rw [e, e8]
    generalize (List.range' 0 8).foldl (fun t i => takeHigh i t) s = s1 at hs1m hs1l
    rw [fold_fixed takeMed s1 (fun i => takeMed_nil i s1 hs1m),
      fold_fixed takeLow s1 (fun i => takeLow_nil i s1 hs1l)]
  rw [← hres] at hs1c hs1q hs1m hs1l
  have hlen8 : (s.high_queue.take 8).length = 8 := by simp; omega
  have hc1 : (reservedFill s).cores = s.high_queue.take 8 ++ List.replicate 8 (-1) := by
    rw [hs1c, hc]
    have := setRange_prefix (s.high_queue.take 8) (List.replicate 16 (-1)) [] (by simp)
    simp only [List.nil_append, List.length_nil] at this
    rw [this, hlen8]
    simp
  have hsplit : List.range CORECOUNT = List.range' 0 8 ++ List.range' 8 8 := by decide
  have hD : phaseD s = (List.range' 8 8).foldl (fun t i => takeHigh i t) (reservedFill s) := by
    have e : phaseD s
        = (List.range CORECOUNT).foldl (fun t i => spillStep i t) (reservedFill s) := rfl
    rw [e, hsplit, List.foldl_append]
    generalize reservedFill s = s1 at hs1q hc1
    rw [spill_skips (List.range' 0 8) s1]
    · apply spill_takes_high
      · rw [hs1q]; simp; omega
      · intro j h1 h2
        rw [hc1, List.getD_eq_getElem?_getD, List.getElem?_append_right (by omega)]
        cases h : (List.replicate 8 (-1 : Int))[j - (List.take 8 s.high_queue).length]? with
        | none => rfl
        | some x =>
          have hx := OSSched.mem_of_getElem? _ _ _ h
          rw [List.eq_of_mem_replicate hx]
          rfl
    · intro i hi
      have hi8 : i < 8 := by
        have := List.mem_range'.1 hi
        omega
      rw [hc1, List.getD_eq_getElem?_getD, List.getElem?_append_left (by omega)]
      have hlt : i < (s.high_queue.take 8).length := by omega
      rw [List.getElem?_eq_getElem hlt]
      have hmem : (s.high_queue.take 8)[i] ∈ s.high_queue :=
        List.mem_of_mem_take (List.getElem_mem hlt)
      have := hv _ hmem
      unfold PIDMIN at this
      simp only [Option.getD_some]
      omega
  refine ⟨hc1, hs1q, ?_, ?_⟩
  · rw [hD, fold_takeHigh_cores, hc1, hs1q]
    have := setRange_prefix ((s.high_queue.drop 8).take 8) (List.replicate 8 (-1))
      (s.high_queue.take 8) (by simp)
    rw [hlen8] at this
    rw [this]
    have hl2 : ((s.high_queue.drop 8).take 8).length = 8 := by simp; omega
    rw [hl2]
    have : s.high_queue.take 16 = s.high_queue.take 8 ++ (s.high_queue.drop 8).take 8 :=
      List.take_add s.high_queue 8 8
    rw [this]
    simp
  · rw [hD, fold_takeHigh_queue, hs1q, List.drop_drop]

/-- C7 (as amended): with twenty processes in the high queue, no medium or low
process and all cores empty, Phase D puts sixteen processes on the cores and
the other four remain queued, in their order.  The three reserved loops put the
first eight on the cores 0 to 7 and leave the cores 8 to 15 free; the loop of
lines 217-234 then puts the next eight on the cores 8 to 15, so that core `j`
holds the process at place `j` of the queue, for every `j` below 16. -/
theorem C7_sixteen_on_cores_four_queued (s : Sim)
    (hc : s.cores = List.replicate CORECOUNT (-1))
    (hv : ∀ p ∈ s.high_queue ++ s.med_queue ++ s.low_queue, PIDMIN ≤ p)
    (h20 : s.high_queue.length = 20) (hm : s.med_queue = []) (hl : s.low_queue = []) :
    occupied (phaseD s) = 16 ∧
    (phaseD s).high_queue = s.high_queue.drop 16 ∧
    (phaseD s).high_queue.length = 4 ∧
    (∀ j, j < HIGHRES → (phaseD s).cores[j]? = s.high_queue[j]?) ∧
    (phaseD s).med_queue = [] ∧ (phaseD s).low_queue = [] ∧
    (reservedFill s).cores
      = s.high_queue.take HIGHRES ++ List.replicate (CORECOUNT - HIGHRES) (-1) ∧
    (reservedFill s).high_queue = s.high_queue.drop HIGHRES ∧
    (phaseD s).cores = s.high_queue.take CORECOUNT ∧
    (∀ j, HIGHRES ≤ j → j < CORECOUNT → (phaseD s).cores[j]? = s.high_queue[j]?) := by
  obtain ⟨kh, km, kl, h1, h2, h3, h4, h5, h6, _, hocc, hle, hfin⟩ := phaseD_summary s hc hv
  have e3 : CORECOUNT = 16 := rfl
  have e1 : HIGHRES = 8 := rfl
  rw [hm] at h2 h5
  rw [hl] at h3 h6
  simp only [List.length_nil, Nat.le_zero] at h2 h3
  subst h2 h3
  have hk : kh = 16 := by omega
  subst hk
  obtain ⟨n1, n2, n3, _⟩ := phaseD_high_only s hc
    (fun p hp => hv p (by simp [hp])) (by rw [e3, h20]; decide) hm hl
  refine ⟨by rw [hocc], h4, by rw [h4]; simp [h20], ?_, by simpa using h5, by simpa using h6,
    n1, n2, n3, ?_⟩
  · intro j hj
    exact (phaseD_reserved_slots s hc hv).1 j (by omega)
  · intro j _ hj
    rw [n3, List.getElem?_take_of_lt hj]

set_option maxRecDepth 100000 in
/-- Witness of C7 (as amended) on `stateC7`: processes 30 to 45 are on the
cores 0 to 15 and processes 46 to 49 are queued. -/
theorem C7_sixteen_on_cores_witness :
    (stateC7.high_queue.length = 20 ∧
      (reservedFill stateC7).cores
        = [30, 31, 32, 33, 34, 35, 36, 37, -1, -1, -1, -1, -1, -1, -1, -1] ∧
      (phaseD stateC7).cores
        = [30, 31, 32, 33, 34, 35, 36, 37, 38, 39, 40, 41, 42, 43, 44, 45] ∧
      (phaseD stateC7).high_queue = [46, 47, 48, 49]) ∧
    occupied (phaseD stateC7) = 16 ∧
    (phaseD stateC7).high_queue = stateC7.high_queue.drop 16 ∧
    (phaseD stateC7).high_queue.length = 4 ∧
    (∀ j, j < HIGHRES → (phaseD stateC7).cores[j]? = stateC7.high_queue[j]?) ∧
    (phaseD stateC7).med_queue = [] ∧ (phaseD stateC7).low_queue = [] ∧
    (reservedFill stateC7).cores
      = stateC7.high_queue.take HIGHRES ++ List.replicate (CORECOUNT - HIGHRES) (-1) ∧
    (reservedFill stateC7).high_queue = stateC7.high_queue.drop HIGHRES ∧
    (phaseD stateC7).cores = stateC7.high_queue.take CORECOUNT ∧
    (∀ j, HIGHRES ≤ j → j < CORECOUNT →
      (phaseD stateC7).cores[j]? = stateC7.high_queue[j]?) :=
  ⟨by decide,
    C7_sixteen_on_cores_four_queued stateC7 (by decide) (by decide) (by decide) (by decide)
      (by decide)⟩

/-! ## The wait credit is an `int` sum -/

set_option maxRecDepth 1000000 in
/-- The wait credit on `loadWrap` (seventeen processes with cpu bursts 30, 20
and io burst 2147483647): the second pass credits the whole burst to the
sixteen waiting processes, the third pass credits 40 more, and that sum is
beyond the range of `int`. -/
theorem wait_credit_wraps :
    (getPCB (tickN 2 (initSim loadWrap)).proc_blocks 30).WAIT = 2147483647 ∧
    (getPCB (tickN 3 (initSim loadWrap)).proc_blocks 30).WAIT = -2147483609 ∧
    (getPCB (tickN 3 (initSim loadWrap)).proc_blocks 46).WAIT = 40 := by
  decide

end OSSched
